import Mathlib

/-!
# image_cluster_color: k-means palette extraction (`main.go`)

A shallow embedding of `distance`, `averagePixels`, `kmeans` and of the ordering step of `main`,
which calls `sort.Slice` of the Go standard library.

Modelling conventions.

* The program is embedded twice, from the same source lines. In `distance`, `averagePixels`,
  `kmeans` and `order` the type `float64` is read in exact arithmetic: pixel components are
  rationals, `+ - * /` are the field operations, and rounding, infinities and NaN are not
  represented. This reading serves the properties that rest on the control flow only (seeds,
  number of centroids, panics, tie-break, frozen centroids) and the statements made in exact
  arithmetic. In `distance64`, `averagePixels64`, `kmeans64` and `order64` the type `float64`
  is `F64`, the arithmetic of IEEE 754 binary64: every operation is rounded to nearest (ties to
  even), an overflow gives an infinity and NaN propagates. It serves the statements on the
  computed values.
* In exact arithmetic `math.Sqrt(d)` is irrational in general, so a value that holds a square
  root is kept as `Sqrt.mk d` (the non-negative real whose square is `d`); comparisons of two
  such values compare the squares, and `Sqrt.toReal` gives the real number itself.
* A Go slice of pixels is its elements together with the spare elements of its backing array
  (those between `len` and `cap`), because `pixels[:k]` may reslice up to the capacity.
* Go run-time panics are the error values of `Except Panic`.
* `sort.Slice` is embedded from the standard library (`sort/zsortfunc.go`, Go 1.19 and later):
  insertion sort up to 12 elements, pattern-defeating quicksort beyond.
-/

namespace ImageClusterColor

/-! ## Data model -/

/-- The Go type `Pixel [3]float64`: three components, indexed 0, 1, 2. -/
structure Pixel where
  c0 : ℚ
  c1 : ℚ
  c2 : ℚ
deriving DecidableEq

/-- Indexing `p[i]` for `i` in 0, 1, 2. -/
def Pixel.get (p : Pixel) (i : Fin 3) : ℚ :=
  match i with
  | 0 => p.c0
  | 1 => p.c1
  | 2 => p.c2

/-- Assignment `p[i] = v` for `i` in 0, 1, 2. -/
def Pixel.set (p : Pixel) (i : Fin 3) (v : ℚ) : Pixel :=
  match i with
  | 0 => { p with c0 := v }
  | 1 => { p with c1 := v }
  | 2 => { p with c2 := v }

/-- The zero value of `Pixel` (`var avg Pixel`). -/
def Pixel.zero : Pixel := ⟨0, 0, 0⟩

/-- The index range of the loops `for i := 0; i < 3; i++`. -/
def idx3 : List (Fin 3) := [0, 1, 2]

/-- A `float64` holding a non-negative value known by its square: `Sqrt.mk d` is the exact
value of `math.Sqrt(d)`. -/
structure Sqrt where
  sq : ℚ
deriving DecidableEq

/-- The comparison `x < y` of two non-negative values, decided on their squares. -/
instance : LT Sqrt := ⟨fun x y => x.sq < y.sq⟩

instance (x y : Sqrt) : Decidable (x < y) := inferInstanceAs (Decidable (x.sq < y.sq))

/-- The real number a `Sqrt` stands for. -/
noncomputable def Sqrt.toReal (x : Sqrt) : ℝ := Real.sqrt (x.sq : ℝ)

/-- A non-negative `float64` given directly, seen as the value whose square is `x * x`. -/
def Sqrt.ofFloat (x : ℚ) : Sqrt := ⟨x * x⟩

/-- The constant `math.MaxFloat64`, which is 2^1023 * (2 - 2^(-52)). -/
def MaxFloat64 : ℚ := 2 ^ 1024 - 2 ^ 971

/-- The constant `maxAlloc` of the Go run time on 64-bit platforms such as linux/amd64
(`runtime/malloc.go`): the largest size in bytes of an allocation. -/
def maxAlloc : Nat := 2 ^ 48

/-- The size in bytes of a `Pixel`: three `float64`. -/
def pixelSize : Nat := 24

/-- A Go slice `[]Pixel`: `elems` are its `len` elements, `spare` the elements of the backing
array between `len` and `cap`. A slice built by appending exactly up to its capacity, like
`pixels` in `main`, has `spare = []`. The backing array of a slice is an allocation, so its
size is at most `maxAlloc` (`fits`). -/
structure PixelSlice where
  elems : List Pixel
  spare : List Pixel
  fits : (elems.length + spare.length) * pixelSize ≤ maxAlloc

/-- The Go built-in `len`. -/
def PixelSlice.len (s : PixelSlice) : Nat := s.elems.length

/-- The Go built-in `cap`. -/
def PixelSlice.cap (s : PixelSlice) : Nat := s.elems.length + s.spare.length

/-- The run-time panics `kmeans` can raise. -/
inductive Panic where
  /-- `make([]Pixel, k)` with `k < 0` or with `k` pixels larger than `maxAlloc`. -/
  | makesliceLenOutOfRange
  /-- `pixels[:k]` with `k > cap(pixels)`. -/
  | sliceBoundsOutOfRange
  /-- `clusters[minIdx]` with `minIdx >= len(clusters)`. -/
  | indexOutOfRange
deriving DecidableEq

/-! ## `distance` and `averagePixels` -/

/-- The function `distance` (main.go, lines 18-24), in exact arithmetic (on `float64`:
`distance64`). -/
def distance (a b : Pixel) : Sqrt :=
  let d : ℚ := idx3.foldl (fun d i => d + (a.get i - b.get i) * (a.get i - b.get i)) 0
  Sqrt.mk d

/-- The function `averagePixels` (main.go, lines 26-38), in exact arithmetic (on `float64`:
`averagePixels64`). On an empty slice Go computes 0/0 (NaN); here the division of rationals
gives 0 instead, and `kmeans` never calls it on an empty slice. -/
def averagePixels (pixels : List Pixel) : Pixel :=
  let avg : Pixel := Pixel.zero
  let avg := pixels.foldl (fun avg p => idx3.foldl (fun avg i => avg.set i (avg.get i + p.get i)) avg) avg
  let n : ℚ := (pixels.length : ℚ)
  idx3.foldl (fun avg i => avg.set i (avg.get i / n)) avg

/-! ## `kmeans` -/

/-- The body of the inner loop of `kmeans` (lines 50-54) on the state `(minDist, minIdx)`, for
the sample `p` and the centroid `c` at index `i`. -/
def scanStep (p : Pixel) (st : Sqrt × Nat) (ic : Nat × Pixel) : Sqrt × Nat :=
  let d := distance p ic.2
  if d < st.1 then (d, ic.1) else st

/-- The inner loop of `kmeans` (lines 47-55): the scan of the centroids for one sample `p`,
returning the final `(minDist, minIdx)`. -/
def scanCentroids (centroids : List Pixel) (p : Pixel) : Sqrt × Nat :=
  centroids.enum.foldl (scanStep p) (Sqrt.ofFloat MaxFloat64, 0)

/-- Line 56, `clusters[minIdx] = append(clusters[minIdx], p)`, which panics when `minIdx` is
not an index of `clusters`. -/
def appendToCluster (clusters : List (List Pixel)) (minIdx : Nat) (p : Pixel) :
    Except Panic (List (List Pixel)) :=
  if minIdx < clusters.length then
    .ok (clusters.set minIdx (clusters.getD minIdx [] ++ [p]))
  else
    .error Panic.indexOutOfRange

/-- The assignment loop (lines 45-57): `clusters := make([][]Pixel, k)` and one pass over the
samples. -/
def assign (pixels : List Pixel) (centroids : List Pixel) (k : Nat) :
    Except Panic (List (List Pixel)) :=
  pixels.foldlM
    (fun clusters p => appendToCluster clusters (scanCentroids centroids p).2 p)
    (List.replicate k [])

/-- The body of the update loop (lines 60-62) for the index `i`. -/
def updateStep (clusters : List (List Pixel)) (centroids : List Pixel) (i : Nat) : List Pixel :=
  if (clusters.getD i []).length > 0 then
    centroids.set i (averagePixels (clusters.getD i []))
  else centroids

/-- The update loop (lines 59-63): `centroids[i]` is replaced by the average of cluster `i`
when that cluster is not empty. -/
def update (centroids : List Pixel) (clusters : List (List Pixel)) (k : Nat) : List Pixel :=
  (List.range k).foldl (updateStep clusters) centroids

/-- One pass of the loop body of `kmeans` (lines 45-63). -/
def iterate (pixels : List Pixel) (k : Nat) (centroids : List Pixel) :
    Except Panic (List Pixel) := do
  let clusters ← assign pixels centroids k
  pure (update centroids clusters k)

/-- The loop `for it := 0; it < iterations; it++` (lines 44-64), run `n` times. -/
def loop (pixels : List Pixel) (k : Nat) : Nat → List Pixel → Except Panic (List Pixel)
  | 0, centroids => pure centroids
  | n + 1, centroids => do
    let centroids ← iterate pixels k centroids
    loop pixels k n centroids

/-- The function `kmeans` (main.go, lines 40-66), in exact arithmetic (on `float64`:
`kmeans64`). `k` and `iterations` are Go `int`s (64 bits;
a `k` outside that range fails the first test like every `k` above `maxAlloc / 24`); a negative
`iterations` runs the loop zero times. `make([]Pixel, k)` panics when `k < 0` or when `k`
pixels are larger than `maxAlloc` (`runtime.makeslice`); an allocation within `maxAlloc` is
taken to succeed. -/
def kmeans (pixels : PixelSlice) (k : Int) (iterations : Int) : Except Panic (List Pixel) :=
  if k < 0 ∨ maxAlloc < k.toNat * pixelSize then .error Panic.makesliceLenOutOfRange
  else if pixels.cap < k.toNat then .error Panic.sliceBoundsOutOfRange
  else
    let centroids := (pixels.elems ++ pixels.spare).take k.toNat
    loop pixels.elems k.toNat iterations.toNat centroids

/-- Equality of `Except` values is decidable when it is for errors and results. -/
instance instDecidableEqExcept {ε α : Type} [DecidableEq ε] [DecidableEq α] :
    DecidableEq (Except ε α)
  | .ok a, .ok b =>
    if h : a = b then isTrue (by rw [h]) else isFalse (fun h2 => h (by cases h2; rfl))
  | .error a, .error b =>
    if h : a = b then isTrue (by rw [h]) else isFalse (fun h2 => h (by cases h2; rfl))
  | .ok _, .error _ => isFalse (fun h => by cases h)
  | .error _, .ok _ => isFalse (fun h => by cases h)

/-! ## The ordering step: `sort.Slice` of the Go standard library

`main` orders the centroids with `sort.Slice(centroids, less)`. The library routine is the
pattern-defeating quicksort of `sort/zsortfunc.go` (Go 1.19 and later), embedded below function
by function. The slice being sorted is the list `data`; `data.Less(i, j)` and `data.Swap(i, j)`
act on it (Go panics on an index out of range, which `pdqsort_func` never produces; here such
a `Less` is false and such a `Swap` does nothing). Every Go loop is a recursion on a counter
that bounds the number of its iterations. -/

section SortSlice

variable {α : Type}

/-- The method `data.Less(i, j)`: the caller's `less` on the elements now at `i` and `j`. -/
def Less (less : α → α → Bool) (data : List α) (i j : Nat) : Bool :=
  match data[i]?, data[j]? with
  | some x, some y => less x y
  | _, _ => false

/-- The method `data.Swap(i, j)`. -/
def Swap (data : List α) (i j : Nat) : List α :=
  match data[i]?, data[j]? with
  | some x, some y => (data.set i y).set j x
  | _, _ => data

/-- The loop `for i <= j && cond(i) { i++ }`; returns the final `i`. -/
def scanUp (cond : Nat → Bool) (j : Nat) : Nat → Nat → Nat
  | 0, i => i
  | fuel + 1, i => if i ≤ j ∧ cond i then scanUp cond j fuel (i + 1) else i

/-- The loop `for i <= j && cond(j) { j-- }`; returns the final `j`. -/
def scanDown (cond : Nat → Bool) (i : Nat) : Nat → Nat → Nat
  | 0, j => j
  | fuel + 1, j => if i ≤ j ∧ cond j then scanDown cond i fuel (j - 1) else j

/-- The inner loop of `insertionSort_func`:
`for j := i; j > a && data.Less(j, j-1); j-- { data.Swap(j, j-1) }`. -/
def insertionInner (less : α → α → Bool) (a : Nat) : Nat → Nat → List α → List α
  | 0, _, data => data
  | fuel + 1, j, data =>
    if j > a ∧ Less less data j (j - 1) then
      insertionInner less a fuel (j - 1) (Swap data j (j - 1))
    else data

/-- The outer loop of `insertionSort_func`, `for i := ...; i < b; i++`, from `i` for `n`
rounds. -/
def insertionOuter (less : α → α → Bool) (a : Nat) : Nat → Nat → List α → List α
  | 0, _, data => data
  | n + 1, i, data => insertionOuter less a n (i + 1) (insertionInner less a (i - a) i data)

/-- The function `insertionSort_func`: sorts `data[a:b]` using insertion sort. -/
def insertionSort_func (less : α → α → Bool) (data : List α) (a b : Nat) : List α :=
  insertionOuter less a (b - (a + 1)) (a + 1) data

/-- The loop of `siftDown_func` on `root`. -/
def siftDownLoop (less : α → α → Bool) (hi first : Nat) : Nat → Nat → List α → List α
  | 0, _, data => data
  | fuel + 1, root, data =>
    let child := 2 * root + 1
    if child ≥ hi then data
    else
      let child :=
        if child + 1 < hi ∧ Less less data (first + child) (first + child + 1) then child + 1
        else child
      if ¬ Less less data (first + root) (first + child) then data
      else siftDownLoop less hi first fuel child (Swap data (first + root) (first + child))

/-- The function `siftDown_func`: implements the heap property on `data[lo:hi]`. -/
def siftDown_func (less : α → α → Bool) (data : List α) (lo hi first : Nat) : List α :=
  siftDownLoop less hi first (hi - lo) lo data

/-- The first loop of `heapSort_func`, `for i := ...; i >= 0; i--`, run for `i = n-1, ..., 0`. -/
def heapBuild (less : α → α → Bool) (hi first : Nat) : Nat → List α → List α
  | 0, data => data
  | n + 1, data => heapBuild less hi first n (siftDown_func less data n hi first)

/-- The second loop of `heapSort_func`, run for `i = n-1, ..., 0`. -/
def heapPop (less : α → α → Bool) (lo first : Nat) : Nat → List α → List α
  | 0, data => data
  | n + 1, data =>
    heapPop less lo first n (siftDown_func less (Swap data first (first + n)) lo n first)

/-- The function `heapSort_func`. -/
def heapSort_func (less : α → α → Bool) (data : List α) (a b : Nat) : List α :=
  let first := a
  let lo := 0
  let hi := b - a
  let data := heapBuild less hi first ((hi - 1) / 2 + 1) data
  heapPop less lo first hi data

/-- The loop `for { ... }` of `partition_func` on the state `(data, i, j)`; returns the final
`data` and `j`. -/
def partitionLoop (less : α → α → Bool) (a : Nat) :
    Nat → List α → Nat → Nat → List α × Nat
  | 0, data, _, j => (data, j)
  | fuel + 1, data, i, j =>
    let i := scanUp (fun i => Less less data i a) j (j + 1 - i) i
    let j := scanDown (fun j => ! Less less data j a) i (j + 1 - i) j
    if i > j then (data, j)
    else partitionLoop less a fuel (Swap data i j) (i + 1) (j - 1)

/-- The function `partition_func`; returns the final `data`, `newpivot` and
`alreadyPartitioned`. -/
def partition_func (less : α → α → Bool) (data : List α) (a b pivot : Nat) :
    List α × Nat × Bool :=
  let data := Swap data a pivot
  let i := a + 1
  let j := b - 1
  let i := scanUp (fun i => Less less data i a) j (j + 1 - i) i
  let j := scanDown (fun j => ! Less less data j a) i (j + 1 - i) j
  if i > j then (Swap data j a, j, true)
  else
    let data := Swap data i j
    let i := i + 1
    let j := j - 1
    let r := partitionLoop less a (j + 1 - i) data i j
    (Swap r.1 r.2 a, r.2, false)

/-- The loop `for { ... }` of `partitionEqual_func` on the state `(data, i, j)`; returns the
final `data` and `i`. -/
def partitionEqualLoop (less : α → α → Bool) (a : Nat) :
    Nat → List α → Nat → Nat → List α × Nat
  | 0, data, i, _ => (data, i)
  | fuel + 1, data, i, j =>
    let i := scanUp (fun i => ! Less less data a i) j (j + 1 - i) i
    let j := scanDown (fun j => Less less data a j) i (j + 1 - i) j
    if i > j then (data, i)
    else partitionEqualLoop less a fuel (Swap data i j) (i + 1) (j - 1)

/-- The function `partitionEqual_func`; returns the final `data` and `newpivot`. -/
def partitionEqual_func (less : α → α → Bool) (data : List α) (a b pivot : Nat) :
    List α × Nat :=
  let data := Swap data a pivot
  let i := a + 1
  let j := b - 1
  partitionEqualLoop less a (j + 2 - i) data i j

/-- The loop `for j := ...; j >= 1; j--` of `partialInsertionSort_func` that shifts the smaller
element to the left. -/
def shiftLeft (less : α → α → Bool) : Nat → Nat → List α → List α
  | 0, _, data => data
  | fuel + 1, j, data =>
    if j ≥ 1 then
      if ¬ Less less data j (j - 1) then data
      else shiftLeft less fuel (j - 1) (Swap data j (j - 1))
    else data

/-- The loop `for j := ...; j < b; j++` of `partialInsertionSort_func` that shifts the greater
element to the right. -/
def shiftRight (less : α → α → Bool) (b : Nat) : Nat → Nat → List α → List α
  | 0, _, data => data
  | fuel + 1, j, data =>
    if j < b then
      if ¬ Less less data j (j - 1) then data
      else shiftRight less b fuel (j + 1) (Swap data j (j - 1))
    else data

/-- The loop `for j := 0; j < maxSteps; j++` of `partialInsertionSort_func`, with `n` rounds
left, on the state `(data, i)`. -/
def partialInsertionLoop (less : α → α → Bool) (a b : Nat) :
    Nat → List α → Nat → List α × Bool
  | 0, data, _ => (data, false)
  | n + 1, data, i =>
    let i := scanUp (fun i => ! Less less data i (i - 1)) (b - 1) (b - i) i
    if i = b then (data, true)
    else if b - a < 50 then (data, false)
    else
      let data := Swap data i (i - 1)
      let data := if i - a ≥ 2 then shiftLeft less (i - 1) (i - 1) data else data
      let data := if b - i ≥ 2 then shiftRight less b (b - (i + 1)) (i + 1) data else data
      partialInsertionLoop less a b n data i

/-- The function `partialInsertionSort_func`: partially sorts a slice, returns true if the
slice is sorted at the end. -/
def partialInsertionSort_func (less : α → α → Bool) (data : List α) (a b : Nat) :
    List α × Bool :=
  partialInsertionLoop less a b 5 data (a + 1)

/-- The Go function `bits.Len` on a non-negative argument. -/
def bitsLen (x : Nat) : Nat := if x = 0 then 0 else Nat.log2 x + 1

/-- The function `nextPowerOfTwo`. -/
def nextPowerOfTwo (length : Nat) : Nat := (2 ^ bitsLen length) % 2 ^ 64

/-- The method `Next` of `xorshift`, on a `uint64` state. The lemmas on `pdqsort_func` hold for
any function in its place. -/
def xorshiftNext (r : Nat) : Nat :=
  let r := Nat.xor r ((r <<< 13) % 2 ^ 64)
  let r := Nat.xor r (r >>> 7)
  Nat.xor r ((r <<< 17) % 2 ^ 64)

/-- The loop `for i := 0; i < 3; i++` of `breakPatterns_func`, from `i` for `n` rounds, on the
state `(data, random)`. -/
def breakPatternsLoop (next : Nat → Nat) (a length modulus idx : Nat) :
    Nat → Nat → List α → Nat → List α
  | 0, _, data, _ => data
  | n + 1, i, data, random =>
    let random := next random
    let other := Nat.land random (modulus - 1)
    let other := if other ≥ length then other - length else other
    breakPatternsLoop next a length modulus idx n (i + 1) (Swap data (idx + i) (a + other))
      random

/-- The function `breakPatterns_func`: scatters some elements around in an attempt to break
patterns that might cause imbalanced partitions in quicksort. `next` is `xorshift.Next`. -/
def breakPatterns_func (next : Nat → Nat) (data : List α) (a b : Nat) : List α :=
  let length := b - a
  if length ≥ 8 then
    let random := length
    let modulus := nextPowerOfTwo length
    let idx := a + (length / 4) * 2 - 1
    breakPatternsLoop next a length modulus idx 3 0 data random
  else data

/-- The type `sortedHint`. -/
inductive sortedHint where
  | unknownHint
  | increasingHint
  | decreasingHint
deriving DecidableEq

/-- The function `order2_func`: returns `x, y` where `data[x] <= data[y]`, and the updated
`swaps`. -/
def order2_func (less : α → α → Bool) (data : List α) (a b swaps : Nat) : Nat × Nat × Nat :=
  if Less less data b a then (b, a, swaps + 1) else (a, b, swaps)

/-- The function `median_func`: returns `x` where `data[x]` is the median of `data[a]`,
`data[b]`, `data[c]`, and the updated `swaps`. -/
def median_func (less : α → α → Bool) (data : List α) (a b c swaps : Nat) : Nat × Nat :=
  let r := order2_func less data a b swaps
  let a := r.1
  let b := r.2.1
  let r := order2_func less data b c r.2.2
  let b := r.1
  let r := order2_func less data a b r.2.2
  (r.2.1, r.2.2)

/-- The function `medianAdjacent_func`. -/
def medianAdjacent_func (less : α → α → Bool) (data : List α) (a swaps : Nat) : Nat × Nat :=
  median_func less data (a - 1) a (a + 1) swaps

/-- The function `choosePivot_func`: chooses a pivot in `data[a:b]`. -/
def choosePivot_func (less : α → α → Bool) (data : List α) (a b : Nat) : Nat × sortedHint :=
  let l := b - a
  let swaps := 0
  let i := a + l / 4 * 1
  let j := a + l / 4 * 2
  let k := a + l / 4 * 3
  let r : Nat × Nat :=
    if l ≥ 8 then
      if l ≥ 50 then
        let ri := medianAdjacent_func less data i swaps
        let rj := medianAdjacent_func less data j ri.2
        let rk := medianAdjacent_func less data k rj.2
        median_func less data ri.1 rj.1 rk.1 rk.2
      else median_func less data i j k swaps
    else (j, swaps)
  if r.2 = 0 then (r.1, sortedHint.increasingHint)
  else if r.2 = 4 * 3 then (r.1, sortedHint.decreasingHint)
  else (r.1, sortedHint.unknownHint)

/-- The loop of `reverseRange_func`. -/
def reverseRangeLoop : Nat → Nat → Nat → List α → List α
  | 0, _, _, data => data
  | fuel + 1, i, j, data =>
    if i < j then reverseRangeLoop fuel (i + 1) (j - 1) (Swap data i j) else data

/-- The function `reverseRange_func`. -/
def reverseRange_func (data : List α) (a b : Nat) : List α :=
  reverseRangeLoop (b - a) a (b - 1) data

/-- The part of the loop body of `pdqsort_func` between the `limit == 0` test and the
partitioning: `breakPatterns_func`, `choosePivot_func`, `reverseRange_func` and
`partialInsertionSort_func`. Returns the new `data`, `limit` and `pivot`, and whether
`partialInsertionSort_func` found the slice sorted. -/
def pdqsortPrepare (next : Nat → Nat) (less : α → α → Bool) (data : List α)
    (a b limit : Nat) (wasBalanced wasPartitioned : Bool) : List α × Nat × Nat × Bool :=
  let data := if ¬ wasBalanced then breakPatterns_func next data a b else data
  let limit := if ¬ wasBalanced then limit - 1 else limit
  let ph := choosePivot_func less data a b
  let data := if ph.2 = sortedHint.decreasingHint then reverseRange_func data a b else data
  let pivot := if ph.2 = sortedHint.decreasingHint then (b - 1) - (ph.1 - a) else ph.1
  let hint := if ph.2 = sortedHint.decreasingHint then sortedHint.increasingHint else ph.2
  let ps :=
    if wasBalanced ∧ wasPartitioned ∧ hint = sortedHint.increasingHint then
      partialInsertionSort_func less data a b
    else (data, false)
  (ps.1, limit, pivot, ps.2)

/-- The function `pdqsort_func`: sorts `data[a:b]`. The loop `for { ... }` and the recursive
calls are a recursion on `fuel`, which bounds `b - a`; `wasBalanced` and `wasPartitioned` are
the local variables of the loop. -/
def pdqsort_func (next : Nat → Nat) (less : α → α → Bool) :
    Nat → List α → Nat → Nat → Nat → Bool → Bool → List α
  | 0, data, _, _, _, _, _ => data
  | fuel + 1, data, a, b, limit, wasBalanced, wasPartitioned =>
    if b - a ≤ 12 then insertionSort_func less data a b
    else if limit = 0 then heapSort_func less data a b
    else
      let st := pdqsortPrepare next less data a b limit wasBalanced wasPartitioned
      if st.2.2.2 then st.1
      else if a > 0 ∧ ¬ Less less st.1 (a - 1) st.2.2.1 then
        let pe := partitionEqual_func less st.1 a b st.2.2.1
        pdqsort_func next less fuel pe.1 pe.2 b st.2.1 wasBalanced wasPartitioned
      else
        let pt := partition_func less st.1 a b st.2.2.1
        if pt.2.1 - a < b - pt.2.1 then
          pdqsort_func next less fuel
            (pdqsort_func next less fuel pt.1 a pt.2.1 st.2.1 true true)
            (pt.2.1 + 1) b st.2.1 (decide (pt.2.1 - a ≥ (b - a) / 8)) pt.2.2
        else
          pdqsort_func next less fuel
            (pdqsort_func next less fuel pt.1 (pt.2.1 + 1) b st.2.1 true true)
            a pt.2.1 st.2.1 (decide (b - pt.2.1 ≥ (b - a) / 8)) pt.2.2

/-- The function `sort.Slice`: sorts the slice `x` in place by
`pdqsort_func(data, 0, length, limit)`. `next` is `xorshift.Next`. -/
def sortSlice (next : Nat → Nat) (less : α → α → Bool) (x : List α) : List α :=
  let length := x.length
  let limit := bitsLen length
  pdqsort_func next less length x 0 length limit true true

end SortSlice

/-- The closure passed to `sort.Slice` in `main` (lines 105-109), on the centroids now at the
indices `i` and `j`, in exact arithmetic (on `float64`: `lessSum64`). -/
def lessSum (ci cj : Pixel) : Bool :=
  let sumI := ci.get 0 + ci.get 1 + ci.get 2
  let sumJ := cj.get 0 + cj.get 1 + cj.get 2
  decide (sumI < sumJ)

/-- The sum of the three components of a centroid. -/
def Pixel.sum (c : Pixel) : ℚ := c.get 0 + c.get 1 + c.get 2

/-- The ordering step of `main` (lines 105-109): `sort.Slice(centroids, less)`. -/
def order (centroids : List Pixel) : List Pixel :=
  sortSlice xorshiftNext lessSum centroids

/-! ## Notions used to state and prove the claims on the ordering step -/

/-- The key of the element at index `k` of `data`, and 0 when `k` is not an index. -/
def keyAt {α : Type} (key : α → ℚ) (data : List α) (k : Nat) : ℚ :=
  match data[k]? with
  | some x => key x
  | none => 0

/-- The keys `f a, ..., f (b-1)` are in ascending order. -/
def SortedOn (f : Nat → ℚ) (a b : Nat) : Prop :=
  ∀ i j, a ≤ i → i ≤ j → j < b → f i ≤ f j

/-- The keys `g` differ from `f` only at the indices of `[a, b)`, and every key of `g` in
`[a, b)` is a key of `f` in `[a, b)`. -/
def Seg (a b : Nat) (f g : Nat → ℚ) : Prop :=
  (∀ k, k < a ∨ b ≤ k → g k = f k) ∧ (∀ i, a ≤ i → i < b → ∃ j, a ≤ j ∧ j < b ∧ g i = f j)

/-- The keys before `a` are a lower bound of the keys in `[a, b)`: the state in which
`pdqsort_func(data, a, b, limit)` is called. -/
def LowerBound (f : Nat → ℚ) (a b : Nat) : Prop :=
  a = 0 ∨ ∀ i, a ≤ i → i < b → f (a - 1) ≤ f i

/-- The state of the loops of `partition_func`: the pivot key `v` is at `a`, the keys of
`[a+1, i)` are below `v` and those of `(j, b)` are not. -/
def PartInv (f : Nat → ℚ) (a b i j : Nat) (v : ℚ) : Prop :=
  a + 1 ≤ i ∧ j + 1 ≤ b ∧ i ≤ j + 1 ∧ f a = v ∧
    (∀ k, a + 1 ≤ k → k < i → f k < v) ∧ (∀ k, j < k → k < b → v ≤ f k)

/-- The state of the loop of `partitionEqual_func`: the pivot key `v` is at `a`, the keys of
`[a+1, i)` are at most `v` and those of `(j, b)` are above `v`. -/
def PartEqInv (f : Nat → ℚ) (a b i j : Nat) (v : ℚ) : Prop :=
  a + 1 ≤ i ∧ j + 1 ≤ b ∧ i ≤ j + 1 ∧ f a = v ∧
    (∀ k, a + 1 ≤ k → k < i → f k ≤ v) ∧ (∀ k, j < k → k < b → v < f k)

/-- The heap property of `siftDown_func` on the nodes from `lo`: in `data[first:first+hi]`,
seen as a binary tree, the key of each node from `lo` on is at least the keys of its children. -/
def HeapFrom (f : Nat → ℚ) (first lo hi : Nat) : Prop :=
  ∀ r c, lo ≤ r → (c = 2 * r + 1 ∨ c = 2 * r + 2) → c < hi → f (first + c) ≤ f (first + r)

/-- The state of the loop of `siftDown_func`: the heap property holds from `lo` at every node
but `root`, and the children of `root` are at most the parent of `root`. -/
def SiftInv (f : Nat → ℚ) (first lo hi root : Nat) : Prop :=
  (∀ r c, lo ≤ r → r ≠ root → (c = 2 * r + 1 ∨ c = 2 * r + 2) → c < hi →
    f (first + c) ≤ f (first + r)) ∧
  (∀ p c, lo ≤ p → (root = 2 * p + 1 ∨ root = 2 * p + 2) →
    (c = 2 * root + 1 ∨ c = 2 * root + 2) → c < hi → f (first + c) ≤ f (first + p))

/-! ## Notions used to state the claims on the iterations of `kmeans` -/

/-- The index `minIdx` that the inner loop of `kmeans` (lines 47-55) computes for the
sample `p`. -/
def minIdx (centroids : List Pixel) (p : Pixel) : Nat := (scanCentroids centroids p).2

/-- The content of `clusters[i]` after the assignment loop: the samples whose `minIdx` is `i`,
in input order. -/
def assignedTo (centroids pixels : List Pixel) (i : Nat) : List Pixel :=
  pixels.filter (fun p => decide (minIdx centroids p = i))

/-- The value that lines 60-62 give to a centroid `c` whose cluster is `cluster`. -/
def newCentroid (c : Pixel) (cluster : List Pixel) : Pixel :=
  if cluster.length > 0 then averagePixels cluster else c

/-- The centroids after one pass of the loop body of `kmeans` (lines 45-63) from `centroids`,
when there is at least one centroid: each centroid with its cluster. -/
def nextCentroids (centroids pixels : List Pixel) : List Pixel :=
  List.zipWith newCentroid centroids
    ((List.range centroids.length).map (assignedTo centroids pixels))

/-- The squared distance from the sample `p` to its nearest centroid (0 without centroids). -/
def nearestSq (centroids : List Pixel) (p : Pixel) : ℚ :=
  match centroids with
  | [] => 0
  | c :: cs => cs.foldl (fun m c => min m (distance p c).sq) (distance p c).sq

/-- The clustering cost `J`: the sum over all samples of the squared distance to the nearest
centroid. -/
def cost (centroids pixels : List Pixel) : ℚ := (pixels.map (nearestSq centroids)).sum

/-! ## `float64` arithmetic

The values and operations of the Go type `float64` (IEEE 754 binary64, rounding to nearest,
ties to even). The two zeros are one value: the program never divides by a negative zero and
never looks at the sign of a zero. Every operation is rounded on its own (no fused
multiply-add), as in the code compiled for amd64. -/

/-- A `float64`: a finite value, an infinity (`neg` tells its sign) or NaN. The finite values
of the type are the rationals `q` with `F64.round q = F64.fin q`. -/
inductive F64 where
  | fin (q : ℚ)
  | inf (neg : Bool)
  | nan
deriving DecidableEq

/-- The loop of `ilog2`: at most `fuel` halvings of `n`. -/
def ilog2Loop : Nat → Nat → Nat
  | 0, _ => 0
  | fuel + 1, n => if 2 ≤ n then ilog2Loop fuel (n / 2) + 1 else 0

/-- The integer `e` with `2 ^ e <= n < 2 ^ (e + 1)`, for `n > 0`. -/
def ilog2 (n : Nat) : Nat := ilog2Loop n n

/-- The integer `e` with `2 ^ e <= q < 2 ^ (e + 1)`, for `q > 0`. -/
def floorLog2 (q : ℚ) : Int :=
  let n := q.num.natAbs
  let d := q.den
  let e : Int := (ilog2 n : Int) - (ilog2 d : Int)
  if d * 2 ^ e.toNat ≤ n * 2 ^ (-e).toNat then e else e - 1

/-- The integer nearest to `n / d`, the even one when two are nearest. -/
def roundHalfEven (n d : Nat) : Nat :=
  let f := n / d
  let r := n % d
  if 2 * r < d then f
  else if d < 2 * r then f + 1
  else if f % 2 = 0 then f else f + 1

/-- The exponent of the unit in the last place of the values in `[2 ^ e, 2 ^ (e + 1))`: 53
significant bits, and the subnormal values below `2 ^ (-1022)`. -/
def ulpExp (e : Int) : Int := max (e - 52) (-1074)

/-- The `float64` of magnitude `v` and of sign `neg`, for a multiple `v` of the unit in the
last place: infinite from `2 ^ 1024`. -/
def F64.ofMag (neg : Bool) (v : ℚ) : F64 :=
  if (2 : ℚ) ^ 1024 ≤ v then F64.inf neg else F64.fin (if neg then -v else v)

/-- The multiple of the unit in the last place nearest to the rational `q > 0` (ties to the
even multiple). -/
def F64.roundMag (q : ℚ) : ℚ :=
  let qe := ulpExp (floorLog2 q)
  let r := roundHalfEven (q.num.natAbs * 2 ^ (-qe).toNat) (q.den * 2 ^ qe.toNat)
  mkRat (r * 2 ^ qe.toNat) (2 ^ (-qe).toNat)

/-- The `float64` nearest to the rational `q` (ties to even; `2 ^ 1024` stands for the
infinity). -/
def F64.round (q : ℚ) : F64 :=
  if q = 0 then F64.fin 0 else F64.ofMag (decide (q < 0)) (F64.roundMag |q|)

/-- The loop of the integer square root: the bits of the root from bit `b - 1` down. -/
def isqrtLoop (n : Nat) : Nat → Nat → Nat
  | 0, r => r
  | b + 1, r =>
    if (r + 2 ^ b) * (r + 2 ^ b) ≤ n then isqrtLoop n b (r + 2 ^ b) else isqrtLoop n b r

/-- The integer square root: the largest `r` with `r * r <= n`. -/
def isqrt (n : Nat) : Nat := isqrtLoop n (ilog2 n / 2 + 1) 0

/-- The multiple of the unit in the last place nearest to the square root of the rational
`q > 0`. -/
def F64.sqrtMag (q : ℚ) : ℚ :=
  let qe := ulpExp (floorLog2 q / 2)
  let n := q.num.natAbs * 4 ^ (-qe).toNat
  let d := q.den * 4 ^ qe.toNat
  let f := isqrt (n / d)
  let r :=
    if 4 * n < (2 * f + 1) * (2 * f + 1) * d then f
    else if (2 * f + 1) * (2 * f + 1) * d < 4 * n then f + 1
    else if f % 2 = 0 then f else f + 1
  mkRat (r * 2 ^ qe.toNat) (2 ^ (-qe).toNat)

/-- The `float64` nearest to the square root of the rational `q > 0`. -/
def F64.roundSqrt (q : ℚ) : F64 := F64.ofMag false (F64.sqrtMag q)

/-- The opposite `-x`. -/
def F64.neg : F64 → F64
  | .fin a => .fin (-a)
  | .inf s => .inf (!s)
  | .nan => .nan

/-- The sum `x + y`. -/
def F64.add : F64 → F64 → F64
  | .fin a, .fin b => F64.round (a + b)
  | .fin _, .inf s => .inf s
  | .inf s, .fin _ => .inf s
  | .inf s, .inf t => if s = t then .inf s else .nan
  | _, _ => .nan

/-- The difference `x - y`. -/
def F64.sub (x y : F64) : F64 := x.add y.neg

/-- The product `x * y`. -/
def F64.mul : F64 → F64 → F64
  | .fin a, .fin b => F64.round (a * b)
  | .fin a, .inf s => if a = 0 then .nan else .inf (xor s (decide (a < 0)))
  | .inf s, .fin b => if b = 0 then .nan else .inf (xor s (decide (b < 0)))
  | .inf s, .inf t => .inf (xor s t)
  | _, _ => .nan

/-- The quotient `x / y`; a zero divisor is the positive zero. -/
def F64.div : F64 → F64 → F64
  | .fin a, .fin b =>
    if b = 0 then (if a = 0 then .nan else .inf (decide (a < 0))) else F64.round (a / b)
  | .fin _, .inf _ => .fin 0
  | .inf s, .fin b => .inf (xor s (decide (b < 0)))
  | _, _ => .nan

/-- The function `math.Sqrt`. -/
def F64.sqrt : F64 → F64
  | .fin a => if a < 0 then .nan else if a = 0 then .fin 0 else F64.roundSqrt a
  | .inf s => if s then .nan else .inf false
  | .nan => .nan

/-- The comparison `x < y`, false when an operand is NaN. -/
def F64.lt : F64 → F64 → Bool
  | .fin a, .fin b => decide (a < b)
  | .fin _, .inf s => !s
  | .inf s, .fin _ => s
  | .inf s, .inf t => s && !t
  | _, _ => false

/-- The conversion `float64(n)` of a non-negative `int`. -/
def F64.ofNat (n : Nat) : F64 := F64.round (n : ℚ)

/-- The Go type `Pixel [3]float64` with `float64` components. -/
structure Pixel64 where
  c0 : F64
  c1 : F64
  c2 : F64
deriving DecidableEq

/-- Indexing `p[i]` for `i` in 0, 1, 2. -/
def Pixel64.get (p : Pixel64) (i : Fin 3) : F64 :=
  match i with
  | 0 => p.c0
  | 1 => p.c1
  | 2 => p.c2

/-- Assignment `p[i] = v` for `i` in 0, 1, 2. -/
def Pixel64.set (p : Pixel64) (i : Fin 3) (v : F64) : Pixel64 :=
  match i with
  | 0 => { p with c0 := v }
  | 1 => { p with c1 := v }
  | 2 => { p with c2 := v }

/-- The zero value of `Pixel`. -/
def Pixel64.zero : Pixel64 := ⟨F64.fin 0, F64.fin 0, F64.fin 0⟩

/-- The pixel of the `float64` values nearest to three rationals, as the Go compiler converts
the constants of a literal `Pixel{x, y, z}`. -/
def Pixel64.ofRat (x y z : ℚ) : Pixel64 := ⟨F64.round x, F64.round y, F64.round z⟩

/-! ## The program on `float64`

The functions of `main.go` once more, with the arithmetic of `float64` in place of the exact
arithmetic. The control flow is that of `distance`, `averagePixels` and `kmeans` above. -/

/-- A Go slice `[]Pixel` of pixels with `float64` components (see `PixelSlice`). -/
structure PixelSlice64 where
  elems : List Pixel64
  spare : List Pixel64
  fits : (elems.length + spare.length) * pixelSize ≤ maxAlloc

/-- The Go built-in `len`. -/
def PixelSlice64.len (s : PixelSlice64) : Nat := s.elems.length

/-- The Go built-in `cap`. -/
def PixelSlice64.cap (s : PixelSlice64) : Nat := s.elems.length + s.spare.length

/-- The function `distance` (main.go, lines 18-24) on `float64`. -/
def distance64 (a b : Pixel64) : F64 :=
  let d : F64 := idx3.foldl
    (fun d i => d.add (((a.get i).sub (b.get i)).mul ((a.get i).sub (b.get i)))) (F64.fin 0)
  d.sqrt

/-- The function `averagePixels` (main.go, lines 26-38) on `float64`. On an empty slice every
component is 0/0, which is NaN. -/
def averagePixels64 (pixels : List Pixel64) : Pixel64 :=
  let avg : Pixel64 := Pixel64.zero
  let avg := pixels.foldl
    (fun avg p => idx3.foldl (fun avg i => avg.set i ((avg.get i).add (p.get i))) avg) avg
  let n : F64 := F64.ofNat pixels.length
  idx3.foldl (fun avg i => avg.set i ((avg.get i).div n)) avg

/-- The body of the inner loop of `kmeans` (lines 50-54) on the state `(minDist, minIdx)`, for
the sample `p` and the centroid `c` at index `i`. -/
def scanStep64 (p : Pixel64) (st : F64 × Nat) (ic : Nat × Pixel64) : F64 × Nat :=
  let d := distance64 p ic.2
  if d.lt st.1 then (d, ic.1) else st

/-- The inner loop of `kmeans` (lines 47-55): the scan of the centroids for one sample `p`,
returning the final `(minDist, minIdx)`. -/
def scanCentroids64 (centroids : List Pixel64) (p : Pixel64) : F64 × Nat :=
  centroids.enum.foldl (scanStep64 p) (F64.fin MaxFloat64, 0)

/-- Line 56, `clusters[minIdx] = append(clusters[minIdx], p)`, which panics when `minIdx` is
not an index of `clusters`. -/
def appendToCluster64 (clusters : List (List Pixel64)) (minIdx : Nat) (p : Pixel64) :
    Except Panic (List (List Pixel64)) :=
  if minIdx < clusters.length then
    .ok (clusters.set minIdx (clusters.getD minIdx [] ++ [p]))
  else
    .error Panic.indexOutOfRange

/-- The assignment loop (lines 45-57): `clusters := make([][]Pixel, k)` and one pass over the
samples. -/
def assign64 (pixels : List Pixel64) (centroids : List Pixel64) (k : Nat) :
    Except Panic (List (List Pixel64)) :=
  pixels.foldlM
    (fun clusters p => appendToCluster64 clusters (scanCentroids64 centroids p).2 p)
    (List.replicate k [])

/-- The body of the update loop (lines 60-62) for the index `i`. -/
def updateStep64 (clusters : List (List Pixel64)) (centroids : List Pixel64) (i : Nat) :
    List Pixel64 :=
  if (clusters.getD i []).length > 0 then
    centroids.set i (averagePixels64 (clusters.getD i []))
  else centroids

/-- The update loop (lines 59-63): `centroids[i]` is replaced by the average of cluster `i`
when that cluster is not empty. -/
def update64 (centroids : List Pixel64) (clusters : List (List Pixel64)) (k : Nat) :
    List Pixel64 :=
  (List.range k).foldl (updateStep64 clusters) centroids

/-- One pass of the loop body of `kmeans` (lines 45-63). -/
def iterate64 (pixels : List Pixel64) (k : Nat) (centroids : List Pixel64) :
    Except Panic (List Pixel64) := do
  let clusters ← assign64 pixels centroids k
  pure (update64 centroids clusters k)

/-- The loop `for it := 0; it < iterations; it++` (lines 44-64), run `n` times. -/
def loop64 (pixels : List Pixel64) (k : Nat) : Nat → List Pixel64 → Except Panic (List Pixel64)
  | 0, centroids => pure centroids
  | n + 1, centroids => do
    let centroids ← iterate64 pixels k centroids
    loop64 pixels k n centroids

/-- The function `kmeans` (main.go, lines 40-66) on `float64` (see `kmeans`). -/
def kmeans64 (pixels : PixelSlice64) (k : Int) (iterations : Int) :
    Except Panic (List Pixel64) :=
  if k < 0 ∨ maxAlloc < k.toNat * pixelSize then .error Panic.makesliceLenOutOfRange
  else if pixels.cap < k.toNat then .error Panic.sliceBoundsOutOfRange
  else
    let centroids := (pixels.elems ++ pixels.spare).take k.toNat
    loop64 pixels.elems k.toNat iterations.toNat centroids

/-- The closure passed to `sort.Slice` in `main` (lines 105-109) on `float64`: the sums are
added from left to right. -/
def lessSum64 (ci cj : Pixel64) : Bool :=
  let sumI := ((ci.get 0).add (ci.get 1)).add (ci.get 2)
  let sumJ := ((cj.get 0).add (cj.get 1)).add (cj.get 2)
  sumI.lt sumJ

/-- The `float64` sum `c[0] + c[1] + c[2]` of the components of a centroid. -/
def Pixel64.sum (c : Pixel64) : F64 := ((c.get 0).add (c.get 1)).add (c.get 2)

/-- The ordering step of `main` (lines 105-109) on `float64`: `sort.Slice(centroids, less)`. -/
def order64 (centroids : List Pixel64) : List Pixel64 :=
  sortSlice xorshiftNext lessSum64 centroids

/-- The pixel whose components are the finite `float64` values `x`, `y`, `z`. -/
def Pixel64.fin (x y z : ℚ) : Pixel64 := ⟨F64.fin x, F64.fin y, F64.fin z⟩

/-! ### Notions used to state the claims on the iterations of `kmeans64` -/

/-- The index `minIdx` that the inner loop of `kmeans` (lines 47-55) computes for the
sample `p`. -/
def minIdx64 (centroids : List Pixel64) (p : Pixel64) : Nat := (scanCentroids64 centroids p).2

/-- The content of `clusters[i]` after the assignment loop: the samples whose `minIdx` is `i`,
in input order. -/
def assignedTo64 (centroids pixels : List Pixel64) (i : Nat) : List Pixel64 :=
  pixels.filter (fun p => decide (minIdx64 centroids p = i))

/-- The value that lines 60-62 give to a centroid `c` whose cluster is `cluster`. -/
def newCentroid64 (c : Pixel64) (cluster : List Pixel64) : Pixel64 :=
  if cluster.length > 0 then averagePixels64 cluster else c

/-- The centroids after one pass of the loop body of `kmeans` (lines 45-63) from `centroids`,
when there is at least one centroid: each centroid with its cluster. -/
def nextCentroids64 (centroids pixels : List Pixel64) : List Pixel64 :=
  List.zipWith newCentroid64 centroids
    ((List.range centroids.length).map (assignedTo64 centroids pixels))

/-- The words of the specification on the `float64` distances: `i` is the lowest index among
the centroids at minimal distance from the sample `p`. -/
def LowestNearest64 (centroids : List Pixel64) (p : Pixel64) (i : Nat) : Prop :=
  i < centroids.length ∧
    (∀ c ∈ centroids, (distance64 p c).lt (distance64 p (centroids.getD i p)) = false) ∧
    (∀ c ∈ centroids.take i, (distance64 p (centroids.getD i p)).lt (distance64 p c) = true)

instance (centroids : List Pixel64) (p : Pixel64) (i : Nat) :
    Decidable (LowestNearest64 centroids p i) := by
  unfold LowestNearest64
  infer_instance

/-- The value of a finite `float64` (0 for the others). -/
def F64.toRat : F64 → ℚ
  | .fin q => q
  | _ => 0

/-- A finite value of the type `float64`: a rational that rounding leaves unchanged. -/
def F64.Finite (x : F64) : Prop := F64.round x.toRat = x

instance (x : F64) : Decidable x.Finite := by
  unfold F64.Finite
  infer_instance

/-- A pixel with three finite `float64` components. -/
def Pixel64.Finite (p : Pixel64) : Prop := p.c0.Finite ∧ p.c1.Finite ∧ p.c2.Finite

instance (p : Pixel64) : Decidable p.Finite := by
  unfold Pixel64.Finite
  infer_instance

/-- The comparison `x <= y`, false when an operand is NaN. -/
def F64.le : F64 → F64 → Bool
  | .fin a, .fin b => decide (a ≤ b)
  | .fin _, .inf s => !s
  | .inf s, .fin _ => s
  | .inf s, .inf t => s || !t
  | _, _ => false

/-- The pixel of exact arithmetic with the values of the components of a finite pixel. -/
def Pixel64.toExact (p : Pixel64) : Pixel := ⟨p.c0.toRat, p.c1.toRat, p.c2.toRat⟩

/-- A rational that is smaller for a smaller `float64`: the finite values go to the open
interval from -1 to 1, the infinities to -1 and 1 (and NaN to 0). -/
def F64.key : F64 → ℚ
  | .fin q => q / (1 + |q|)
  | .inf s => if s then -1 else 1
  | .nan => 0

/-- Stability of an ordering by `float64` sums: for every sum `s`, the centroids of sum `s`
come in the output in the order they have in the input. -/
def StableBySum64 (input output : List Pixel64) : Prop :=
  ∀ s : F64, output.filter (fun c => decide (c.sum = s))
    = input.filter (fun c => decide (c.sum = s))

/-- A value that is not negative: finite below `2 ^ 1024`, or the positive infinity. -/
def F64.NonNeg (x : F64) : Prop :=
  (∃ y, x = F64.fin y ∧ 0 ≤ y ∧ y < (2 : ℚ) ^ (1024 : Int)) ∨ x = F64.inf false

/-- A pixel without a NaN component. -/
def Pixel64.NotNaN (p : Pixel64) : Prop :=
  p.c0 ≠ F64.nan ∧ p.c1 ≠ F64.nan ∧ p.c2 ≠ F64.nan

/-- A distance that `distance64` returns on a finite sample and a centroid without NaN: a
finite value from 0 to `2 ^ 512`, or the positive infinity. -/
def F64.IsDist (x : F64) : Prop :=
  (∃ y, x = F64.fin y ∧ 0 ≤ y ∧ y ≤ (2 : ℚ) ^ (512 : Int)) ∨ x = F64.inf false

/-- A finite `float64` between the rationals `lo` and `hi`. -/
def F64.Within (lo hi : ℚ) (x : F64) : Prop := ∃ q, x = F64.fin q ∧ lo ≤ q ∧ q ≤ hi

/-- A pixel with its three components between `lo` and `hi`. -/
def Pixel64.Within (lo hi : ℚ) (p : Pixel64) : Prop := ∀ i : Fin 3, (p.get i).Within lo hi

/-! ### The calls of `averagePixels`

The update loop of `kmeans` once more, now with the list of the arguments of the calls of
`averagePixels` made so far next to the centroids. Without that list, `kmeansTraced` is
`kmeans`. -/

/-- The body of the update loop (lines 60-62) for the index `i`: the call
`averagePixels(clusters[i])` of line 61 is added to the list of the calls. -/
def updateStepTraced (clusters : List (List Pixel)) (st : List Pixel × List (List Pixel))
    (i : Nat) : List Pixel × List (List Pixel) :=
  if (clusters.getD i []).length > 0 then
    (st.1.set i (averagePixels (clusters.getD i [])), st.2 ++ [clusters.getD i []])
  else st

/-- The update loop (lines 59-63) with the list of the calls of `averagePixels`. -/
def updateTraced (st : List Pixel × List (List Pixel)) (clusters : List (List Pixel))
    (k : Nat) : List Pixel × List (List Pixel) :=
  (List.range k).foldl (updateStepTraced clusters) st

/-- One pass of the loop body of `kmeans` (lines 45-63) with the list of the calls of
`averagePixels`. -/
def iterateTraced (pixels : List Pixel) (k : Nat) (st : List Pixel × List (List Pixel)) :
    Except Panic (List Pixel × List (List Pixel)) := do
  let clusters ← assign pixels st.1 k
  pure (updateTraced st clusters k)

/-- The loop of lines 44-64, run `n` times, with the list of the calls of `averagePixels`. -/
def loopTraced (pixels : List Pixel) (k : Nat) :
    Nat → List Pixel × List (List Pixel) → Except Panic (List Pixel × List (List Pixel))
  | 0, st => pure st
  | n + 1, st => do
    let st ← iterateTraced pixels k st
    loopTraced pixels k n st

/-- The function `kmeans` (main.go, lines 40-66) returning, with the centroids, the arguments
of all the calls of `averagePixels` it made, in the order of the calls. -/
def kmeansTraced (pixels : PixelSlice) (k : Int) (iterations : Int) :
    Except Panic (List Pixel × List (List Pixel)) :=
  if k < 0 ∨ maxAlloc < k.toNat * pixelSize then .error Panic.makesliceLenOutOfRange
  else if pixels.cap < k.toNat then .error Panic.sliceBoundsOutOfRange
  else
    let centroids := (pixels.elems ++ pixels.spare).take k.toNat
    loopTraced pixels.elems k.toNat iterations.toNat (centroids, [])

/-! ### Notions used to state the claims on `float64` -/

/-- Samples at positive computed distances: every sample is at a `float64` distance above 0
from each sample before it in the slice. -/
def Separated64 (pixels : List Pixel64) : Prop :=
  pixels.Pairwise (fun p q => (F64.fin 0).lt (distance64 q p) = true)

instance (pixels : List Pixel64) : Decidable (Separated64 pixels) := by
  unfold Separated64
  infer_instance

/-- A pass of `kmeans64` from the centroids `cs` over the samples `pixels` on which rounding
has no effect: the samples and the centroids before and after the pass are finite; the
centroid that the scan gives to a sample is at the least distance from it, in exact
arithmetic; and the centroid computed for a non-empty cluster is the exact mean of the
cluster. -/
def ExactPass64 (cs pixels : List Pixel64) : Prop :=
  (∀ p ∈ pixels, p.Finite) ∧ (∀ c ∈ cs, c.Finite) ∧
    (∀ c ∈ nextCentroids64 cs pixels, c.Finite) ∧
    (∀ p ∈ pixels, ∀ c ∈ cs,
      (distance p.toExact (cs.getD (minIdx64 cs p) p).toExact).sq
        ≤ (distance p.toExact c.toExact).sq) ∧
    (∀ i ∈ List.range cs.length, assignedTo64 cs pixels i ≠ [] →
      (averagePixels64 (assignedTo64 cs pixels i)).toExact
        = averagePixels ((assignedTo64 cs pixels i).map Pixel64.toExact))

instance (cs pixels : List Pixel64) : Decidable (ExactPass64 cs pixels) := by
  unfold ExactPass64
  infer_instance

/-! ### Inputs on which rounding shows -/

/-- The sample (0.1, 0.1, 0.1): each component is the `float64` nearest to 1/10, which is
3602879701896397 / 2 ^ 55. -/
def tenth : Pixel64 := Pixel64.ofRat (1 / 10) (1 / 10) (1 / 10)

/-- The slice of three samples (0.1, 0.1, 0.1). -/
def threeTenths : PixelSlice64 := ⟨[tenth, tenth, tenth], [], by decide⟩

/-- The slice of the samples (0.1, 0.1, 0.1), (7, 7, 7), (0.1, 0.1, 0.1), (0.1, 0.1, 0.1). -/
def tenthsAndSeven : PixelSlice64 := ⟨[tenth, Pixel64.fin 7 7 7, tenth, tenth], [], by decide⟩

/-- The slice of the two distinct samples (0, 0, 0) and (1e-200, 0, 0): the square of 1e-200
is below the least positive `float64`. -/
def tinySamples : PixelSlice64 :=
  ⟨[Pixel64.fin 0 0 0, Pixel64.ofRat (1 / 10 ^ 200) 0 0], [], by decide⟩

/-! ## Lemmas on `averagePixels` -/

theorem averagePixels_sum_fold (l : List Pixel) (acc : Pixel) :
    l.foldl (fun avg p => idx3.foldl (fun avg i => avg.set i (avg.get i + p.get i)) avg) acc
      = ⟨acc.c0 + (l.map Pixel.c0).sum, acc.c1 + (l.map Pixel.c1).sum,
          acc.c2 + (l.map Pixel.c2).sum⟩ := by
  induction l generalizing acc with
  | nil => simp
  | cons p l ih =>
    rw [List.foldl_cons, ih]
    simp [idx3, Pixel.get, Pixel.set, add_assoc]

/-- The result of `averagePixels` in closed form: each component is the sum of that component
over the slice divided by the length of the slice. -/
theorem averagePixels_eq (l : List Pixel) :
    averagePixels l = ⟨(l.map Pixel.c0).sum / (l.length : ℚ), (l.map Pixel.c1).sum / (l.length : ℚ),
      (l.map Pixel.c2).sum / (l.length : ℚ)⟩ := by
  unfold averagePixels
  simp only [averagePixels_sum_fold]
  simp [idx3, Pixel.get, Pixel.set, Pixel.zero]

/-! ## Lemmas on the loop of `kmeans` -/

/-- The scan of the centroids numbered from `n` returns the initial index or one of the
numbers given to the centroids. -/
theorem scan_foldl_idx (p : Pixel) (cs : List Pixel) (n : Nat) (st : Sqrt × Nat) :
    ((cs.enumFrom n).foldl (scanStep p) st).2 = st.2 ∨
    (n ≤ ((cs.enumFrom n).foldl (scanStep p) st).2 ∧
     ((cs.enumFrom n).foldl (scanStep p) st).2 < n + cs.length) := by
  induction cs generalizing n st with
  | nil => left; rfl
  | cons c cs ih =>
    simp only [List.enumFrom_cons, List.foldl_cons, List.length_cons]
    by_cases h : distance p c < st.1
    · have hs : scanStep p st (n, c) = (distance p c, n) := by simp [scanStep, h]
      rw [hs]
      rcases ih (n + 1) (distance p c, n) with h1 | h1
      · right; rw [h1]; simp
      · right; omega
    · have hs : scanStep p st (n, c) = st := by simp [scanStep, h]
      rw [hs]
      rcases ih (n + 1) st with h1 | h1
      · left; exact h1
      · right; omega

/-- With at least one centroid, the index `minIdx` computed for a sample is an index of a
centroid. -/
theorem scanCentroids_lt (cs : List Pixel) (p : Pixel) (h : cs ≠ []) :
    (scanCentroids cs p).2 < cs.length := by
  have hpos : 0 < cs.length := List.length_pos.mpr h
  unfold scanCentroids List.enum
  rcases scan_foldl_idx p cs 0 (Sqrt.ofFloat MaxFloat64, 0) with h1 | h1
  · rw [h1]; exact hpos
  · omega

theorem appendToCluster_ok (clusters : List (List Pixel)) (i : Nat) (p : Pixel)
    (h : i < clusters.length) :
    appendToCluster clusters i p = .ok (clusters.set i (clusters.getD i [] ++ [p])) := by
  simp [appendToCluster, h]

/-- The pass over the samples succeeds from any `clusters` of length `k` when every computed
index is below `k`, and keeps the number of clusters. -/
theorem assign_fold_ok (centroids : List Pixel) (k : Nat)
    (hk : ∀ p, (scanCentroids centroids p).2 < k) (pixels : List Pixel)
    (clusters : List (List Pixel)) (hlen : clusters.length = k) :
    ∃ out, pixels.foldlM
      (fun clusters p => appendToCluster clusters (scanCentroids centroids p).2 p) clusters
        = Except.ok out ∧ out.length = k := by
  induction pixels generalizing clusters with
  | nil => exact ⟨clusters, rfl, hlen⟩
  | cons p ps ih =>
    rw [List.foldlM_cons, appendToCluster_ok _ _ _ (by rw [hlen]; exact hk p)]
    exact ih _ (by simp [hlen])

theorem update_fold_length (clusters : List (List Pixel)) (is : List Nat) (centroids : List Pixel) :
    (is.foldl (updateStep clusters) centroids).length = centroids.length := by
  induction is generalizing centroids with
  | nil => rfl
  | cons i is ih =>
    rw [List.foldl_cons, ih]
    unfold updateStep
    split <;> simp

/-- The update loop keeps the number of centroids. -/
theorem update_length (centroids : List Pixel) (clusters : List (List Pixel)) (k : Nat) :
    (update centroids clusters k).length = centroids.length :=
  update_fold_length clusters (List.range k) centroids

/-- With `k >= 1` centroids, one pass of the loop body succeeds and returns `k` centroids. -/
theorem iterate_ok (pixels : List Pixel) (k : Nat) (centroids : List Pixel)
    (hk : 1 ≤ k) (hlen : centroids.length = k) :
    ∃ out, iterate pixels k centroids = Except.ok out ∧ out.length = k := by
  have hne : centroids ≠ [] := by
    intro h; rw [h] at hlen; simp at hlen; omega
  obtain ⟨cl, hcl, _⟩ := assign_fold_ok centroids k
    (fun p => hlen ▸ scanCentroids_lt centroids p hne) pixels (List.replicate k [])
    (by simp)
  refine ⟨update centroids cl k, ?_, ?_⟩
  · unfold iterate assign
    rw [hcl]; rfl
  · rw [update_length, hlen]

/-- With `k >= 1` centroids, any number of passes succeeds and returns `k` centroids. -/
theorem loop_ok (pixels : List Pixel) (k : Nat) (hk : 1 ≤ k) (n : Nat) (centroids : List Pixel)
    (hlen : centroids.length = k) :
    ∃ out, loop pixels k n centroids = Except.ok out ∧ out.length = k := by
  induction n generalizing centroids with
  | zero => exact ⟨centroids, rfl, hlen⟩
  | succ n ih =>
    obtain ⟨c1, h1, hl1⟩ := iterate_ok pixels k centroids hk hlen
    obtain ⟨out, h2, hl2⟩ := ih c1 hl1
    refine ⟨out, ?_, hl2⟩
    unfold loop
    rw [h1]; exact h2

/-- The seed step of `kmeans` for a natural `k` within the capacity. -/
theorem kmeans_eq_loop (pixels : PixelSlice) (k : Nat) (iterations : Int)
    (hk : k ≤ pixels.cap) :
    kmeans pixels (k : Int) iterations
      = loop pixels.elems k iterations.toNat ((pixels.elems ++ pixels.spare).take k) := by
  unfold kmeans
  have hf := pixels.fits
  have he : (k : Int).toNat = k := by omega
  have h1 : ¬ ((k : Int) < 0 ∨ maxAlloc < (k : Int).toNat * pixelSize) := by
    rw [he]
    unfold PixelSlice.cap at hk
    have := Nat.mul_le_mul_right pixelSize hk
    omega
  have h2 : ¬ (pixels.cap < (k : Int).toNat) := by omega
  rw [if_neg h1, if_neg h2, he]

/-- Without samples and without centroids the loop returns the empty centroid list. -/
theorem loop_nil_nil (n : Nat) : loop [] 0 n [] = Except.ok [] := by
  induction n with
  | zero => rfl
  | succ n ih =>
    unfold loop
    have h : iterate [] 0 [] = Except.ok [] := rfl
    rw [h]; exact ih

theorem len_le_cap (pixels : PixelSlice) : pixels.len ≤ pixels.cap := by
  unfold PixelSlice.len PixelSlice.cap; omega

/-- The seeds are the first `k` samples when `k` is at most the length of the slice. -/
theorem seed_eq_take (pixels : PixelSlice) (k : Nat) (hk : k ≤ pixels.len) :
    (pixels.elems ++ pixels.spare).take k = pixels.elems.take k := by
  unfold PixelSlice.len at hk
  exact List.take_append_of_le_length hk

/-! ## Claims on `kmeans` -/

/-- C1: for every sample slice and every `k` with `0 <= k <= len(samples)`,
`kmeans(samples, k, 0)` returns exactly the first `k` samples, in input order. -/
theorem kmeans_zero_iterations (pixels : PixelSlice) (k : Nat) (hk : k ≤ pixels.len) :
    kmeans pixels (k : Int) 0 = Except.ok (pixels.elems.take k) := by
  rw [kmeans_eq_loop pixels k 0 (le_trans hk (len_le_cap pixels)), seed_eq_take pixels k hk]
  rfl

/-- C3: for every sample slice, every `k` with `1 <= k <= len(samples)` and every iteration
count, `kmeans(samples, k, iterations)` returns a sequence of exactly `k` centroids. -/
theorem kmeans_returns_k (pixels : PixelSlice) (k : Nat) (iterations : Int)
    (h1 : 1 ≤ k) (hk : k ≤ pixels.len) :
    ∃ centroids, kmeans pixels (k : Int) iterations = Except.ok centroids ∧
      centroids.length = k := by
  rw [kmeans_eq_loop pixels k iterations (le_trans hk (len_le_cap pixels))]
  apply loop_ok pixels.elems k h1
  rw [seed_eq_take pixels k hk, List.length_take]
  unfold PixelSlice.len at hk
  omega

/-- C1 at a concrete input: two seeds out of three samples. -/
theorem kmeans_zero_iterations_witness :
    kmeans ⟨[⟨1, 2, 3⟩, ⟨4, 5, 6⟩, ⟨7, 8, 9⟩], [], by decide⟩ 2 0
      = Except.ok [⟨1, 2, 3⟩, ⟨4, 5, 6⟩] :=
  kmeans_zero_iterations ⟨[⟨1, 2, 3⟩, ⟨4, 5, 6⟩, ⟨7, 8, 9⟩], [], by decide⟩ 2 (by decide)

/-- C3 at a concrete input: three samples, `k = 2`, 4 iterations. -/
theorem kmeans_returns_k_witness :
    ∃ centroids, kmeans ⟨[⟨1, 2, 3⟩, ⟨4, 5, 6⟩, ⟨7, 8, 9⟩], [], by decide⟩ 2 4 = Except.ok centroids ∧
      centroids.length = 2 :=
  kmeans_returns_k ⟨[⟨1, 2, 3⟩, ⟨4, 5, 6⟩, ⟨7, 8, 9⟩], [], by decide⟩ 2 4 (by decide) (by decide)

/-- C4 fails as stated: with `k = 0` and `iterations = 0` on a one-sample slice, `kmeans` returns
the empty centroid list and raises no error. -/
theorem kmeans_k0_no_failure :
    kmeans ⟨[⟨1, 2, 3⟩], [], by decide⟩ 0 0 = Except.ok [] ∧
      ∀ e : Panic, kmeans ⟨[⟨1, 2, 3⟩], [], by decide⟩ 0 0 ≠ Except.error e := by
  have h : kmeans ⟨[⟨1, 2, 3⟩], [], by decide⟩ 0 0 = Except.ok [] := by decide!
  refine ⟨h, ?_⟩
  intro e he
  rw [h] at he
  cases he

/-- C4, amended: `kmeans` validates nothing itself and fails only through the panics of the Go
run time. For every sample slice and iteration count: with `k < 0`, and with `k` so large that
`k` pixels exceed `maxAlloc`, it panics at `make([]Pixel, k)` (makeslice: len out of range);
with any other `k > cap(pixels)` it panics at the seed step `pixels[:k]` (slice bounds out of
range); both before any part of the clustering. With `k = 0` it panics at the first assignment
`clusters[minIdx]` (index out of range) when `iterations >= 1` and there is a sample, and
returns the empty centroid list otherwise. -/
theorem kmeans_invalid_k (pixels : PixelSlice) (iterations : Int) :
    (∀ k : Int, k < 0 →
      kmeans pixels k iterations = Except.error Panic.makesliceLenOutOfRange) ∧
    (∀ k : Int, (maxAlloc : Int) < k * (pixelSize : Int) →
      kmeans pixels k iterations = Except.error Panic.makesliceLenOutOfRange) ∧
    (∀ k : Int, (pixels.cap : Int) < k → k * (pixelSize : Int) ≤ (maxAlloc : Int) →
      kmeans pixels k iterations = Except.error Panic.sliceBoundsOutOfRange) ∧
    kmeans pixels 0 iterations =
      (if 1 ≤ iterations ∧ pixels.elems ≠ [] then Except.error Panic.indexOutOfRange
       else Except.ok []) := by
  have hps : (0 : Int) < (pixelSize : Int) := by decide
  refine ⟨?_, ?_, ?_, ?_⟩
  · intro k hk
    unfold kmeans
    rw [if_pos (Or.inl hk)]
  · intro k hm
    unfold kmeans
    have hk0 : 0 ≤ k := by
      by_contra hneg
      have : k * (pixelSize : Int) ≤ 0 :=
        Int.mul_nonpos_of_nonpos_of_nonneg (by omega) (le_of_lt hps)
      have : (0 : Int) ≤ (maxAlloc : Int) := Int.ofNat_nonneg _
      omega
    have hcast : ((k.toNat * pixelSize : Nat) : Int) = k * (pixelSize : Int) := by
      rw [Nat.cast_mul, Int.toNat_of_nonneg hk0]
    have hm2 : maxAlloc < k.toNat * pixelSize := by
      rw [← hcast] at hm; exact_mod_cast hm
    rw [if_pos (Or.inr hm2)]
  · intro k hk hm
    unfold kmeans
    have hc : pixels.cap < k.toNat := by omega
    have hcast : ((k.toNat * pixelSize : Nat) : Int) = k * (pixelSize : Int) := by
      rw [Nat.cast_mul, Int.toNat_of_nonneg (by omega)]
    have hm2 : ¬ (k < 0 ∨ maxAlloc < k.toNat * pixelSize) := by
      intro h
      rcases h with h | h
      · omega
      · have h3 : (maxAlloc : Int) < ((k.toNat * pixelSize : Nat) : Int) := by exact_mod_cast h
        rw [hcast] at h3
        omega
    rw [if_neg hm2, if_pos hc]
  · have h := kmeans_eq_loop pixels 0 iterations (Nat.zero_le _)
    rw [Nat.cast_zero] at h
    rw [h, List.take_zero]
    by_cases hit : 1 ≤ iterations
    · obtain ⟨n, hn⟩ : ∃ n : Nat, iterations.toNat = n + 1 := ⟨iterations.toNat - 1, by omega⟩
      rw [hn]
      cases hp : pixels.elems with
      | nil =>
        simp only [hit, ne_eq, not_true_eq_false, and_false, if_false]
        exact loop_nil_nil (n + 1)
      | cons p ps =>
        simp only [hit, ne_eq, reduceCtorEq, not_false_eq_true, and_self, if_true]
        unfold loop iterate assign
        rw [List.foldlM_cons]
        rfl
    · have h0 : iterations.toNat = 0 := by omega
      simp only [hit, false_and, if_false, h0]
      rfl

/-- C4, amended, at concrete inputs: `k = -1`, `k = 2 ^ 62` and `k = 3` on a slice of capacity
2, and `k = 0` with one sample and one iteration. -/
theorem kmeans_invalid_k_witness :
    kmeans ⟨[⟨1, 2, 3⟩, ⟨4, 5, 6⟩], [], by decide⟩ (-1) 7
      = Except.error Panic.makesliceLenOutOfRange ∧
    kmeans ⟨[⟨1, 2, 3⟩, ⟨4, 5, 6⟩], [], by decide⟩ (2 ^ 62) 7
      = Except.error Panic.makesliceLenOutOfRange ∧
    kmeans ⟨[⟨1, 2, 3⟩, ⟨4, 5, 6⟩], [], by decide⟩ 3 7
      = Except.error Panic.sliceBoundsOutOfRange ∧
    kmeans ⟨[⟨1, 2, 3⟩], [], by decide⟩ 0 1 = Except.error Panic.indexOutOfRange :=
  ⟨(kmeans_invalid_k ⟨[⟨1, 2, 3⟩, ⟨4, 5, 6⟩], [], by decide⟩ 7).1 (-1) (by decide),
   (kmeans_invalid_k ⟨[⟨1, 2, 3⟩, ⟨4, 5, 6⟩], [], by decide⟩ 7).2.1 (2 ^ 62) (by decide),
   (kmeans_invalid_k ⟨[⟨1, 2, 3⟩, ⟨4, 5, 6⟩], [], by decide⟩ 7).2.2.1 3 (by decide)
     (by decide),
   (kmeans_invalid_k ⟨[⟨1, 2, 3⟩], [], by decide⟩ 1).2.2.2⟩

/-! ## Lemmas on `distance` -/

/-- The square of `distance(a, b)` in closed form. -/
theorem distance_sq (a b : Pixel) :
    (distance a b).sq = (a.c0 - b.c0) * (a.c0 - b.c0) + (a.c1 - b.c1) * (a.c1 - b.c1)
      + (a.c2 - b.c2) * (a.c2 - b.c2) := by
  simp [distance, idx3, Pixel.get]

/-- The inequality of Cauchy and Schwarz in dimension 3. -/
theorem cauchy3 (u0 u1 u2 v0 v1 v2 : ℝ) :
    (u0 * v0 + u1 * v1 + u2 * v2) ^ 2
      ≤ (u0 * u0 + u1 * u1 + u2 * u2) * (v0 * v0 + v1 * v1 + v2 * v2) := by
  nlinarith [sq_nonneg (u0 * v1 - u1 * v0), sq_nonneg (u0 * v2 - u2 * v0),
    sq_nonneg (u1 * v2 - u2 * v1)]

/-! ## Claims on `distance` -/

/-- C9: for all pixels `a` and `b`, `distance(a, b) >= 0`, `distance(a, b) = distance(b, a)` and
`distance(a, a) = 0`. -/
theorem distance_nonneg_symm_self (a b : Pixel) :
    0 ≤ (distance a b).toReal ∧ (distance a b).toReal = (distance b a).toReal ∧
      (distance a a).toReal = 0 := by
  refine ⟨Real.sqrt_nonneg _, ?_, ?_⟩
  · have h : (distance a b).sq = (distance b a).sq := by
      rw [distance_sq, distance_sq]; ring
    unfold Sqrt.toReal
    rw [h]
  · have h : (distance a a).sq = 0 := by
      rw [distance_sq]; ring
    unfold Sqrt.toReal
    rw [h]
    simp

/-- Claim C10, amended: in exact arithmetic, `distance` satisfies the triangle inequality:
for all pixels `a`, `b`, `c`, `distance(a, c) <= distance(a, b) + distance(b, c)`, on the real
values of the three square roots. -/
theorem distance_triangle (a b c : Pixel) :
    (distance a c).toReal ≤ (distance a b).toReal + (distance b c).toReal := by
  unfold Sqrt.toReal
  rw [distance_sq, distance_sq, distance_sq]
  push_cast
  set u0 : ℝ := (a.c0 : ℝ) - b.c0
  set u1 : ℝ := (a.c1 : ℝ) - b.c1
  set u2 : ℝ := (a.c2 : ℝ) - b.c2
  set v0 : ℝ := (b.c0 : ℝ) - c.c0
  set v1 : ℝ := (b.c1 : ℝ) - c.c1
  set v2 : ℝ := (b.c2 : ℝ) - c.c2
  have e0 : (a.c0 : ℝ) - c.c0 = u0 + v0 := by simp only [u0, v0]; ring
  have e1 : (a.c1 : ℝ) - c.c1 = u1 + v1 := by simp only [u1, v1]; ring
  have e2 : (a.c2 : ℝ) - c.c2 = u2 + v2 := by simp only [u2, v2]; ring
  rw [e0, e1, e2]
  have hy : 0 ≤ u0 * u0 + u1 * u1 + u2 * u2 := by
    nlinarith [mul_self_nonneg u0, mul_self_nonneg u1, mul_self_nonneg u2]
  have hz : 0 ≤ v0 * v0 + v1 * v1 + v2 * v2 := by
    nlinarith [mul_self_nonneg v0, mul_self_nonneg v1, mul_self_nonneg v2]
  have hcs : u0 * v0 + u1 * v1 + u2 * v2
      ≤ Real.sqrt (u0 * u0 + u1 * u1 + u2 * u2) * Real.sqrt (v0 * v0 + v1 * v1 + v2 * v2) := by
    rw [← Real.sqrt_mul hy]
    exact le_trans (le_abs_self _) (Real.abs_le_sqrt (cauchy3 u0 u1 u2 v0 v1 v2))
  rw [Real.sqrt_le_iff]
  refine ⟨add_nonneg (Real.sqrt_nonneg _) (Real.sqrt_nonneg _), ?_⟩
  have sy := Real.sq_sqrt hy
  have sz := Real.sq_sqrt hz
  nlinarith [sy, sz, hcs]

/-! ## The passes of `kmeans` one by one -/

theorem Sqrt.lt_def (x y : Sqrt) : x < y ↔ x.sq < y.sq := Iff.rfl

theorem loop_zero (pixels : List Pixel) (k : Nat) (centroids : List Pixel) :
    loop pixels k 0 centroids = Except.ok centroids := rfl

theorem loop_succ_front (pixels : List Pixel) (k : Nat) (n : Nat) (centroids : List Pixel) :
    loop pixels k (n + 1) centroids
      = (iterate pixels k centroids).bind (loop pixels k n) := by
  rw [loop]; rfl

/-- The pass number `n + 1` is applied to the result of the first `n` passes. -/
theorem loop_succ (pixels : List Pixel) (k : Nat) (n : Nat) (centroids : List Pixel) :
    loop pixels k (n + 1) centroids
      = (loop pixels k n centroids).bind (iterate pixels k) := by
  induction n generalizing centroids with
  | zero =>
    rw [loop_succ_front, loop_zero]
    show (iterate pixels k centroids).bind (loop pixels k 0) = iterate pixels k centroids
    cases h : iterate pixels k centroids with
    | error e => rfl
    | ok c => rfl
  | succ n ih =>
    rw [loop_succ_front]
    conv_rhs => rw [loop_succ_front]
    cases h : iterate pixels k centroids with
    | error e => rfl
    | ok c =>
      show loop pixels k (n + 1) c = (loop pixels k n c).bind (iterate pixels k)
      exact ih c

/-- The function `kmeans` for natural `k <= len(pixels)` and a natural number of iterations. -/
theorem kmeans_nat (pixels : PixelSlice) (k n : Nat) (hk : k ≤ pixels.len) :
    kmeans pixels (k : Int) (n : Int) = loop pixels.elems k n (pixels.elems.take k) := by
  rw [kmeans_eq_loop pixels k n (le_trans hk (len_le_cap pixels)), seed_eq_take pixels k hk]
  rfl

theorem kmeans_nat_succ (pixels : PixelSlice) (k n : Nat) (hk : k ≤ pixels.len) :
    kmeans pixels (k : Int) ((n : Int) + 1)
      = loop pixels.elems k (n + 1) (pixels.elems.take k) := by
  rw [kmeans_eq_loop pixels k _ (le_trans hk (len_le_cap pixels)), seed_eq_take pixels k hk]
  have e : ((n : Int) + 1).toNat = n + 1 := by omega
  rw [e]

/-- After `n` iterations that gave `centroids`, the result of `n + 1` iterations is one more
pass from `centroids`. -/
theorem kmeans_step (pixels : PixelSlice) (k n : Nat) (hk : k ≤ pixels.len)
    (centroids : List Pixel) (h : kmeans pixels (k : Int) (n : Int) = Except.ok centroids) :
    kmeans pixels (k : Int) ((n : Int) + 1) = iterate pixels.elems k centroids := by
  rw [kmeans_nat pixels k n hk] at h
  rw [kmeans_nat_succ pixels k n hk, loop_succ, h]
  rfl

/-- The centroids returned after `n` iterations are `k`, for `1 <= k <= len(pixels)`. -/
theorem kmeans_length (pixels : PixelSlice) (k n : Nat) (h1 : 1 ≤ k) (hk : k ≤ pixels.len)
    (centroids : List Pixel) (h : kmeans pixels (k : Int) (n : Int) = Except.ok centroids) :
    centroids.length = k := by
  rw [kmeans_nat pixels k n hk] at h
  obtain ⟨out, ho, hl⟩ := loop_ok pixels.elems k h1 n (pixels.elems.take k) (by
    rw [List.length_take]; unfold PixelSlice.len at hk; omega)
  rw [ho] at h
  cases h
  exact hl

/-! ## The scan of the centroids -/

/-- The scan of the centroids from the state `st`: the final `minDist` is at most the initial
one and at most every distance; either nothing changed and no distance was below the initial
`minDist`, or the final state is the first centroid at the least distance. -/
theorem scan_foldl_spec (p : Pixel) (cs : List Pixel) :
    ∀ (n : Nat) (st : Sqrt × Nat),
      (∀ c ∈ cs, ¬ (distance p c < ((cs.enumFrom n).foldl (scanStep p) st).1)) ∧
      ¬ (st.1 < ((cs.enumFrom n).foldl (scanStep p) st).1) ∧
      (((cs.enumFrom n).foldl (scanStep p) st = st ∧ ∀ c ∈ cs, ¬ (distance p c < st.1)) ∨
        ∃ t, t < cs.length ∧ ((cs.enumFrom n).foldl (scanStep p) st).2 = n + t ∧
          ((cs.enumFrom n).foldl (scanStep p) st).1 = distance p (cs.getD t p) ∧
          ((cs.enumFrom n).foldl (scanStep p) st).1 < st.1 ∧
          ∀ c ∈ cs.take t, ((cs.enumFrom n).foldl (scanStep p) st).1 < distance p c) := by
  induction cs with
  | nil =>
    intro n st
    refine ⟨fun c hc => (by cases hc), ?_, Or.inl ⟨rfl, fun c hc => (by cases hc)⟩⟩
    simp [Sqrt.lt_def]
  | cons c cs ih =>
    intro n st
    simp only [List.enumFrom_cons, List.foldl_cons, List.length_cons]
    by_cases h : distance p c < st.1
    · have hs : scanStep p st (n, c) = (distance p c, n) := by simp [scanStep, h]
      rw [hs]
      obtain ⟨i1, i2, i3⟩ := ih (n + 1) (distance p c, n)
      generalize (cs.enumFrom (n + 1)).foldl (scanStep p) (distance p c, n) = r at i1 i2 i3
      simp only [Sqrt.lt_def] at i1 i2 i3 h ⊢
      refine ⟨?_, ?_, Or.inr ?_⟩
      · intro c' hc'
        rcases List.mem_cons.mp hc' with e | e
        · rw [e]; exact i2
        · exact i1 c' e
      · intro hlt; apply i2; linarith
      · rcases i3 with ⟨e, _⟩ | ⟨t, ht, e1, e2, e3, e4⟩
        · refine ⟨0, by omega, by rw [e]; rfl, by rw [e]; rfl, by rw [e]; exact h, ?_⟩
          intro c' hc'
          simp at hc'
        · refine ⟨t + 1, by omega, by rw [e1]; omega, by rw [e2]; rfl, by linarith, ?_⟩
          intro c' hc'
          rw [List.take_succ_cons] at hc'
          rcases List.mem_cons.mp hc' with e | e
          · rw [e]; exact e3
          · exact e4 c' e
    · have hs : scanStep p st (n, c) = st := by simp [scanStep, h]
      rw [hs]
      obtain ⟨i1, i2, i3⟩ := ih (n + 1) st
      generalize (cs.enumFrom (n + 1)).foldl (scanStep p) st = r at i1 i2 i3
      simp only [Sqrt.lt_def] at i1 i2 i3 h ⊢
      refine ⟨?_, i2, ?_⟩
      · intro c' hc'
        rcases List.mem_cons.mp hc' with e | e
        · rw [e]; intro hlt; apply h; linarith [not_lt.mp i2]
        · exact i1 c' e
      · rcases i3 with ⟨e, e0⟩ | ⟨t, ht, e1, e2, e3, e4⟩
        · left
          refine ⟨e, ?_⟩
          intro c' hc'
          rcases List.mem_cons.mp hc' with e' | e'
          · rw [e']; exact h
          · exact e0 c' e'
        · right
          refine ⟨t + 1, by omega, by rw [e1]; omega, by rw [e2]; rfl, e3, ?_⟩
          intro c' hc'
          rw [List.take_succ_cons] at hc'
          rcases List.mem_cons.mp hc' with e | e
          · rw [e]; linarith [not_lt.mp h]
          · exact e4 c' e

/-! ## One pass of `kmeans` in closed form -/

theorem minIdx_lt (cs : List Pixel) (p : Pixel) (h : cs ≠ []) : minIdx cs p < cs.length :=
  scanCentroids_lt cs p h

theorem assignedTo_cons (cs : List Pixel) (p : Pixel) (ps : List Pixel) (i : Nat) :
    assignedTo cs (p :: ps) i
      = if minIdx cs p = i then p :: assignedTo cs ps i else assignedTo cs ps i := by
  unfold assignedTo
  rw [List.filter_cons]
  by_cases h : minIdx cs p = i <;> simp [h]

theorem getD_set_nil (clusters : List (List Pixel)) (m i : Nat) (v : List Pixel)
    (hm : m < clusters.length) :
    (clusters.set m v).getD i [] = if i = m then v else clusters.getD i [] := by
  rw [List.getD_eq_getElem?_getD, List.getD_eq_getElem?_getD, List.getElem?_set]
  by_cases h : m = i
  · subst h; simp [hm]
  · have h2 : ¬ i = m := fun e => h e.symm
    simp [h, h2]

/-- The pass over the samples from any `clusters` of length `k` appends to each cluster the
samples whose `minIdx` is the index of the cluster. -/
theorem assign_fold_getD (cs : List Pixel) (k : Nat) (hk : ∀ p, minIdx cs p < k)
    (pixels : List Pixel) :
    ∀ (clusters : List (List Pixel)), clusters.length = k →
      ∃ out, pixels.foldlM
          (fun clusters p => appendToCluster clusters (scanCentroids cs p).2 p) clusters
            = Except.ok out ∧ out.length = k ∧
        ∀ i, out.getD i [] = clusters.getD i [] ++ assignedTo cs pixels i := by
  induction pixels with
  | nil =>
    intro clusters hlen
    exact ⟨clusters, rfl, hlen, fun i => by simp [assignedTo]⟩
  | cons p ps ih =>
    intro clusters hlen
    have hm : (scanCentroids cs p).2 < clusters.length := by rw [hlen]; exact hk p
    rw [List.foldlM_cons, appendToCluster_ok _ _ _ hm]
    obtain ⟨out, h1, h2, h3⟩ := ih (clusters.set (scanCentroids cs p).2
      (clusters.getD (scanCentroids cs p).2 [] ++ [p])) (by simp [hlen])
    refine ⟨out, h1, h2, fun i => ?_⟩
    rw [h3 i, getD_set_nil _ _ _ _ hm, assignedTo_cons]
    show _ = clusters.getD i [] ++ if (scanCentroids cs p).2 = i then _ else _
    by_cases h : i = (scanCentroids cs p).2
    · rw [if_pos h, if_pos h.symm, h]; simp
    · rw [if_neg h, if_neg (fun e => h e.symm)]

/-- The assignment loop in closed form. -/
theorem assign_eq (pixels cs : List Pixel) (k : Nat) (hk : ∀ p, minIdx cs p < k) :
    assign pixels cs k = Except.ok ((List.range k).map (assignedTo cs pixels)) := by
  obtain ⟨out, h1, h2, h3⟩ := assign_fold_getD cs k hk pixels (List.replicate k []) (by simp)
  unfold assign
  rw [h1]
  congr 1
  apply List.ext_getElem (by simp [h2])
  intro i hi1 hi2
  have e := h3 i
  rw [List.getD_eq_getElem?_getD, List.getElem?_eq_getElem hi1] at e
  simp only [Option.getD_some] at e
  rw [e]
  simp

theorem updateStep_eq (clusters : List (List Pixel)) (centroids : List Pixel) (i : Nat) :
    updateStep clusters centroids i
      = if (clusters.getD i []).length > 0 then
          centroids.set i (averagePixels (clusters.getD i []))
        else centroids := rfl

/-- The first `n` rounds of the update loop replace the first `n` centroids. -/
theorem update_fold_getElem? (cs : List Pixel) (clusters : List (List Pixel))
    (hlen : clusters.length = cs.length) (n : Nat) (hn : n ≤ cs.length) :
    ∀ i, ((List.range n).foldl (updateStep clusters) cs)[i]?
      = if i < n then (List.zipWith newCentroid cs clusters)[i]? else cs[i]? := by
  induction n with
  | zero => intro i; simp
  | succ n ih =>
    intro i
    have ih := ih (by omega)
    rw [List.range_succ, List.foldl_append]
    simp only [List.foldl_cons, List.foldl_nil]
    have hl : ((List.range n).foldl (updateStep clusters) cs).length = cs.length :=
      update_fold_length clusters (List.range n) cs
    have hn1 : n < cs.length := by omega
    have hn2 : n < clusters.length := by omega
    have hz : (List.zipWith newCentroid cs clusters)[n]?
        = some (newCentroid cs[n] clusters[n]) := by
      rw [List.getElem?_eq_getElem (by simp; omega)]
      simp
    have hg : clusters.getD n [] = clusters[n] := by
      rw [List.getD_eq_getElem?_getD, List.getElem?_eq_getElem hn2]; rfl
    rw [updateStep_eq]
    by_cases hc : (clusters.getD n []).length > 0
    · rw [if_pos hc, List.getElem?_set]
      by_cases hi : n = i
      · subst hi
        rw [if_pos rfl, if_pos (by omega), if_pos (by omega), hz]
        unfold newCentroid
        rw [← hg, if_pos hc]
      · rw [if_neg hi, ih i]
        by_cases h1 : i < n
        · rw [if_pos h1, if_pos (by omega)]
        · rw [if_neg h1, if_neg (by omega)]
    · rw [if_neg hc, ih i]
      by_cases hi : n = i
      · subst hi
        rw [if_neg (by omega), if_pos (by omega), hz]
        unfold newCentroid
        rw [← hg, if_neg hc, List.getElem?_eq_getElem]
      · by_cases h1 : i < n
        · rw [if_pos h1, if_pos (by omega)]
        · rw [if_neg h1, if_neg (by omega)]

/-- The update loop in closed form. -/
theorem update_eq (cs : List Pixel) (clusters : List (List Pixel))
    (hlen : clusters.length = cs.length) :
    update cs clusters cs.length = List.zipWith newCentroid cs clusters := by
  apply List.ext_getElem?
  intro i
  unfold update
  rw [update_fold_getElem? cs clusters hlen cs.length (le_refl _) i]
  by_cases h : i < cs.length
  · rw [if_pos h]
  · rw [if_neg h, List.getElem?_eq_none (by omega), List.getElem?_eq_none (by simp; omega)]

/-- One pass of the loop body of `kmeans` in closed form: each centroid is replaced by the
average of the samples assigned to it when there are some, and kept otherwise. -/
theorem iterate_eq (pixels cs : List Pixel) (h : cs ≠ []) :
    iterate pixels cs.length cs = Except.ok
      (List.zipWith newCentroid cs ((List.range cs.length).map (assignedTo cs pixels))) := by
  unfold iterate
  rw [assign_eq pixels cs cs.length (fun p => minIdx_lt cs p h)]
  show Except.ok (update cs _ cs.length) = _
  rw [update_eq cs _ (by simp)]

theorem iterate_getElem? (pixels cs : List Pixel) (i : Nat) (hi : i < cs.length) :
    (List.zipWith newCentroid cs ((List.range cs.length).map (assignedTo cs pixels)))[i]?
      = some (newCentroid cs[i] (assignedTo cs pixels i)) := by
  rw [List.getElem?_eq_getElem (by simp; omega)]
  simp

theorem nextCentroids_length (cs pixels : List Pixel) :
    (nextCentroids cs pixels).length = cs.length := by
  simp [nextCentroids]

theorem nextCentroids_getElem? (cs pixels : List Pixel) (i : Nat) (hi : i < cs.length) :
    (nextCentroids cs pixels)[i]? = some (newCentroid cs[i] (assignedTo cs pixels i)) :=
  iterate_getElem? pixels cs i hi

/-- After `n` iterations that gave `centroids`, `n + 1` iterations give the centroids of one
more pass, for `1 <= k <= len(pixels)`. -/
theorem kmeans_next (pixels : PixelSlice) (k n : Nat) (h1 : 1 ≤ k) (hk : k ≤ pixels.len)
    (centroids : List Pixel) (h : kmeans pixels (k : Int) (n : Int) = Except.ok centroids) :
    kmeans pixels (k : Int) ((n : Int) + 1)
      = Except.ok (nextCentroids centroids pixels.elems) := by
  have hl := kmeans_length pixels k n h1 hk centroids h
  have hne : centroids ≠ [] := by
    intro e; rw [e] at hl; simp at hl; omega
  rw [kmeans_step pixels k n hk centroids h, ← hl]
  exact iterate_eq pixels.elems centroids hne

/-! ## Consequences of the scan -/

theorem mem_take_of_lt (cs : List Pixel) (p : Pixel) (i t : Nat) (hit : i < t)
    (ht : t ≤ cs.length) : cs.getD i p ∈ cs.take t := by
  have hi : i < (cs.take t).length := by rw [List.length_take]; omega
  have e : (cs.take t)[i] = cs.getD i p := by
    rw [List.getElem_take, List.getD_eq_getElem?_getD, List.getElem?_eq_getElem (by omega)]
    rfl
  rw [← e]
  exact List.getElem_mem hi

/-- A centroid equal to a centroid of lower index is never the `minIdx` of a sample. -/
theorem minIdx_ne_of_dup (cs : List Pixel) (p : Pixel) (i j : Nat) (hij : i < j)
    (hj : j < cs.length) (he : cs.getD i p = cs.getD j p) : minIdx cs p ≠ j := by
  obtain ⟨_, _, i3⟩ := scan_foldl_spec p cs 0 (Sqrt.ofFloat MaxFloat64, 0)
  unfold minIdx scanCentroids List.enum
  generalize (cs.enumFrom 0).foldl (scanStep p) (Sqrt.ofFloat MaxFloat64, 0) = r at i3
  rcases i3 with ⟨e, _⟩ | ⟨t, ht, e1, e2, _, e4⟩
  · rw [e]; show 0 ≠ j; omega
  · rw [Nat.zero_add] at e1
    rw [e1]
    intro htj
    subst htj
    have := e4 _ (mem_take_of_lt cs p i t hij (le_of_lt hj))
    rw [e2, he, Sqrt.lt_def] at this
    exact lt_irrefl _ this

/-! ## More on `averagePixels` and `distance` -/

/-- In exact arithmetic the result of `averagePixels` does not depend on the order of the
slice. -/
theorem averagePixels_perm (l1 l2 : List Pixel) (h : l1.Perm l2) :
    averagePixels l1 = averagePixels l2 := by
  rw [averagePixels_eq, averagePixels_eq, (h.map Pixel.c0).sum_eq, (h.map Pixel.c1).sum_eq,
    (h.map Pixel.c2).sum_eq, h.length_eq]

/-! ## Invariants of the loop of `kmeans` -/

/-- With `k >= 1` centroids, one pass of the loop body returns `nextCentroids`. -/
theorem iterate_next (pixels cs : List Pixel) (k : Nat) (h1 : 1 ≤ k) (hl : cs.length = k) :
    iterate pixels k cs = Except.ok (nextCentroids cs pixels) := by
  have hne : cs ≠ [] := by
    intro e; rw [e] at hl; simp at hl; omega
  subst hl
  exact iterate_eq pixels cs hne

/-- A pass of the loop body that returns keeps the number of centroids. -/
theorem iterate_length (pixels cs : List Pixel) (k : Nat) (out : List Pixel)
    (h : iterate pixels k cs = Except.ok out) : out.length = cs.length := by
  unfold iterate at h
  cases ha : assign pixels cs k with
  | error e => rw [ha] at h; cases h
  | ok clusters =>
    rw [ha] at h
    have e : Except.ok (update cs clusters k) = (Except.ok out : Except Panic (List Pixel)) := h
    cases e
    exact update_length cs clusters k

/-- Two slices of samples on which every pass agrees give the same result of the loop. -/
theorem loop_congr (pixels1 pixels2 : List Pixel) (k : Nat)
    (hstep : ∀ cs, cs.length = k → iterate pixels1 k cs = iterate pixels2 k cs) :
    ∀ (n : Nat) (cs : List Pixel), cs.length = k →
      loop pixels1 k n cs = loop pixels2 k n cs := by
  intro n
  induction n with
  | zero => intro cs _; rfl
  | succ n ih =>
    intro cs hl
    rw [loop_succ_front, loop_succ_front, hstep cs hl]
    cases hi : iterate pixels2 k cs with
    | error e => rfl
    | ok out =>
      have hlo := iterate_length pixels2 cs k out hi
      exact ih out (by rw [hlo, hl])

/-- The function `kmeans` with `k` at most the length of the slice is the loop started from
the first `k` samples. -/
theorem kmeans_int (pixels : PixelSlice) (k : Nat) (iterations : Int) (hk : k ≤ pixels.len) :
    kmeans pixels (k : Int) iterations
      = loop pixels.elems k iterations.toNat (pixels.elems.take k) := by
  rw [kmeans_eq_loop pixels k iterations (le_trans hk (len_le_cap pixels)),
    seed_eq_take pixels k hk]

theorem length_seeds (pixels : PixelSlice) (k : Nat) (hk : k ≤ pixels.len) :
    (pixels.elems.take k).length = k := by
  rw [List.length_take]; unfold PixelSlice.len at hk; omega

/-- A list with the elements of `nextCentroids`. -/
theorem nextCentroids_ext (cs pixels out : List Pixel) (hl : out.length = cs.length)
    (h : ∀ (i : Nat) (hi : i < cs.length),
      out[i]? = some (newCentroid cs[i] (assignedTo cs pixels i))) :
    nextCentroids cs pixels = out := by
  apply List.ext_getElem?
  intro i
  by_cases hi : i < cs.length
  · rw [nextCentroids_getElem? cs pixels i hi, h i hi]
  · rw [List.getElem?_eq_none (by rw [nextCentroids_length]; omega),
      List.getElem?_eq_none (by omega)]

theorem mem_assignedTo (cs pixels : List Pixel) (i : Nat) (p : Pixel) :
    p ∈ assignedTo cs pixels i ↔ p ∈ pixels ∧ minIdx cs p = i := by
  unfold assignedTo
  rw [List.mem_filter, decide_eq_true_iff]

/-! ### The least value of a fold -/

theorem foldl_min_le {α : Type} (f : α → ℚ) (l : List α) (a : ℚ) :
    l.foldl (fun m x => min m (f x)) a ≤ a ∧
      ∀ x ∈ l, l.foldl (fun m x => min m (f x)) a ≤ f x := by
  induction l generalizing a with
  | nil => simp
  | cons y l ih =>
    rw [List.foldl_cons]
    obtain ⟨h1, h2⟩ := ih (min a (f y))
    refine ⟨le_trans h1 (min_le_left _ _), ?_⟩
    intro x hx
    rcases List.mem_cons.mp hx with e | hx
    · rw [e]; exact le_trans h1 (min_le_right _ _)
    · exact h2 x hx

theorem foldl_min_mem {α : Type} (f : α → ℚ) (l : List α) (a : ℚ) :
    l.foldl (fun m x => min m (f x)) a = a ∨
      ∃ x ∈ l, l.foldl (fun m x => min m (f x)) a = f x := by
  induction l generalizing a with
  | nil => left; rfl
  | cons y l ih =>
    rw [List.foldl_cons]
    rcases ih (min a (f y)) with h | ⟨x, hx, h⟩
    · rcases min_choice a (f y) with e | e
      · left; rw [h, e]
      · right; exact ⟨y, List.mem_cons_self _ _, by rw [h, e]⟩
    · right; exact ⟨x, List.mem_cons_of_mem _ hx, h⟩

/-! ### The order of the samples -/

theorem assignedTo_perm (cs pixels1 pixels2 : List Pixel) (h : pixels1.Perm pixels2)
    (i : Nat) : (assignedTo cs pixels1 i).Perm (assignedTo cs pixels2 i) :=
  h.filter _

theorem newCentroid_perm (c : Pixel) (l1 l2 : List Pixel) (h : l1.Perm l2) :
    newCentroid c l1 = newCentroid c l2 := by
  unfold newCentroid
  rw [h.length_eq, averagePixels_perm l1 l2 h]

/-- A pass does not depend on the order of the samples. -/
theorem nextCentroids_perm (cs pixels1 pixels2 : List Pixel) (h : pixels1.Perm pixels2) :
    nextCentroids cs pixels1 = nextCentroids cs pixels2 := by
  apply nextCentroids_ext cs pixels1 _ (nextCentroids_length cs pixels2)
  intro i hi
  rw [nextCentroids_getElem? cs pixels2 i hi,
    newCentroid_perm cs[i] _ _ (assignedTo_perm cs pixels1 pixels2 h i)]

/-- Without centroids, a pass returns when there is no sample and fails when there is one. -/
theorem iterate_zero (pixels : List Pixel) :
    iterate pixels 0 [] = if pixels = [] then Except.ok [] else
      Except.error Panic.indexOutOfRange := by
  cases pixels with
  | nil => rfl
  | cons p ps =>
    rw [if_neg (by simp)]
    unfold iterate assign
    rw [List.foldlM_cons]
    rfl

theorem iterate_perm (pixels1 pixels2 : List Pixel) (h : pixels1.Perm pixels2) (k : Nat)
    (cs : List Pixel) (hl : cs.length = k) :
    iterate pixels1 k cs = iterate pixels2 k cs := by
  rcases Nat.eq_zero_or_pos k with h0 | hpos
  · subst h0
    have e : cs = [] := List.length_eq_zero.mp hl
    subst e
    rw [iterate_zero, iterate_zero]
    by_cases hp : pixels1 = []
    · have hp2 : pixels2 = [] := by
        subst hp; exact List.Perm.eq_nil (h.symm)
      rw [if_pos hp, if_pos hp2]
    · have hp2 : pixels2 ≠ [] := by
        intro e; subst e; exact hp (List.Perm.eq_nil h)
      rw [if_neg hp, if_neg hp2]
  · rw [iterate_next pixels1 cs k hpos hl, iterate_next pixels2 cs k hpos hl,
      nextCentroids_perm cs pixels1 pixels2 h]

/-- The result of `kmeans` depends on the order of the samples only through the seeds. -/
theorem kmeans_perm (pixels1 pixels2 : PixelSlice) (k : Nat) (hk : k ≤ pixels2.len)
    (htake : pixels1.elems.take k = pixels2.elems.take k)
    (hdrop : (pixels1.elems.drop k).Perm (pixels2.elems.drop k)) (iterations : Int) :
    kmeans pixels1 (k : Int) iterations = kmeans pixels2 (k : Int) iterations := by
  have hperm : pixels1.elems.Perm pixels2.elems := by
    rw [← List.take_append_drop k pixels1.elems, ← List.take_append_drop k pixels2.elems, htake]
    exact List.Perm.append_left _ hdrop
  have hk1 : k ≤ pixels1.len := by
    unfold PixelSlice.len at hk ⊢
    rw [hperm.length_eq]; exact hk
  rw [kmeans_int pixels1 k iterations hk1, kmeans_int pixels2 k iterations hk, htake]
  exact loop_congr pixels1.elems pixels2.elems k
    (fun cs hl => iterate_perm _ _ hperm k cs hl) _ _ (length_seeds pixels2 k hk)

/-! ## The clustering cost -/

theorem nearestSq_le (cs : List Pixel) (p c : Pixel) (h : c ∈ cs) :
    nearestSq cs p ≤ (distance p c).sq := by
  cases cs with
  | nil => cases h
  | cons c0 cs =>
    obtain ⟨h1, h2⟩ := foldl_min_le (fun c => (distance p c).sq) cs (distance p c0).sq
    rcases List.mem_cons.mp h with e | hc
    · rw [e]; exact h1
    · exact h2 c hc

theorem nearestSq_mem (cs : List Pixel) (p : Pixel) (h : cs ≠ []) :
    ∃ c ∈ cs, nearestSq cs p = (distance p c).sq := by
  cases cs with
  | nil => exact absurd rfl h
  | cons c0 cs =>
    rcases foldl_min_mem (fun c => (distance p c).sq) cs (distance p c0).sq with e | ⟨c, hc, e⟩
    · exact ⟨c0, List.mem_cons_self _ _, e⟩
    · exact ⟨c, List.mem_cons_of_mem _ hc, e⟩

/-- The sum of the squared distances from the elements of a slice to a pixel `c`, developed
in `c`. -/
theorem sum_sq_expand (l : List Pixel) (c : Pixel) :
    (l.map (fun p => (distance p c).sq)).sum
      = (l.map (fun p => p.c0 * p.c0 + p.c1 * p.c1 + p.c2 * p.c2)).sum
        - 2 * (c.c0 * (l.map Pixel.c0).sum + c.c1 * (l.map Pixel.c1).sum
            + c.c2 * (l.map Pixel.c2).sum)
        + (l.length : ℚ) * (c.c0 * c.c0 + c.c1 * c.c1 + c.c2 * c.c2) := by
  induction l with
  | nil => simp
  | cons p l ih =>
    simp only [List.map_cons, List.sum_cons, List.length_cons]
    rw [ih, distance_sq]
    push_cast
    ring

/-- The average of a non-empty slice minimises the sum of the squared distances to its
elements. -/
theorem sum_sq_average_le (l : List Pixel) (hne : l ≠ []) (c : Pixel) :
    (l.map (fun p => (distance p (averagePixels l)).sq)).sum
      ≤ (l.map (fun p => (distance p c).sq)).sum := by
  have hpos : (0 : ℚ) < (l.length : ℚ) := by
    exact_mod_cast List.length_pos.mpr hne
  have hn : (l.length : ℚ) ≠ 0 := ne_of_gt hpos
  rw [sum_sq_expand l c, sum_sq_expand l (averagePixels l), averagePixels_eq]
  generalize (l.map Pixel.c0).sum = s0
  generalize (l.map Pixel.c1).sum = s1
  generalize (l.map Pixel.c2).sum = s2
  generalize (l.map (fun p => p.c0 * p.c0 + p.c1 * p.c1 + p.c2 * p.c2)).sum = q
  generalize (l.length : ℚ) = n at hpos hn
  have key : (q - 2 * (c.c0 * s0 + c.c1 * s1 + c.c2 * s2)
        + n * (c.c0 * c.c0 + c.c1 * c.c1 + c.c2 * c.c2))
      - (q - 2 * (s0 / n * s0 + s1 / n * s1 + s2 / n * s2)
        + n * (s0 / n * (s0 / n) + s1 / n * (s1 / n) + s2 / n * (s2 / n)))
      = n * ((c.c0 - s0 / n) * (c.c0 - s0 / n) + (c.c1 - s1 / n) * (c.c1 - s1 / n)
        + (c.c2 - s2 / n) * (c.c2 - s2 / n)) := by
    field_simp
    ring
  have hnn : 0 ≤ n * ((c.c0 - s0 / n) * (c.c0 - s0 / n) + (c.c1 - s1 / n) * (c.c1 - s1 / n)
        + (c.c2 - s2 / n) * (c.c2 - s2 / n)) := by
    apply mul_nonneg (le_of_lt hpos)
    nlinarith [mul_self_nonneg (c.c0 - s0 / n), mul_self_nonneg (c.c1 - s1 / n),
      mul_self_nonneg (c.c2 - s2 / n)]
  linarith

theorem list_sum_le_sum {α : Type} (l : List α) (f g : α → ℚ) (h : ∀ x ∈ l, f x ≤ g x) :
    (l.map f).sum ≤ (l.map g).sum := by
  induction l with
  | nil => simp
  | cons x l ih =>
    rw [List.map_cons, List.map_cons, List.sum_cons, List.sum_cons]
    exact add_le_add (h x (List.mem_cons_self _ _))
      (ih (fun y hy => h y (List.mem_cons_of_mem _ hy)))

/-! ## A pass of `kmeans` for any `k` -/

/-- When `kmeans` returns, `k` is a natural number at most the capacity of the slice. -/
theorem kmeans_ok_nat (pixels : PixelSlice) (k iterations : Int) (cs : List Pixel)
    (h : kmeans pixels k iterations = Except.ok cs) :
    ∃ m : Nat, k = (m : Int) ∧ m ≤ pixels.cap := by
  unfold kmeans at h
  by_cases h1 : k < 0 ∨ maxAlloc < k.toNat * pixelSize
  · rw [if_pos h1] at h; cases h
  · rw [if_neg h1] at h
    rw [not_or] at h1
    by_cases h2 : pixels.cap < k.toNat
    · rw [if_pos h2] at h; cases h
    · exact ⟨k.toNat, by omega, by omega⟩

/-- The loop keeps the number of centroids when it returns. -/
theorem loop_length (pixels : List Pixel) (k : Nat) :
    ∀ (n : Nat) (cs out : List Pixel), loop pixels k n cs = Except.ok out →
      out.length = cs.length := by
  intro n
  induction n with
  | zero =>
    intro cs out h
    rw [loop_zero] at h
    cases h; rfl
  | succ n ih =>
    intro cs out h
    rw [loop_succ_front] at h
    cases hi : iterate pixels k cs with
    | error e => rw [hi] at h; cases h
    | ok c1 =>
      rw [hi] at h
      rw [ih c1 out h, iterate_length pixels cs k c1 hi]

/-- One more pass of `kmeans`, whenever the passes before return at least one centroid. -/
theorem kmeans_next_cap (pixels : PixelSlice) (k : Int) (n : Nat) (cs : List Pixel)
    (h : kmeans pixels k (n : Int) = Except.ok cs) (hne : cs ≠ []) :
    kmeans pixels k ((n : Int) + 1) = Except.ok (nextCentroids cs pixels.elems) := by
  obtain ⟨m, hm, hcap⟩ := kmeans_ok_nat pixels k n cs h
  subst hm
  rw [kmeans_eq_loop pixels m _ hcap] at h ⊢
  have e : ((n : Int) + 1).toNat = n + 1 := by omega
  have e0 : (n : Int).toNat = n := by omega
  rw [e0] at h
  rw [e, loop_succ, h]
  have hl := loop_length pixels.elems m n _ cs h
  have hs : ((pixels.elems ++ pixels.spare).take m).length = m := by
    rw [List.length_take, List.length_append]
    unfold PixelSlice.cap at hcap; omega
  rw [hs] at hl
  have h1 : 1 ≤ m := by
    rcases Nat.eq_zero_or_pos m with h0 | hp
    · rw [h0] at hl; exact absurd (List.length_eq_zero.mp hl) hne
    · exact hp
  exact iterate_next pixels.elems cs m h1 hl

theorem getD_of_getElem?_eq (cs : List Pixel) (i j : Nat) (p : Pixel)
    (he : cs[i]? = cs[j]?) : cs.getD i p = cs.getD j p := by
  rw [List.getD_eq_getElem?_getD, List.getD_eq_getElem?_getD, he]

/-- An index whose cluster is empty keeps its centroid in a pass. -/
theorem nextCentroids_getElem?_of_empty (cs pixels : List Pixel) (i : Nat)
    (h : ∀ p ∈ pixels, minIdx cs p ≠ i) : (nextCentroids cs pixels)[i]? = cs[i]? := by
  by_cases hi : i < cs.length
  · rw [nextCentroids_getElem? cs pixels i hi, List.getElem?_eq_getElem hi]
    have hnil : assignedTo cs pixels i = [] := by
      rw [List.eq_nil_iff_forall_not_mem]
      intro p hp
      rw [mem_assignedTo] at hp
      exact h p hp.1 hp.2
    rw [hnil]
    rfl
  · rw [List.getElem?_eq_none (by rw [nextCentroids_length]; omega),
      List.getElem?_eq_none (by omega)]

/-- The clusters that the assignment loop builds. -/
theorem assign_next (pixels cs : List Pixel) (k : Nat) (h1 : 1 ≤ k) (hl : cs.length = k) :
    assign pixels cs k = Except.ok ((List.range k).map (assignedTo cs pixels)) := by
  have hne : cs ≠ [] := by
    intro e; rw [e] at hl; simp at hl; omega
  exact assign_eq pixels cs k (fun p => hl ▸ minIdx_lt cs p hne)

/-! ## The calls of `averagePixels` -/

theorem updateStepTraced_fst (clusters : List (List Pixel)) (st : List Pixel × List (List Pixel))
    (i : Nat) : (updateStepTraced clusters st i).1 = updateStep clusters st.1 i := by
  unfold updateStepTraced updateStep
  split <;> rfl

theorem updateStepTraced_calls (clusters : List (List Pixel))
    (st : List Pixel × List (List Pixel)) (i : Nat) (h : ∀ cl ∈ st.2, cl ≠ []) :
    ∀ cl ∈ (updateStepTraced clusters st i).2, cl ≠ [] := by
  unfold updateStepTraced
  split
  · rename_i hpos
    intro cl hcl
    rcases List.mem_append.mp hcl with h1 | h1
    · exact h cl h1
    · rw [List.mem_singleton.mp h1]
      exact List.ne_nil_of_length_pos hpos
  · exact h

theorem updateTraced_fold (clusters : List (List Pixel)) (is : List Nat) :
    ∀ st : List Pixel × List (List Pixel),
      (is.foldl (updateStepTraced clusters) st).1 = is.foldl (updateStep clusters) st.1 ∧
      ((∀ cl ∈ st.2, cl ≠ []) →
        ∀ cl ∈ (is.foldl (updateStepTraced clusters) st).2, cl ≠ []) := by
  induction is with
  | nil => intro st; exact ⟨rfl, fun h => h⟩
  | cons i is ih =>
    intro st
    rw [List.foldl_cons, List.foldl_cons, ← updateStepTraced_fst]
    exact ⟨(ih _).1, fun h => (ih _).2 (updateStepTraced_calls clusters st i h)⟩

/-- The update loop with the list of the calls gives the centroids of the update loop, and
adds only non-empty clusters to the list. -/
theorem updateTraced_spec (st : List Pixel × List (List Pixel)) (clusters : List (List Pixel))
    (k : Nat) :
    (updateTraced st clusters k).1 = update st.1 clusters k ∧
    ((∀ cl ∈ st.2, cl ≠ []) → ∀ cl ∈ (updateTraced st clusters k).2, cl ≠ []) :=
  updateTraced_fold clusters (List.range k) st

/-- A pass with the list of the calls fails as the pass does, or gives the centroids of the
pass and a list of non-empty clusters. -/
theorem iterateTraced_spec (pixels : List Pixel) (k : Nat)
    (st : List Pixel × List (List Pixel)) :
    (∃ e, iterateTraced pixels k st = Except.error e ∧ iterate pixels k st.1 = Except.error e) ∨
    (∃ st2, iterateTraced pixels k st = Except.ok st2 ∧
      iterate pixels k st.1 = Except.ok st2.1 ∧
      ((∀ cl ∈ st.2, cl ≠ []) → ∀ cl ∈ st2.2, cl ≠ [])) := by
  unfold iterateTraced iterate
  cases h : assign pixels st.1 k with
  | error e => left; exact ⟨e, rfl, rfl⟩
  | ok clusters =>
    right
    refine ⟨updateTraced st clusters k, rfl, ?_, (updateTraced_spec st clusters k).2⟩
    show Except.ok (update st.1 clusters k) = Except.ok (updateTraced st clusters k).1
    rw [(updateTraced_spec st clusters k).1]

theorem loopTraced_spec (pixels : List Pixel) (k : Nat) (n : Nat) :
    ∀ st : List Pixel × List (List Pixel),
      (∃ e, loopTraced pixels k n st = Except.error e ∧
        loop pixels k n st.1 = Except.error e) ∨
      (∃ st2, loopTraced pixels k n st = Except.ok st2 ∧
        loop pixels k n st.1 = Except.ok st2.1 ∧
        ((∀ cl ∈ st.2, cl ≠ []) → ∀ cl ∈ st2.2, cl ≠ [])) := by
  induction n with
  | zero => intro st; right; exact ⟨st, rfl, rfl, fun h => h⟩
  | succ n ih =>
    intro st
    rw [loop_succ_front]
    have e : loopTraced pixels k (n + 1) st
        = (iterateTraced pixels k st).bind (loopTraced pixels k n) := by
      rw [loopTraced]; rfl
    rw [e]
    rcases iterateTraced_spec pixels k st with ⟨e1, h1, h2⟩ | ⟨st1, h1, h2, h3⟩
    · left; rw [h1, h2]; exact ⟨e1, rfl, rfl⟩
    · rw [h1, h2]
      rcases ih st1 with ⟨e2, g1, g2⟩ | ⟨st2, g1, g2, g3⟩
      · left; exact ⟨e2, g1, g2⟩
      · right; exact ⟨st2, g1, g2, fun h => g3 (h3 h)⟩

/-- The function `kmeansTraced` fails as `kmeans` does, or returns the centroids that `kmeans`
returns, with calls of `averagePixels` on non-empty clusters only. -/
theorem kmeansTraced_spec (pixels : PixelSlice) (k iterations : Int) :
    (∃ e, kmeansTraced pixels k iterations = Except.error e ∧
      kmeans pixels k iterations = Except.error e) ∨
    (∃ st, kmeansTraced pixels k iterations = Except.ok st ∧
      kmeans pixels k iterations = Except.ok st.1 ∧ ∀ cl ∈ st.2, cl ≠ []) := by
  unfold kmeansTraced kmeans
  split
  · left; exact ⟨_, rfl, rfl⟩
  · split
    · left; exact ⟨_, rfl, rfl⟩
    · rcases loopTraced_spec pixels.elems k.toNat iterations.toNat
        ((pixels.elems ++ pixels.spare).take k.toNat, []) with ⟨e, h1, h2⟩ | ⟨st, h1, h2, h3⟩
      · left; exact ⟨e, h1, h2⟩
      · right; exact ⟨st, h1, h2, h3 (fun cl hcl => by cases hcl)⟩

/-- When `kmeans` returns, `kmeansTraced` returns the same centroids and a list of calls of
`averagePixels` on non-empty clusters. -/
theorem kmeansTraced_of_ok (pixels : PixelSlice) (k iterations : Int) (cs : List Pixel)
    (h : kmeans pixels k iterations = Except.ok cs) :
    ∃ calls, kmeansTraced pixels k iterations = Except.ok (cs, calls) ∧
      ∀ cl ∈ calls, cl ≠ [] := by
  rcases kmeansTraced_spec pixels k iterations with ⟨e, _, h2⟩ | ⟨st, h1, h2, h3⟩
  · rw [h2] at h; cases h
  · rw [h2] at h
    cases h
    exact ⟨st.2, h1, h3⟩

/-! ## The list of the calls of `averagePixels`, pass by pass -/

theorem updateTraced_calls_fold (clusters : List (List Pixel)) (is : List Nat) :
    ∀ st : List Pixel × List (List Pixel),
      (is.foldl (updateStepTraced clusters) st).2
        = st.2 ++ (is.map (fun i => clusters.getD i [])).filter
            (fun cl => decide (cl.length > 0)) := by
  induction is with
  | nil => intro st; simp
  | cons i is ih =>
    intro st
    rw [List.foldl_cons, ih, List.map_cons, List.filter_cons]
    unfold updateStepTraced
    by_cases hpos : (clusters.getD i []).length > 0
    · rw [if_pos hpos, if_pos (decide_eq_true hpos)]
      simp
    · rw [if_neg hpos, if_neg (by simpa using hpos)]

/-- The clusters of the assignment loop, read one by one. -/
theorem map_getD_clusters (f : Nat → List Pixel) (k : Nat) :
    (List.range k).map (fun i => ((List.range k).map f).getD i []) = (List.range k).map f := by
  apply List.map_congr_left
  intro i hi
  have hi2 : i < k := List.mem_range.mp hi
  rw [List.getD_eq_getElem?_getD, List.getElem?_map, List.getElem?_range hi2]
  rfl

/-- One pass with the list of the calls, for `k >= 1` centroids: the calls added are the
non-empty clusters, in the order of the indices. -/
theorem iterateTraced_eq (pixels cs : List Pixel) (calls : List (List Pixel)) (k : Nat)
    (h1 : 1 ≤ k) (hl : cs.length = k) :
    iterateTraced pixels k (cs, calls)
      = Except.ok (nextCentroids cs pixels,
          calls ++ ((List.range k).map (assignedTo cs pixels)).filter
            (fun cl => decide (cl.length > 0))) := by
  have hn := iterate_next pixels cs k h1 hl
  unfold iterate at hn
  rw [assign_next pixels cs k h1 hl] at hn
  have hu : update cs ((List.range k).map (assignedTo cs pixels)) k = nextCentroids cs pixels := by
    injection hn
  unfold iterateTraced
  show (assign pixels cs k).bind _ = _
  rw [assign_next pixels cs k h1 hl]
  show Except.ok (updateTraced (cs, calls) ((List.range k).map (assignedTo cs pixels)) k) = _
  congr 1
  apply Prod.ext
  · rw [(updateTraced_spec (cs, calls) _ k).1]
    exact hu
  · unfold updateTraced
    rw [updateTraced_calls_fold, map_getD_clusters]

theorem loopTraced_succ_front (pixels : List Pixel) (k : Nat) (n : Nat)
    (st : List Pixel × List (List Pixel)) :
    loopTraced pixels k (n + 1) st
      = (iterateTraced pixels k st).bind (loopTraced pixels k n) := by
  rw [loopTraced]; rfl

/-- The pass number `n + 1` is applied to the result of the first `n` passes. -/
theorem loopTraced_succ (pixels : List Pixel) (k : Nat) (n : Nat)
    (st : List Pixel × List (List Pixel)) :
    loopTraced pixels k (n + 1) st
      = (loopTraced pixels k n st).bind (iterateTraced pixels k) := by
  induction n generalizing st with
  | zero =>
    rw [loopTraced_succ_front]
    show (iterateTraced pixels k st).bind (loopTraced pixels k 0) = iterateTraced pixels k st
    cases h : iterateTraced pixels k st with
    | error e => rfl
    | ok c => rfl
  | succ n ih =>
    rw [loopTraced_succ_front]
    conv_rhs => rw [loopTraced_succ_front]
    cases h : iterateTraced pixels k st with
    | error e => rfl
    | ok c =>
      show loopTraced pixels k (n + 1) c
        = (loopTraced pixels k n c).bind (iterateTraced pixels k)
      exact ih c

theorem kmeansTraced_nat (pixels : PixelSlice) (k n : Nat) (hk : k ≤ pixels.len) :
    kmeansTraced pixels (k : Int) (n : Int)
      = loopTraced pixels.elems k n (pixels.elems.take k, []) := by
  unfold kmeansTraced
  have hf := pixels.fits
  have hc := len_le_cap pixels
  have he : (k : Int).toNat = k := by omega
  have h1 : ¬ ((k : Int) < 0 ∨ maxAlloc < (k : Int).toNat * pixelSize) := by
    rw [he]
    unfold PixelSlice.cap at hc
    have := Nat.mul_le_mul_right pixelSize (le_trans hk hc)
    omega
  have h2 : ¬ (pixels.cap < (k : Int).toNat) := by omega
  rw [if_neg h1, if_neg h2, he, seed_eq_take pixels k hk]
  rfl

theorem kmeansTraced_nat_succ (pixels : PixelSlice) (k n : Nat) (hk : k ≤ pixels.len) :
    kmeansTraced pixels (k : Int) ((n : Int) + 1)
      = loopTraced pixels.elems k (n + 1) (pixels.elems.take k, []) :=
  kmeansTraced_nat pixels k (n + 1) hk

/-- Without iteration no call of `averagePixels` is made. -/
theorem kmeansTraced_zero (pixels : PixelSlice) (k : Nat) (hk : k ≤ pixels.len) :
    kmeansTraced pixels (k : Int) 0 = Except.ok (pixels.elems.take k, []) :=
  kmeansTraced_nat pixels k 0 hk

/-- After `n` iterations that gave `centroids` with the calls `calls`, the pass `n + 1` calls
`averagePixels` on the non-empty clusters, in the order of the indices, and on nothing else. -/
theorem kmeansTraced_next (pixels : PixelSlice) (k n : Nat) (h1 : 1 ≤ k) (hk : k ≤ pixels.len)
    (cs : List Pixel) (calls : List (List Pixel))
    (h : kmeansTraced pixels (k : Int) (n : Int) = Except.ok (cs, calls)) :
    kmeansTraced pixels (k : Int) ((n : Int) + 1)
      = Except.ok (nextCentroids cs pixels.elems,
          calls ++ ((List.range k).map (assignedTo cs pixels.elems)).filter
            (fun cl => decide (cl.length > 0))) := by
  have hcs : kmeans pixels (k : Int) (n : Int) = Except.ok cs := by
    rcases kmeansTraced_spec pixels (k : Int) (n : Int) with ⟨e, h2, _⟩ | ⟨st, h2, h3, _⟩
    · rw [h2] at h; cases h
    · rw [h2] at h
      cases h
      exact h3
  have hl := kmeans_length pixels k n h1 hk cs hcs
  rw [kmeansTraced_nat pixels k n hk] at h
  rw [kmeansTraced_nat_succ pixels k n hk, loopTraced_succ, h]
  exact iterateTraced_eq pixels.elems cs calls k h1 hl

/-! ## Claims on the passes of `kmeans` -/

/-- Claim C13 (empty-cluster freeze): for `1 <= k <= |samples|`, `n >= 0` and `i < k`, if the
pass `n + 1` gives the index `i` to no sample, the centroid `i` of `kmeans(samples, k, n + 1)`
is the centroid `i` of `kmeans(samples, k, n)`. -/
theorem kmeans_empty_cluster_freeze (pixels : PixelSlice) (k n i : Nat) (h1 : 1 ≤ k)
    (hk : k ≤ pixels.len) (hi : i < k) (cs : List Pixel)
    (h : kmeans pixels (k : Int) (n : Int) = Except.ok cs)
    (hempty : ∀ p ∈ pixels.elems, minIdx cs p ≠ i) :
    ∃ out c, kmeans pixels (k : Int) ((n : Int) + 1) = Except.ok out ∧
      out[i]? = some c ∧ cs[i]? = some c := by
  have hl := kmeans_length pixels k n h1 hk cs h
  have hic : i < cs.length := by omega
  refine ⟨nextCentroids cs pixels.elems, cs[i], kmeans_next pixels k n h1 hk cs h, ?_,
    List.getElem?_eq_getElem hic⟩
  rw [nextCentroids_getElem?_of_empty cs pixels.elems i hempty, List.getElem?_eq_getElem hic]

theorem kmeans_empty_cluster_freeze_witness :
    ∃ out c, kmeans ⟨[⟨0, 0, 0⟩, ⟨0, 0, 0⟩, ⟨4, 0, 0⟩], [], by decide⟩ ((2 : Nat) : Int)
        (((0 : Nat) : Int) + 1) = Except.ok out ∧
      out[1]? = some c ∧ ([⟨0, 0, 0⟩, ⟨0, 0, 0⟩] : List Pixel)[1]? = some c :=
  kmeans_empty_cluster_freeze ⟨[⟨0, 0, 0⟩, ⟨0, 0, 0⟩, ⟨4, 0, 0⟩], [], by decide⟩ 2 0 1
    (by decide) (by decide) (by decide) [⟨0, 0, 0⟩, ⟨0, 0, 0⟩] (by decide!) (by decide!)

/-- Claim C14: under the precondition `1 <= k <= |samples|`, `kmeans` never fails, for any
iteration count: `k` is at most the capacity of the slice, so the seed slice `pixels[:k]` is in
range; `kmeans` returns for every iteration count, and every call of `averagePixels` it makes
(the calls that `kmeansTraced` lists next to the same centroids) is on a non-empty cluster;
every cluster index `minIdx` computed in a pass is less than `k`, so the assignment loop
returns its clusters. The calls listed are those of the code: none without iteration, and in
the pass `n + 1` one call on each non-empty cluster, in the order of the indices. -/
theorem kmeans_never_fails (pixels : PixelSlice) (k : Nat) (h1 : 1 ≤ k)
    (hk : k ≤ pixels.len) :
    k ≤ pixels.cap ∧
    (∀ iterations : Int, ∃ cs calls, kmeans pixels (k : Int) iterations = Except.ok cs ∧
      kmeansTraced pixels (k : Int) iterations = Except.ok (cs, calls) ∧
      ∀ cl ∈ calls, cl ≠ []) ∧
    (∀ (n : Nat) (cs : List Pixel), kmeans pixels (k : Int) (n : Int) = Except.ok cs →
      (∀ p, minIdx cs p < k) ∧
      ∃ clusters, assign pixels.elems cs k = Except.ok clusters) ∧
    kmeansTraced pixels (k : Int) 0 = Except.ok (pixels.elems.take k, []) ∧
    (∀ (n : Nat) (cs : List Pixel) (calls : List (List Pixel)),
      kmeansTraced pixels (k : Int) (n : Int) = Except.ok (cs, calls) →
      kmeansTraced pixels (k : Int) ((n : Int) + 1)
        = Except.ok (nextCentroids cs pixels.elems,
            calls ++ ((List.range k).map (assignedTo cs pixels.elems)).filter
              (fun cl => decide (cl.length > 0)))) := by
  refine ⟨le_trans hk (len_le_cap pixels), ?_, ?_, kmeansTraced_zero pixels k hk,
    fun n cs calls h => kmeansTraced_next pixels k n h1 hk cs calls h⟩
  · intro iterations
    have e := kmeans_int pixels k iterations hk
    obtain ⟨out, ho, _⟩ := loop_ok pixels.elems k h1 iterations.toNat _
      (length_seeds pixels k hk)
    rw [ho] at e
    obtain ⟨calls, hc, hn⟩ := kmeansTraced_of_ok pixels (k : Int) iterations out e
    exact ⟨out, calls, e, hc, hn⟩
  · intro n cs h
    have hl := kmeans_length pixels k n h1 hk cs h
    exact ⟨fun p => hl ▸ minIdx_lt cs p (by
      intro e; rw [e] at hl; simp at hl; omega), _, assign_next pixels.elems cs k h1 hl⟩

/-- Claim C14 at a concrete input: four samples, `k = 2`; with 2 iterations `averagePixels`
is called four times. -/
theorem kmeans_never_fails_witness :
    2 ≤ PixelSlice.cap ⟨[⟨0, 0, 0⟩, ⟨10, 0, 0⟩, ⟨2, 0, 0⟩, ⟨12, 0, 0⟩], [], by decide⟩ ∧
    (∀ iterations : Int, ∃ cs calls,
      kmeans ⟨[⟨0, 0, 0⟩, ⟨10, 0, 0⟩, ⟨2, 0, 0⟩, ⟨12, 0, 0⟩], [], by decide⟩ ((2 : Nat) : Int)
          iterations = Except.ok cs ∧
      kmeansTraced ⟨[⟨0, 0, 0⟩, ⟨10, 0, 0⟩, ⟨2, 0, 0⟩, ⟨12, 0, 0⟩], [], by decide⟩
          ((2 : Nat) : Int) iterations = Except.ok (cs, calls) ∧
      ∀ cl ∈ calls, cl ≠ []) ∧
    kmeansTraced ⟨[⟨0, 0, 0⟩, ⟨10, 0, 0⟩, ⟨2, 0, 0⟩, ⟨12, 0, 0⟩], [], by decide⟩ 2 2
      = Except.ok ([⟨1, 0, 0⟩, ⟨11, 0, 0⟩],
          [[⟨0, 0, 0⟩, ⟨2, 0, 0⟩], [⟨10, 0, 0⟩, ⟨12, 0, 0⟩],
            [⟨0, 0, 0⟩, ⟨2, 0, 0⟩], [⟨10, 0, 0⟩, ⟨12, 0, 0⟩]]) :=
  ⟨(kmeans_never_fails ⟨[⟨0, 0, 0⟩, ⟨10, 0, 0⟩, ⟨2, 0, 0⟩, ⟨12, 0, 0⟩], [], by decide⟩ 2
      (by decide) (by decide)).1,
    (kmeans_never_fails ⟨[⟨0, 0, 0⟩, ⟨10, 0, 0⟩, ⟨2, 0, 0⟩, ⟨12, 0, 0⟩], [], by decide⟩ 2
      (by decide) (by decide)).2.1, by decide!⟩

/-- Claim C16 (tie-break consequence): if after `n` iterations the centroids at the indices
`i < j` are equal, the pass `n + 1` gives the index `j` to no sample, and the centroid `j` of
`kmeans(samples, k, n + 1)` is the centroid `j` of `kmeans(samples, k, n)`; with `n = 0` the
two centroids are duplicate seed samples. -/
theorem kmeans_duplicate_centroid_frozen (pixels : PixelSlice) (k : Int) (n i j : Nat)
    (cs : List Pixel) (h : kmeans pixels k (n : Int) = Except.ok cs) (hij : i < j)
    (hj : j < cs.length) (he : cs[i]? = cs[j]?) :
    (∀ p, minIdx cs p ≠ j) ∧
    ∃ out c, kmeans pixels k ((n : Int) + 1) = Except.ok out ∧
      out[j]? = some c ∧ cs[j]? = some c := by
  have hno : ∀ p, minIdx cs p ≠ j :=
    fun p => minIdx_ne_of_dup cs p i j hij hj (getD_of_getElem?_eq cs i j p he)
  have hne : cs ≠ [] := List.ne_nil_of_length_pos (by omega)
  refine ⟨hno, nextCentroids cs pixels.elems, cs[j], kmeans_next_cap pixels k n cs h hne, ?_,
    List.getElem?_eq_getElem hj⟩
  rw [nextCentroids_getElem?_of_empty cs pixels.elems j (fun p _ => hno p),
    List.getElem?_eq_getElem hj]

theorem kmeans_duplicate_centroid_frozen_witness :
    (∀ p, minIdx [⟨0, 0, 0⟩, ⟨0, 0, 0⟩] p ≠ 1) ∧
    ∃ out c, kmeans ⟨[⟨0, 0, 0⟩, ⟨0, 0, 0⟩, ⟨4, 0, 0⟩], [], by decide⟩ 2 (((0 : Nat) : Int) + 1)
        = Except.ok out ∧
      out[1]? = some c ∧ ([⟨0, 0, 0⟩, ⟨0, 0, 0⟩] : List Pixel)[1]? = some c :=
  kmeans_duplicate_centroid_frozen ⟨[⟨0, 0, 0⟩, ⟨0, 0, 0⟩, ⟨4, 0, 0⟩], [], by decide⟩ 2 0 0 1
    [⟨0, 0, 0⟩, ⟨0, 0, 0⟩] (by decide!) (by decide) (by decide) (by decide!)

/-- Claim C19: in exact arithmetic the result depends on the order of the samples only through
the seeds: if `samples2` has the same first `k` elements as `samples` and its other elements
are a permutation of the other elements of `samples`, then `kmeans(samples2, k, n)` is
`kmeans(samples, k, n)` for every `n`. -/
theorem kmeans_sample_order (pixels2 pixels : PixelSlice) (k : Nat) (hk : k ≤ pixels.len)
    (htake : pixels2.elems.take k = pixels.elems.take k)
    (hdrop : (pixels2.elems.drop k).Perm (pixels.elems.drop k)) :
    ∀ iterations : Int,
      kmeans pixels2 (k : Int) iterations = kmeans pixels (k : Int) iterations :=
  fun iterations => kmeans_perm pixels2 pixels k hk htake hdrop iterations

theorem kmeans_sample_order_witness :
    kmeans ⟨[⟨0, 0, 0⟩, ⟨10, 0, 0⟩, ⟨12, 0, 0⟩, ⟨2, 0, 0⟩], [], by decide⟩ ((2 : Nat) : Int) 10
      = kmeans ⟨[⟨0, 0, 0⟩, ⟨10, 0, 0⟩, ⟨2, 0, 0⟩, ⟨12, 0, 0⟩], [], by decide⟩ ((2 : Nat) : Int) 10 :=
  kmeans_sample_order ⟨[⟨0, 0, 0⟩, ⟨10, 0, 0⟩, ⟨12, 0, 0⟩, ⟨2, 0, 0⟩], [], by decide⟩
    ⟨[⟨0, 0, 0⟩, ⟨10, 0, 0⟩, ⟨2, 0, 0⟩, ⟨12, 0, 0⟩], [], by decide⟩ 2 (by decide) rfl
    (List.Perm.swap _ _ _) 10

/-! ## Lemmas on the loop of `kmeans64` -/

/-- The scan of the centroids numbered from `n` returns the initial index or one of the
numbers given to the centroids. -/
theorem scan_foldl_idx64 (p : Pixel64) (cs : List Pixel64) (n : Nat) (st : F64 × Nat) :
    ((cs.enumFrom n).foldl (scanStep64 p) st).2 = st.2 ∨
    (n ≤ ((cs.enumFrom n).foldl (scanStep64 p) st).2 ∧
     ((cs.enumFrom n).foldl (scanStep64 p) st).2 < n + cs.length) := by
  induction cs generalizing n st with
  | nil => left; rfl
  | cons c cs ih =>
    simp only [List.enumFrom_cons, List.foldl_cons, List.length_cons]
    by_cases h : (distance64 p c).lt st.1 = true
    · have hs : scanStep64 p st (n, c) = (distance64 p c, n) := by simp [scanStep64, h]
      rw [hs]
      rcases ih (n + 1) (distance64 p c, n) with h1 | h1
      · right; rw [h1]; simp
      · right; omega
    · have hs : scanStep64 p st (n, c) = st := by simp [scanStep64, h]
      rw [hs]
      rcases ih (n + 1) st with h1 | h1
      · left; exact h1
      · right; omega

/-- With at least one centroid, the index `minIdx64` computed for a sample is an index of a
centroid. -/
theorem scanCentroids_lt64 (cs : List Pixel64) (p : Pixel64) (h : cs ≠ []) :
    (scanCentroids64 cs p).2 < cs.length := by
  have hpos : 0 < cs.length := List.length_pos.mpr h
  unfold scanCentroids64 List.enum
  rcases scan_foldl_idx64 p cs 0 (F64.fin MaxFloat64, 0) with h1 | h1
  · rw [h1]; exact hpos
  · omega

theorem appendToCluster_ok64 (clusters : List (List Pixel64)) (i : Nat) (p : Pixel64)
    (h : i < clusters.length) :
    appendToCluster64 clusters i p = .ok (clusters.set i (clusters.getD i [] ++ [p])) := by
  simp [appendToCluster64, h]

/-- The pass over the samples succeeds from any `clusters` of length `k` when every computed
index is below `k`, and keeps the number of clusters. -/
theorem assign_fold_ok64 (centroids : List Pixel64) (k : Nat)
    (hk : ∀ p, (scanCentroids64 centroids p).2 < k) (pixels : List Pixel64)
    (clusters : List (List Pixel64)) (hlen : clusters.length = k) :
    ∃ out, pixels.foldlM
      (fun clusters p => appendToCluster64 clusters (scanCentroids64 centroids p).2 p) clusters
        = Except.ok out ∧ out.length = k := by
  induction pixels generalizing clusters with
  | nil => exact ⟨clusters, rfl, hlen⟩
  | cons p ps ih =>
    rw [List.foldlM_cons, appendToCluster_ok64 _ _ _ (by rw [hlen]; exact hk p)]
    exact ih _ (by simp [hlen])

theorem update_fold_length64 (clusters : List (List Pixel64)) (is : List Nat) (centroids : List Pixel64) :
    (is.foldl (updateStep64 clusters) centroids).length = centroids.length := by
  induction is generalizing centroids with
  | nil => rfl
  | cons i is ih =>
    rw [List.foldl_cons, ih]
    unfold updateStep64
    split <;> simp

/-- The update64 loop64 keeps the number of centroids. -/
theorem update_length64 (centroids : List Pixel64) (clusters : List (List Pixel64)) (k : Nat) :
    (update64 centroids clusters k).length = centroids.length :=
  update_fold_length64 clusters (List.range k) centroids

/-- With `k >= 1` centroids, one pass of the loop64 body succeeds and returns `k` centroids. -/
theorem iterate_ok64 (pixels : List Pixel64) (k : Nat) (centroids : List Pixel64)
    (hk : 1 ≤ k) (hlen : centroids.length = k) :
    ∃ out, iterate64 pixels k centroids = Except.ok out ∧ out.length = k := by
  have hne : centroids ≠ [] := by
    intro h; rw [h] at hlen; simp at hlen; omega
  obtain ⟨cl, hcl, _⟩ := assign_fold_ok64 centroids k
    (fun p => hlen ▸ scanCentroids_lt64 centroids p hne) pixels (List.replicate k [])
    (by simp)
  refine ⟨update64 centroids cl k, ?_, ?_⟩
  · unfold iterate64 assign64
    rw [hcl]; rfl
  · rw [update_length64, hlen]

/-- With `k >= 1` centroids, any number of passes succeeds and returns `k` centroids. -/
theorem loop_ok64 (pixels : List Pixel64) (k : Nat) (hk : 1 ≤ k) (n : Nat) (centroids : List Pixel64)
    (hlen : centroids.length = k) :
    ∃ out, loop64 pixels k n centroids = Except.ok out ∧ out.length = k := by
  induction n generalizing centroids with
  | zero => exact ⟨centroids, rfl, hlen⟩
  | succ n ih =>
    obtain ⟨c1, h1, hl1⟩ := iterate_ok64 pixels k centroids hk hlen
    obtain ⟨out, h2, hl2⟩ := ih c1 hl1
    refine ⟨out, ?_, hl2⟩
    unfold loop64
    rw [h1]; exact h2

/-- The seed step of `kmeans64` for a natural `k` within the capacity. -/
theorem kmeans_eq_loop64 (pixels : PixelSlice64) (k : Nat) (iterations : Int)
    (hk : k ≤ pixels.cap) :
    kmeans64 pixels (k : Int) iterations
      = loop64 pixels.elems k iterations.toNat ((pixels.elems ++ pixels.spare).take k) := by
  unfold kmeans64
  have hf := pixels.fits
  have he : (k : Int).toNat = k := by omega
  have h1 : ¬ ((k : Int) < 0 ∨ maxAlloc < (k : Int).toNat * pixelSize) := by
    rw [he]
    unfold PixelSlice64.cap at hk
    have := Nat.mul_le_mul_right pixelSize hk
    omega
  have h2 : ¬ (pixels.cap < (k : Int).toNat) := by omega
  rw [if_neg h1, if_neg h2, he]

/-- Without samples and without centroids the loop64 returns the empty centroid list. -/
theorem loop_nil_nil64 (n : Nat) : loop64 [] 0 n [] = Except.ok [] := by
  induction n with
  | zero => rfl
  | succ n ih =>
    unfold loop64
    have h : iterate64 [] 0 [] = Except.ok [] := rfl
    rw [h]; exact ih

theorem len_le_cap64 (pixels : PixelSlice64) : pixels.len ≤ pixels.cap := by
  unfold PixelSlice64.len PixelSlice64.cap; omega

/-- The seeds are the first `k` samples when `k` is at most the length of the slice. -/
theorem seed_eq_take64 (pixels : PixelSlice64) (k : Nat) (hk : k ≤ pixels.len) :
    (pixels.elems ++ pixels.spare).take k = pixels.elems.take k := by
  unfold PixelSlice64.len at hk
  exact List.take_append_of_le_length hk

/-- With a single centroid every sample gets the index 0. -/
theorem scanCentroids_single64 (c p : Pixel64) : (scanCentroids64 [c] p).2 = 0 := by
  have h := scanCentroids_lt64 [c] p (by simp)
  simpa using h

/-- With a single centroid the pass over the samples appends all of them to cluster 0. -/
theorem assign_fold_single64 (c : Pixel64) (pixels acc : List Pixel64) :
    pixels.foldlM (fun clusters p => appendToCluster64 clusters (scanCentroids64 [c] p).2 p) [acc]
      = Except.ok [acc ++ pixels] := by
  induction pixels generalizing acc with
  | nil => simp [pure, Except.pure]
  | cons p ps ih =>
    rw [List.foldlM_cons, scanCentroids_single64, appendToCluster_ok64 _ _ _ (by simp)]
    have := ih (acc ++ [p])
    simpa using this

/-- With `k = 1` and at least one sample, one pass replaces the centroid by the average of all
samples. -/
theorem iterate_single64 (pixels : List Pixel64) (c : Pixel64) (hne : pixels ≠ []) :
    iterate64 pixels 1 [c] = Except.ok [averagePixels64 pixels] := by
  unfold iterate64 assign64
  have h := assign_fold_single64 c pixels []
  simp only [List.nil_append] at h
  simp only [List.replicate_one, h]
  have hpos : 0 < pixels.length := List.length_pos.mpr hne
  have hr : List.range 1 = [0] := rfl
  simp [update64, updateStep64, hpos, hr, pure, Except.pure, bind, Except.bind]

theorem loop_single64 (pixels : List Pixel64) (hne : pixels ≠ []) (n : Nat) (c : Pixel64) :
    loop64 pixels 1 (n + 1) [c] = Except.ok [averagePixels64 pixels] := by
  induction n generalizing c with
  | zero =>
    unfold loop64
    rw [iterate_single64 pixels c hne]; rfl
  | succ n ih =>
    unfold loop64
    rw [iterate_single64 pixels c hne]
    exact ih (averagePixels64 pixels)

theorem loop_zero64 (pixels : List Pixel64) (k : Nat) (centroids : List Pixel64) :
    loop64 pixels k 0 centroids = Except.ok centroids := rfl

theorem loop_succ_front64 (pixels : List Pixel64) (k : Nat) (n : Nat) (centroids : List Pixel64) :
    loop64 pixels k (n + 1) centroids
      = (iterate64 pixels k centroids).bind (loop64 pixels k n) := by
  rw [loop64]; rfl

/-- The pass number `n + 1` is applied to the result of the first `n` passes. -/
theorem loop_succ64 (pixels : List Pixel64) (k : Nat) (n : Nat) (centroids : List Pixel64) :
    loop64 pixels k (n + 1) centroids
      = (loop64 pixels k n centroids).bind (iterate64 pixels k) := by
  induction n generalizing centroids with
  | zero =>
    rw [loop_succ_front64, loop_zero64]
    show (iterate64 pixels k centroids).bind (loop64 pixels k 0) = iterate64 pixels k centroids
    cases h : iterate64 pixels k centroids with
    | error e => rfl
    | ok c => rfl
  | succ n ih =>
    rw [loop_succ_front64]
    conv_rhs => rw [loop_succ_front64]
    cases h : iterate64 pixels k centroids with
    | error e => rfl
    | ok c =>
      show loop64 pixels k (n + 1) c = (loop64 pixels k n c).bind (iterate64 pixels k)
      exact ih c

/-- The function `kmeans64` for natural `k <= len(pixels)` and a natural number of iterations. -/
theorem kmeans_nat64 (pixels : PixelSlice64) (k n : Nat) (hk : k ≤ pixels.len) :
    kmeans64 pixels (k : Int) (n : Int) = loop64 pixels.elems k n (pixels.elems.take k) := by
  rw [kmeans_eq_loop64 pixels k n (le_trans hk (len_le_cap64 pixels)), seed_eq_take64 pixels k hk]
  rfl

theorem kmeans_nat_succ64 (pixels : PixelSlice64) (k n : Nat) (hk : k ≤ pixels.len) :
    kmeans64 pixels (k : Int) ((n : Int) + 1)
      = loop64 pixels.elems k (n + 1) (pixels.elems.take k) := by
  rw [kmeans_eq_loop64 pixels k _ (le_trans hk (len_le_cap64 pixels)), seed_eq_take64 pixels k hk]
  have e : ((n : Int) + 1).toNat = n + 1 := by omega
  rw [e]

/-- After `n` iterations that gave `centroids`, the result of `n + 1` iterations is one more
pass from `centroids`. -/
theorem kmeans_step64 (pixels : PixelSlice64) (k n : Nat) (hk : k ≤ pixels.len)
    (centroids : List Pixel64) (h : kmeans64 pixels (k : Int) (n : Int) = Except.ok centroids) :
    kmeans64 pixels (k : Int) ((n : Int) + 1) = iterate64 pixels.elems k centroids := by
  rw [kmeans_nat64 pixels k n hk] at h
  rw [kmeans_nat_succ64 pixels k n hk, loop_succ64, h]
  rfl

/-- The centroids returned after `n` iterations are `k`, for `1 <= k <= len(pixels)`. -/
theorem kmeans_length64 (pixels : PixelSlice64) (k n : Nat) (h1 : 1 ≤ k) (hk : k ≤ pixels.len)
    (centroids : List Pixel64) (h : kmeans64 pixels (k : Int) (n : Int) = Except.ok centroids) :
    centroids.length = k := by
  rw [kmeans_nat64 pixels k n hk] at h
  obtain ⟨out, ho, hl⟩ := loop_ok64 pixels.elems k h1 n (pixels.elems.take k) (by
    rw [List.length_take]; unfold PixelSlice64.len at hk; omega)
  rw [ho] at h
  cases h
  exact hl

theorem minIdx_lt64 (cs : List Pixel64) (p : Pixel64) (h : cs ≠ []) : minIdx64 cs p < cs.length :=
  scanCentroids_lt64 cs p h

theorem assignedTo_cons64 (cs : List Pixel64) (p : Pixel64) (ps : List Pixel64) (i : Nat) :
    assignedTo64 cs (p :: ps) i
      = if minIdx64 cs p = i then p :: assignedTo64 cs ps i else assignedTo64 cs ps i := by
  unfold assignedTo64
  rw [List.filter_cons]
  by_cases h : minIdx64 cs p = i <;> simp [h]

theorem getD_set_nil64 (clusters : List (List Pixel64)) (m i : Nat) (v : List Pixel64)
    (hm : m < clusters.length) :
    (clusters.set m v).getD i [] = if i = m then v else clusters.getD i [] := by
  rw [List.getD_eq_getElem?_getD, List.getD_eq_getElem?_getD, List.getElem?_set]
  by_cases h : m = i
  · subst h; simp [hm]
  · have h2 : ¬ i = m := fun e => h e.symm
    simp [h, h2]

/-- The pass over the samples from any `clusters` of length `k` appends to each cluster the
samples whose `minIdx64` is the index of the cluster. -/
theorem assign_fold_getD64 (cs : List Pixel64) (k : Nat) (hk : ∀ p, minIdx64 cs p < k)
    (pixels : List Pixel64) :
    ∀ (clusters : List (List Pixel64)), clusters.length = k →
      ∃ out, pixels.foldlM
          (fun clusters p => appendToCluster64 clusters (scanCentroids64 cs p).2 p) clusters
            = Except.ok out ∧ out.length = k ∧
        ∀ i, out.getD i [] = clusters.getD i [] ++ assignedTo64 cs pixels i := by
  induction pixels with
  | nil =>
    intro clusters hlen
    exact ⟨clusters, rfl, hlen, fun i => by simp [assignedTo64]⟩
  | cons p ps ih =>
    intro clusters hlen
    have hm : (scanCentroids64 cs p).2 < clusters.length := by rw [hlen]; exact hk p
    rw [List.foldlM_cons, appendToCluster_ok64 _ _ _ hm]
    obtain ⟨out, h1, h2, h3⟩ := ih (clusters.set (scanCentroids64 cs p).2
      (clusters.getD (scanCentroids64 cs p).2 [] ++ [p])) (by simp [hlen])
    refine ⟨out, h1, h2, fun i => ?_⟩
    rw [h3 i, getD_set_nil64 _ _ _ _ hm, assignedTo_cons64]
    show _ = clusters.getD i [] ++ if (scanCentroids64 cs p).2 = i then _ else _
    by_cases h : i = (scanCentroids64 cs p).2
    · rw [if_pos h, if_pos h.symm, h]; simp
    · rw [if_neg h, if_neg (fun e => h e.symm)]

/-- The assignment loop64 in closed form. -/
theorem assign_eq64 (pixels cs : List Pixel64) (k : Nat) (hk : ∀ p, minIdx64 cs p < k) :
    assign64 pixels cs k = Except.ok ((List.range k).map (assignedTo64 cs pixels)) := by
  obtain ⟨out, h1, h2, h3⟩ := assign_fold_getD64 cs k hk pixels (List.replicate k []) (by simp)
  unfold assign64
  rw [h1]
  congr 1
  apply List.ext_getElem (by simp [h2])
  intro i hi1 hi2
  have e := h3 i
  rw [List.getD_eq_getElem?_getD, List.getElem?_eq_getElem hi1] at e
  simp only [Option.getD_some] at e
  rw [e]
  simp

theorem updateStep_eq64 (clusters : List (List Pixel64)) (centroids : List Pixel64) (i : Nat) :
    updateStep64 clusters centroids i
      = if (clusters.getD i []).length > 0 then
          centroids.set i (averagePixels64 (clusters.getD i []))
        else centroids := rfl

/-- The first `n` rounds of the update64 loop64 replace the first `n` centroids. -/
theorem update_fold_getElem?64 (cs : List Pixel64) (clusters : List (List Pixel64))
    (hlen : clusters.length = cs.length) (n : Nat) (hn : n ≤ cs.length) :
    ∀ i, ((List.range n).foldl (updateStep64 clusters) cs)[i]?
      = if i < n then (List.zipWith newCentroid64 cs clusters)[i]? else cs[i]? := by
  induction n with
  | zero => intro i; simp
  | succ n ih =>
    intro i
    have ih := ih (by omega)
    rw [List.range_succ, List.foldl_append]
    simp only [List.foldl_cons, List.foldl_nil]
    have hl : ((List.range n).foldl (updateStep64 clusters) cs).length = cs.length :=
      update_fold_length64 clusters (List.range n) cs
    have hn1 : n < cs.length := by omega
    have hn2 : n < clusters.length := by omega
    have hz : (List.zipWith newCentroid64 cs clusters)[n]?
        = some (newCentroid64 cs[n] clusters[n]) := by
      rw [List.getElem?_eq_getElem (by simp; omega)]
      simp
    have hg : clusters.getD n [] = clusters[n] := by
      rw [List.getD_eq_getElem?_getD, List.getElem?_eq_getElem hn2]; rfl
    rw [updateStep_eq64]
    by_cases hc : (clusters.getD n []).length > 0
    · rw [if_pos hc, List.getElem?_set]
      by_cases hi : n = i
      · subst hi
        rw [if_pos rfl, if_pos (by omega), if_pos (by omega), hz]
        unfold newCentroid64
        rw [← hg, if_pos hc]
      · rw [if_neg hi, ih i]
        by_cases h1 : i < n
        · rw [if_pos h1, if_pos (by omega)]
        · rw [if_neg h1, if_neg (by omega)]
    · rw [if_neg hc, ih i]
      by_cases hi : n = i
      · subst hi
        rw [if_neg (by omega), if_pos (by omega), hz]
        unfold newCentroid64
        rw [← hg, if_neg hc, List.getElem?_eq_getElem]
      · by_cases h1 : i < n
        · rw [if_pos h1, if_pos (by omega)]
        · rw [if_neg h1, if_neg (by omega)]

/-- The update64 loop64 in closed form. -/
theorem update_eq64 (cs : List Pixel64) (clusters : List (List Pixel64))
    (hlen : clusters.length = cs.length) :
    update64 cs clusters cs.length = List.zipWith newCentroid64 cs clusters := by
  apply List.ext_getElem?
  intro i
  unfold update64
  rw [update_fold_getElem?64 cs clusters hlen cs.length (le_refl _) i]
  by_cases h : i < cs.length
  · rw [if_pos h]
  · rw [if_neg h, List.getElem?_eq_none (by omega), List.getElem?_eq_none (by simp; omega)]

/-- One pass of the loop64 body of `kmeans64` in closed form: each centroid is replaced by the
average of the samples assigned to it when there are some, and kept otherwise. -/
theorem iterate_eq64 (pixels cs : List Pixel64) (h : cs ≠ []) :
    iterate64 pixels cs.length cs = Except.ok
      (List.zipWith newCentroid64 cs ((List.range cs.length).map (assignedTo64 cs pixels))) := by
  unfold iterate64
  rw [assign_eq64 pixels cs cs.length (fun p => minIdx_lt64 cs p h)]
  show Except.ok (update64 cs _ cs.length) = _
  rw [update_eq64 cs _ (by simp)]

theorem iterate_getElem?64 (pixels cs : List Pixel64) (i : Nat) (hi : i < cs.length) :
    (List.zipWith newCentroid64 cs ((List.range cs.length).map (assignedTo64 cs pixels)))[i]?
      = some (newCentroid64 cs[i] (assignedTo64 cs pixels i)) := by
  rw [List.getElem?_eq_getElem (by simp; omega)]
  simp

theorem nextCentroids_length64 (cs pixels : List Pixel64) :
    (nextCentroids64 cs pixels).length = cs.length := by
  simp [nextCentroids64]

theorem nextCentroids_getElem?64 (cs pixels : List Pixel64) (i : Nat) (hi : i < cs.length) :
    (nextCentroids64 cs pixels)[i]? = some (newCentroid64 cs[i] (assignedTo64 cs pixels i)) :=
  iterate_getElem?64 pixels cs i hi

/-- After `n` iterations that gave `centroids`, `n + 1` iterations give the centroids of one
more pass, for `1 <= k <= len(pixels)`. -/
theorem kmeans_next64 (pixels : PixelSlice64) (k n : Nat) (h1 : 1 ≤ k) (hk : k ≤ pixels.len)
    (centroids : List Pixel64) (h : kmeans64 pixels (k : Int) (n : Int) = Except.ok centroids) :
    kmeans64 pixels (k : Int) ((n : Int) + 1)
      = Except.ok (nextCentroids64 centroids pixels.elems) := by
  have hl := kmeans_length64 pixels k n h1 hk centroids h
  have hne : centroids ≠ [] := by
    intro e; rw [e] at hl; simp at hl; omega
  rw [kmeans_step64 pixels k n hk centroids h, ← hl]
  exact iterate_eq64 pixels.elems centroids hne

theorem mem_take_of_lt64 (cs : List Pixel64) (p : Pixel64) (i t : Nat) (hit : i < t)
    (ht : t ≤ cs.length) : cs.getD i p ∈ cs.take t := by
  have hi : i < (cs.take t).length := by rw [List.length_take]; omega
  have e : (cs.take t)[i] = cs.getD i p := by
    rw [List.getElem_take, List.getD_eq_getElem?_getD, List.getElem?_eq_getElem (by omega)]
    rfl
  rw [← e]
  exact List.getElem_mem hi

theorem getD_mem64 (cs : List Pixel64) (p : Pixel64) (i : Nat) (hi : i < cs.length) :
    cs.getD i p ∈ cs := by
  have e : cs[i] = cs.getD i p := by
    rw [List.getD_eq_getElem?_getD, List.getElem?_eq_getElem hi]; rfl
  rw [← e]
  exact List.getElem_mem hi

/-- With `k >= 1` centroids, one pass of the loop64 body returns `nextCentroids64`. -/
theorem iterate_next64 (pixels cs : List Pixel64) (k : Nat) (h1 : 1 ≤ k) (hl : cs.length = k) :
    iterate64 pixels k cs = Except.ok (nextCentroids64 cs pixels) := by
  have hne : cs ≠ [] := by
    intro e; rw [e] at hl; simp at hl; omega
  subst hl
  exact iterate_eq64 pixels cs hne

/-- A property of the seeds that every pass keeps holds for the result of the loop64. -/
theorem loop_invariant64 (pixels : List Pixel64) (k : Nat) (h1 : 1 ≤ k) (P : List Pixel64 → Prop)
    (hstep : ∀ cs, cs.length = k → P cs → P (nextCentroids64 cs pixels)) :
    ∀ (n : Nat) (cs : List Pixel64), cs.length = k → P cs →
      ∃ out, loop64 pixels k n cs = Except.ok out ∧ out.length = k ∧ P out := by
  intro n
  induction n with
  | zero => intro cs hl hp; exact ⟨cs, rfl, hl, hp⟩
  | succ n ih =>
    intro cs hl hp
    rw [loop_succ_front64, iterate_next64 pixels cs k h1 hl]
    exact ih (nextCentroids64 cs pixels) (by rw [nextCentroids_length64, hl]) (hstep cs hl hp)

/-- The function `kmeans64` with `k` at most the length of the slice is the loop64 started from
the first `k` samples. -/
theorem kmeans_int64 (pixels : PixelSlice64) (k : Nat) (iterations : Int) (hk : k ≤ pixels.len) :
    kmeans64 pixels (k : Int) iterations
      = loop64 pixels.elems k iterations.toNat (pixels.elems.take k) := by
  rw [kmeans_eq_loop64 pixels k iterations (le_trans hk (len_le_cap64 pixels)),
    seed_eq_take64 pixels k hk]

theorem length_seeds64 (pixels : PixelSlice64) (k : Nat) (hk : k ≤ pixels.len) :
    (pixels.elems.take k).length = k := by
  rw [List.length_take]; unfold PixelSlice64.len at hk; omega

/-- A property of the seeds that every pass keeps holds for the result of `kmeans64`. -/
theorem kmeans_invariant64 (pixels : PixelSlice64) (k : Nat) (h1 : 1 ≤ k) (hk : k ≤ pixels.len)
    (P : List Pixel64 → Prop) (h0 : P (pixels.elems.take k))
    (hstep : ∀ cs, cs.length = k → P cs → P (nextCentroids64 cs pixels.elems))
    (iterations : Int) :
    ∃ out, kmeans64 pixels (k : Int) iterations = Except.ok out ∧ out.length = k ∧ P out := by
  rw [kmeans_int64 pixels k iterations hk]
  exact loop_invariant64 pixels.elems k h1 P hstep _ _ (length_seeds64 pixels k hk) h0

/-- A list with the elements of `nextCentroids64`. -/
theorem nextCentroids_ext64 (cs pixels out : List Pixel64) (hl : out.length = cs.length)
    (h : ∀ (i : Nat) (hi : i < cs.length),
      out[i]? = some (newCentroid64 cs[i] (assignedTo64 cs pixels i))) :
    nextCentroids64 cs pixels = out := by
  apply List.ext_getElem?
  intro i
  by_cases hi : i < cs.length
  · rw [nextCentroids_getElem?64 cs pixels i hi, h i hi]
  · rw [List.getElem?_eq_none (by rw [nextCentroids_length64]; omega),
      List.getElem?_eq_none (by omega)]

theorem mem_nextCentroids64 (cs pixels : List Pixel64) (c : Pixel64)
    (h : c ∈ nextCentroids64 cs pixels) :
    ∃ (i : Nat) (hi : i < cs.length), c = newCentroid64 cs[i] (assignedTo64 cs pixels i) := by
  obtain ⟨i, hi, e⟩ := List.getElem_of_mem h
  rw [nextCentroids_length64] at hi
  refine ⟨i, hi, ?_⟩
  have h2 := nextCentroids_getElem?64 cs pixels i hi
  rw [List.getElem?_eq_getElem (by rw [nextCentroids_length64]; exact hi)] at h2
  rw [← e]
  exact Option.some.inj h2

theorem mem_assignedTo64 (cs pixels : List Pixel64) (i : Nat) (p : Pixel64) :
    p ∈ assignedTo64 cs pixels i ↔ p ∈ pixels ∧ minIdx64 cs p = i := by
  unfold assignedTo64
  rw [List.mem_filter, decide_eq_true_iff]

/-! ## The order of the `float64` values -/

theorem squash_lt_one (q : ℚ) : q / (1 + |q|) < 1 := by
  have h : (0 : ℚ) < 1 + |q| := by positivity
  rw [div_lt_one h]
  linarith [le_abs_self q]

theorem neg_one_lt_squash (q : ℚ) : -1 < q / (1 + |q|) := by
  have h : (0 : ℚ) < 1 + |q| := by positivity
  rw [lt_div_iff₀ h]
  linarith [neg_abs_le q]

theorem squash_lt_iff (a b : ℚ) : a / (1 + |a|) < b / (1 + |b|) ↔ a < b := by
  have ha : (0 : ℚ) < 1 + |a| := by positivity
  have hb : (0 : ℚ) < 1 + |b| := by positivity
  rw [div_lt_div_iff₀ ha hb]
  rcases le_total 0 a with h1 | h1 <;> rcases le_total 0 b with h2 | h2
  · rw [abs_of_nonneg h1, abs_of_nonneg h2]
    constructor <;> intro h <;> nlinarith
  · rw [abs_of_nonneg h1, abs_of_nonpos h2]
    constructor
    · intro h
      nlinarith [mul_nonneg h1 (neg_nonneg.mpr h2)]
    · intro h
      have : a = 0 := by linarith
      have : b = 0 := by linarith
      nlinarith
  · rw [abs_of_nonpos h1, abs_of_nonneg h2]
    constructor
    · intro h
      by_contra hc
      have : a = 0 := by linarith
      have : b = 0 := by linarith
      nlinarith
    · intro h
      nlinarith [mul_nonneg (neg_nonneg.mpr h1) h2]
  · rw [abs_of_nonpos h1, abs_of_nonpos h2]
    constructor <;> intro h <;> nlinarith

/-- On the values that are not NaN, `x < y` compares the keys. -/
theorem F64.lt_iff_key (x y : F64) (hx : x ≠ F64.nan) (hy : y ≠ F64.nan) :
    x.lt y = true ↔ x.key < y.key := by
  cases x with
  | nan => exact absurd rfl hx
  | fin a =>
    cases y with
    | nan => exact absurd rfl hy
    | fin b => simp only [F64.lt, F64.key, decide_eq_true_eq, squash_lt_iff]
    | inf t =>
      cases t
      · simp only [F64.lt, F64.key, Bool.not_false, if_false, true_iff, Bool.false_eq_true]
        exact squash_lt_one a
      · simp only [F64.lt, F64.key, Bool.not_true, if_true, Bool.false_eq_true, false_iff,
          not_lt]
        exact le_of_lt (neg_one_lt_squash a)
  | inf s =>
    cases y with
    | nan => exact absurd rfl hy
    | fin b =>
      cases s
      · simp only [F64.lt, F64.key, if_false, Bool.false_eq_true, false_iff, not_lt]
        exact le_of_lt (squash_lt_one b)
      · simp only [F64.lt, F64.key, if_true, true_iff]
        exact neg_one_lt_squash b
    | inf t =>
      cases s <;> cases t <;> simp [F64.lt, F64.key]

theorem F64.lt_false_iff_key (x y : F64) (hx : x ≠ F64.nan) (hy : y ≠ F64.nan) :
    x.lt y = false ↔ y.key ≤ x.key := by
  rw [← not_lt, ← F64.lt_iff_key x y hx hy]
  simp

/-- On the values that are not NaN, `x <= y` compares the keys. -/
theorem F64.le_iff_key (x y : F64) (hx : x ≠ F64.nan) (hy : y ≠ F64.nan) :
    x.le y = true ↔ x.key ≤ y.key := by
  cases x with
  | nan => exact absurd rfl hx
  | fin a =>
    cases y with
    | nan => exact absurd rfl hy
    | fin b =>
      simp only [F64.le, F64.key, decide_eq_true_eq]
      rw [← not_lt, ← not_lt, squash_lt_iff]
    | inf t =>
      cases t
      · simp only [F64.le, F64.key, Bool.not_false, if_false, true_iff, Bool.false_eq_true]
        exact le_of_lt (squash_lt_one a)
      · simp only [F64.le, F64.key, Bool.not_true, if_true, Bool.false_eq_true, false_iff,
          not_le]
        exact neg_one_lt_squash a
  | inf s =>
    cases y with
    | nan => exact absurd rfl hy
    | fin b =>
      cases s
      · simp only [F64.le, F64.key, if_false, Bool.false_eq_true, false_iff, not_le]
        exact squash_lt_one b
      · simp only [F64.le, F64.key, if_true, true_iff]
        exact le_of_lt (neg_one_lt_squash b)
    | inf t =>
      cases s <;> cases t <;> simp [F64.le, F64.key]

section SortLemmas

variable {α : Type}

/-! ## Basic facts on `Swap` and `Less` -/

theorem length_Swap (data : List α) (i j : Nat) : (Swap data i j).length = data.length := by
  unfold Swap
  split <;> simp

theorem Swap_getElem? (data : List α) (i j : Nat) (hi : i < data.length) (hj : j < data.length)
    (k : Nat) :
    (Swap data i j)[k]? = if k = j then data[i]? else if k = i then data[j]? else data[k]? := by
  unfold Swap
  rw [List.getElem?_eq_getElem hi, List.getElem?_eq_getElem hj]
  simp only [List.getElem?_set, List.length_set]
  by_cases h1 : k = j
  · subst h1; simp [hj]
  · by_cases h2 : k = i
    · subst h2; simp [h1, hi, Ne.symm h1]
    · simp [h1, h2, Ne.symm h1, Ne.symm h2]

theorem keyAt_Swap (key : α → ℚ) (data : List α) (i j : Nat) (hi : i < data.length)
    (hj : j < data.length) (k : Nat) :
    keyAt key (Swap data i j) k
      = if k = j then keyAt key data i else if k = i then keyAt key data j
        else keyAt key data k := by
  unfold keyAt
  rw [Swap_getElem? data i j hi hj k]
  split_ifs <;> rfl

theorem Less_eq (key : α → ℚ) (less : α → α → Bool)
    (hless : ∀ x y, less x y = decide (key x < key y)) (data : List α) (i j : Nat)
    (hi : i < data.length) (hj : j < data.length) :
    Less less data i j = decide (keyAt key data i < keyAt key data j) := by
  unfold Less keyAt
  rw [List.getElem?_eq_getElem hi, List.getElem?_eq_getElem hj]
  exact hless _ _

/-! ## Facts on `Seg` -/

theorem Seg.refl (a b : Nat) (f : Nat → ℚ) : Seg a b f f :=
  ⟨fun _ _ => rfl, fun i h1 h2 => ⟨i, h1, h2, rfl⟩⟩

theorem Seg.trans {a b : Nat} {f g h : Nat → ℚ} (h1 : Seg a b f g) (h2 : Seg a b g h) :
    Seg a b f h := by
  refine ⟨fun k hk => by rw [h2.1 k hk, h1.1 k hk], fun i hi1 hi2 => ?_⟩
  obtain ⟨j, hj1, hj2, hj⟩ := h2.2 i hi1 hi2
  obtain ⟨j2, hj3, hj4, hj5⟩ := h1.2 j hj1 hj2
  exact ⟨j2, hj3, hj4, by rw [hj, hj5]⟩

theorem Seg.mono {a b a2 b2 : Nat} {f g : Nat → ℚ} (h : Seg a2 b2 f g) (ha : a ≤ a2)
    (hb : b2 ≤ b) : Seg a b f g := by
  refine ⟨fun k hk => h.1 k (by omega), fun i hi1 hi2 => ?_⟩
  by_cases hin : a2 ≤ i ∧ i < b2
  · obtain ⟨j, hj1, hj2, hj⟩ := h.2 i hin.1 hin.2
    exact ⟨j, by omega, by omega, hj⟩
  · exact ⟨i, hi1, hi2, h.1 i (by omega)⟩

theorem Seg_Swap (key : α → ℚ) (data : List α) (a b i j : Nat) (hb : b ≤ data.length)
    (hi1 : a ≤ i) (hi2 : i < b) (hj1 : a ≤ j) (hj2 : j < b) :
    Seg a b (keyAt key data) (keyAt key (Swap data i j)) := by
  have e := keyAt_Swap key data i j (by omega) (by omega)
  refine ⟨fun k hk => ?_, fun k hk1 hk2 => ?_⟩
  · rw [e k, if_neg (by omega), if_neg (by omega)]
  · rw [e k]
    split_ifs
    · exact ⟨i, hi1, hi2, rfl⟩
    · exact ⟨j, hj1, hj2, rfl⟩
    · exact ⟨k, hk1, hk2, rfl⟩

/-- A bound that holds for all keys of `[a, b)` still holds after a change inside `[a, b)`. -/
theorem Seg.forall_of {a b : Nat} {f g : Nat → ℚ} (h : Seg a b f g) (P : ℚ → Prop)
    (hP : ∀ i, a ≤ i → i < b → P (f i)) : ∀ i, a ≤ i → i < b → P (g i) := by
  intro i h1 h2
  obtain ⟨j, hj1, hj2, hj⟩ := h.2 i h1 h2
  rw [hj]; exact hP j hj1 hj2

/-! ## `insertionSort_func` -/

theorem length_insertionInner (less : α → α → Bool) (a : Nat) (fuel j : Nat) (data : List α) :
    (insertionInner less a fuel j data).length = data.length := by
  induction fuel generalizing j data with
  | zero => rfl
  | succ fuel ih =>
    unfold insertionInner
    split
    · rw [ih, length_Swap]
    · rfl

theorem length_insertionOuter (less : α → α → Bool) (a : Nat) (n i : Nat) (data : List α) :
    (insertionOuter less a n i data).length = data.length := by
  induction n generalizing i data with
  | zero => rfl
  | succ n ih =>
    unfold insertionOuter
    rw [ih, length_insertionInner]

theorem length_insertionSort_func (less : α → α → Bool) (data : List α) (a b : Nat) :
    (insertionSort_func less data a b).length = data.length :=
  length_insertionOuter less a _ _ data

/-- The inner loop of the insertion sort, started at `j` in a segment `[a, i]` that is sorted
apart from the element at `j`, sorts the segment. -/
theorem insertionInner_spec (key : α → ℚ) (less : α → α → Bool)
    (hless : ∀ x y, less x y = decide (key x < key y)) (a i : Nat) (fuel : Nat) :
    ∀ (j : Nat) (data : List α), a ≤ j → j ≤ i → i < data.length → j - a ≤ fuel →
      SortedOn (keyAt key data) a j → SortedOn (keyAt key data) j (i + 1) →
      (∀ p q, a ≤ p → p < j → j < q → q ≤ i → keyAt key data p ≤ keyAt key data q) →
      Seg a (i + 1) (keyAt key data) (keyAt key (insertionInner less a fuel j data)) ∧
        SortedOn (keyAt key (insertionInner less a fuel j data)) a (i + 1) := by
  induction fuel with
  | zero =>
    intro j data haj hji hi hfuel h1 h2 _
    have hj : j = a := by omega
    subst hj
    exact ⟨Seg.refl _ _ _, h2⟩
  | succ fuel ih =>
    intro j data haj hji hi hfuel h1 h2 h3
    unfold insertionInner
    by_cases hc : j > a ∧ Less less data j (j - 1) = true
    · rw [if_pos hc]
      obtain ⟨hja, hlt⟩ := hc
      rw [Less_eq key less hless data j (j - 1) (by omega) (by omega)] at hlt
      have hlt : keyAt key data j < keyAt key data (j - 1) := of_decide_eq_true hlt
      have e := keyAt_Swap key data j (j - 1) (by omega) (by omega)
      have hseg : Seg a (i + 1) (keyAt key data) (keyAt key (Swap data j (j - 1))) :=
        Seg_Swap key data a (i + 1) j (j - 1) (by omega) (by omega) (by omega) (by omega)
          (by omega)
      have hrec := ih (j - 1) (Swap data j (j - 1)) (by omega) (by omega)
        (by rw [length_Swap]; exact hi) (by omega) ?_ ?_ ?_
      · exact ⟨hseg.trans hrec.1, hrec.2⟩
      · intro p q hp hpq hq
        rw [e p, e q, if_neg (by omega), if_neg (by omega), if_neg (by omega),
          if_neg (by omega)]
        exact h1 p q hp hpq (by omega)
      · intro p q hp hpq hq
        rw [e p, e q]
        by_cases hp1 : p = j - 1
        · rw [if_pos hp1]
          by_cases hq1 : q = j - 1
          · rw [if_pos hq1]
          · rw [if_neg hq1]
            by_cases hq2 : q = j
            · rw [if_pos hq2]; exact le_of_lt hlt
            · rw [if_neg hq2]; exact h2 j q (le_refl _) (by omega) hq
        · rw [if_neg hp1]
          by_cases hp2 : p = j
          · rw [if_pos hp2, if_neg (by omega)]
            by_cases hq2 : q = j
            · rw [if_pos hq2]
            · rw [if_neg hq2]; exact h3 (j - 1) q (by omega) (by omega) (by omega) (by omega)
          · rw [if_neg hp2, if_neg (by omega), if_neg (by omega)]
            exact h2 p q (by omega) hpq hq
      · intro p q hp hpj hjq hq
        rw [e p, e q, if_neg (by omega), if_neg (by omega), if_neg (by omega)]
        by_cases hq2 : q = j
        · rw [if_pos hq2]; exact h1 p (j - 1) hp (by omega) (by omega)
        · rw [if_neg hq2]; exact h3 p q hp (by omega) (by omega) hq
    · rw [if_neg hc]
      refine ⟨Seg.refl _ _ _, ?_⟩
      intro p q hp hpq hq
      by_cases hqj : q < j
      · exact h1 p q hp hpq hqj
      · by_cases hpj : j ≤ p
        · exact h2 p q hpj hpq hq
        · by_cases hq2 : q = j
          · subst hq2
            have hja : q > a := by omega
            have hnl : ¬ (Less less data q (q - 1) = true) := fun h => hc ⟨hja, h⟩
            rw [Less_eq key less hless data q (q - 1) (by omega) (by omega)] at hnl
            have hge : keyAt key data (q - 1) ≤ keyAt key data q := by
              by_contra hh
              exact hnl (decide_eq_true (lt_of_not_le hh))
            exact le_trans (h1 p (q - 1) hp (by omega) (by omega)) hge
          · exact h3 p q hp (by omega) (by omega) (by omega)

/-- The outer loop of the insertion sort: with `[a, i)` sorted, `n` rounds from `i` sort
`[a, i + n)`. -/
theorem insertionOuter_spec (key : α → ℚ) (less : α → α → Bool)
    (hless : ∀ x y, less x y = decide (key x < key y)) (a : Nat) (n : Nat) :
    ∀ (i : Nat) (data : List α), a < i → i + n ≤ data.length →
      SortedOn (keyAt key data) a i →
      Seg a (i + n) (keyAt key data) (keyAt key (insertionOuter less a n i data)) ∧
        SortedOn (keyAt key (insertionOuter less a n i data)) a (i + n) := by
  induction n with
  | zero =>
    intro i data _ _ h
    exact ⟨Seg.refl _ _ _, h⟩
  | succ n ih =>
    intro i data hai hlen h
    unfold insertionOuter
    have h1 := insertionInner_spec key less hless a i (i - a) i data (by omega) (le_refl _)
      (by omega) (le_refl _) h (fun p q hp hpq hq => by
        have : p = q := by omega
        subst this; exact le_refl _) (fun p q _ hp hq hq2 => by omega)
    have h2 := ih (i + 1) (insertionInner less a (i - a) i data) (by omega)
      (by rw [length_insertionInner]; omega) h1.2
    have e : i + 1 + n = i + (n + 1) := by omega
    rw [e] at h2
    exact ⟨(h1.1.mono (le_refl _) (by omega)).trans h2.1, h2.2⟩

/-- The function `insertionSort_func` sorts `data[a:b]` and changes nothing else. -/
theorem insertionSort_func_spec (key : α → ℚ) (less : α → α → Bool)
    (hless : ∀ x y, less x y = decide (key x < key y)) (data : List α) (a b : Nat)
    (hb : b ≤ data.length) :
    Seg a b (keyAt key data) (keyAt key (insertionSort_func less data a b)) ∧
      SortedOn (keyAt key (insertionSort_func less data a b)) a b := by
  unfold insertionSort_func
  by_cases hab : a + 1 ≤ b
  · have h := insertionOuter_spec key less hless a (b - (a + 1)) (a + 1) data (by omega)
      (by omega) (fun p q hp hpq hq => by
        have : p = q := by omega
        subst this; exact le_refl _)
    have e : a + 1 + (b - (a + 1)) = b := by omega
    rw [e] at h
    exact h
  · have e : b - (a + 1) = 0 := by omega
    rw [e]
    exact ⟨Seg.refl _ _ _, fun p q hp hpq hq => by omega⟩

/-! ## The two scanning loops -/

theorem scanUp_spec (cond : Nat → Bool) (j : Nat) (fuel : Nat) :
    ∀ i, j + 1 - i ≤ fuel →
      i ≤ scanUp cond j fuel i ∧ (scanUp cond j fuel i ≤ j + 1 ∨ scanUp cond j fuel i = i) ∧
      (∀ k, i ≤ k → k < scanUp cond j fuel i → cond k = true) ∧
      (scanUp cond j fuel i ≤ j → cond (scanUp cond j fuel i) = false) := by
  induction fuel with
  | zero =>
    intro i h
    refine ⟨le_refl _, Or.inr rfl, fun k h1 h2 => ?_, fun h2 => ?_⟩
    · simp only [scanUp] at h2; omega
    · simp only [scanUp] at h2; omega
  | succ fuel ih =>
    intro i h
    unfold scanUp
    by_cases hc : i ≤ j ∧ cond i = true
    · rw [if_pos hc]
      obtain ⟨h1, h2, h3, h4⟩ := ih (i + 1) (by omega)
      refine ⟨by omega, ?_, fun k hk1 hk2 => ?_, h4⟩
      · rcases h2 with h2 | h2
        · exact Or.inl h2
        · left; omega
      · by_cases hki : k = i
        · rw [hki]; exact hc.2
        · exact h3 k (by omega) hk2
    · rw [if_neg hc]
      refine ⟨le_refl _, Or.inr rfl, fun k h1 h2 => by omega, fun h2 => ?_⟩
      cases hci : cond i with
      | false => rfl
      | true => exact absurd ⟨h2, hci⟩ hc

theorem scanDown_spec (cond : Nat → Bool) (i : Nat) (hi : 1 ≤ i) (fuel : Nat) :
    ∀ j, j + 1 - i ≤ fuel →
      scanDown cond i fuel j ≤ j ∧ (i ≤ scanDown cond i fuel j + 1 ∨ scanDown cond i fuel j = j) ∧
      (∀ k, scanDown cond i fuel j < k → k ≤ j → cond k = true) ∧
      (i ≤ scanDown cond i fuel j → cond (scanDown cond i fuel j) = false) := by
  induction fuel with
  | zero =>
    intro j h
    refine ⟨le_refl _, Or.inr rfl, fun k h1 h2 => ?_, fun h2 => ?_⟩
    · simp only [scanDown] at h1; omega
    · simp only [scanDown] at h2; omega
  | succ fuel ih =>
    intro j h
    unfold scanDown
    by_cases hc : i ≤ j ∧ cond j = true
    · rw [if_pos hc]
      obtain ⟨h1, h2, h3, h4⟩ := ih (j - 1) (by omega)
      refine ⟨by omega, ?_, fun k hk1 hk2 => ?_, h4⟩
      · rcases h2 with h2 | h2
        · exact Or.inl h2
        · left; omega
      · by_cases hkj : k = j
        · rw [hkj]; exact hc.2
        · exact h3 k hk1 (by omega)
    · rw [if_neg hc]
      refine ⟨le_refl _, Or.inr rfl, fun k h1 h2 => by omega, fun h2 => ?_⟩
      cases hcj : cond j with
      | false => rfl
      | true => exact absurd ⟨h2, hcj⟩ hc

/-! ## `partition_func` -/

theorem length_partitionLoop (less : α → α → Bool) (a : Nat) (fuel : Nat) :
    ∀ (data : List α) (i j : Nat), (partitionLoop less a fuel data i j).1.length = data.length := by
  induction fuel with
  | zero => intro data i j; rfl
  | succ fuel ih =>
    intro data i j
    unfold partitionLoop
    simp only []
    split
    · rfl
    · rw [ih, length_Swap]

theorem length_partition_func (less : α → α → Bool) (data : List α) (a b pivot : Nat) :
    (partition_func less data a b pivot).1.length = data.length := by
  unfold partition_func
  simp only []
  split
  · rw [length_Swap, length_Swap]
  · rw [length_Swap, length_partitionLoop, length_Swap, length_Swap]

/-- The two scans of `partition_func` keep the state of the loop, and stop either crossed or
on a pair to exchange. -/
theorem partition_scan (key : α → ℚ) (less : α → α → Bool)
    (hless : ∀ x y, less x y = decide (key x < key y)) (data : List α) (a b i j : Nat) (v : ℚ)
    (hb : b ≤ data.length) (hinv : PartInv (keyAt key data) a b i j v) :
    PartInv (keyAt key data) a b
        (scanUp (fun i => Less less data i a) j (j + 1 - i) i)
        (scanDown (fun j => ! Less less data j a)
          (scanUp (fun i => Less less data i a) j (j + 1 - i) i)
          (j + 1 - scanUp (fun i => Less less data i a) j (j + 1 - i) i) j) v ∧
      (scanUp (fun i => Less less data i a) j (j + 1 - i) i ≤
          scanDown (fun j => ! Less less data j a)
            (scanUp (fun i => Less less data i a) j (j + 1 - i) i)
            (j + 1 - scanUp (fun i => Less less data i a) j (j + 1 - i) i) j →
        scanUp (fun i => Less less data i a) j (j + 1 - i) i <
          scanDown (fun j => ! Less less data j a)
            (scanUp (fun i => Less less data i a) j (j + 1 - i) i)
            (j + 1 - scanUp (fun i => Less less data i a) j (j + 1 - i) i) j ∧
        v ≤ keyAt key data (scanUp (fun i => Less less data i a) j (j + 1 - i) i) ∧
        keyAt key data (scanDown (fun j => ! Less less data j a)
            (scanUp (fun i => Less less data i a) j (j + 1 - i) i)
            (j + 1 - scanUp (fun i => Less less data i a) j (j + 1 - i) i) j) < v) ∧
      i ≤ scanUp (fun i => Less less data i a) j (j + 1 - i) i ∧
      scanDown (fun j => ! Less less data j a)
        (scanUp (fun i => Less less data i a) j (j + 1 - i) i)
        (j + 1 - scanUp (fun i => Less less data i a) j (j + 1 - i) i) j ≤ j := by
  obtain ⟨h1, h2, h3, h4, h5, h6⟩ := hinv
  obtain ⟨u1, u2, u3, u4⟩ := scanUp_spec (fun i => Less less data i a) j (j + 1 - i) i (le_refl _)
  generalize scanUp (fun i => Less less data i a) j (j + 1 - i) i = i2 at u1 u2 u3 u4 ⊢
  have hi2 : i2 ≤ j + 1 := by omega
  obtain ⟨d1, d2, d3, d4⟩ := scanDown_spec (fun j => ! Less less data j a) i2 (by omega)
    (j + 1 - i2) j (le_refl _)
  generalize scanDown (fun j => ! Less less data j a) i2 (j + 1 - i2) j = j2 at d1 d2 d3 d4 ⊢
  have hj2 : i2 ≤ j2 + 1 := by omega
  have hlow : ∀ k, a + 1 ≤ k → k < i2 → keyAt key data k < v := by
    intro k hk1 hk2
    by_cases hki : k < i
    · exact h5 k hk1 hki
    · have := u3 k (by omega) hk2
      simp only [] at this
      rw [Less_eq key less hless data k a (by omega) (by omega)] at this
      rw [← h4]; exact of_decide_eq_true this
  have hhigh : ∀ k, j2 < k → k < b → v ≤ keyAt key data k := by
    intro k hk1 hk2
    by_cases hkj : j < k
    · exact h6 k hkj hk2
    · have := d3 k hk1 (by omega)
      simp only [Bool.not_eq_true'] at this
      rw [Less_eq key less hless data k a (by omega) (by omega)] at this
      rw [← h4]; exact not_lt.mp (of_decide_eq_false this)
  refine ⟨⟨by omega, by omega, hj2, h4, hlow, hhigh⟩, fun hle => ?_, u1, d1⟩
  have e1 := u4 (by omega)
  have e2 := d4 hle
  simp only [] at e1
  simp only [Bool.not_eq_false'] at e2
  rw [Less_eq key less hless data i2 a (by omega) (by omega)] at e1
  rw [Less_eq key less hless data j2 a (by omega) (by omega)] at e2
  have e1 : v ≤ keyAt key data i2 := by rw [← h4]; exact not_lt.mp (of_decide_eq_false e1)
  have e2 : keyAt key data j2 < v := by rw [← h4]; exact of_decide_eq_true e2
  refine ⟨?_, e1, e2⟩
  rcases Nat.lt_or_ge i2 j2 with h | h
  · exact h
  · have : i2 = j2 := by omega
    subst this
    exact absurd e2 (not_lt.mpr e1)

/-- Exchanging the pair on which the scans stopped re-establishes the state of the loop. -/
theorem partition_exchange (key : α → ℚ) (data : List α) (a b i j : Nat) (v : ℚ)
    (hb : b ≤ data.length) (hinv : PartInv (keyAt key data) a b i j v) (hij : i < j)
    (hi : v ≤ keyAt key data i) (hj : keyAt key data j < v) :
    PartInv (keyAt key (Swap data i j)) a b (i + 1) (j - 1) v ∧
      Seg a b (keyAt key data) (keyAt key (Swap data i j)) := by
  obtain ⟨h1, h2, h3, h4, h5, h6⟩ := hinv
  have e := keyAt_Swap key data i j (by omega) (by omega)
  refine ⟨⟨by omega, by omega, by omega, ?_, ?_, ?_⟩, ?_⟩
  · rw [e a, if_neg (by omega), if_neg (by omega)]; exact h4
  · intro k hk1 hk2
    rw [e k, if_neg (by omega)]
    by_cases hki : k = i
    · rw [if_pos hki]; exact hj
    · rw [if_neg hki]; exact h5 k hk1 (by omega)
  · intro k hk1 hk2
    rw [e k]
    by_cases hkj : k = j
    · rw [if_pos hkj]; exact hi
    · rw [if_neg hkj, if_neg (by omega)]; exact h6 k (by omega) hk2
  · exact Seg_Swap key data a b i j hb (by omega) (by omega) (by omega) (by omega)

/-- The loop of `partition_func` ends crossed at `j`, with the keys of `[a+1, j]` below the pivot
key and those of `(j, b)` not below it. -/
theorem partitionLoop_spec (key : α → ℚ) (less : α → α → Bool)
    (hless : ∀ x y, less x y = decide (key x < key y)) (a b : Nat) (v : ℚ) (fuel : Nat) :
    ∀ (data : List α) (i j : Nat), b ≤ data.length → j + 1 - i ≤ fuel →
      PartInv (keyAt key data) a b i j v →
      Seg a b (keyAt key data) (keyAt key (partitionLoop less a fuel data i j).1) ∧
      a ≤ (partitionLoop less a fuel data i j).2 ∧ (partitionLoop less a fuel data i j).2 < b ∧
      keyAt key (partitionLoop less a fuel data i j).1 a = v ∧
      (∀ k, a + 1 ≤ k → k ≤ (partitionLoop less a fuel data i j).2 →
        keyAt key (partitionLoop less a fuel data i j).1 k < v) ∧
      (∀ k, (partitionLoop less a fuel data i j).2 < k → k < b →
        v ≤ keyAt key (partitionLoop less a fuel data i j).1 k) := by
  induction fuel with
  | zero =>
    intro data i j hb hfuel hinv
    obtain ⟨h1, h2, h3, h4, h5, h6⟩ := hinv
    refine ⟨Seg.refl _ _ _, ?_, ?_, h4, fun k hk1 hk2 => h5 k hk1 ?_, h6⟩
    · show a ≤ j; omega
    · show j < b; omega
    · have : k ≤ j := hk2
      omega
  | succ fuel ih =>
    intro data i j hb hfuel hinv
    obtain ⟨hs1, hs2, hs3, hs4⟩ := partition_scan key less hless data a b i j v hb hinv
    unfold partitionLoop
    simp only []
    generalize scanUp (fun i => Less less data i a) j (j + 1 - i) i = i2 at hs1 hs2 hs3 hs4 ⊢
    generalize scanDown (fun j => ! Less less data j a) i2 (j + 1 - i2) j = j2 at hs1 hs2 hs4 ⊢
    by_cases hc : i2 > j2
    · rw [if_pos hc]
      obtain ⟨h1, h2, h3, h4, h5, h6⟩ := hs1
      exact ⟨Seg.refl _ _ _, by show a ≤ j2; omega, by show j2 < b; omega, h4,
        fun k hk1 hk2 => h5 k hk1 (by have : k ≤ j2 := hk2; omega), h6⟩
    · rw [if_neg hc]
      obtain ⟨hlt, hge, hltv⟩ := hs2 (by omega)
      obtain ⟨hinv2, hseg⟩ := partition_exchange key data a b i2 j2 v hb hs1 hlt hge hltv
      obtain ⟨r1, r2, r3, r4, r5, r6⟩ := ih (Swap data i2 j2) (i2 + 1) (j2 - 1)
        (by rw [length_Swap]; exact hb) (by omega) hinv2
      exact ⟨hseg.trans r1, r2, r3, r4, r5, r6⟩

/-- The last exchange of `partition_func` puts the pivot at `j`, between the keys below it and
the keys not below it. -/
theorem partition_final (key : α → ℚ) (data : List α) (a b j : Nat) (v : ℚ)
    (hb : b ≤ data.length) (haj : a ≤ j) (hjb : j < b) (h4 : keyAt key data a = v)
    (h5 : ∀ k, a + 1 ≤ k → k ≤ j → keyAt key data k < v)
    (h6 : ∀ k, j < k → k < b → v ≤ keyAt key data k) :
    Seg a b (keyAt key data) (keyAt key (Swap data j a)) ∧
      (∀ k, a ≤ k → k < j → keyAt key (Swap data j a) k < keyAt key (Swap data j a) j) ∧
      (∀ k, j < k → k < b → keyAt key (Swap data j a) j ≤ keyAt key (Swap data j a) k) := by
  have e := keyAt_Swap key data j a (by omega) (by omega)
  have hj : keyAt key (Swap data j a) j = v := by
    rw [e j]
    by_cases hja : j = a
    · rw [if_pos hja, hja]; exact h4
    · rw [if_neg hja, if_pos rfl]; exact h4
  refine ⟨Seg_Swap key data a b j a hb haj hjb (le_refl _) (by omega), ?_, ?_⟩
  · intro k hk1 hk2
    rw [hj, e k]
    by_cases hka : k = a
    · rw [if_pos hka]; exact h5 j (by omega) (le_refl _)
    · rw [if_neg hka, if_neg (by omega)]; exact h5 k (by omega) (by omega)
  · intro k hk1 hk2
    rw [hj, e k, if_neg (by omega), if_neg (by omega)]
    exact h6 k hk1 hk2

/-- The function `partition_func` places the pivot at the returned index, the smaller keys of
`data[a:b]` before it and the other keys after it. -/
theorem partition_func_spec (key : α → ℚ) (less : α → α → Bool)
    (hless : ∀ x y, less x y = decide (key x < key y)) (data : List α) (a b pivot : Nat)
    (hab : a < b) (hb : b ≤ data.length) (hp1 : a ≤ pivot) (hp2 : pivot < b) :
    Seg a b (keyAt key data) (keyAt key (partition_func less data a b pivot).1) ∧
      a ≤ (partition_func less data a b pivot).2.1 ∧
      (partition_func less data a b pivot).2.1 < b ∧
      (∀ k, a ≤ k → k < (partition_func less data a b pivot).2.1 →
        keyAt key (partition_func less data a b pivot).1 k
          < keyAt key (partition_func less data a b pivot).1
              (partition_func less data a b pivot).2.1) ∧
      (∀ k, (partition_func less data a b pivot).2.1 < k → k < b →
        keyAt key (partition_func less data a b pivot).1
            (partition_func less data a b pivot).2.1
          ≤ keyAt key (partition_func less data a b pivot).1 k) := by
  have hseg0 : Seg a b (keyAt key data) (keyAt key (Swap data a pivot)) :=
    Seg_Swap key data a b a pivot hb (le_refl _) hab hp1 hp2
  have hb1 : b ≤ (Swap data a pivot).length := by rw [length_Swap]; exact hb
  have hinv : PartInv (keyAt key (Swap data a pivot)) a b (a + 1) (b - 1)
      (keyAt key (Swap data a pivot) a) :=
    ⟨le_refl _, by omega, by omega, rfl, fun k h1 h2 => by omega, fun k h1 h2 => by omega⟩
  obtain ⟨hs1, hs2, hs3, hs4⟩ := partition_scan key less hless (Swap data a pivot) a b (a + 1)
    (b - 1) _ hb1 hinv
  unfold partition_func
  simp only []
  generalize keyAt key (Swap data a pivot) a = v at hinv hs1 hs2
  generalize scanUp (fun i => Less less (Swap data a pivot) i a) (b - 1) (b - 1 + 1 - (a + 1))
    (a + 1) = i2 at hs1 hs2 hs3 hs4 ⊢
  generalize scanDown (fun j => ! Less less (Swap data a pivot) j a) i2 (b - 1 + 1 - i2)
    (b - 1) = j2 at hs1 hs2 hs4 ⊢
  by_cases hc : i2 > j2
  · rw [if_pos hc]
    obtain ⟨h1, h2, h3, h4, h5, h6⟩ := hs1
    obtain ⟨f1, f2, f3⟩ := partition_final key (Swap data a pivot) a b j2 v hb1 (by omega)
      (by omega) h4 (fun k hk1 hk2 => h5 k hk1 (by omega)) h6
    exact ⟨hseg0.trans f1, by show a ≤ j2; omega, by show j2 < b; omega, f2, f3⟩
  · rw [if_neg hc]
    obtain ⟨hlt, hge, hltv⟩ := hs2 (by omega)
    obtain ⟨hinv2, hseg⟩ := partition_exchange key (Swap data a pivot) a b i2 j2 v hb1 hs1 hlt
      hge hltv
    have hb2 : b ≤ (Swap (Swap data a pivot) i2 j2).length := by rw [length_Swap]; exact hb1
    obtain ⟨r1, r2, r3, r4, r5, r6⟩ := partitionLoop_spec key less hless a b v
      (j2 - 1 + 1 - (i2 + 1)) (Swap (Swap data a pivot) i2 j2) (i2 + 1) (j2 - 1) hb2 (le_refl _)
      hinv2
    have hb3 : b ≤ (partitionLoop less a (j2 - 1 + 1 - (i2 + 1))
        (Swap (Swap data a pivot) i2 j2) (i2 + 1) (j2 - 1)).1.length := by
      rw [length_partitionLoop]; exact hb2
    generalize partitionLoop less a (j2 - 1 + 1 - (i2 + 1)) (Swap (Swap data a pivot) i2 j2)
      (i2 + 1) (j2 - 1) = r at r1 r2 r3 r4 r5 r6 hb3 ⊢
    obtain ⟨f1, f2, f3⟩ := partition_final key r.1 a b r.2 v hb3 r2 r3 r4 r5 r6
    exact ⟨(hseg0.trans hseg).trans (r1.trans f1), r2, r3, f2, f3⟩

/-! ## `partitionEqual_func` -/

theorem length_partitionEqualLoop (less : α → α → Bool) (a : Nat) (fuel : Nat) :
    ∀ (data : List α) (i j : Nat),
      (partitionEqualLoop less a fuel data i j).1.length = data.length := by
  induction fuel with
  | zero => intro data i j; rfl
  | succ fuel ih =>
    intro data i j
    unfold partitionEqualLoop
    simp only []
    split
    · rfl
    · rw [ih, length_Swap]

theorem length_partitionEqual_func (less : α → α → Bool) (data : List α) (a b pivot : Nat) :
    (partitionEqual_func less data a b pivot).1.length = data.length := by
  unfold partitionEqual_func
  simp only []
  rw [length_partitionEqualLoop, length_Swap]

/-- The two scans of `partitionEqual_func` keep the state of the loop, and stop either crossed
or on a pair to exchange. -/
theorem partitionEqual_scan (key : α → ℚ) (less : α → α → Bool)
    (hless : ∀ x y, less x y = decide (key x < key y)) (data : List α) (a b i j : Nat) (v : ℚ)
    (hb : b ≤ data.length) (hinv : PartEqInv (keyAt key data) a b i j v) :
    PartEqInv (keyAt key data) a b
        (scanUp (fun i => ! Less less data a i) j (j + 1 - i) i)
        (scanDown (fun j => Less less data a j)
          (scanUp (fun i => ! Less less data a i) j (j + 1 - i) i)
          (j + 1 - scanUp (fun i => ! Less less data a i) j (j + 1 - i) i) j) v ∧
      (scanUp (fun i => ! Less less data a i) j (j + 1 - i) i ≤
          scanDown (fun j => Less less data a j)
            (scanUp (fun i => ! Less less data a i) j (j + 1 - i) i)
            (j + 1 - scanUp (fun i => ! Less less data a i) j (j + 1 - i) i) j →
        scanUp (fun i => ! Less less data a i) j (j + 1 - i) i <
          scanDown (fun j => Less less data a j)
            (scanUp (fun i => ! Less less data a i) j (j + 1 - i) i)
            (j + 1 - scanUp (fun i => ! Less less data a i) j (j + 1 - i) i) j ∧
        v < keyAt key data (scanUp (fun i => ! Less less data a i) j (j + 1 - i) i) ∧
        keyAt key data (scanDown (fun j => Less less data a j)
            (scanUp (fun i => ! Less less data a i) j (j + 1 - i) i)
            (j + 1 - scanUp (fun i => ! Less less data a i) j (j + 1 - i) i) j) ≤ v) ∧
      i ≤ scanUp (fun i => ! Less less data a i) j (j + 1 - i) i ∧
      scanDown (fun j => Less less data a j)
        (scanUp (fun i => ! Less less data a i) j (j + 1 - i) i)
        (j + 1 - scanUp (fun i => ! Less less data a i) j (j + 1 - i) i) j ≤ j := by
  obtain ⟨h1, h2, h3, h4, h5, h6⟩ := hinv
  obtain ⟨u1, u2, u3, u4⟩ := scanUp_spec (fun i => ! Less less data a i) j (j + 1 - i) i
    (le_refl _)
  generalize scanUp (fun i => ! Less less data a i) j (j + 1 - i) i = i2 at u1 u2 u3 u4 ⊢
  have hi2 : i2 ≤ j + 1 := by omega
  obtain ⟨d1, d2, d3, d4⟩ := scanDown_spec (fun j => Less less data a j) i2 (by omega)
    (j + 1 - i2) j (le_refl _)
  generalize scanDown (fun j => Less less data a j) i2 (j + 1 - i2) j = j2 at d1 d2 d3 d4 ⊢
  have hj2 : i2 ≤ j2 + 1 := by omega
  have hlow : ∀ k, a + 1 ≤ k → k < i2 → keyAt key data k ≤ v := by
    intro k hk1 hk2
    by_cases hki : k < i
    · exact h5 k hk1 hki
    · have := u3 k (by omega) hk2
      simp only [Bool.not_eq_true'] at this
      rw [Less_eq key less hless data a k (by omega) (by omega)] at this
      rw [← h4]; exact not_lt.mp (of_decide_eq_false this)
  have hhigh : ∀ k, j2 < k → k < b → v < keyAt key data k := by
    intro k hk1 hk2
    by_cases hkj : j < k
    · exact h6 k hkj hk2
    · have := d3 k hk1 (by omega)
      simp only [] at this
      rw [Less_eq key less hless data a k (by omega) (by omega)] at this
      rw [← h4]; exact of_decide_eq_true this
  refine ⟨⟨by omega, by omega, hj2, h4, hlow, hhigh⟩, fun hle => ?_, u1, d1⟩
  have e1 := u4 (by omega)
  have e2 := d4 hle
  simp only [Bool.not_eq_false'] at e1
  simp only [] at e2
  rw [Less_eq key less hless data a i2 (by omega) (by omega)] at e1
  rw [Less_eq key less hless data a j2 (by omega) (by omega)] at e2
  have e1 : v < keyAt key data i2 := by rw [← h4]; exact of_decide_eq_true e1
  have e2 : keyAt key data j2 ≤ v := by rw [← h4]; exact not_lt.mp (of_decide_eq_false e2)
  refine ⟨?_, e1, e2⟩
  rcases Nat.lt_or_ge i2 j2 with h | h
  · exact h
  · have : i2 = j2 := by omega
    subst this
    exact absurd e1 (not_lt.mpr e2)

theorem partitionEqual_exchange (key : α → ℚ) (data : List α) (a b i j : Nat) (v : ℚ)
    (hb : b ≤ data.length) (hinv : PartEqInv (keyAt key data) a b i j v) (hij : i < j)
    (hi : v < keyAt key data i) (hj : keyAt key data j ≤ v) :
    PartEqInv (keyAt key (Swap data i j)) a b (i + 1) (j - 1) v ∧
      Seg a b (keyAt key data) (keyAt key (Swap data i j)) := by
  obtain ⟨h1, h2, h3, h4, h5, h6⟩ := hinv
  have e := keyAt_Swap key data i j (by omega) (by omega)
  refine ⟨⟨by omega, by omega, by omega, ?_, ?_, ?_⟩, ?_⟩
  · rw [e a, if_neg (by omega), if_neg (by omega)]; exact h4
  · intro k hk1 hk2
    rw [e k, if_neg (by omega)]
    by_cases hki : k = i
    · rw [if_pos hki]; exact hj
    · rw [if_neg hki]; exact h5 k hk1 (by omega)
  · intro k hk1 hk2
    rw [e k]
    by_cases hkj : k = j
    · rw [if_pos hkj]; exact hi
    · rw [if_neg hkj, if_neg (by omega)]; exact h6 k (by omega) hk2
  · exact Seg_Swap key data a b i j hb (by omega) (by omega) (by omega) (by omega)

/-- The loop of `partitionEqual_func` ends at `i` with the keys of `[a+1, i)` at most the pivot
key and those of `[i, b)` above it. -/
theorem partitionEqualLoop_spec (key : α → ℚ) (less : α → α → Bool)
    (hless : ∀ x y, less x y = decide (key x < key y)) (a b : Nat) (v : ℚ) (fuel : Nat) :
    ∀ (data : List α) (i j : Nat), b ≤ data.length → j + 1 - i ≤ fuel →
      PartEqInv (keyAt key data) a b i j v →
      Seg a b (keyAt key data) (keyAt key (partitionEqualLoop less a fuel data i j).1) ∧
      a + 1 ≤ (partitionEqualLoop less a fuel data i j).2 ∧
      (partitionEqualLoop less a fuel data i j).2 ≤ b ∧
      keyAt key (partitionEqualLoop less a fuel data i j).1 a = v ∧
      (∀ k, a + 1 ≤ k → k < (partitionEqualLoop less a fuel data i j).2 →
        keyAt key (partitionEqualLoop less a fuel data i j).1 k ≤ v) ∧
      (∀ k, (partitionEqualLoop less a fuel data i j).2 ≤ k → k < b →
        v < keyAt key (partitionEqualLoop less a fuel data i j).1 k) := by
  induction fuel with
  | zero =>
    intro data i j hb hfuel hinv
    obtain ⟨h1, h2, h3, h4, h5, h6⟩ := hinv
    refine ⟨Seg.refl _ _ _, ?_, ?_, h4, h5, fun k hk1 hk2 => h6 k ?_ hk2⟩
    · show a + 1 ≤ i; omega
    · show i ≤ b; omega
    · have : i ≤ k := hk1
      omega
  | succ fuel ih =>
    intro data i j hb hfuel hinv
    obtain ⟨hs1, hs2, hs3, hs4⟩ := partitionEqual_scan key less hless data a b i j v hb hinv
    unfold partitionEqualLoop
    simp only []
    generalize scanUp (fun i => ! Less less data a i) j (j + 1 - i) i = i2 at hs1 hs2 hs3 hs4 ⊢
    generalize scanDown (fun j => Less less data a j) i2 (j + 1 - i2) j = j2 at hs1 hs2 hs4 ⊢
    by_cases hc : i2 > j2
    · rw [if_pos hc]
      obtain ⟨h1, h2, h3, h4, h5, h6⟩ := hs1
      exact ⟨Seg.refl _ _ _, by show a + 1 ≤ i2; omega, by show i2 ≤ b; omega, h4, h5,
        fun k hk1 hk2 => h6 k (by have : i2 ≤ k := hk1; omega) hk2⟩
    · rw [if_neg hc]
      obtain ⟨hlt, hgt, hle⟩ := hs2 (by omega)
      obtain ⟨hinv2, hseg⟩ := partitionEqual_exchange key data a b i2 j2 v hb hs1 hlt hgt hle
      obtain ⟨r1, r2, r3, r4, r5, r6⟩ := ih (Swap data i2 j2) (i2 + 1) (j2 - 1)
        (by rw [length_Swap]; exact hb) (by omega) hinv2
      exact ⟨hseg.trans r1, r2, r3, r4, r5, r6⟩

/-- The function `partitionEqual_func` places the keys of `data[a:b]` that are at most the
pivot key before the returned index and the keys above it from there on. -/
theorem partitionEqual_func_spec (key : α → ℚ) (less : α → α → Bool)
    (hless : ∀ x y, less x y = decide (key x < key y)) (data : List α) (a b pivot : Nat)
    (hab : a < b) (hb : b ≤ data.length) (hp1 : a ≤ pivot) (hp2 : pivot < b) :
    Seg a b (keyAt key data) (keyAt key (partitionEqual_func less data a b pivot).1) ∧
      a < (partitionEqual_func less data a b pivot).2 ∧
      (partitionEqual_func less data a b pivot).2 ≤ b ∧
      (∀ k, a ≤ k → k < (partitionEqual_func less data a b pivot).2 →
        keyAt key (partitionEqual_func less data a b pivot).1 k ≤ keyAt key data pivot) ∧
      (∀ k, (partitionEqual_func less data a b pivot).2 ≤ k → k < b →
        keyAt key data pivot < keyAt key (partitionEqual_func less data a b pivot).1 k) := by
  have hseg0 : Seg a b (keyAt key data) (keyAt key (Swap data a pivot)) :=
    Seg_Swap key data a b a pivot hb (le_refl _) hab hp1 hp2
  have hb1 : b ≤ (Swap data a pivot).length := by rw [length_Swap]; exact hb
  have hv : keyAt key (Swap data a pivot) a = keyAt key data pivot := by
    rw [keyAt_Swap key data a pivot (by omega) (by omega) a]
    by_cases hap : a = pivot
    · rw [if_pos hap, hap]
    · rw [if_neg hap, if_pos rfl]
  have hinv : PartEqInv (keyAt key (Swap data a pivot)) a b (a + 1) (b - 1)
      (keyAt key data pivot) :=
    ⟨le_refl _, by omega, by omega, hv, fun k h1 h2 => by omega, fun k h1 h2 => by omega⟩
  obtain ⟨r1, r2, r3, r4, r5, r6⟩ := partitionEqualLoop_spec key less hless a b _
    (b - 1 + 2 - (a + 1)) (Swap data a pivot) (a + 1) (b - 1) hb1 (by omega) hinv
  unfold partitionEqual_func
  simp only []
  refine ⟨hseg0.trans r1, r2, r3, fun k hk1 hk2 => ?_, r6⟩
  by_cases hka : k = a
  · rw [hka, r4]
  · exact r5 k (by omega) hk2

/-! ## `reverseRange_func`, `breakPatterns_func` and `choosePivot_func` -/

theorem length_reverseRangeLoop (fuel : Nat) :
    ∀ (i j : Nat) (data : List α), (reverseRangeLoop fuel i j data).length = data.length := by
  induction fuel with
  | zero => intro i j data; rfl
  | succ fuel ih =>
    intro i j data
    unfold reverseRangeLoop
    split
    · rw [ih, length_Swap]
    · rfl

theorem length_reverseRange_func (data : List α) (a b : Nat) :
    (reverseRange_func data a b).length = data.length :=
  length_reverseRangeLoop _ _ _ _

theorem reverseRangeLoop_seg (key : α → ℚ) (a b : Nat) (fuel : Nat) :
    ∀ (i j : Nat) (data : List α), b ≤ data.length → a ≤ i → j < b →
      Seg a b (keyAt key data) (keyAt key (reverseRangeLoop fuel i j data)) := by
  induction fuel with
  | zero => intro i j data _ _ _; exact Seg.refl _ _ _
  | succ fuel ih =>
    intro i j data hb hi hj
    unfold reverseRangeLoop
    split
    · exact (Seg_Swap key data a b i j hb hi (by omega) (by omega) hj).trans
        (ih (i + 1) (j - 1) (Swap data i j) (by rw [length_Swap]; exact hb) (by omega)
          (by omega))
    · exact Seg.refl _ _ _

theorem reverseRange_func_seg (key : α → ℚ) (data : List α) (a b : Nat) (hab : a < b)
    (hb : b ≤ data.length) :
    Seg a b (keyAt key data) (keyAt key (reverseRange_func data a b)) :=
  reverseRangeLoop_seg key a b _ a (b - 1) data hb (le_refl _) (by omega)

theorem length_breakPatternsLoop (next : Nat → Nat) (a length modulus idx : Nat) (n : Nat) :
    ∀ (i : Nat) (data : List α) (random : Nat),
      (breakPatternsLoop next a length modulus idx n i data random).length = data.length := by
  induction n with
  | zero => intro i data random; rfl
  | succ n ih =>
    intro i data random
    unfold breakPatternsLoop
    simp only []
    rw [ih, length_Swap]

theorem length_breakPatterns_func (next : Nat → Nat) (data : List α) (a b : Nat) :
    (breakPatterns_func next data a b).length = data.length := by
  unfold breakPatterns_func
  simp only []
  split
  · rw [length_breakPatternsLoop]
  · rfl

theorem nextPowerOfTwo_le (length : Nat) (h : 1 ≤ length) : nextPowerOfTwo length ≤ 2 * length := by
  unfold nextPowerOfTwo bitsLen
  rw [if_neg (by omega)]
  have h1 : 2 ^ length.log2 ≤ length := Nat.log2_self_le (by omega)
  have h2 : 2 ^ (length.log2 + 1) = 2 * 2 ^ length.log2 := by rw [pow_succ]; ring
  have h3 := Nat.mod_le (2 ^ (length.log2 + 1)) (2 ^ 64)
  omega

/-- The index `other` computed in `breakPatterns_func` is below `length`. -/
theorem breakPatterns_other_lt (length random : Nat) (h : 1 ≤ length) :
    (if Nat.land random (nextPowerOfTwo length - 1) ≥ length then
        Nat.land random (nextPowerOfTwo length - 1) - length
      else Nat.land random (nextPowerOfTwo length - 1)) < length := by
  have h1 : Nat.land random (nextPowerOfTwo length - 1) ≤ nextPowerOfTwo length - 1 :=
    Nat.and_le_right
  have h2 := nextPowerOfTwo_le length h
  split <;> omega

theorem breakPatternsLoop_seg (key : α → ℚ) (next : Nat → Nat) (a b idx : Nat)
    (hab : 1 ≤ b - a) (hidx1 : a ≤ idx) (hidx2 : idx + 2 < b) (n : Nat) :
    ∀ (i : Nat) (data : List α) (random : Nat), b ≤ data.length → i + n ≤ 3 →
      Seg a b (keyAt key data)
        (keyAt key (breakPatternsLoop next a (b - a) (nextPowerOfTwo (b - a)) idx n i data
          random)) := by
  induction n with
  | zero => intro i data random _ _; exact Seg.refl _ _ _
  | succ n ih =>
    intro i data random hb hi
    unfold breakPatternsLoop
    simp only []
    have ho := breakPatterns_other_lt (b - a) (next random) hab
    exact (Seg_Swap key data a b _ _ hb (by omega) (by omega) (by omega) (by omega)).trans
      (ih (i + 1) _ _ (by rw [length_Swap]; exact hb) (by omega))

theorem breakPatterns_func_seg (key : α → ℚ) (next : Nat → Nat) (data : List α) (a b : Nat)
    (hb : b ≤ data.length) :
    Seg a b (keyAt key data) (keyAt key (breakPatterns_func next data a b)) := by
  unfold breakPatterns_func
  simp only []
  split
  · rename_i h
    have h4 : 2 ≤ (b - a) / 4 := by omega
    exact breakPatternsLoop_seg key next a b _ (by omega) (by omega) (by omega) 3 0 data _ hb
      (by omega)
  · exact Seg.refl _ _ _

theorem order2_func_mem (less : α → α → Bool) (data : List α) (a b swaps : Nat) :
    ((order2_func less data a b swaps).1 = a ∧ (order2_func less data a b swaps).2.1 = b) ∨
    ((order2_func less data a b swaps).1 = b ∧ (order2_func less data a b swaps).2.1 = a) := by
  unfold order2_func
  split
  · right; exact ⟨rfl, rfl⟩
  · left; exact ⟨rfl, rfl⟩

theorem median_func_mem (less : α → α → Bool) (data : List α) (a b c swaps : Nat) :
    (median_func less data a b c swaps).1 = a ∨ (median_func less data a b c swaps).1 = b ∨
      (median_func less data a b c swaps).1 = c := by
  unfold median_func
  simp only []
  rcases order2_func_mem less data a b swaps with ⟨h1, h2⟩ | ⟨h1, h2⟩ <;>
    rcases order2_func_mem less data (order2_func less data a b swaps).2.1 c
      (order2_func less data a b swaps).2.2 with ⟨h3, h4⟩ | ⟨h3, h4⟩ <;>
    rcases order2_func_mem less data (order2_func less data a b swaps).1
      (order2_func less data (order2_func less data a b swaps).2.1 c
        (order2_func less data a b swaps).2.2).1
      (order2_func less data (order2_func less data a b swaps).2.1 c
        (order2_func less data a b swaps).2.2).2.2 with ⟨h5, h6⟩ | ⟨h5, h6⟩ <;>
    simp_all

/-- The pivot chosen by `choosePivot_func` is an index of `data[a:b]`. -/
theorem choosePivot_func_mem (less : α → α → Bool) (data : List α) (a b : Nat) (hab : a < b) :
    a ≤ (choosePivot_func less data a b).1 ∧ (choosePivot_func less data a b).1 < b := by
  have hp : ∀ r : Nat × Nat,
      (if r.2 = 0 then (r.1, sortedHint.increasingHint)
        else if r.2 = 4 * 3 then (r.1, sortedHint.decreasingHint)
        else (r.1, sortedHint.unknownHint)).1 = r.1 := by
    intro r; split_ifs <;> rfl
  unfold choosePivot_func
  simp only []
  rw [hp]
  by_cases h8 : b - a ≥ 8
  · rw [if_pos h8]
    have hq : 2 ≤ (b - a) / 4 := by omega
    by_cases h50 : b - a ≥ 50
    · rw [if_pos h50]
      unfold medianAdjacent_func
      have m1 := median_func_mem less data (a + (b - a) / 4 * 1 - 1) (a + (b - a) / 4 * 1)
        (a + (b - a) / 4 * 1 + 1) 0
      generalize median_func less data (a + (b - a) / 4 * 1 - 1) (a + (b - a) / 4 * 1)
        (a + (b - a) / 4 * 1 + 1) 0 = ri at m1 ⊢
      have m2 := median_func_mem less data (a + (b - a) / 4 * 2 - 1) (a + (b - a) / 4 * 2)
        (a + (b - a) / 4 * 2 + 1) ri.2
      generalize median_func less data (a + (b - a) / 4 * 2 - 1) (a + (b - a) / 4 * 2)
        (a + (b - a) / 4 * 2 + 1) ri.2 = rj at m2 ⊢
      have m3 := median_func_mem less data (a + (b - a) / 4 * 3 - 1) (a + (b - a) / 4 * 3)
        (a + (b - a) / 4 * 3 + 1) rj.2
      generalize median_func less data (a + (b - a) / 4 * 3 - 1) (a + (b - a) / 4 * 3)
        (a + (b - a) / 4 * 3 + 1) rj.2 = rk at m3 ⊢
      have m4 := median_func_mem less data ri.1 rj.1 rk.1 rk.2
      omega
    · rw [if_neg h50]
      have m := median_func_mem less data (a + (b - a) / 4 * 1) (a + (b - a) / 4 * 2)
        (a + (b - a) / 4 * 3) 0
      omega
  · rw [if_neg h8]
    show a ≤ a + (b - a) / 4 * 2 ∧ a + (b - a) / 4 * 2 < b
    omega

/-! ## `partialInsertionSort_func` -/

theorem LowerBound.seg {a b : Nat} {f g : Nat → ℚ} (h : LowerBound f a b) (hs : Seg a b f g) :
    LowerBound g a b := by
  rcases h with h | h
  · exact Or.inl h
  · by_cases ha : a = 0
    · exact Or.inl ha
    · right
      intro i h1 h2
      obtain ⟨j, hj1, hj2, hj⟩ := hs.2 i h1 h2
      rw [hj, hs.1 (a - 1) (by omega)]
      exact h j hj1 hj2

theorem SortedOn.extend {f : Nat → ℚ} {a i i2 : Nat} (h : SortedOn f a i)
    (hstep : ∀ k, i ≤ k → k < i2 → f (k - 1) ≤ f k) : SortedOn f a i2 := by
  have key : ∀ d p q, q = p + d → a ≤ p → q < i2 → f p ≤ f q := by
    intro d
    induction d with
    | zero => intro p q hq _ _; rw [hq]; exact le_refl _
    | succ d ih =>
      intro p q hq hp hq2
      by_cases hqi : q < i
      · exact h p q hp (by omega) hqi
      · have h1 := ih p (q - 1) (by omega) hp (by omega)
        exact le_trans h1 (hstep q (by omega) hq2)
  intro p q hp hpq hq
  exact key (q - p) p q (by omega) hp hq

theorem length_shiftLeft (less : α → α → Bool) (fuel : Nat) :
    ∀ (j : Nat) (data : List α), (shiftLeft less fuel j data).length = data.length := by
  induction fuel with
  | zero => intro j data; rfl
  | succ fuel ih =>
    intro j data
    unfold shiftLeft
    split
    · split
      · rfl
      · rw [ih, length_Swap]
    · rfl

theorem length_shiftRight (less : α → α → Bool) (b : Nat) (fuel : Nat) :
    ∀ (j : Nat) (data : List α), (shiftRight less b fuel j data).length = data.length := by
  induction fuel with
  | zero => intro j data; rfl
  | succ fuel ih =>
    intro j data
    unfold shiftRight
    split
    · split
      · rfl
      · rw [ih, length_Swap]
    · rfl

theorem length_partialInsertionLoop (less : α → α → Bool) (a b : Nat) (n : Nat) :
    ∀ (data : List α) (i : Nat),
      (partialInsertionLoop less a b n data i).1.length = data.length := by
  induction n with
  | zero => intro data i; rfl
  | succ n ih =>
    intro data i
    unfold partialInsertionLoop
    simp only []
    split
    · rfl
    · split
      · rfl
      · rw [ih]
        split <;> split <;>
          simp only [length_shiftRight, length_shiftLeft, length_Swap]

theorem length_partialInsertionSort_func (less : α → α → Bool) (data : List α) (a b : Nat) :
    (partialInsertionSort_func less data a b).1.length = data.length :=
  length_partialInsertionLoop less a b 5 data (a + 1)

/-- The loop that shifts to the left is the inner loop of the insertion sort whose lower end
is 0. -/
theorem shiftLeft_eq (less : α → α → Bool) (fuel : Nat) :
    ∀ (j : Nat) (data : List α), shiftLeft less fuel j data = insertionInner less 0 fuel j data := by
  induction fuel with
  | zero => intro j data; rfl
  | succ fuel ih =>
    intro j data
    unfold shiftLeft insertionInner
    by_cases hj : j ≥ 1
    · rw [if_pos hj]
      by_cases hl : Less less data j (j - 1) = true
      · rw [if_neg (by simp [hl]), if_pos ⟨by omega, hl⟩, ih]
      · rw [if_pos hl, if_neg (by intro h; exact hl h.2)]
    · rw [if_neg hj, if_neg (by intro h; omega)]

/-- Below a segment whose keys are bounded from below by the key before it, the inner loop of
the insertion sort whose lower end is 0 stops at the start of the segment. -/
theorem insertionInner_zero_eq (key : α → ℚ) (less : α → α → Bool)
    (hless : ∀ x y, less x y = decide (key x < key y)) (a : Nat) (fuel : Nat) :
    ∀ (j : Nat) (data : List α), a ≤ j → j < data.length →
      (a = 0 ∨ ∀ k, a ≤ k → k ≤ j → keyAt key data (a - 1) ≤ keyAt key data k) →
      insertionInner less 0 fuel j data = insertionInner less a fuel j data := by
  induction fuel with
  | zero => intro j data _ _ _; rfl
  | succ fuel ih =>
    intro j data haj hj hlb
    unfold insertionInner
    by_cases hja : j > a
    · by_cases hl : Less less data j (j - 1) = true
      · rw [if_pos ⟨by omega, hl⟩, if_pos ⟨hja, hl⟩]
        apply ih (j - 1) (Swap data j (j - 1)) (by omega) (by rw [length_Swap]; omega)
        by_cases ha0 : a = 0
        · exact Or.inl ha0
        rcases hlb with hlb | hlb
        · exact Or.inl hlb
        · right
          intro k hk1 hk2
          have e := keyAt_Swap key data j (j - 1) (by omega) (by omega)
          rw [e (a - 1), if_neg (by omega), if_neg (by omega), e k]
          split_ifs
          · exact hlb j (by omega) (le_refl _)
          · exact hlb (j - 1) (by omega) (by omega)
          · exact hlb k hk1 (by omega)
      · rw [if_neg (by intro h; exact hl h.2), if_neg (by intro h; exact hl h.2)]
    · have hja2 : j = a := by omega
      subst hja2
      have e2 : ¬ (j > j ∧ Less less data j (j - 1) = true) := fun h => absurd h.1 (by omega)
      rw [if_neg e2]
      by_cases h0 : j = 0
      · have e1 : ¬ (j > 0 ∧ Less less data j (j - 1) = true) := fun h => absurd h.1 (by omega)
        rw [if_neg e1]
      · rcases hlb with hlb | hlb
        · exact absurd hlb h0
        · have hnl : ¬ (Less less data j (j - 1) = true) := by
            rw [Less_eq key less hless data j (j - 1) (by omega) (by omega)]
            intro h
            exact absurd (of_decide_eq_true h) (not_lt.mpr (hlb j (le_refl _) (le_refl _)))
          have e1 : ¬ (j > 0 ∧ Less less data j (j - 1) = true) := fun h => hnl h.2
          rw [if_neg e1]

theorem shiftRight_seg (key : α → ℚ) (less : α → α → Bool) (lo b : Nat) (fuel : Nat) :
    ∀ (j : Nat) (data : List α), b ≤ data.length → lo + 1 ≤ j →
      Seg lo b (keyAt key data) (keyAt key (shiftRight less b fuel j data)) := by
  induction fuel with
  | zero => intro j data _ _; exact Seg.refl _ _ _
  | succ fuel ih =>
    intro j data hb hj
    unfold shiftRight
    split
    · split
      · exact Seg.refl _ _ _
      · exact (Seg_Swap key data lo b j (j - 1) hb (by omega) (by omega) (by omega)
          (by omega)).trans
          (ih (j + 1) (Swap data j (j - 1)) (by rw [length_Swap]; exact hb) (by omega))
    · exact Seg.refl _ _ _

/-- After the exchange of an out-of-order pair, shifting the smaller element to the left sorts
the prefix again. -/
theorem shiftLeft_sorted (key : α → ℚ) (less : α → α → Bool)
    (hless : ∀ x y, less x y = decide (key x < key y)) (data : List α) (a b i : Nat)
    (hb : b ≤ data.length) (hai : a + 1 ≤ i) (hib : i < b)
    (hlb : LowerBound (keyAt key data) a b)
    (hs : SortedOn (keyAt key data) a (i - 1)) :
    Seg a b (keyAt key data)
        (keyAt key (if i - a ≥ 2 then shiftLeft less (i - 1) (i - 1) data else data)) ∧
      SortedOn (keyAt key (if i - a ≥ 2 then shiftLeft less (i - 1) (i - 1) data else data))
        a i := by
  by_cases h2 : i - a ≥ 2
  · rw [if_pos h2, shiftLeft_eq,
      insertionInner_zero_eq key less hless a (i - 1) (i - 1) data (by omega) (by omega)
        (by
          rcases hlb with h | h
          · exact Or.inl h
          · exact Or.inr (fun k hk1 hk2 => h k hk1 (by omega)))]
    have h := insertionInner_spec key less hless a (i - 1) (i - 1) (i - 1) data (by omega)
      (le_refl _) (by omega) (by omega) hs
      (fun p q hp hpq hq => by
        have : p = q := by omega
        subst this; exact le_refl _)
      (fun p q _ _ hq1 hq2 => by omega)
    have e : i - 1 + 1 = i := by omega
    rw [e] at h
    exact ⟨h.1.mono (le_refl _) (by omega), h.2⟩
  · rw [if_neg h2]
    refine ⟨Seg.refl _ _ _, fun p q hp hpq hq => ?_⟩
    have : p = q := by omega
    subst this; exact le_refl _

/-- The loop of `partialInsertionSort_func`, started with `[a, i)` sorted, changes `data[a:b]`
only, and when it reports true `data[a:b]` is sorted. -/
theorem partialInsertionLoop_spec (key : α → ℚ) (less : α → α → Bool)
    (hless : ∀ x y, less x y = decide (key x < key y)) (a b : Nat) (n : Nat) :
    ∀ (data : List α) (i : Nat), b ≤ data.length → a + 1 ≤ i → i ≤ b →
      SortedOn (keyAt key data) a i → LowerBound (keyAt key data) a b →
      Seg a b (keyAt key data) (keyAt key (partialInsertionLoop less a b n data i).1) ∧
        ((partialInsertionLoop less a b n data i).2 = true →
          SortedOn (keyAt key (partialInsertionLoop less a b n data i).1) a b) := by
  induction n with
  | zero =>
    intro data i _ _ _ _ _
    exact ⟨Seg.refl _ _ _, fun h => by simp [partialInsertionLoop] at h⟩
  | succ n ih =>
    intro data i hb hai hib hs hlb
    obtain ⟨u1, u2, u3, u4⟩ := scanUp_spec (fun i => ! Less less data i (i - 1)) (b - 1)
      (b - i) i (by omega)
    unfold partialInsertionLoop
    simp only []
    generalize scanUp (fun i => ! Less less data i (i - 1)) (b - 1) (b - i) i = i2
      at u1 u2 u3 u4 ⊢
    have hi2b : i2 ≤ b := by omega
    have hs2 : SortedOn (keyAt key data) a i2 := by
      apply hs.extend
      intro k hk1 hk2
      have := u3 k hk1 hk2
      simp only [Bool.not_eq_true'] at this
      rw [Less_eq key less hless data k (k - 1) (by omega) (by omega)] at this
      exact not_lt.mp (of_decide_eq_false this)
    by_cases he : i2 = b
    · rw [if_pos he]
      exact ⟨Seg.refl _ _ _, fun _ => he ▸ hs2⟩
    · rw [if_neg he]
      by_cases h50 : b - a < 50
      · rw [if_pos h50]
        exact ⟨Seg.refl _ _ _, fun h => by simp at h⟩
      · rw [if_neg h50]
        have hseg1 : Seg a b (keyAt key data) (keyAt key (Swap data i2 (i2 - 1))) :=
          Seg_Swap key data a b i2 (i2 - 1) hb (by omega) (by omega) (by omega) (by omega)
        have hb1 : b ≤ (Swap data i2 (i2 - 1)).length := by rw [length_Swap]; exact hb
        have hs1 : SortedOn (keyAt key (Swap data i2 (i2 - 1))) a (i2 - 1) := by
          intro p q hp hpq hq
          have e := keyAt_Swap key data i2 (i2 - 1) (by omega) (by omega)
          rw [e p, e q, if_neg (by omega), if_neg (by omega), if_neg (by omega),
            if_neg (by omega)]
          exact hs2 p q hp hpq (by omega)
        obtain ⟨hseg2, hs3⟩ := shiftLeft_sorted key less hless (Swap data i2 (i2 - 1)) a b i2
          hb1 (by omega) (by omega) (hlb.seg hseg1) hs1
        have hb2 : b ≤ (if i2 - a ≥ 2 then shiftLeft less (i2 - 1) (i2 - 1)
            (Swap data i2 (i2 - 1)) else Swap data i2 (i2 - 1)).length := by
          split
          · rw [length_shiftLeft]; exact hb1
          · exact hb1
        generalize (if i2 - a ≥ 2 then shiftLeft less (i2 - 1) (i2 - 1) (Swap data i2 (i2 - 1))
          else Swap data i2 (i2 - 1)) = data2 at hseg2 hs3 hb2 ⊢
        have hseg3 : Seg a b (keyAt key data2)
            (keyAt key (if b - i2 ≥ 2 then shiftRight less b (b - (i2 + 1)) (i2 + 1) data2
              else data2)) ∧
            SortedOn (keyAt key (if b - i2 ≥ 2 then shiftRight less b (b - (i2 + 1)) (i2 + 1)
              data2 else data2)) a i2 := by
          split
          · have h := shiftRight_seg key less i2 b (b - (i2 + 1)) (i2 + 1) data2 hb2 (le_refl _)
            refine ⟨h.mono (by omega) (le_refl _), fun p q hp hpq hq => ?_⟩
            rw [h.1 p (by omega), h.1 q (by omega)]
            exact hs3 p q hp hpq hq
          · exact ⟨Seg.refl _ _ _, hs3⟩
        have hb3 : b ≤ (if b - i2 ≥ 2 then shiftRight less b (b - (i2 + 1)) (i2 + 1) data2
            else data2).length := by
          split
          · rw [length_shiftRight]; exact hb2
          · exact hb2
        generalize (if b - i2 ≥ 2 then shiftRight less b (b - (i2 + 1)) (i2 + 1) data2
          else data2) = data3 at hseg3 hb3 ⊢
        have hseg : Seg a b (keyAt key data) (keyAt key data3) :=
          (hseg1.trans hseg2).trans hseg3.1
        obtain ⟨r1, r2⟩ := ih data3 i2 hb3 (by omega) hi2b hseg3.2 (hlb.seg hseg)
        exact ⟨hseg.trans r1, r2⟩

/-- The function `partialInsertionSort_func` changes `data[a:b]` only, and when it returns true
`data[a:b]` is sorted. -/
theorem partialInsertionSort_func_spec (key : α → ℚ) (less : α → α → Bool)
    (hless : ∀ x y, less x y = decide (key x < key y)) (data : List α) (a b : Nat)
    (hab : a + 1 ≤ b) (hb : b ≤ data.length) (hlb : LowerBound (keyAt key data) a b) :
    Seg a b (keyAt key data) (keyAt key (partialInsertionSort_func less data a b).1) ∧
      ((partialInsertionSort_func less data a b).2 = true →
        SortedOn (keyAt key (partialInsertionSort_func less data a b).1) a b) :=
  partialInsertionLoop_spec key less hless a b 5 data (a + 1) hb (le_refl _) hab
    (fun p q hp hpq hq => by
      have : p = q := by omega
      subst this; exact le_refl _) hlb

/-- On a sorted `data[a:b]` the function `partialInsertionSort_func` changes nothing and
returns true. -/
theorem partialInsertionSort_func_sorted (key : α → ℚ) (less : α → α → Bool)
    (hless : ∀ x y, less x y = decide (key x < key y)) (data : List α) (a b : Nat)
    (hab : a + 1 ≤ b) (hb : b ≤ data.length) (hs : SortedOn (keyAt key data) a b) :
    partialInsertionSort_func less data a b = (data, true) := by
  obtain ⟨u1, u2, u3, u4⟩ := scanUp_spec (fun i => ! Less less data i (i - 1)) (b - 1)
    (b - (a + 1)) (a + 1) (by omega)
  unfold partialInsertionSort_func partialInsertionLoop
  simp only []
  generalize scanUp (fun i => ! Less less data i (i - 1)) (b - 1) (b - (a + 1)) (a + 1) = i2
    at u1 u2 u3 u4 ⊢
  have he : i2 = b := by
    by_contra hne
    have h := u4 (by omega)
    simp only [Bool.not_eq_false'] at h
    rw [Less_eq key less hless data i2 (i2 - 1) (by omega) (by omega)] at h
    exact absurd (of_decide_eq_true h) (not_lt.mpr (hs (i2 - 1) i2 (by omega) (by omega)
      (by omega)))
  rw [if_pos he]

/-! ## `heapSort_func` -/

theorem length_siftDownLoop (less : α → α → Bool) (hi first : Nat) (fuel : Nat) :
    ∀ (root : Nat) (data : List α),
      (siftDownLoop less hi first fuel root data).length = data.length := by
  induction fuel with
  | zero => intro root data; rfl
  | succ fuel ih =>
    intro root data
    unfold siftDownLoop
    simp only []
    split
    · rfl
    · generalize (if 2 * root + 1 + 1 < hi ∧
          Less less data (first + (2 * root + 1)) (first + (2 * root + 1) + 1) = true
        then 2 * root + 1 + 1 else 2 * root + 1) = child
      split
      · rfl
      · rw [ih, length_Swap]

theorem length_siftDown_func (less : α → α → Bool) (data : List α) (lo hi first : Nat) :
    (siftDown_func less data lo hi first).length = data.length :=
  length_siftDownLoop less hi first _ _ _

theorem length_heapBuild (less : α → α → Bool) (hi first : Nat) (n : Nat) :
    ∀ (data : List α), (heapBuild less hi first n data).length = data.length := by
  induction n with
  | zero => intro data; rfl
  | succ n ih =>
    intro data
    unfold heapBuild
    rw [ih, length_siftDown_func]

theorem length_heapPop (less : α → α → Bool) (lo first : Nat) (n : Nat) :
    ∀ (data : List α), (heapPop less lo first n data).length = data.length := by
  induction n with
  | zero => intro data; rfl
  | succ n ih =>
    intro data
    unfold heapPop
    rw [ih, length_siftDown_func, length_Swap]

theorem length_heapSort_func (less : α → α → Bool) (data : List α) (a b : Nat) :
    (heapSort_func less data a b).length = data.length := by
  unfold heapSort_func
  simp only []
  rw [length_heapPop, length_heapBuild]

/-- The loop of `siftDown_func` establishes the heap property from `lo`. -/
theorem siftDownLoop_spec (key : α → ℚ) (less : α → α → Bool)
    (hless : ∀ x y, less x y = decide (key x < key y)) (first lo hi : Nat) (fuel : Nat) :
    ∀ (root : Nat) (data : List α), first + hi ≤ data.length → lo ≤ root → hi - root ≤ fuel →
      SiftInv (keyAt key data) first lo hi root →
      HeapFrom (keyAt key (siftDownLoop less hi first fuel root data)) first lo hi ∧
        Seg (first + lo) (first + hi) (keyAt key data)
          (keyAt key (siftDownLoop less hi first fuel root data)) := by
  induction fuel with
  | zero =>
    intro root data hlen hlo hfuel hinv
    refine ⟨fun r c hr hc hchi => ?_, Seg.refl _ _ _⟩
    by_cases hrr : r = root
    · omega
    · exact hinv.1 r c hr hrr hc hchi
  | succ fuel ih =>
    intro root data hlen hlo hfuel hinv
    unfold siftDownLoop
    simp only []
    by_cases h1 : 2 * root + 1 ≥ hi
    · rw [if_pos h1]
      refine ⟨fun r c hr hc hchi => ?_, Seg.refl _ _ _⟩
      by_cases hrr : r = root
      · omega
      · exact hinv.1 r c hr hrr hc hchi
    · rw [if_neg h1]
      have hchild : ∃ child, (if 2 * root + 1 + 1 < hi ∧
            Less less data (first + (2 * root + 1)) (first + (2 * root + 1) + 1) = true
          then 2 * root + 1 + 1 else 2 * root + 1) = child ∧
          (child = 2 * root + 1 ∨ child = 2 * root + 2) ∧ child < hi ∧
          ∀ c, (c = 2 * root + 1 ∨ c = 2 * root + 2) → c < hi →
            keyAt key data (first + c) ≤ keyAt key data (first + child) := by
        by_cases h2 : 2 * root + 1 + 1 < hi
        · have hl := Less_eq key less hless data (first + (2 * root + 1))
            (first + (2 * root + 1) + 1) (by omega) (by omega)
          by_cases h3 : Less less data (first + (2 * root + 1)) (first + (2 * root + 1) + 1)
              = true
          · refine ⟨2 * root + 1 + 1, by rw [if_pos ⟨h2, h3⟩], Or.inr rfl, h2, ?_⟩
            rw [hl] at h3
            have h3 := of_decide_eq_true h3
            intro c hc _
            rcases hc with hc | hc
            · rw [hc]; exact le_of_lt h3
            · rw [hc]
          · refine ⟨2 * root + 1, by rw [if_neg (fun h => h3 h.2)], Or.inl rfl, by omega, ?_⟩
            rw [hl] at h3
            have h3 := not_lt.mp (fun h => h3 (decide_eq_true h))
            intro c hc _
            rcases hc with hc | hc
            · rw [hc]
            · rw [hc]; exact h3
        · refine ⟨2 * root + 1, by rw [if_neg (fun h => h2 h.1)], Or.inl rfl, by omega, ?_⟩
          intro c hc hchi
          rcases hc with hc | hc
          · rw [hc]
          · omega
      obtain ⟨child, hce, hc1, hc2, hc3⟩ := hchild
      rw [hce]
      have hl := Less_eq key less hless data (first + root) (first + child) (by omega)
        (by omega)
      by_cases h4 : Less less data (first + root) (first + child) = true
      · rw [if_neg (by simp [h4])]
        rw [hl] at h4
        have h4 := of_decide_eq_true h4
        have e := keyAt_Swap key data (first + root) (first + child) (by omega) (by omega)
        have hseg := Seg_Swap key data (first + lo) (first + hi) (first + root)
          (first + child) hlen (by omega) (by omega) (by omega) (by omega)
        have hrec := ih child (Swap data (first + root) (first + child))
          (by rw [length_Swap]; exact hlen) (by omega) (by omega) ?_
        · exact ⟨hrec.1, hseg.trans hrec.2⟩
        · have eroot : keyAt key (Swap data (first + root) (first + child)) (first + root)
              = keyAt key data (first + child) := by
            rw [e (first + root), if_neg (by omega), if_pos rfl]
          have echild : keyAt key (Swap data (first + root) (first + child)) (first + child)
              = keyAt key data (first + root) := by
            rw [e (first + child), if_pos rfl]
          have eother : ∀ x, x ≠ root → x ≠ child →
              keyAt key (Swap data (first + root) (first + child)) (first + x)
                = keyAt key data (first + x) := by
            intro x hx1 hx2
            rw [e (first + x), if_neg (by omega), if_neg (by omega)]
          constructor
          · intro r c hr hrc hc hchi
            by_cases hrr : r = root
            · rw [hrr, eroot]
              by_cases hcc : c = child
              · rw [hcc, echild]; exact le_of_lt h4
              · rw [eother c (by omega) hcc]
                exact hc3 c (by omega) hchi
            · rw [eother r hrr hrc]
              by_cases hcr : c = root
              · rw [hcr, eroot]
                exact hinv.2 r child hr (by omega) hc1 hc2
              · rw [eother c hcr (by omega)]
                exact hinv.1 r c hr hrr hc hchi
          · intro p c hp hpc hc hchi
            have hpr : p = root := by omega
            rw [hpr, eroot, eother c (by omega) (by omega)]
            exact hinv.1 child c (by omega) (by omega) hc hchi
      · rw [if_pos (by simp [h4])]
        rw [hl] at h4
        have h4 := not_lt.mp (fun h => h4 (decide_eq_true h))
        refine ⟨fun r c hr hc hchi => ?_, Seg.refl _ _ _⟩
        by_cases hrr : r = root
        · rw [hrr]
          exact le_trans (hc3 c (by omega) hchi) h4
        · exact hinv.1 r c hr hrr hc hchi

/-- The function `siftDown_func` extends the heap property from the nodes after `lo` to the
nodes from `lo`. -/
theorem siftDown_func_spec (key : α → ℚ) (less : α → α → Bool)
    (hless : ∀ x y, less x y = decide (key x < key y)) (data : List α) (first lo hi : Nat)
    (hlen : first + hi ≤ data.length) (hh : HeapFrom (keyAt key data) first (lo + 1) hi) :
    HeapFrom (keyAt key (siftDown_func less data lo hi first)) first lo hi ∧
      Seg (first + lo) (first + hi) (keyAt key data)
        (keyAt key (siftDown_func less data lo hi first)) := by
  unfold siftDown_func
  apply siftDownLoop_spec key less hless first lo hi (hi - lo) lo data hlen (le_refl _)
    (le_refl _)
  constructor
  · intro r c hr hrc hc hchi
    exact hh r c (by omega) hc hchi
  · intro p c hp hpc _ _
    omega

/-- The first loop of `heapSort_func` builds a heap. -/
theorem heapBuild_spec (key : α → ℚ) (less : α → α → Bool)
    (hless : ∀ x y, less x y = decide (key x < key y)) (first hi : Nat) (n : Nat) :
    ∀ (data : List α), first + hi ≤ data.length → HeapFrom (keyAt key data) first n hi →
      HeapFrom (keyAt key (heapBuild less hi first n data)) first 0 hi ∧
        Seg first (first + hi) (keyAt key data) (keyAt key (heapBuild less hi first n data)) := by
  induction n with
  | zero => intro data _ h; exact ⟨h, Seg.refl _ _ _⟩
  | succ n ih =>
    intro data hlen h
    unfold heapBuild
    obtain ⟨h1, s1⟩ := siftDown_func_spec key less hless data first n hi hlen h
    obtain ⟨h2, s2⟩ := ih (siftDown_func less data n hi first)
      (by rw [length_siftDown_func]; exact hlen) h1
    exact ⟨h2, (s1.mono (by omega) (le_refl _)).trans s2⟩

/-- The root of a heap has the greatest key. -/
theorem heap_root_max (f : Nat → ℚ) (first n : Nat) (h : HeapFrom f first 0 n) :
    ∀ r, r < n → f (first + r) ≤ f (first + 0) := by
  intro r
  induction r using Nat.strong_induction_on with
  | _ r ih =>
    intro hr
    by_cases h0 : r = 0
    · rw [h0]
    · have hp := ih ((r - 1) / 2) (by omega) (by omega)
      exact le_trans (h ((r - 1) / 2) r (Nat.zero_le _) (by omega) hr) hp

/-- The second loop of `heapSort_func`: from a heap of `n` elements followed by the sorted
greater elements, it sorts the whole segment. -/
theorem heapPop_spec (key : α → ℚ) (less : α → α → Bool)
    (hless : ∀ x y, less x y = decide (key x < key y)) (first hi : Nat) (n : Nat) :
    ∀ (data : List α), n ≤ hi → first + hi ≤ data.length →
      HeapFrom (keyAt key data) first 0 n →
      SortedOn (keyAt key data) (first + n) (first + hi) →
      (∀ x y, x < n → n ≤ y → y < hi → keyAt key data (first + x) ≤ keyAt key data (first + y)) →
      SortedOn (keyAt key (heapPop less 0 first n data)) first (first + hi) ∧
        Seg first (first + hi) (keyAt key data) (keyAt key (heapPop less 0 first n data)) := by
  induction n with
  | zero =>
    intro data _ _ _ hs _
    exact ⟨hs, Seg.refl _ _ _⟩
  | succ n ih =>
    intro data hn hlen hh hs hc
    unfold heapPop
    have hmax := heap_root_max _ first (n + 1) hh
    have e := keyAt_Swap key data first (first + n) (by omega) (by omega)
    have en : keyAt key (Swap data first (first + n)) (first + n) = keyAt key data first := by
      rw [e (first + n), if_pos rfl]
    have e0 : keyAt key (Swap data first (first + n)) first = keyAt key data (first + n) := by
      rw [e first]
      by_cases hn0 : n = 0
      · rw [if_pos (by omega), hn0]; rfl
      · rw [if_neg (by omega), if_pos rfl]
    have eo : ∀ k, k ≠ first → k ≠ first + n →
        keyAt key (Swap data first (first + n)) k = keyAt key data k := by
      intro k hk1 hk2
      rw [e k, if_neg hk2, if_neg hk1]
    have hseg1 : Seg first (first + hi) (keyAt key data)
        (keyAt key (Swap data first (first + n))) :=
      Seg_Swap key data first (first + hi) first (first + n) hlen (le_refl _) (by omega)
        (by omega) (by omega)
    have hlen1 : first + hi ≤ (Swap data first (first + n)).length := by
      rw [length_Swap]; exact hlen
    have hh1 : HeapFrom (keyAt key (Swap data first (first + n))) first (0 + 1) n := by
      intro r c hr hc2 hcn
      rw [eo (first + c) (by omega) (by omega), eo (first + r) (by omega) (by omega)]
      exact hh r c (Nat.zero_le _) hc2 (by omega)
    obtain ⟨hh2, hseg2⟩ := siftDown_func_spec key less hless (Swap data first (first + n)) first
      0 n (by omega) hh1
    rw [Nat.add_zero] at hseg2
    have hold : ∀ k, first ≤ k → k < first + n →
        ∃ x, x < n + 1 ∧ keyAt key (siftDown_func less (Swap data first (first + n)) 0 n first) k
          = keyAt key data (first + x) := by
      intro k hk1 hk2
      obtain ⟨j, hj1, hj2, hj⟩ := hseg2.2 k hk1 hk2
      by_cases hjf : j = first
      · exact ⟨n, by omega, by rw [hj, hjf, e0]⟩
      · exact ⟨j - first, by omega, by
          rw [hj, eo j hjf (by omega)]
          congr 1
          omega⟩
    have hout : ∀ k, first + n ≤ k →
        keyAt key (siftDown_func less (Swap data first (first + n)) 0 n first) k
          = keyAt key (Swap data first (first + n)) k := by
      intro k hk
      exact hseg2.1 k (Or.inr hk)
    have hrec := ih (siftDown_func less (Swap data first (first + n)) 0 n first)
      (by omega) (by rw [length_siftDown_func]; exact hlen1) hh2 ?_ ?_
    · exact ⟨hrec.1, (hseg1.trans (hseg2.mono (le_refl _) (by omega))).trans hrec.2⟩
    · intro p q hp hpq hq
      rw [hout p hp, hout q (by omega)]
      by_cases hpn : p = first + n
      · rw [hpn, en]
        by_cases hqn : q = first + n
        · rw [hqn, en]
        · rw [eo q (by omega) hqn]
          have := hc 0 (q - first) (by omega) (by omega) (by omega)
          rw [Nat.add_zero] at this
          have e2 : first + (q - first) = q := by omega
          rw [e2] at this
          exact this
      · rw [eo p (by omega) hpn, eo q (by omega) (by omega)]
        exact hs p q (by omega) hpq hq
    · intro x y hx hy1 hy2
      obtain ⟨x2, hx2, hx3⟩ := hold (first + x) (by omega) (by omega)
      rw [hx3, hout (first + y) (by omega)]
      by_cases hyn : y = n
      · rw [hyn, en]
        have := hmax x2 hx2
        rw [Nat.add_zero] at this
        exact this
      · rw [eo (first + y) (by omega) (by omega)]
        exact hc x2 y hx2 (by omega) hy2

/-- The function `heapSort_func` sorts `data[a:b]` and changes nothing else. -/
theorem heapSort_func_spec (key : α → ℚ) (less : α → α → Bool)
    (hless : ∀ x y, less x y = decide (key x < key y)) (data : List α) (a b : Nat)
    (hab : a ≤ b) (hb : b ≤ data.length) :
    Seg a b (keyAt key data) (keyAt key (heapSort_func less data a b)) ∧
      SortedOn (keyAt key (heapSort_func less data a b)) a b := by
  unfold heapSort_func
  simp only []
  obtain ⟨h1, s1⟩ := heapBuild_spec key less hless a (b - a) ((b - a - 1) / 2 + 1) data
    (by omega) (fun r c hr hc hchi => by omega)
  obtain ⟨h2, s2⟩ := heapPop_spec key less hless a (b - a) (b - a)
    (heapBuild less (b - a) a ((b - a - 1) / 2 + 1) data) (le_refl _)
    (by rw [length_heapBuild]; omega) h1 (fun p q hp hpq hq => by omega)
    (fun x y hx hy1 hy2 => by omega)
  have e : a + (b - a) = b := by omega
  rw [e] at h2 s1 s2
  exact ⟨s1.trans s2, h2⟩

/-! ## `pdqsort_func` -/

theorem length_pdqsortPrepare (next : Nat → Nat) (less : α → α → Bool) (data : List α)
    (a b limit : Nat) (wasBalanced wasPartitioned : Bool) :
    (pdqsortPrepare next less data a b limit wasBalanced wasPartitioned).1.length
      = data.length := by
  unfold pdqsortPrepare
  simp only []
  have h1 : (if ¬ wasBalanced = true then breakPatterns_func next data a b else data).length
      = data.length := by
    split
    · rw [length_breakPatterns_func]
    · rfl
  generalize (if ¬ wasBalanced = true then breakPatterns_func next data a b else data) = data1
    at h1 ⊢
  have h2 : (if (choosePivot_func less data1 a b).2 = sortedHint.decreasingHint then
      reverseRange_func data1 a b else data1).length = data.length := by
    split
    · rw [length_reverseRange_func, h1]
    · exact h1
  generalize (if (choosePivot_func less data1 a b).2 = sortedHint.decreasingHint then
      reverseRange_func data1 a b else data1) = data2 at h2 ⊢
  generalize (if (choosePivot_func less data1 a b).2 = sortedHint.decreasingHint then
      sortedHint.increasingHint else (choosePivot_func less data1 a b).2) = hint
  by_cases hc : wasBalanced = true ∧ wasPartitioned = true ∧ hint = sortedHint.increasingHint
  · rw [if_pos hc, length_partialInsertionSort_func, h2]
  · rw [if_neg hc]; exact h2

theorem length_pdqsort_func (next : Nat → Nat) (less : α → α → Bool) (fuel : Nat) :
    ∀ (data : List α) (a b limit : Nat) (wasBalanced wasPartitioned : Bool),
      (pdqsort_func next less fuel data a b limit wasBalanced wasPartitioned).length
        = data.length := by
  induction fuel with
  | zero => intro data a b limit wb wp; rfl
  | succ fuel ih =>
    intro data a b limit wb wp
    unfold pdqsort_func
    simp only []
    split
    · exact length_insertionSort_func less data a b
    · split
      · exact length_heapSort_func less data a b
      · split
        · exact length_pdqsortPrepare next less data a b limit wb wp
        · split
          · rw [ih, length_partitionEqual_func, length_pdqsortPrepare]
          · split
            · rw [ih, ih, length_partition_func, length_pdqsortPrepare]
            · rw [ih, ih, length_partition_func, length_pdqsortPrepare]

/-- The preparation of a round of `pdqsort_func` changes `data[a:b]` only, chooses a pivot in
`data[a:b]`, and reports a sorted `data[a:b]` only when it is sorted. -/
theorem pdqsortPrepare_spec (next : Nat → Nat) (key : α → ℚ) (less : α → α → Bool)
    (hless : ∀ x y, less x y = decide (key x < key y)) (data : List α)
    (a b limit : Nat) (wasBalanced wasPartitioned : Bool) (hab : a + 1 ≤ b)
    (hb : b ≤ data.length) (hlb : LowerBound (keyAt key data) a b) :
    Seg a b (keyAt key data)
        (keyAt key (pdqsortPrepare next less data a b limit wasBalanced wasPartitioned).1) ∧
      a ≤ (pdqsortPrepare next less data a b limit wasBalanced wasPartitioned).2.2.1 ∧
      (pdqsortPrepare next less data a b limit wasBalanced wasPartitioned).2.2.1 < b ∧
      ((pdqsortPrepare next less data a b limit wasBalanced wasPartitioned).2.2.2 = true →
        SortedOn
          (keyAt key (pdqsortPrepare next less data a b limit wasBalanced wasPartitioned).1)
          a b) := by
  unfold pdqsortPrepare
  simp only []
  have h1 : Seg a b (keyAt key data)
      (keyAt key (if ¬ wasBalanced = true then breakPatterns_func next data a b else data)) ∧
      b ≤ (if ¬ wasBalanced = true then breakPatterns_func next data a b else data).length := by
    split
    · exact ⟨breakPatterns_func_seg key next data a b hb,
        by rw [length_breakPatterns_func]; exact hb⟩
    · exact ⟨Seg.refl _ _ _, hb⟩
  generalize (if ¬ wasBalanced = true then breakPatterns_func next data a b else data) = data1
    at h1 ⊢
  obtain ⟨hp1, hp2⟩ := choosePivot_func_mem less data1 a b (by omega)
  generalize choosePivot_func less data1 a b = ph at hp1 hp2 ⊢
  have h2 : Seg a b (keyAt key data1)
      (keyAt key (if ph.2 = sortedHint.decreasingHint then reverseRange_func data1 a b
        else data1)) ∧
      b ≤ (if ph.2 = sortedHint.decreasingHint then reverseRange_func data1 a b
        else data1).length := by
    split
    · exact ⟨reverseRange_func_seg key data1 a b (by omega) h1.2,
        by rw [length_reverseRange_func]; exact h1.2⟩
    · exact ⟨Seg.refl _ _ _, h1.2⟩
  generalize (if ph.2 = sortedHint.decreasingHint then reverseRange_func data1 a b
    else data1) = data2 at h2 ⊢
  have h3 : a ≤ (if ph.2 = sortedHint.decreasingHint then b - 1 - (ph.1 - a) else ph.1) ∧
      (if ph.2 = sortedHint.decreasingHint then b - 1 - (ph.1 - a) else ph.1) < b := by
    split <;> omega
  have hseg2 : Seg a b (keyAt key data) (keyAt key data2) := h1.1.trans h2.1
  generalize (if ph.2 = sortedHint.decreasingHint then sortedHint.increasingHint else ph.2)
    = hint
  refine ⟨?_, h3.1, h3.2, ?_⟩
  · by_cases hc : wasBalanced = true ∧ wasPartitioned = true ∧ hint = sortedHint.increasingHint
    · rw [if_pos hc]
      exact hseg2.trans
        (partialInsertionSort_func_spec key less hless data2 a b hab h2.2 (hlb.seg hseg2)).1
    · rw [if_neg hc]; exact hseg2
  · by_cases hc : wasBalanced = true ∧ wasPartitioned = true ∧ hint = sortedHint.increasingHint
    · rw [if_pos hc]
      exact (partialInsertionSort_func_spec key less hless data2 a b hab h2.2
        (hlb.seg hseg2)).2
    · rw [if_neg hc]; intro h; simp at h

/-- Two sorted parts around a pivot that separates them make a sorted segment. -/
theorem SortedOn.join {f : Nat → ℚ} {a b : Nat} (mid : Nat) (h1 : SortedOn f a mid)
    (h2 : SortedOn f (mid + 1) b) (hl : ∀ k, a ≤ k → k < mid → f k ≤ f mid)
    (hr : ∀ k, mid < k → k < b → f mid ≤ f k) : SortedOn f a b := by
  intro p q hp hpq hq
  by_cases hq1 : q < mid
  · exact h1 p q hp hpq hq1
  · by_cases hp1 : mid < p
    · exact h2 p q (by omega) hpq hq
    · by_cases hpm : p = mid
      · by_cases hqm : q = mid
        · rw [hpm, hqm]
        · rw [hpm]; exact hr q (by omega) hq
      · by_cases hqm : q = mid
        · rw [hqm]; exact hl p hp (by omega)
        · exact le_trans (hl p hp (by omega)) (hr q (by omega) hq)

/-- The round of `pdqsort_func` that ends with `partitionEqual_func`: the part before the
returned index holds the least key only, and sorting the rest sorts the segment. -/
theorem pdqsort_equal_case (f1 fpe f3 : Nat → ℚ) (a b mid pivot : Nat) (ha : 0 < a)
    (hlb : LowerBound f1 a b) (hnl : f1 pivot ≤ f1 (a - 1))
    (se : Seg a b f1 fpe) (m1 : a < mid)
    (hle : ∀ k, a ≤ k → k < mid → fpe k ≤ f1 pivot)
    (hgt : ∀ k, mid ≤ k → k < b → f1 pivot < fpe k) :
    LowerBound fpe mid b ∧
      (Seg mid b fpe f3 → SortedOn f3 mid b → SortedOn f3 a b) := by
  have hv : ∀ i, a ≤ i → i < b → f1 pivot ≤ f1 i := by
    intro i h1 h2
    rcases hlb with h | h
    · omega
    · exact le_trans hnl (h i h1 h2)
  have hge : ∀ i, a ≤ i → i < b → f1 pivot ≤ fpe i := se.forall_of (fun x => f1 pivot ≤ x) hv
  constructor
  · right
    intro i h1 h2
    exact le_trans (hle (mid - 1) (by omega) (by omega)) (le_of_lt (hgt i h1 h2))
  · intro sr hs p q hp hpq hq
    have hgt3 : ∀ i, mid ≤ i → i < b → f1 pivot < f3 i :=
      sr.forall_of (fun x => f1 pivot < x) hgt
    by_cases hq1 : q < mid
    · rw [sr.1 p (by omega), sr.1 q (by omega)]
      exact le_trans (hle p hp (by omega)) (hge q (by omega) hq)
    · by_cases hp1 : mid ≤ p
      · exact hs p q hp1 hpq hq
      · rw [sr.1 p (by omega)]
        exact le_trans (hle p hp (by omega)) (le_of_lt (hgt3 q (by omega) hq))

/-- The function `pdqsort_func` sorts `data[a:b]` and changes nothing else, when the key before
`a` is a lower bound of the keys of `data[a:b]` and `fuel` is at least `b - a`. -/
theorem pdqsort_func_spec (next : Nat → Nat) (key : α → ℚ) (less : α → α → Bool)
    (hless : ∀ x y, less x y = decide (key x < key y)) (fuel : Nat) :
    ∀ (data : List α) (a b limit : Nat) (wasBalanced wasPartitioned : Bool),
      a ≤ b → b ≤ data.length → b - a ≤ fuel → LowerBound (keyAt key data) a b →
      Seg a b (keyAt key data)
          (keyAt key (pdqsort_func next less fuel data a b limit wasBalanced wasPartitioned)) ∧
        SortedOn
          (keyAt key (pdqsort_func next less fuel data a b limit wasBalanced wasPartitioned))
          a b := by
  induction fuel with
  | zero =>
    intro data a b limit wb wp hab hb hfuel _
    exact ⟨Seg.refl _ _ _, fun p q hp hpq hq => by omega⟩
  | succ fuel ih =>
    intro data a b limit wb wp hab hb hfuel hlb
    unfold pdqsort_func
    simp only []
    by_cases h12 : b - a ≤ 12
    · rw [if_pos h12]
      exact insertionSort_func_spec key less hless data a b hb
    rw [if_neg h12]
    by_cases hl0 : limit = 0
    · rw [if_pos hl0]
      exact heapSort_func_spec key less hless data a b hab hb
    rw [if_neg hl0]
    obtain ⟨s1, p1, p2, d1⟩ := pdqsortPrepare_spec next key less hless data a b limit wb wp
      (by omega) hb hlb
    have len1 := length_pdqsortPrepare next less data a b limit wb wp
    generalize pdqsortPrepare next less data a b limit wb wp = st at s1 p1 p2 d1 len1 ⊢
    by_cases hd : st.2.2.2 = true
    · rw [if_pos hd]
      exact ⟨s1, d1 hd⟩
    rw [if_neg hd]
    have hlb1 : LowerBound (keyAt key st.1) a b := hlb.seg s1
    by_cases hpe : a > 0 ∧ ¬ Less less st.1 (a - 1) st.2.2.1 = true
    · rw [if_pos hpe]
      obtain ⟨hpa, hnl⟩ := hpe
      rw [Less_eq key less hless st.1 (a - 1) st.2.2.1 (by omega) (by omega)] at hnl
      have hnl : keyAt key st.1 st.2.2.1 ≤ keyAt key st.1 (a - 1) :=
        not_lt.mp (fun h => hnl (decide_eq_true h))
      obtain ⟨se, m1, m2, hle, hgt⟩ := partitionEqual_func_spec key less hless st.1 a b st.2.2.1
        (by omega) (by omega) p1 p2
      have lenpe := length_partitionEqual_func less st.1 a b st.2.2.1
      generalize partitionEqual_func less st.1 a b st.2.2.1 = pe at se m1 m2 hle hgt lenpe ⊢
      have hrec := ih pe.1 pe.2 b st.2.1 wb wp m2 (by omega) (by omega)
      obtain ⟨c1, c2⟩ := pdqsort_equal_case (keyAt key st.1) (keyAt key pe.1)
        (keyAt key (pdqsort_func next less fuel pe.1 pe.2 b st.2.1 wb wp)) a b pe.2 st.2.2.1
        hpa hlb1 hnl se m1 hle hgt
      obtain ⟨r1, r2⟩ := hrec c1
      exact ⟨s1.trans (se.trans (r1.mono (by omega) (le_refl _))), c2 r1 r2⟩
    · rw [if_neg hpe]
      obtain ⟨sp, m1, m2, hlt, hge⟩ := partition_func_spec key less hless st.1 a b st.2.2.1
        (by omega) (by omega) p1 p2
      have lenpt := length_partition_func less st.1 a b st.2.2.1
      generalize partition_func less st.1 a b st.2.2.1 = pt at sp m1 m2 hlt hge lenpt ⊢
      have hlbpt : LowerBound (keyAt key pt.1) a b := hlb1.seg sp
      by_cases hlr : pt.2.1 - a < b - pt.2.1
      · rw [if_pos hlr]
        obtain ⟨q1, q2⟩ := ih pt.1 a pt.2.1 st.2.1 true true m1 (by omega) (by omega)
          (by
            rcases hlbpt with h | h
            · exact Or.inl h
            · exact Or.inr (fun i h1 h2 => h i h1 (by omega)))
        have len2 := length_pdqsort_func next less fuel pt.1 a pt.2.1 st.2.1 true true
        generalize pdqsort_func next less fuel pt.1 a pt.2.1 st.2.1 true true = data2
          at q1 q2 len2 ⊢
        obtain ⟨r1, r2⟩ := ih data2 (pt.2.1 + 1) b st.2.1
          (decide (pt.2.1 - a ≥ (b - a) / 8)) pt.2.2 (by omega) (by omega) (by omega)
          (by
            right
            intro i h1 h2
            rw [Nat.add_sub_cancel, q1.1 pt.2.1 (by omega), q1.1 i (by omega)]
            exact hge i (by omega) h2)
        generalize pdqsort_func next less fuel data2 (pt.2.1 + 1) b st.2.1
          (decide (pt.2.1 - a ≥ (b - a) / 8)) pt.2.2 = data3 at r1 r2 ⊢
        refine ⟨s1.trans (sp.trans ((q1.mono (le_refl _) (by omega)).trans
          (r1.mono (by omega) (le_refl _)))), ?_⟩
        have hmid : keyAt key data3 pt.2.1 = keyAt key pt.1 pt.2.1 := by
          rw [r1.1 pt.2.1 (by omega), q1.1 pt.2.1 (by omega)]
        apply SortedOn.join pt.2.1
        · intro p q hp hpq hq
          rw [r1.1 p (by omega), r1.1 q (by omega)]
          exact q2 p q hp hpq hq
        · exact r2
        · intro k hk1 hk2
          rw [hmid, r1.1 k (by omega)]
          exact le_of_lt (q1.forall_of (fun x => x < keyAt key pt.1 pt.2.1) hlt k hk1 hk2)
        · intro k hk1 hk2
          rw [hmid]
          exact r1.forall_of (fun x => keyAt key pt.1 pt.2.1 ≤ x)
            (fun i h1 h2 => by
              show keyAt key pt.1 pt.2.1 ≤ keyAt key data2 i
              rw [q1.1 i (by omega)]; exact hge i (by omega) h2) k (by omega) hk2
      · rw [if_neg hlr]
        obtain ⟨q1, q2⟩ := ih pt.1 (pt.2.1 + 1) b st.2.1 true true (by omega) (by omega)
          (by omega)
          (by
            right
            intro i h1 h2
            rw [Nat.add_sub_cancel]
            exact hge i (by omega) h2)
        have len2 := length_pdqsort_func next less fuel pt.1 (pt.2.1 + 1) b st.2.1 true true
        generalize pdqsort_func next less fuel pt.1 (pt.2.1 + 1) b st.2.1 true true = data2
          at q1 q2 len2 ⊢
        obtain ⟨r1, r2⟩ := ih data2 a pt.2.1 st.2.1
          (decide (b - pt.2.1 ≥ (b - a) / 8)) pt.2.2 m1 (by omega) (by omega)
          (by
            rcases hlbpt with h | h
            · exact Or.inl h
            · by_cases ha0 : a = 0
              · exact Or.inl ha0
              · right
                intro i h1 h2
                rw [q1.1 (a - 1) (by omega), q1.1 i (by omega)]
                exact h i h1 (by omega))
        generalize pdqsort_func next less fuel data2 a pt.2.1 st.2.1
          (decide (b - pt.2.1 ≥ (b - a) / 8)) pt.2.2 = data3 at r1 r2 ⊢
        refine ⟨s1.trans (sp.trans ((q1.mono (by omega) (le_refl _)).trans
          (r1.mono (le_refl _) (by omega)))), ?_⟩
        have hmid : keyAt key data3 pt.2.1 = keyAt key pt.1 pt.2.1 := by
          rw [r1.1 pt.2.1 (by omega), q1.1 pt.2.1 (by omega)]
        apply SortedOn.join pt.2.1
        · exact r2
        · intro p q hp hpq hq
          rw [r1.1 p (by omega), r1.1 q (by omega)]
          exact q2 p q hp hpq hq
        · intro k hk1 hk2
          rw [hmid]
          exact le_of_lt (r1.forall_of (fun x => x < keyAt key pt.1 pt.2.1)
            (fun i h1 h2 => by
              show keyAt key data2 i < keyAt key pt.1 pt.2.1
              rw [q1.1 i (by omega)]; exact hlt i h1 h2) k hk1 hk2)
        · intro k hk1 hk2
          rw [hmid, r1.1 k (by omega)]
          exact q1.forall_of (fun x => keyAt key pt.1 pt.2.1 ≤ x)
            (fun i h1 h2 => hge i (by omega) h2) k (by omega) hk2

/-! ## `sort.Slice` and the ordering step -/

theorem length_sortSlice (next : Nat → Nat) (less : α → α → Bool) (x : List α) :
    (sortSlice next less x).length = x.length :=
  length_pdqsort_func next less _ x 0 _ _ true true

theorem keyAt_eq_getElem (key : α → ℚ) (data : List α) (i : Nat) (h : i < data.length) :
    keyAt key data i = key data[i] := by
  unfold keyAt
  rw [List.getElem?_eq_getElem h]

/-- A list whose keys are in ascending order by index is pairwise ascending. -/
theorem pairwise_of_sortedOn (key : α → ℚ) (data : List α)
    (h : SortedOn (keyAt key data) 0 data.length) :
    data.Pairwise (fun x y => key x ≤ key y) := by
  rw [List.pairwise_iff_getElem]
  intro i j hi hj hij
  rw [← keyAt_eq_getElem key data i hi, ← keyAt_eq_getElem key data j hj]
  exact h i j (Nat.zero_le _) (le_of_lt hij) hj

theorem sortedOn_of_pairwise (key : α → ℚ) (data : List α)
    (h : data.Pairwise (fun x y => key x ≤ key y)) :
    SortedOn (keyAt key data) 0 data.length := by
  rw [List.pairwise_iff_getElem] at h
  intro i j _ hij hj
  rw [keyAt_eq_getElem key data i (by omega), keyAt_eq_getElem key data j hj]
  rcases Nat.lt_or_ge i j with hlt | hge
  · exact h i j (by omega) hj hlt
  · have : i = j := by omega
    subst this
    exact le_refl _

/-- The function `sort.Slice` returns a slice in ascending order of the keys, when `less`
compares keys. -/
theorem sortSlice_sorted (next : Nat → Nat) (key : α → ℚ) (less : α → α → Bool)
    (hless : ∀ x y, less x y = decide (key x < key y)) (x : List α) :
    (sortSlice next less x).Pairwise (fun u v => key u ≤ key v) := by
  apply pairwise_of_sortedOn
  rw [length_sortSlice]
  exact (pdqsort_func_spec next key less hless x.length x 0 x.length (bitsLen x.length) true
    true (Nat.zero_le _) (le_refl _) (by omega) (Or.inl rfl)).2

end SortLemmas

/-- The closure `less` of `main` compares the sums of the components. -/
theorem lessSum_eq (x y : Pixel) : lessSum x y = decide (x.sum < y.sum) := rfl

theorem order_pairwise (centroids : List Pixel) :
    (order centroids).Pairwise (fun a b => a.sum ≤ b.sum) :=
  sortSlice_sorted xorshiftNext Pixel.sum lessSum lessSum_eq centroids

section SortLemmas

variable {α : Type}

/-! ## `sort.Slice` on a sorted slice -/

theorem insertionInner_of_not_less (less : α → α → Bool) (a fuel j : Nat) (data : List α)
    (h : ¬ (j > a ∧ Less less data j (j - 1) = true)) :
    insertionInner less a fuel j data = data := by
  cases fuel with
  | zero => rfl
  | succ fuel =>
    unfold insertionInner
    rw [if_neg h]

theorem insertionOuter_sorted (key : α → ℚ) (less : α → α → Bool)
    (hless : ∀ x y, less x y = decide (key x < key y)) (a : Nat) (n : Nat) :
    ∀ (i : Nat) (data : List α), a < i → i + n ≤ data.length →
      SortedOn (keyAt key data) a (i + n) → insertionOuter less a n i data = data := by
  induction n with
  | zero => intro i data _ _ _; rfl
  | succ n ih =>
    intro i data hai hlen hs
    unfold insertionOuter
    have hin : insertionInner less a (i - a) i data = data := by
      apply insertionInner_of_not_less
      intro h
      have h2 := h.2
      rw [Less_eq key less hless data i (i - 1) (by omega) (by omega)] at h2
      exact absurd (of_decide_eq_true h2) (not_lt.mpr (hs (i - 1) i (by omega) (by omega)
        (by omega)))
    rw [hin]
    apply ih (i + 1) data (by omega) (by omega)
    have e : i + 1 + n = i + (n + 1) := by omega
    rw [e]; exact hs

/-- On a sorted `data[a:b]` the function `insertionSort_func` changes nothing. -/
theorem insertionSort_func_sorted (key : α → ℚ) (less : α → α → Bool)
    (hless : ∀ x y, less x y = decide (key x < key y)) (data : List α) (a b : Nat)
    (hb : b ≤ data.length) (hs : SortedOn (keyAt key data) a b) :
    insertionSort_func less data a b = data := by
  unfold insertionSort_func
  by_cases hab : a + 1 ≤ b
  · apply insertionOuter_sorted key less hless a (b - (a + 1)) (a + 1) data (by omega)
      (by omega)
    have e : a + 1 + (b - (a + 1)) = b := by omega
    rw [e]; exact hs
  · have e : b - (a + 1) = 0 := by omega
    rw [e]; rfl

theorem order2_func_sorted (key : α → ℚ) (less : α → α → Bool)
    (hless : ∀ x y, less x y = decide (key x < key y)) (data : List α) (a b swaps : Nat)
    (ha : a < data.length) (hb : b < data.length)
    (h : keyAt key data a ≤ keyAt key data b) :
    order2_func less data a b swaps = (a, b, swaps) := by
  unfold order2_func
  rw [Less_eq key less hless data b a hb ha, if_neg]
  intro hlt
  exact absurd (of_decide_eq_true hlt) (not_lt.mpr h)

theorem median_func_sorted (key : α → ℚ) (less : α → α → Bool)
    (hless : ∀ x y, less x y = decide (key x < key y)) (data : List α) (a b c swaps : Nat)
    (ha : a < data.length) (hb : b < data.length) (hc : c < data.length)
    (h1 : keyAt key data a ≤ keyAt key data b) (h2 : keyAt key data b ≤ keyAt key data c) :
    median_func less data a b c swaps = (b, swaps) := by
  unfold median_func
  simp only []
  rw [order2_func_sorted key less hless data a b swaps ha hb h1]
  simp only []
  rw [order2_func_sorted key less hless data b c swaps hb hc h2]
  simp only []
  rw [order2_func_sorted key less hless data a b swaps ha hb h1]

/-- On a sorted `data[a:b]` with more than 12 elements `choosePivot_func` finds no inversion
and returns the hint `increasingHint`. -/
theorem choosePivot_func_sorted (key : α → ℚ) (less : α → α → Bool)
    (hless : ∀ x y, less x y = decide (key x < key y)) (data : List α) (a b : Nat)
    (hab : 12 < b - a) (hb : b ≤ data.length) (hs : SortedOn (keyAt key data) a b) :
    (choosePivot_func less data a b).2 = sortedHint.increasingHint := by
  have hq : 3 ≤ (b - a) / 4 := by omega
  have hm : ∀ x y z swaps, a ≤ x → x ≤ y → y ≤ z → z < b →
      median_func less data x y z swaps = (y, swaps) := by
    intro x y z swaps h1 h2 h3 h4
    exact median_func_sorted key less hless data x y z swaps (by omega) (by omega) (by omega)
      (hs x y h1 h2 (by omega)) (hs y z (by omega) h3 h4)
  have h8 : b - a ≥ 8 := by omega
  unfold choosePivot_func
  simp only []
  rw [if_pos h8]
  by_cases h50 : b - a ≥ 50
  · rw [if_pos h50]
    unfold medianAdjacent_func
    rw [hm _ _ _ 0 (by omega) (by omega) (by omega) (by omega)]
    simp only []
    rw [hm _ _ _ 0 (by omega) (by omega) (by omega) (by omega)]
    simp only []
    rw [hm _ _ _ 0 (by omega) (by omega) (by omega) (by omega)]
    simp only []
    rw [hm _ _ _ 0 (by omega) (by omega) (by omega) (by omega)]
    simp
  · rw [if_neg h50, hm _ _ _ 0 (by omega) (by omega) (by omega) (by omega)]
    simp

theorem bitsLen_ne_zero (n : Nat) (h : n ≠ 0) : bitsLen n ≠ 0 := by
  unfold bitsLen
  rw [if_neg h]
  omega

/-- On a sorted slice, the first round of `pdqsort_func` returns the slice as it is. -/
theorem pdqsort_func_sorted (next : Nat → Nat) (key : α → ℚ) (less : α → α → Bool)
    (hless : ∀ x y, less x y = decide (key x < key y)) (data : List α) (a b limit fuel : Nat)
    (hab : a ≤ b) (hb : b ≤ data.length) (hl : limit ≠ 0)
    (hs : SortedOn (keyAt key data) a b) :
    pdqsort_func next less fuel data a b limit true true = data := by
  cases fuel with
  | zero => rfl
  | succ fuel =>
    unfold pdqsort_func
    simp only []
    by_cases h12 : b - a ≤ 12
    · rw [if_pos h12]
      exact insertionSort_func_sorted key less hless data a b hb hs
    · rw [if_neg h12, if_neg hl]
      have hst : pdqsortPrepare next less data a b limit true true
          = (data, limit, (choosePivot_func less data a b).1, true) := by
        unfold pdqsortPrepare
        simp only []
        have hh := choosePivot_func_sorted key less hless data a b (by omega) hb hs
        simp [hh, partialInsertionSort_func_sorted key less hless data a b (by omega) hb hs]
      rw [hst]
      simp

/-- The function `sort.Slice` returns a sorted slice as it is. -/
theorem sortSlice_of_sorted (next : Nat → Nat) (key : α → ℚ) (less : α → α → Bool)
    (hless : ∀ x y, less x y = decide (key x < key y)) (x : List α)
    (h : x.Pairwise (fun u v => key u ≤ key v)) : sortSlice next less x = x := by
  unfold sortSlice
  simp only []
  by_cases h0 : x.length = 0
  · rw [h0]; rfl
  · exact pdqsort_func_sorted next key less hless x 0 x.length (bitsLen x.length) x.length
      (Nat.zero_le _) (le_refl _) (bitsLen_ne_zero _ h0) (sortedOn_of_pairwise key x h)

/-! ## Stability of the insertion sort -/

theorem Swap_cons (p : α) (l : List α) (i j : Nat) :
    Swap (p :: l) (i + 1) (j + 1) = p :: Swap l i j := by
  unfold Swap
  simp only [List.getElem?_cons_succ]
  split <;> simp_all

/-- An exchange of two adjacent elements, on the list split around them. -/
theorem Swap_adjacent (pre : List α) (x y : α) (post : List α) :
    Swap (pre ++ x :: y :: post) (pre.length + 1) pre.length = pre ++ y :: x :: post := by
  induction pre with
  | nil => simp [Swap]
  | cons p pre ih =>
    simp only [List.cons_append, List.length_cons]
    rw [Swap_cons, ih]

theorem split_adjacent (data : List α) (j : Nat) (h1 : 1 ≤ j) (h2 : j < data.length) :
    data = data.take (j - 1) ++ data[j - 1] :: data[j] :: data.drop (j + 1) := by
  have e1 : data.drop (j - 1) = data[j - 1] :: data.drop (j - 1 + 1) :=
    List.drop_eq_getElem_cons (by omega)
  have e2 : data.drop j = data[j] :: data.drop (j + 1) := List.drop_eq_getElem_cons h2
  have e3 : j - 1 + 1 = j := by omega
  rw [e3] at e1
  rw [← e2, ← e1, List.take_append_drop]

/-- An exchange of two adjacent elements that do not both satisfy `p` keeps the elements that
satisfy `p` in their order. -/
theorem filter_Swap_adjacent (p : α → Bool) (data : List α) (j : Nat) (h1 : 1 ≤ j)
    (h2 : j < data.length) (hne : ¬ (p data[j - 1] = true ∧ p data[j] = true)) :
    (Swap data j (j - 1)).filter p = data.filter p := by
  have hsplit := split_adjacent data j h1 h2
  have hlen : (data.take (j - 1)).length = j - 1 := by
    rw [List.length_take]; omega
  have hsw : Swap data j (j - 1)
      = data.take (j - 1) ++ data[j] :: data[j - 1] :: data.drop (j + 1) := by
    have h := Swap_adjacent (data.take (j - 1)) data[j - 1] data[j] (data.drop (j + 1))
    rw [hlen, ← hsplit] at h
    have e3 : j - 1 + 1 = j := by omega
    rw [e3] at h
    exact h
  rw [hsw]
  conv_rhs => rw [hsplit]
  simp only [List.filter_append, List.filter_cons]
  by_cases hx : p data[j - 1] = true <;> by_cases hy : p data[j] = true
  · exact absurd ⟨hx, hy⟩ hne
  · simp [hx, hy]
  · simp [hx, hy]
  · simp [hx, hy]

/-- On a slice of at most 12 elements `sort.Slice` is the insertion sort. -/
theorem sortSlice_short (next : Nat → Nat) (less : α → α → Bool) (x : List α)
    (h : x.length ≤ 12) : sortSlice next less x = insertionSort_func less x 0 x.length := by
  unfold sortSlice
  simp only []
  cases hn : x.length with
  | zero => rfl
  | succ n =>
    unfold pdqsort_func
    rw [if_pos (by omega)]

/-! ## The ordering step only rearranges -/

theorem set_perm_cons (l : List α) (j : Nat) (x y : α) (h : l[j]? = some y) :
    (y :: l.set j x).Perm (x :: l) := by
  induction l generalizing j with
  | nil => simp at h
  | cons a l ih =>
    cases j with
    | zero =>
      simp only [List.getElem?_cons_zero, Option.some.injEq] at h
      subst h
      rw [List.set_cons_zero]
      exact List.Perm.swap _ _ _
    | succ j =>
      rw [List.getElem?_cons_succ] at h
      rw [List.set_cons_succ]
      exact ((List.Perm.swap a y _).trans ((ih j h).cons a)).trans (List.Perm.swap x a l)

/-- An exchange `data.Swap(i, j)` rearranges the slice. -/
theorem Swap_perm (data : List α) (i j : Nat) : (Swap data i j).Perm data := by
  induction data generalizing i j with
  | nil => unfold Swap; simp
  | cons a l ih =>
    cases i with
    | zero =>
      cases j with
      | zero => unfold Swap; simp
      | succ j =>
        unfold Swap
        simp only [List.getElem?_cons_zero, List.getElem?_cons_succ]
        cases hj : l[j]? with
        | none => exact List.Perm.refl _
        | some y =>
          simp only [List.set_cons_zero, List.set_cons_succ]
          exact set_perm_cons l j a y hj
    | succ i =>
      cases j with
      | zero =>
        unfold Swap
        simp only [List.getElem?_cons_zero, List.getElem?_cons_succ]
        cases hi : l[i]? with
        | none => exact List.Perm.refl _
        | some x =>
          simp only [List.set_cons_zero, List.set_cons_succ]
          exact set_perm_cons l i a x hi
      | succ j =>
        rw [Swap_cons]
        exact (ih i j).cons a

theorem perm_insertionInner (less : α → α → Bool) (a : Nat) (fuel j : Nat) (data : List α) :
    (insertionInner less a fuel j data).Perm data := by
  induction fuel generalizing j data with
  | zero => exact List.Perm.refl _
  | succ fuel ih =>
    unfold insertionInner
    split
    · exact (ih _ _).trans (Swap_perm _ _ _)
    · exact List.Perm.refl _

theorem perm_insertionOuter (less : α → α → Bool) (a : Nat) (n i : Nat) (data : List α) :
    (insertionOuter less a n i data).Perm data := by
  induction n generalizing i data with
  | zero => exact List.Perm.refl _
  | succ n ih =>
    unfold insertionOuter
    exact (ih _ _).trans (perm_insertionInner less a _ _ _)

theorem perm_insertionSort_func (less : α → α → Bool) (data : List α) (a b : Nat) :
    (insertionSort_func less data a b).Perm data :=
  perm_insertionOuter less a _ _ data

theorem perm_partitionLoop (less : α → α → Bool) (a : Nat) (fuel : Nat) :
    ∀ (data : List α) (i j : Nat), (partitionLoop less a fuel data i j).1.Perm data := by
  induction fuel with
  | zero => intro data i j; exact List.Perm.refl _
  | succ fuel ih =>
    intro data i j
    unfold partitionLoop
    simp only []
    split
    · exact List.Perm.refl _
    · exact (ih _ _ _).trans (Swap_perm _ _ _)

theorem perm_partition_func (less : α → α → Bool) (data : List α) (a b pivot : Nat) :
    (partition_func less data a b pivot).1.Perm data := by
  unfold partition_func
  simp only []
  split
  · exact (Swap_perm _ _ _).trans (Swap_perm _ _ _)
  · exact (Swap_perm _ _ _).trans ((perm_partitionLoop less a _ _ _ _).trans
      ((Swap_perm _ _ _).trans (Swap_perm _ _ _)))

theorem perm_partitionEqualLoop (less : α → α → Bool) (a : Nat) (fuel : Nat) :
    ∀ (data : List α) (i j : Nat),
      (partitionEqualLoop less a fuel data i j).1.Perm data := by
  induction fuel with
  | zero => intro data i j; exact List.Perm.refl _
  | succ fuel ih =>
    intro data i j
    unfold partitionEqualLoop
    simp only []
    split
    · exact List.Perm.refl _
    · exact (ih _ _ _).trans (Swap_perm _ _ _)

theorem perm_partitionEqual_func (less : α → α → Bool) (data : List α) (a b pivot : Nat) :
    (partitionEqual_func less data a b pivot).1.Perm data := by
  unfold partitionEqual_func
  simp only []
  exact (perm_partitionEqualLoop less a _ _ _ _).trans (Swap_perm _ _ _)

theorem perm_reverseRangeLoop (fuel : Nat) :
    ∀ (i j : Nat) (data : List α), (reverseRangeLoop fuel i j data).Perm data := by
  induction fuel with
  | zero => intro i j data; exact List.Perm.refl _
  | succ fuel ih =>
    intro i j data
    unfold reverseRangeLoop
    split
    · exact (ih _ _ _).trans (Swap_perm _ _ _)
    · exact List.Perm.refl _

theorem perm_reverseRange_func (data : List α) (a b : Nat) :
    (reverseRange_func data a b).Perm data :=
  perm_reverseRangeLoop _ _ _ _

theorem perm_breakPatternsLoop (next : Nat → Nat) (a length modulus idx : Nat) (n : Nat) :
    ∀ (i : Nat) (data : List α) (random : Nat),
      (breakPatternsLoop next a length modulus idx n i data random).Perm data := by
  induction n with
  | zero => intro i data random; exact List.Perm.refl _
  | succ n ih =>
    intro i data random
    unfold breakPatternsLoop
    simp only []
    exact (ih _ _ _).trans (Swap_perm _ _ _)

theorem perm_breakPatterns_func (next : Nat → Nat) (data : List α) (a b : Nat) :
    (breakPatterns_func next data a b).Perm data := by
  unfold breakPatterns_func
  simp only []
  split
  · exact perm_breakPatternsLoop next _ _ _ _ _ _ _ _
  · exact List.Perm.refl _

theorem perm_shiftLeft (less : α → α → Bool) (fuel : Nat) :
    ∀ (j : Nat) (data : List α), (shiftLeft less fuel j data).Perm data := by
  induction fuel with
  | zero => intro j data; exact List.Perm.refl _
  | succ fuel ih =>
    intro j data
    unfold shiftLeft
    split
    · split
      · exact List.Perm.refl _
      · exact (ih _ _).trans (Swap_perm _ _ _)
    · exact List.Perm.refl _

theorem perm_shiftRight (less : α → α → Bool) (b : Nat) (fuel : Nat) :
    ∀ (j : Nat) (data : List α), (shiftRight less b fuel j data).Perm data := by
  induction fuel with
  | zero => intro j data; exact List.Perm.refl _
  | succ fuel ih =>
    intro j data
    unfold shiftRight
    split
    · split
      · exact List.Perm.refl _
      · exact (ih _ _).trans (Swap_perm _ _ _)
    · exact List.Perm.refl _

theorem perm_partialInsertionLoop (less : α → α → Bool) (a b : Nat) (n : Nat) :
    ∀ (data : List α) (i : Nat),
      (partialInsertionLoop less a b n data i).1.Perm data := by
  induction n with
  | zero => intro data i; exact List.Perm.refl _
  | succ n ih =>
    intro data i
    unfold partialInsertionLoop
    simp only []
    split
    · exact List.Perm.refl _
    · split
      · exact List.Perm.refl _
      · refine (ih _ _).trans ?_
        split <;> split <;>
          first
            | exact (perm_shiftRight less b _ _ _).trans
                ((perm_shiftLeft less _ _ _).trans (Swap_perm _ _ _))
            | exact (perm_shiftRight less b _ _ _).trans (Swap_perm _ _ _)
            | exact (perm_shiftLeft less _ _ _).trans (Swap_perm _ _ _)
            | exact Swap_perm _ _ _

theorem perm_partialInsertionSort_func (less : α → α → Bool) (data : List α) (a b : Nat) :
    (partialInsertionSort_func less data a b).1.Perm data :=
  perm_partialInsertionLoop less a b 5 data (a + 1)

theorem perm_siftDownLoop (less : α → α → Bool) (hi first : Nat) (fuel : Nat) :
    ∀ (root : Nat) (data : List α),
      (siftDownLoop less hi first fuel root data).Perm data := by
  induction fuel with
  | zero => intro root data; exact List.Perm.refl _
  | succ fuel ih =>
    intro root data
    unfold siftDownLoop
    simp only []
    split
    · exact List.Perm.refl _
    · generalize (if 2 * root + 1 + 1 < hi ∧
          Less less data (first + (2 * root + 1)) (first + (2 * root + 1) + 1) = true
        then 2 * root + 1 + 1 else 2 * root + 1) = child
      split
      · exact List.Perm.refl _
      · exact (ih _ _).trans (Swap_perm _ _ _)

theorem perm_siftDown_func (less : α → α → Bool) (data : List α) (lo hi first : Nat) :
    (siftDown_func less data lo hi first).Perm data :=
  perm_siftDownLoop less hi first _ _ _

theorem perm_heapBuild (less : α → α → Bool) (hi first : Nat) (n : Nat) :
    ∀ (data : List α), (heapBuild less hi first n data).Perm data := by
  induction n with
  | zero => intro data; exact List.Perm.refl _
  | succ n ih =>
    intro data
    unfold heapBuild
    exact (ih _).trans (perm_siftDown_func less _ _ _ _)

theorem perm_heapPop (less : α → α → Bool) (lo first : Nat) (n : Nat) :
    ∀ (data : List α), (heapPop less lo first n data).Perm data := by
  induction n with
  | zero => intro data; exact List.Perm.refl _
  | succ n ih =>
    intro data
    unfold heapPop
    exact (ih _).trans ((perm_siftDown_func less _ _ _ _).trans (Swap_perm _ _ _))

theorem perm_heapSort_func (less : α → α → Bool) (data : List α) (a b : Nat) :
    (heapSort_func less data a b).Perm data := by
  unfold heapSort_func
  simp only []
  exact (perm_heapPop less _ _ _ _).trans (perm_heapBuild less _ _ _ _)

theorem perm_pdqsortPrepare (next : Nat → Nat) (less : α → α → Bool) (data : List α)
    (a b limit : Nat) (wasBalanced wasPartitioned : Bool) :
    (pdqsortPrepare next less data a b limit wasBalanced wasPartitioned).1.Perm data := by
  unfold pdqsortPrepare
  simp only []
  have h1 : (if ¬ wasBalanced = true then breakPatterns_func next data a b else data).Perm
      data := by
    split
    · exact perm_breakPatterns_func next data a b
    · exact List.Perm.refl _
  generalize (if ¬ wasBalanced = true then breakPatterns_func next data a b else data) = data1
    at h1 ⊢
  have h2 : (if (choosePivot_func less data1 a b).2 = sortedHint.decreasingHint then
      reverseRange_func data1 a b else data1).Perm data := by
    split
    · exact (perm_reverseRange_func data1 a b).trans h1
    · exact h1
  generalize (if (choosePivot_func less data1 a b).2 = sortedHint.decreasingHint then
      reverseRange_func data1 a b else data1) = data2 at h2 ⊢
  generalize (if (choosePivot_func less data1 a b).2 = sortedHint.decreasingHint then
      sortedHint.increasingHint else (choosePivot_func less data1 a b).2) = hint
  by_cases hc : wasBalanced = true ∧ wasPartitioned = true ∧ hint = sortedHint.increasingHint
  · rw [if_pos hc]
    exact (perm_partialInsertionSort_func less data2 a b).trans h2
  · rw [if_neg hc]; exact h2

theorem perm_pdqsort_func (next : Nat → Nat) (less : α → α → Bool) (fuel : Nat) :
    ∀ (data : List α) (a b limit : Nat) (wasBalanced wasPartitioned : Bool),
      (pdqsort_func next less fuel data a b limit wasBalanced wasPartitioned).Perm data := by
  induction fuel with
  | zero => intro data a b limit wb wp; exact List.Perm.refl _
  | succ fuel ih =>
    intro data a b limit wb wp
    unfold pdqsort_func
    simp only []
    split
    · exact perm_insertionSort_func less data a b
    · split
      · exact perm_heapSort_func less data a b
      · split
        · exact perm_pdqsortPrepare next less data a b limit wb wp
        · split
          · exact (ih _ _ _ _ _ _).trans ((perm_partitionEqual_func less _ _ _ _).trans
              (perm_pdqsortPrepare next less data a b limit wb wp))
          · split
            · exact (ih _ _ _ _ _ _).trans ((ih _ _ _ _ _ _).trans
                ((perm_partition_func less _ _ _ _).trans
                  (perm_pdqsortPrepare next less data a b limit wb wp)))
            · exact (ih _ _ _ _ _ _).trans ((ih _ _ _ _ _ _).trans
                ((perm_partition_func less _ _ _ _).trans
                  (perm_pdqsortPrepare next less data a b limit wb wp)))

/-- The result of `sort.Slice` is a rearrangement of the slice. -/
theorem perm_sortSlice (next : Nat → Nat) (less : α → α → Bool) (x : List α) :
    (sortSlice next less x).Perm x :=
  perm_pdqsort_func next less _ x 0 _ _ true true

/-! ## `sort.Slice` on the image of a slice

The ordering of the images `f x` with `less` is the image of the ordering of the `x` with
`less` on the images: `pdqsort_func` looks at the elements only through `less`. -/

theorem Less_map {β : Type} (f : α → β) (less : β → β → Bool) (data : List α) (i j : Nat) :
    Less less (data.map f) i j = Less (fun x y => less (f x) (f y)) data i j := by
  unfold Less
  simp only [List.getElem?_map]
  cases data[i]? <;> cases data[j]? <;> rfl

theorem Swap_map {β : Type} (f : α → β) (data : List α) (i j : Nat) :
    Swap (data.map f) i j = (Swap data i j).map f := by
  unfold Swap
  simp only [List.getElem?_map]
  cases data[i]? <;> cases data[j]? <;> simp [List.map_set]

theorem insertionInner_map {β : Type} (f : α → β) (less : β → β → Bool) (a : Nat)
    (fuel j : Nat) (data : List α) :
    insertionInner less a fuel j (data.map f)
      = (insertionInner (fun x y => less (f x) (f y)) a fuel j data).map f := by
  induction fuel generalizing j data with
  | zero => rfl
  | succ fuel ih =>
    unfold insertionInner
    simp only [Less_map, Swap_map, ih, apply_ite (List.map f)]

theorem insertionOuter_map {β : Type} (f : α → β) (less : β → β → Bool) (a : Nat)
    (n i : Nat) (data : List α) :
    insertionOuter less a n i (data.map f)
      = (insertionOuter (fun x y => less (f x) (f y)) a n i data).map f := by
  induction n generalizing i data with
  | zero => rfl
  | succ n ih =>
    unfold insertionOuter
    rw [insertionInner_map, ih]

theorem insertionSort_func_map {β : Type} (f : α → β) (less : β → β → Bool) (data : List α)
    (a b : Nat) :
    insertionSort_func less (data.map f) a b
      = (insertionSort_func (fun x y => less (f x) (f y)) data a b).map f :=
  insertionOuter_map f less a _ _ data

theorem siftDownLoop_map {β : Type} (f : α → β) (less : β → β → Bool) (hi first : Nat)
    (fuel : Nat) :
    ∀ (root : Nat) (data : List α),
      siftDownLoop less hi first fuel root (data.map f)
        = (siftDownLoop (fun x y => less (f x) (f y)) hi first fuel root data).map f := by
  induction fuel with
  | zero => intro root data; rfl
  | succ fuel ih =>
    intro root data
    unfold siftDownLoop
    simp only [Less_map, Swap_map, ih, apply_ite (List.map f)]

theorem siftDown_func_map {β : Type} (f : α → β) (less : β → β → Bool) (data : List α)
    (lo hi first : Nat) :
    siftDown_func less (data.map f) lo hi first
      = (siftDown_func (fun x y => less (f x) (f y)) data lo hi first).map f :=
  siftDownLoop_map f less hi first _ _ _

theorem heapBuild_map {β : Type} (f : α → β) (less : β → β → Bool) (hi first : Nat)
    (n : Nat) :
    ∀ (data : List α), heapBuild less hi first n (data.map f)
      = (heapBuild (fun x y => less (f x) (f y)) hi first n data).map f := by
  induction n with
  | zero => intro data; rfl
  | succ n ih =>
    intro data
    unfold heapBuild
    rw [siftDown_func_map, ih]

theorem heapPop_map {β : Type} (f : α → β) (less : β → β → Bool) (lo first : Nat) (n : Nat) :
    ∀ (data : List α), heapPop less lo first n (data.map f)
      = (heapPop (fun x y => less (f x) (f y)) lo first n data).map f := by
  induction n with
  | zero => intro data; rfl
  | succ n ih =>
    intro data
    unfold heapPop
    rw [Swap_map, siftDown_func_map, ih]

theorem heapSort_func_map {β : Type} (f : α → β) (less : β → β → Bool) (data : List α)
    (a b : Nat) :
    heapSort_func less (data.map f) a b
      = (heapSort_func (fun x y => less (f x) (f y)) data a b).map f := by
  unfold heapSort_func
  simp only []
  rw [heapBuild_map, heapPop_map]

theorem partitionLoop_map {β : Type} (f : α → β) (less : β → β → Bool) (a : Nat) (fuel : Nat) :
    ∀ (data : List α) (i j : Nat),
      partitionLoop less a fuel (data.map f) i j
        = ((partitionLoop (fun x y => less (f x) (f y)) a fuel data i j).1.map f,
            (partitionLoop (fun x y => less (f x) (f y)) a fuel data i j).2) := by
  induction fuel with
  | zero => intro data i j; rfl
  | succ fuel ih =>
    intro data i j
    unfold partitionLoop
    simp only [Less_map, Swap_map, ih]
    split <;> rfl

theorem partition_func_map {β : Type} (f : α → β) (less : β → β → Bool) (data : List α)
    (a b pivot : Nat) :
    partition_func less (data.map f) a b pivot
      = ((partition_func (fun x y => less (f x) (f y)) data a b pivot).1.map f,
          (partition_func (fun x y => less (f x) (f y)) data a b pivot).2) := by
  unfold partition_func
  simp only [Less_map, Swap_map, partitionLoop_map]
  split <;> rfl

theorem partitionEqualLoop_map {β : Type} (f : α → β) (less : β → β → Bool) (a : Nat)
    (fuel : Nat) :
    ∀ (data : List α) (i j : Nat),
      partitionEqualLoop less a fuel (data.map f) i j
        = ((partitionEqualLoop (fun x y => less (f x) (f y)) a fuel data i j).1.map f,
            (partitionEqualLoop (fun x y => less (f x) (f y)) a fuel data i j).2) := by
  induction fuel with
  | zero => intro data i j; rfl
  | succ fuel ih =>
    intro data i j
    unfold partitionEqualLoop
    simp only [Less_map, Swap_map, ih]
    split <;> rfl

theorem partitionEqual_func_map {β : Type} (f : α → β) (less : β → β → Bool) (data : List α)
    (a b pivot : Nat) :
    partitionEqual_func less (data.map f) a b pivot
      = ((partitionEqual_func (fun x y => less (f x) (f y)) data a b pivot).1.map f,
          (partitionEqual_func (fun x y => less (f x) (f y)) data a b pivot).2) := by
  unfold partitionEqual_func
  simp only [Swap_map, partitionEqualLoop_map]

theorem shiftLeft_map {β : Type} (f : α → β) (less : β → β → Bool) (fuel : Nat) :
    ∀ (j : Nat) (data : List α), shiftLeft less fuel j (data.map f)
      = (shiftLeft (fun x y => less (f x) (f y)) fuel j data).map f := by
  induction fuel with
  | zero => intro j data; rfl
  | succ fuel ih =>
    intro j data
    unfold shiftLeft
    simp only [Less_map, Swap_map, ih, apply_ite (List.map f)]

theorem shiftRight_map {β : Type} (f : α → β) (less : β → β → Bool) (b : Nat) (fuel : Nat) :
    ∀ (j : Nat) (data : List α), shiftRight less b fuel j (data.map f)
      = (shiftRight (fun x y => less (f x) (f y)) b fuel j data).map f := by
  induction fuel with
  | zero => intro j data; rfl
  | succ fuel ih =>
    intro j data
    unfold shiftRight
    simp only [Less_map, Swap_map, ih, apply_ite (List.map f)]

theorem partialInsertionLoop_map {β : Type} (f : α → β) (less : β → β → Bool) (a b : Nat)
    (n : Nat) :
    ∀ (data : List α) (i : Nat),
      partialInsertionLoop less a b n (data.map f) i
        = ((partialInsertionLoop (fun x y => less (f x) (f y)) a b n data i).1.map f,
            (partialInsertionLoop (fun x y => less (f x) (f y)) a b n data i).2) := by
  induction n with
  | zero => intro data i; rfl
  | succ n ih =>
    intro data i
    unfold partialInsertionLoop
    simp only [Less_map, Swap_map, shiftLeft_map, shiftRight_map, ← apply_ite (List.map f), ih]
    split
    · rfl
    · split <;> rfl

theorem partialInsertionSort_func_map {β : Type} (f : α → β) (less : β → β → Bool)
    (data : List α) (a b : Nat) :
    partialInsertionSort_func less (data.map f) a b
      = ((partialInsertionSort_func (fun x y => less (f x) (f y)) data a b).1.map f,
          (partialInsertionSort_func (fun x y => less (f x) (f y)) data a b).2) :=
  partialInsertionLoop_map f less a b 5 data (a + 1)

theorem reverseRangeLoop_map {β : Type} (f : α → β) (fuel : Nat) :
    ∀ (i j : Nat) (data : List α),
      reverseRangeLoop fuel i j (data.map f) = (reverseRangeLoop fuel i j data).map f := by
  induction fuel with
  | zero => intro i j data; rfl
  | succ fuel ih =>
    intro i j data
    unfold reverseRangeLoop
    simp only [Swap_map, ih, apply_ite (List.map f)]

theorem reverseRange_func_map {β : Type} (f : α → β) (data : List α) (a b : Nat) :
    reverseRange_func (data.map f) a b = (reverseRange_func data a b).map f :=
  reverseRangeLoop_map f _ _ _ _

theorem breakPatternsLoop_map {β : Type} (f : α → β) (next : Nat → Nat)
    (a length modulus idx : Nat) (n : Nat) :
    ∀ (i : Nat) (data : List α) (random : Nat),
      breakPatternsLoop next a length modulus idx n i (data.map f) random
        = (breakPatternsLoop next a length modulus idx n i data random).map f := by
  induction n with
  | zero => intro i data random; rfl
  | succ n ih =>
    intro i data random
    unfold breakPatternsLoop
    simp only [Swap_map, ih]

theorem breakPatterns_func_map {β : Type} (f : α → β) (next : Nat → Nat) (data : List α)
    (a b : Nat) :
    breakPatterns_func next (data.map f) a b = (breakPatterns_func next data a b).map f := by
  unfold breakPatterns_func
  simp only [breakPatternsLoop_map, apply_ite (List.map f)]

theorem order2_func_map {β : Type} (f : α → β) (less : β → β → Bool) (data : List α)
    (a b swaps : Nat) :
    order2_func less (data.map f) a b swaps
      = order2_func (fun x y => less (f x) (f y)) data a b swaps := by
  unfold order2_func
  rw [Less_map]

theorem median_func_map {β : Type} (f : α → β) (less : β → β → Bool) (data : List α)
    (a b c swaps : Nat) :
    median_func less (data.map f) a b c swaps
      = median_func (fun x y => less (f x) (f y)) data a b c swaps := by
  unfold median_func
  simp only [order2_func_map]

theorem medianAdjacent_func_map {β : Type} (f : α → β) (less : β → β → Bool) (data : List α)
    (a swaps : Nat) :
    medianAdjacent_func less (data.map f) a swaps
      = medianAdjacent_func (fun x y => less (f x) (f y)) data a swaps :=
  median_func_map f less data _ _ _ _

theorem choosePivot_func_map {β : Type} (f : α → β) (less : β → β → Bool) (data : List α)
    (a b : Nat) :
    choosePivot_func less (data.map f) a b
      = choosePivot_func (fun x y => less (f x) (f y)) data a b := by
  unfold choosePivot_func
  simp only [median_func_map, medianAdjacent_func_map]

theorem pdqsortPrepare_map {β : Type} (f : α → β) (next : Nat → Nat) (less : β → β → Bool)
    (data : List α) (a b limit : Nat) (wasBalanced wasPartitioned : Bool) :
    pdqsortPrepare next less (data.map f) a b limit wasBalanced wasPartitioned
      = ((pdqsortPrepare next (fun x y => less (f x) (f y)) data a b limit wasBalanced
            wasPartitioned).1.map f,
          (pdqsortPrepare next (fun x y => less (f x) (f y)) data a b limit wasBalanced
            wasPartitioned).2) := by
  unfold pdqsortPrepare
  simp only [breakPatterns_func_map, ← apply_ite (List.map f), choosePivot_func_map,
    reverseRange_func_map, partialInsertionSort_func_map]
  split_ifs <;> rfl

theorem pdqsort_func_map {β : Type} (f : α → β) (next : Nat → Nat) (less : β → β → Bool)
    (fuel : Nat) :
    ∀ (data : List α) (a b limit : Nat) (wasBalanced wasPartitioned : Bool),
      pdqsort_func next less fuel (data.map f) a b limit wasBalanced wasPartitioned
        = (pdqsort_func next (fun x y => less (f x) (f y)) fuel data a b limit wasBalanced
            wasPartitioned).map f := by
  induction fuel with
  | zero => intro data a b limit wb wp; rfl
  | succ fuel ih =>
    intro data a b limit wb wp
    unfold pdqsort_func
    simp only [insertionSort_func_map, heapSort_func_map, pdqsortPrepare_map, Less_map,
      partitionEqual_func_map, partition_func_map, ih, apply_ite (List.map f)]

/-- The ordering of the images `f x` is the image of the ordering of the `x`. -/
theorem sortSlice_map {β : Type} (f : α → β) (next : Nat → Nat) (less : β → β → Bool)
    (x : List α) :
    sortSlice next less (x.map f) = (sortSlice next (fun x y => less (f x) (f y)) x).map f := by
  unfold sortSlice
  simp only [List.length_map]
  exact pdqsort_func_map f next less _ x 0 _ _ true true

end SortLemmas

/-! ## Claims on the ordering step -/

/-- C5: for the samples (0,0,0), (0,0,0), (255,255,255), (255,255,255), `k = 2` and 5 iterations,
running `kmeans` and then ordering the centroids by ascending component sum yields exactly
(0,0,0), (255,255,255). -/
theorem kmeans_order_two_clusters :
    (kmeans ⟨[⟨0, 0, 0⟩, ⟨0, 0, 0⟩, ⟨255, 255, 255⟩, ⟨255, 255, 255⟩], [], by decide⟩ 2 5).map order
      = Except.ok [⟨0, 0, 0⟩, ⟨255, 255, 255⟩] := by
  decide!

/-- Claim C20: the ordering step only rearranges: for every list of centroids, its output is a
permutation of its input, with the same centroids in the same multiplicities and the same
length. -/
theorem order_perm (centroids : List Pixel) :
    (order centroids).Perm centroids ∧
    (∀ c : Pixel, (order centroids).count c = centroids.count c) ∧
    (order centroids).length = centroids.length :=
  ⟨perm_sortSlice xorshiftNext lessSum centroids,
    fun c => (perm_sortSlice xorshiftNext lessSum centroids).count_eq c,
    (perm_sortSlice xorshiftNext lessSum centroids).length_eq⟩

/-! ## The ordering step on `float64` -/

/-- The list of the elements of `l` as elements of the subtype of a property they all have. -/
theorem map_val_pmap {β : Type} (P : β → Prop) (l : List β) (h : ∀ x ∈ l, P x) :
    (l.pmap (fun x hx => (⟨x, hx⟩ : { x : β // P x })) h).map Subtype.val = l := by
  rw [List.map_pmap]
  simp

/-- When `less` compares the keys of the elements that have the property `P`, `sort.Slice`
orders by key a slice of such elements. -/
theorem sortSlice_sorted_of {β : Type} (P : β → Prop) (next : Nat → Nat) (key : β → ℚ)
    (less : β → β → Bool) (hless : ∀ x y, P x → P y → less x y = decide (key x < key y))
    (l : List β) (h : ∀ x ∈ l, P x) :
    (sortSlice next less l).Pairwise (fun u v => key u ≤ key v) := by
  have e := map_val_pmap P l h
  have hs := sortSlice_sorted next (fun x : { x : β // P x } => key x.val)
    (fun x y => less x.val y.val) (fun x y => hless x.val y.val x.property y.property)
    (l.pmap (fun x hx => (⟨x, hx⟩ : { x : β // P x })) h)
  rw [← e, sortSlice_map Subtype.val next less, List.pairwise_map]
  exact hs

theorem lessSum64_eq (x y : Pixel64) : lessSum64 x y = x.sum.lt y.sum := rfl

theorem lessSum64_key (x y : Pixel64) (hx : x.sum ≠ F64.nan) (hy : y.sum ≠ F64.nan) :
    lessSum64 x y = decide (x.sum.key < y.sum.key) := by
  rw [lessSum64_eq, Bool.eq_iff_iff, decide_eq_true_iff]
  exact F64.lt_iff_key _ _ hx hy

/-- The ordering step rearranges the centroids. -/
theorem order64_perm (centroids : List Pixel64) : (order64 centroids).Perm centroids :=
  perm_sortSlice xorshiftNext lessSum64 centroids

/-- Without a NaN sum, the ordering step puts the centroids in ascending order of the
`float64` sums. -/
theorem order64_pairwise (centroids : List Pixel64) (h : ∀ c ∈ centroids, c.sum ≠ F64.nan) :
    (order64 centroids).Pairwise (fun a b => a.sum.le b.sum = true) := by
  have hs := sortSlice_sorted_of (fun c : Pixel64 => c.sum ≠ F64.nan) xorshiftNext
    (fun c => c.sum.key) lessSum64 lessSum64_key centroids h
  have hmem : ∀ c ∈ order64 centroids, c.sum ≠ F64.nan :=
    fun c hc => h c ((order64_perm centroids).mem_iff.mp hc)
  refine List.Pairwise.imp_of_mem ?_ hs
  intro a b ha hb hab
  exact (F64.le_iff_key _ _ (hmem a ha) (hmem b hb)).mpr hab

/-! ## Rounding to `float64` -/

theorem two_zpow_eq_div (e : Int) :
    (2 : ℚ) ^ e = ((2 ^ e.toNat : Nat) : ℚ) / ((2 ^ (-e).toNat : Nat) : ℚ) := by
  have h2 : (2 : ℚ) ≠ 0 := by norm_num
  rcases le_total 0 e with h | h
  · have e1 : (-e).toNat = 0 := by omega
    have e2 : ((e.toNat : Nat) : Int) = e := Int.toNat_of_nonneg h
    rw [e1, pow_zero, Nat.cast_one, div_one, Nat.cast_pow, Nat.cast_ofNat, ← zpow_natCast, e2]
  · have e1 : e.toNat = 0 := by omega
    have e2 : (((-e).toNat : Nat) : Int) = -e := Int.toNat_of_nonneg (by omega)
    rw [e1, pow_zero, Nat.cast_one, one_div, Nat.cast_pow, Nat.cast_ofNat, ← zpow_natCast, e2,
      zpow_neg, inv_inv]

theorem rat_eq_natAbs_div (q : ℚ) (hq : 0 < q) : q = (q.num.natAbs : ℚ) / (q.den : ℚ) := by
  have hn : 0 < q.num := Rat.num_pos.mpr hq
  have e : ((q.num.natAbs : Nat) : ℚ) = (q.num : ℚ) := by
    rw [← Int.cast_natCast, Int.natAbs_of_nonneg (le_of_lt hn)]
  rw [e]
  exact (Rat.num_div_den q).symm

/-- The scaled fraction that `F64.roundMag` rounds is `q / 2 ^ qe`. -/
theorem scaled_eq (q : ℚ) (hq : 0 < q) (qe : Int) :
    ((q.num.natAbs * 2 ^ (-qe).toNat : Nat) : ℚ) / ((q.den * 2 ^ qe.toNat : Nat) : ℚ)
      = q / (2 : ℚ) ^ qe := by
  have hd : (q.den : ℚ) ≠ 0 := by exact_mod_cast q.den_nz
  have h1 : ((2 ^ qe.toNat : Nat) : ℚ) ≠ 0 := by positivity
  have h2 : ((2 ^ (-qe).toNat : Nat) : ℚ) ≠ 0 := by positivity
  rw [two_zpow_eq_div qe]
  conv_rhs => rw [rat_eq_natAbs_div q hq]
  push_cast
  field_simp

theorem ilog2Loop_eq (fuel : Nat) : ∀ n : Nat, n ≤ fuel → ilog2Loop fuel n = Nat.log2 n := by
  induction fuel with
  | zero =>
    intro n h
    have : n = 0 := by omega
    subst this
    rw [Nat.log2]; rfl
  | succ fuel ih =>
    intro n h
    rw [Nat.log2]
    show (if 2 ≤ n then ilog2Loop fuel (n / 2) + 1 else 0) = _
    by_cases h2 : 2 ≤ n
    · rw [if_pos h2, if_pos h2, ih (n / 2) (by omega)]
    · rw [if_neg h2, if_neg h2]

theorem ilog2_eq (n : Nat) : ilog2 n = Nat.log2 n := ilog2Loop_eq n n (le_refl n)

/-- The exponent `floorLog2 q` of a rational `q > 0`. -/
theorem floorLog2_spec (q : ℚ) (hq : 0 < q) :
    (2 : ℚ) ^ (floorLog2 q) ≤ q ∧ q < (2 : ℚ) ^ (floorLog2 q + 1) := by
  have hn : q.num.natAbs ≠ 0 := by
    have : 0 < q.num := Rat.num_pos.mpr hq
    omega
  have hd : q.den ≠ 0 := q.den_nz
  have hn1 : (2 : ℚ) ^ (Nat.log2 q.num.natAbs) ≤ (q.num.natAbs : ℚ) := by
    exact_mod_cast Nat.log2_self_le hn
  have hn2 : (q.num.natAbs : ℚ) < (2 : ℚ) ^ (Nat.log2 q.num.natAbs + 1) := by
    exact_mod_cast (Nat.lt_log2_self : q.num.natAbs < 2 ^ (Nat.log2 q.num.natAbs + 1))
  have hd1 : (2 : ℚ) ^ (Nat.log2 q.den) ≤ (q.den : ℚ) := by
    exact_mod_cast Nat.log2_self_le hd
  have hd2 : (q.den : ℚ) < (2 : ℚ) ^ (Nat.log2 q.den + 1) := by
    exact_mod_cast (Nat.lt_log2_self : q.den < 2 ^ (Nat.log2 q.den + 1))
  have hdpos : (0 : ℚ) < (q.den : ℚ) := by exact_mod_cast Nat.pos_of_ne_zero hd
  have hq' := rat_eq_natAbs_div q hq
  have h2 : (2 : ℚ) ≠ 0 := by norm_num
  have hpa : (0 : ℚ) < (2 : ℚ) ^ (Nat.log2 q.num.natAbs) := by positivity
  have hpb : (0 : ℚ) < (2 : ℚ) ^ (Nat.log2 q.den) := by positivity
  -- the value of `2 ^ e0`
  have he0 : (2 : ℚ) ^ ((Nat.log2 q.num.natAbs : Int) - (Nat.log2 q.den : Int))
      = (2 : ℚ) ^ (Nat.log2 q.num.natAbs) / (2 : ℚ) ^ (Nat.log2 q.den) := by
    rw [zpow_sub₀ h2, zpow_natCast, zpow_natCast]
  unfold floorLog2
  simp only [ilog2_eq]
  generalize hA : Nat.log2 q.num.natAbs = A at *
  generalize hB : Nat.log2 q.den = B at *
  generalize hN : q.num.natAbs = N at *
  generalize hD : q.den = D at *
  have htest : (D * 2 ^ ((A : Int) - (B : Int)).toNat ≤ N * 2 ^ (-((A : Int) - (B : Int))).toNat)
      ↔ (2 : ℚ) ^ ((A : Int) - (B : Int)) ≤ q := by
    rw [two_zpow_eq_div, hq']
    have p1 : (0 : ℚ) < ((2 ^ (-((A : Int) - (B : Int))).toNat : Nat) : ℚ) := by positivity
    rw [div_le_div_iff₀ p1 hdpos]
    constructor
    · intro h
      have : ((D * 2 ^ ((A : Int) - (B : Int)).toNat : Nat) : ℚ)
          ≤ ((N * 2 ^ (-((A : Int) - (B : Int))).toNat : Nat) : ℚ) := by exact_mod_cast h
      push_cast at this ⊢
      linarith
    · intro h
      have : ((D * 2 ^ ((A : Int) - (B : Int)).toNat : Nat) : ℚ)
          ≤ ((N * 2 ^ (-((A : Int) - (B : Int))).toNat : Nat) : ℚ) := by
        push_cast at h ⊢
        linarith
      exact_mod_cast this
  by_cases ht : D * 2 ^ ((A : Int) - (B : Int)).toNat ≤ N * 2 ^ (-((A : Int) - (B : Int))).toNat
  · rw [if_pos ht]
    refine ⟨htest.mp ht, ?_⟩
    have e : (A : Int) - (B : Int) + 1 = ((A + 1 : Nat) : Int) - (B : Int) := by push_cast; ring
    rw [e, zpow_sub₀ h2, zpow_natCast, zpow_natCast, hq', lt_div_iff₀ hpb]
    calc (N : ℚ) / (D : ℚ) * 2 ^ B ≤ (N : ℚ) / (D : ℚ) * (D : ℚ) := by
          apply mul_le_mul_of_nonneg_left hd1
          positivity
      _ = (N : ℚ) := by field_simp
      _ < 2 ^ (A + 1) := hn2
  · rw [if_neg ht]
    have hlt : q < (2 : ℚ) ^ ((A : Int) - (B : Int)) := by
      rw [← not_le, ← htest]; exact ht
    refine ⟨?_, by rw [sub_add_cancel]; exact hlt⟩
    have e : (A : Int) - (B : Int) - 1 = (A : Int) - ((B + 1 : Nat) : Int) := by push_cast; ring
    have hpb1 : (0 : ℚ) < (2 : ℚ) ^ (B + 1) := by positivity
    rw [e, zpow_sub₀ h2, zpow_natCast, zpow_natCast, hq', div_le_div_iff₀ hpb1 hdpos]
    calc (2 : ℚ) ^ A * (D : ℚ) ≤ (N : ℚ) * (D : ℚ) := by
          apply mul_le_mul_of_nonneg_right hn1 (le_of_lt hdpos)
      _ ≤ (N : ℚ) * 2 ^ (B + 1) := by
          apply mul_le_mul_of_nonneg_left (le_of_lt hd2)
          positivity

theorem floorLog2_mono (a b : ℚ) (ha : 0 < a) (hab : a ≤ b) : floorLog2 a ≤ floorLog2 b := by
  obtain ⟨s1, _⟩ := floorLog2_spec a ha
  obtain ⟨_, t2⟩ := floorLog2_spec b (lt_of_lt_of_le ha hab)
  have : floorLog2 a < floorLog2 b + 1 := by
    rw [← zpow_lt_zpow_iff_right₀ (by norm_num : (1 : ℚ) < 2)]
    exact lt_of_le_of_lt s1 (lt_of_le_of_lt hab t2)
  omega

/-! ### Rounding to the nearest integer, ties to even -/

theorem roundHalfEven_cases (n d : Nat) (hd : 0 < d) :
    ∃ f rem : Nat, n = d * f + rem ∧ rem < d ∧
      ((2 * rem < d ∧ roundHalfEven n d = f) ∨ (d < 2 * rem ∧ roundHalfEven n d = f + 1) ∨
        (2 * rem = d ∧ f % 2 = 0 ∧ roundHalfEven n d = f) ∨
        (2 * rem = d ∧ f % 2 = 1 ∧ roundHalfEven n d = f + 1)) := by
  refine ⟨n / d, n % d, (Nat.div_add_mod n d).symm, Nat.mod_lt n hd, ?_⟩
  unfold roundHalfEven
  simp only []
  by_cases h1 : 2 * (n % d) < d
  · left; exact ⟨h1, by rw [if_pos h1]⟩
  · by_cases h2 : d < 2 * (n % d)
    · right; left; exact ⟨h2, by rw [if_neg h1, if_pos h2]⟩
    · have h3 : 2 * (n % d) = d := by omega
      by_cases h4 : n / d % 2 = 0
      · right; right; left; exact ⟨h3, h4, by rw [if_neg h1, if_neg h2, if_pos h4]⟩
      · right; right; right
        exact ⟨h3, by omega, by rw [if_neg h1, if_neg h2, if_neg h4]⟩

/-- The integer `roundHalfEven n d` is at most one half away from `n / d`, and it is even when
it is one half away. -/
theorem roundHalfEven_spec (n d : Nat) (hd : 0 < d) :
    ((roundHalfEven n d : Nat) : ℚ) - (n : ℚ) / (d : ℚ) ≤ 1 / 2 ∧
    (n : ℚ) / (d : ℚ) - ((roundHalfEven n d : Nat) : ℚ) ≤ 1 / 2 ∧
    (((roundHalfEven n d : Nat) : ℚ) - (n : ℚ) / (d : ℚ) = 1 / 2 →
      roundHalfEven n d % 2 = 0) ∧
    ((n : ℚ) / (d : ℚ) - ((roundHalfEven n d : Nat) : ℚ) = 1 / 2 →
      roundHalfEven n d % 2 = 0) := by
  obtain ⟨f, rem, hn, hrem, hc⟩ := roundHalfEven_cases n d hd
  have hdq : (0 : ℚ) < (d : ℚ) := by exact_mod_cast hd
  have hm : (n : ℚ) / (d : ℚ) = (f : ℚ) + (rem : ℚ) / (d : ℚ) := by
    rw [hn]; push_cast; field_simp; ring
  have hx0 : (0 : ℚ) ≤ (rem : ℚ) / (d : ℚ) := by positivity
  rw [hm]
  rcases hc with ⟨h, e⟩ | ⟨h, e⟩ | ⟨h, hf, e⟩ | ⟨h, hf, e⟩
  · have hx : (rem : ℚ) / (d : ℚ) < 1 / 2 := by
      rw [div_lt_iff₀ hdq]
      have : ((2 * rem : Nat) : ℚ) < (d : ℚ) := by exact_mod_cast h
      push_cast at this; linarith
    rw [e]
    refine ⟨by linarith, by linarith, fun h1 => ?_, fun h1 => ?_⟩ <;> exfalso <;> linarith
  · have hx : 1 / 2 < (rem : ℚ) / (d : ℚ) := by
      rw [lt_div_iff₀ hdq]
      have : (d : ℚ) < ((2 * rem : Nat) : ℚ) := by exact_mod_cast h
      push_cast at this; linarith
    have hx1 : (rem : ℚ) / (d : ℚ) < 1 := by
      rw [div_lt_one hdq]; exact_mod_cast hrem
    rw [e]
    push_cast
    refine ⟨by linarith, by linarith, fun h1 => ?_, fun h1 => ?_⟩ <;> exfalso <;> linarith
  · have hx : (rem : ℚ) / (d : ℚ) = 1 / 2 := by
      rw [div_eq_iff (ne_of_gt hdq)]
      have : ((2 * rem : Nat) : ℚ) = (d : ℚ) := by exact_mod_cast h
      push_cast at this; linarith
    rw [e]
    exact ⟨by linarith, by linarith, fun _ => hf, fun _ => hf⟩
  · have hx : (rem : ℚ) / (d : ℚ) = 1 / 2 := by
      rw [div_eq_iff (ne_of_gt hdq)]
      have : ((2 * rem : Nat) : ℚ) = (d : ℚ) := by exact_mod_cast h
      push_cast at this; linarith
    rw [e]
    push_cast
    exact ⟨by linarith, by linarith, fun _ => by omega, fun _ => by omega⟩

/-- Rounding to the nearest integer is monotone. -/
theorem roundHalfEven_mono (n1 d1 n2 d2 : Nat) (h1 : 0 < d1) (h2 : 0 < d2)
    (h : (n1 : ℚ) / (d1 : ℚ) ≤ (n2 : ℚ) / (d2 : ℚ)) :
    roundHalfEven n1 d1 ≤ roundHalfEven n2 d2 := by
  obtain ⟨a1, a2, a3, a4⟩ := roundHalfEven_spec n1 d1 h1
  obtain ⟨b1, b2, b3, b4⟩ := roundHalfEven_spec n2 d2 h2
  by_contra hlt
  have hge : roundHalfEven n2 d2 + 1 ≤ roundHalfEven n1 d1 := by omega
  have hgeq : ((roundHalfEven n2 d2 : Nat) : ℚ) + 1 ≤ ((roundHalfEven n1 d1 : Nat) : ℚ) := by
    exact_mod_cast hge
  have e1 : ((roundHalfEven n1 d1 : Nat) : ℚ) - (n1 : ℚ) / (d1 : ℚ) = 1 / 2 := by linarith
  have e2 : (n2 : ℚ) / (d2 : ℚ) - ((roundHalfEven n2 d2 : Nat) : ℚ) = 1 / 2 := by linarith
  have e3 : ((roundHalfEven n1 d1 : Nat) : ℚ) = ((roundHalfEven n2 d2 : Nat) : ℚ) + 1 := by
    linarith
  have e4 : roundHalfEven n1 d1 = roundHalfEven n2 d2 + 1 := by exact_mod_cast e3
  have p1 := a3 e1
  have p2 := b4 e2
  omega

/-- An integer quotient is its own rounding. -/
theorem roundHalfEven_exact (k d : Nat) (hd : 0 < d) : roundHalfEven (k * d) d = k := by
  unfold roundHalfEven
  simp only []
  have e1 : k * d / d = k := Nat.mul_div_cancel k hd
  have e2 : k * d % d = 0 := Nat.mul_mod_left k d
  rw [e1, e2, if_pos (by omega)]

theorem roundHalfEven_le (n d k : Nat) (hd : 0 < d) (h : (n : ℚ) / (d : ℚ) ≤ (k : ℚ)) :
    roundHalfEven n d ≤ k := by
  have := roundHalfEven_mono n d (k * 1) 1 hd Nat.one_pos (by push_cast; simpa using h)
  rwa [roundHalfEven_exact k 1 Nat.one_pos] at this

theorem le_roundHalfEven (n d k : Nat) (hd : 0 < d) (h : (k : ℚ) ≤ (n : ℚ) / (d : ℚ)) :
    k ≤ roundHalfEven n d := by
  have := roundHalfEven_mono (k * 1) 1 n d Nat.one_pos hd (by push_cast; simpa using h)
  rwa [roundHalfEven_exact k 1 Nat.one_pos] at this

/-! ### The rounded magnitude -/

theorem mkRat_scaled (r : Nat) (qe : Int) :
    mkRat ((r : Int) * 2 ^ qe.toNat) (2 ^ (-qe).toNat) = (r : ℚ) * (2 : ℚ) ^ qe := by
  rw [Rat.mkRat_eq_div, two_zpow_eq_div qe]
  push_cast
  ring

theorem roundMag_eq (q : ℚ) :
    F64.roundMag q
      = ((roundHalfEven (q.num.natAbs * 2 ^ (-(ulpExp (floorLog2 q))).toNat)
          (q.den * 2 ^ (ulpExp (floorLog2 q)).toNat) : Nat) : ℚ)
        * (2 : ℚ) ^ (ulpExp (floorLog2 q)) := by
  unfold F64.roundMag
  simp only []
  exact mkRat_scaled _ _

theorem scaled_den_pos (q : ℚ) (qe : Int) : 0 < q.den * 2 ^ qe.toNat :=
  Nat.mul_pos q.den_pos (by positivity)

theorem ulpExp_mono (a b : Int) (h : a ≤ b) : ulpExp a ≤ ulpExp b := by
  unfold ulpExp; omega

theorem two_zpow_pos (e : Int) : (0 : ℚ) < (2 : ℚ) ^ e := zpow_pos (by norm_num) e

/-- The rounded magnitude of `q > 0` is at least the power of two below `q`, when that power
is a multiple of the unit in the last place. -/
theorem le_roundMag (q : ℚ) (hq : 0 < q) (e : Int) (he : (2 : ℚ) ^ e ≤ q)
    (hu : ulpExp (floorLog2 q) ≤ e) : (2 : ℚ) ^ e ≤ F64.roundMag q := by
  rw [roundMag_eq]
  generalize hqe : ulpExp (floorLog2 q) = qe at *
  obtain ⟨t, ht⟩ : ∃ t : Nat, e = qe + (t : Int) := ⟨(e - qe).toNat, by omega⟩
  have h2 : (2 : ℚ) ≠ 0 := by norm_num
  have e2 : (2 : ℚ) ^ e = ((2 ^ t : Nat) : ℚ) * (2 : ℚ) ^ qe := by
    rw [ht, zpow_add₀ h2, zpow_natCast]; push_cast; ring
  have hk : ((2 ^ t : Nat) : ℚ) ≤ ((q.num.natAbs * 2 ^ (-qe).toNat : Nat) : ℚ)
      / ((q.den * 2 ^ qe.toNat : Nat) : ℚ) := by
    rw [scaled_eq q hq qe, le_div_iff₀ (two_zpow_pos qe), ← e2]; exact he
  have hr := le_roundHalfEven _ _ (2 ^ t) (scaled_den_pos q qe) hk
  have hrq : ((2 ^ t : Nat) : ℚ) ≤ ((roundHalfEven (q.num.natAbs * 2 ^ (-qe).toNat)
      (q.den * 2 ^ qe.toNat) : Nat) : ℚ) := by exact_mod_cast hr
  rw [e2]
  exact mul_le_mul_of_nonneg_right hrq (le_of_lt (two_zpow_pos qe))

/-- The rounded magnitude of `q > 0` is at most a power of two above `q`. -/
theorem roundMag_le (q : ℚ) (hq : 0 < q) (e : Int) (he : q ≤ (2 : ℚ) ^ e) :
    F64.roundMag q ≤ (2 : ℚ) ^ e := by
  rw [roundMag_eq]
  generalize hqe : ulpExp (floorLog2 q) = qe at *
  have h2 : (2 : ℚ) ≠ 0 := by norm_num
  have hscaled := scaled_eq q hq qe
  rcases le_or_lt qe e with hle | hlt
  · obtain ⟨t, ht⟩ : ∃ t : Nat, e = qe + (t : Int) := ⟨(e - qe).toNat, by omega⟩
    have e2 : (2 : ℚ) ^ e = ((2 ^ t : Nat) : ℚ) * (2 : ℚ) ^ qe := by
      rw [ht, zpow_add₀ h2, zpow_natCast]; push_cast; ring
    have hk : ((q.num.natAbs * 2 ^ (-qe).toNat : Nat) : ℚ)
        / ((q.den * 2 ^ qe.toNat : Nat) : ℚ) ≤ ((2 ^ t : Nat) : ℚ) := by
      rw [hscaled, div_le_iff₀ (two_zpow_pos qe), ← e2]; exact he
    have hr := roundHalfEven_le _ _ (2 ^ t) (scaled_den_pos q qe) hk
    have hrq : ((roundHalfEven (q.num.natAbs * 2 ^ (-qe).toNat)
        (q.den * 2 ^ qe.toNat) : Nat) : ℚ) ≤ ((2 ^ t : Nat) : ℚ) := by exact_mod_cast hr
    rw [e2]
    exact mul_le_mul_of_nonneg_right hrq (le_of_lt (two_zpow_pos qe))
  · -- `q` is at most half the unit in the last place: it rounds to 0
    have hhalf : q / (2 : ℚ) ^ qe ≤ 1 / 2 := by
      rw [div_le_iff₀ (two_zpow_pos qe)]
      have h1 : (2 : ℚ) ^ e ≤ (2 : ℚ) ^ (qe - 1) :=
        zpow_le_zpow_right₀ (by norm_num) (by omega)
      have h3 : (2 : ℚ) ^ (qe - 1) = 1 / 2 * (2 : ℚ) ^ qe := by
        rw [zpow_sub₀ h2, zpow_one]; ring
      linarith
    obtain ⟨a1, _, a3, _⟩ := roundHalfEven_spec (q.num.natAbs * 2 ^ (-qe).toNat)
      (q.den * 2 ^ qe.toNat) (scaled_den_pos q qe)
    rw [hscaled] at a1 a3
    have hr0 : roundHalfEven (q.num.natAbs * 2 ^ (-qe).toNat) (q.den * 2 ^ qe.toNat) = 0 := by
      by_contra hne
      have h1 : 1 ≤ roundHalfEven (q.num.natAbs * 2 ^ (-qe).toNat) (q.den * 2 ^ qe.toNat) :=
        Nat.one_le_iff_ne_zero.mpr hne
      have h1q : (1 : ℚ) ≤ ((roundHalfEven (q.num.natAbs * 2 ^ (-qe).toNat)
          (q.den * 2 ^ qe.toNat) : Nat) : ℚ) := by exact_mod_cast h1
      have e1 : ((roundHalfEven (q.num.natAbs * 2 ^ (-qe).toNat)
          (q.den * 2 ^ qe.toNat) : Nat) : ℚ) = 1 := by linarith
      have e3 : roundHalfEven (q.num.natAbs * 2 ^ (-qe).toNat) (q.den * 2 ^ qe.toNat) = 1 := by
        exact_mod_cast e1
      have := a3 (by rw [e1]; linarith)
      omega
    rw [hr0]
    simp only [Nat.cast_zero, zero_mul]
    exact le_of_lt (two_zpow_pos e)

theorem roundMag_nonneg (q : ℚ) : 0 ≤ F64.roundMag q := by
  rw [roundMag_eq]
  exact mul_nonneg (Nat.cast_nonneg _) (le_of_lt (two_zpow_pos _))

/-- Rounding is monotone on the positive rationals. -/
theorem roundMag_mono (a b : ℚ) (ha : 0 < a) (hab : a ≤ b) :
    F64.roundMag a ≤ F64.roundMag b := by
  have hb : 0 < b := lt_of_lt_of_le ha hab
  have hlog := floorLog2_mono a b ha hab
  have hulp := ulpExp_mono _ _ hlog
  rcases eq_or_lt_of_le hulp with heq | hlt
  · rw [roundMag_eq a, roundMag_eq b, ← heq]
    apply mul_le_mul_of_nonneg_right _ (le_of_lt (two_zpow_pos _))
    have hm := roundHalfEven_mono (a.num.natAbs * 2 ^ (-(ulpExp (floorLog2 a))).toNat)
      (a.den * 2 ^ (ulpExp (floorLog2 a)).toNat)
      (b.num.natAbs * 2 ^ (-(ulpExp (floorLog2 a))).toNat)
      (b.den * 2 ^ (ulpExp (floorLog2 a)).toNat) (scaled_den_pos _ _) (scaled_den_pos _ _)
      (by
        rw [scaled_eq a ha, scaled_eq b hb]
        exact div_le_div_of_nonneg_right hab (le_of_lt (two_zpow_pos _)))
    exact_mod_cast hm
  · obtain ⟨_, a2⟩ := floorLog2_spec a ha
    obtain ⟨b1, _⟩ := floorLog2_spec b hb
    have hlt2 : floorLog2 a + 1 ≤ floorLog2 b := by
      unfold ulpExp at hlt; omega
    have hub : ulpExp (floorLog2 b) ≤ floorLog2 b := by
      unfold ulpExp at hlt ⊢; omega
    calc F64.roundMag a ≤ (2 : ℚ) ^ (floorLog2 a + 1) := roundMag_le a ha _ (le_of_lt a2)
      _ ≤ (2 : ℚ) ^ (floorLog2 b) := zpow_le_zpow_right₀ (by norm_num) hlt2
      _ ≤ F64.roundMag b := le_roundMag b hb _ b1 hub

/-- A positive integer below `2 ^ 53` is its own rounding. -/
theorem roundMag_natCast (n : Nat) (h0 : 0 < n) (h : n < 2 ^ 53) :
    F64.roundMag (n : ℚ) = (n : ℚ) := by
  have hq : (0 : ℚ) < (n : ℚ) := by exact_mod_cast h0
  rw [roundMag_eq]
  obtain ⟨s1, s2⟩ := floorLog2_spec (n : ℚ) hq
  have hlog0 : 0 ≤ floorLog2 (n : ℚ) := by
    have h1 : (1 : ℚ) ≤ (n : ℚ) := by exact_mod_cast h0
    have : (2 : ℚ) ^ (0 : Int) < (2 : ℚ) ^ (floorLog2 (n : ℚ) + 1) := by
      rw [zpow_zero]; linarith
    rw [zpow_lt_zpow_iff_right₀ (by norm_num : (1 : ℚ) < 2)] at this
    omega
  have hlog : floorLog2 (n : ℚ) < 53 := by
    have hn : (n : ℚ) < (2 : ℚ) ^ (53 : Int) := by
      have : (n : ℚ) < ((2 ^ 53 : Nat) : ℚ) := by exact_mod_cast h
      have e : (2 : ℚ) ^ (53 : Int) = ((2 ^ 53 : Nat) : ℚ) := by norm_num
      rw [e]; exact this
    have := lt_of_le_of_lt s1 hn
    rwa [zpow_lt_zpow_iff_right₀ (by norm_num : (1 : ℚ) < 2)] at this
  generalize hqe : ulpExp (floorLog2 (n : ℚ)) = qe at *
  have hqe0 : qe ≤ 0 := by rw [← hqe]; unfold ulpExp; omega
  have e1 : qe.toNat = 0 := by omega
  have hnum : ((n : ℚ)).num.natAbs = n := by simp
  have hden : ((n : ℚ)).den = 1 := by simp
  have hex := roundHalfEven_exact (n * 2 ^ (-qe).toNat) 1 Nat.one_pos
  rw [Nat.mul_one] at hex
  rw [hnum, hden, e1, pow_zero, Nat.mul_one, hex]
  have h2 : (2 : ℚ) ≠ 0 := by norm_num
  have e2 : (((-qe).toNat : Nat) : Int) = -qe := Int.toNat_of_nonneg (by omega)
  push_cast
  rw [mul_assoc, ← zpow_natCast (2 : ℚ) (-qe).toNat, e2, ← zpow_add₀ h2]
  simp

/-! ### Rounding as a `float64` -/

theorem round_zero : F64.round 0 = F64.fin 0 := by
  unfold F64.round
  rw [if_pos rfl]

theorem round_of_pos (q : ℚ) (hq : 0 < q) :
    F64.round q = F64.ofMag false (F64.roundMag q) := by
  unfold F64.round
  rw [if_neg (ne_of_gt hq), abs_of_pos hq]
  have : decide (q < 0) = false := decide_eq_false (not_lt.mpr (le_of_lt hq))
  rw [this]

theorem round_of_neg (q : ℚ) (hq : q < 0) :
    F64.round q = F64.ofMag true (F64.roundMag (-q)) := by
  unfold F64.round
  rw [if_neg (ne_of_lt hq), abs_of_neg hq]
  have : decide (q < 0) = true := decide_eq_true hq
  rw [this]

theorem ofMag_ne_nan (s : Bool) (v : ℚ) : F64.ofMag s v ≠ F64.nan := by
  unfold F64.ofMag
  split <;> exact fun h => F64.noConfusion h

/-- Rounding never gives NaN. -/
theorem round_ne_nan (q : ℚ) : F64.round q ≠ F64.nan := by
  unfold F64.round
  split
  · exact fun h => F64.noConfusion h
  · exact ofMag_ne_nan _ _

theorem ofMag_false_le (v w : ℚ) (h : v ≤ w) :
    (F64.ofMag false v).le (F64.ofMag false w) = true := by
  unfold F64.ofMag
  by_cases hv : (2 : ℚ) ^ 1024 ≤ v
  · have hw : (2 : ℚ) ^ 1024 ≤ w := le_trans hv h
    rw [if_pos hv, if_pos hw]; rfl
  · rw [if_neg hv]
    by_cases hw : (2 : ℚ) ^ 1024 ≤ w
    · rw [if_pos hw]; rfl
    · rw [if_neg hw]
      simp only [Bool.false_eq_true, if_false, F64.le, decide_eq_true_eq]
      exact h

theorem ofMag_true_le (v w : ℚ) (h : w ≤ v) :
    (F64.ofMag true v).le (F64.ofMag true w) = true := by
  unfold F64.ofMag
  by_cases hw : (2 : ℚ) ^ 1024 ≤ w
  · have hv : (2 : ℚ) ^ 1024 ≤ v := le_trans hw h
    rw [if_pos hv, if_pos hw]; rfl
  · rw [if_neg hw]
    by_cases hv : (2 : ℚ) ^ 1024 ≤ v
    · rw [if_pos hv]; rfl
    · rw [if_neg hv]
      simp only [if_true, F64.le, decide_eq_true_eq]
      linarith

theorem zero_le_ofMag (v : ℚ) (h : 0 ≤ v) : (F64.fin 0).le (F64.ofMag false v) = true := by
  unfold F64.ofMag
  split
  · rfl
  · simp only [Bool.false_eq_true, if_false, F64.le, decide_eq_true_eq]
    exact h

theorem ofMag_le_zero (v : ℚ) (h : 0 ≤ v) : (F64.ofMag true v).le (F64.fin 0) = true := by
  unfold F64.ofMag
  split
  · rfl
  · simp only [if_true, F64.le, decide_eq_true_eq]
    linarith

theorem ofMag_true_le_false (v w : ℚ) (hv : 0 ≤ v) (hw : 0 ≤ w) :
    (F64.ofMag true v).le (F64.ofMag false w) = true := by
  unfold F64.ofMag
  by_cases h1 : (2 : ℚ) ^ 1024 ≤ v <;> by_cases h2 : (2 : ℚ) ^ 1024 ≤ w
  · rw [if_pos h1, if_pos h2]; rfl
  · rw [if_pos h1, if_neg h2]; rfl
  · rw [if_neg h1, if_pos h2]; rfl
  · rw [if_neg h1, if_neg h2]
    simp only [if_true, Bool.false_eq_true, if_false, F64.le, decide_eq_true_eq]
    linarith

/-- Rounding is monotone. -/
theorem round_mono (a b : ℚ) (h : a ≤ b) : (F64.round a).le (F64.round b) = true := by
  rcases lt_trichotomy a 0 with ha | ha | ha
  · rw [round_of_neg a ha]
    rcases lt_trichotomy b 0 with hb | hb | hb
    · rw [round_of_neg b hb]
      exact ofMag_true_le _ _ (roundMag_mono (-b) (-a) (by linarith) (by linarith))
    · rw [hb, round_zero]
      exact ofMag_le_zero _ (roundMag_nonneg _)
    · rw [round_of_pos b hb]
      exact ofMag_true_le_false _ _ (roundMag_nonneg _) (roundMag_nonneg _)
  · rw [ha, round_zero]
    rcases eq_or_lt_of_le (ha ▸ h : (0 : ℚ) ≤ b) with hb | hb
    · rw [← hb, round_zero]; simp [F64.le]
    · rw [round_of_pos b hb]
      exact zero_le_ofMag _ (roundMag_nonneg _)
  · have hb : 0 < b := lt_of_lt_of_le ha h
    rw [round_of_pos a ha, round_of_pos b hb]
    exact ofMag_false_le _ _ (roundMag_mono a b ha h)

/-- A rational between two rationals that rounding leaves unchanged is rounded to a finite
value between them. -/
theorem round_between (lo hi x : ℚ) (hlo : F64.round lo = F64.fin lo)
    (hhi : F64.round hi = F64.fin hi) (h1 : lo ≤ x) (h2 : x ≤ hi) :
    ∃ y, F64.round x = F64.fin y ∧ lo ≤ y ∧ y ≤ hi := by
  have m1 := round_mono lo x h1
  have m2 := round_mono x hi h2
  rw [hlo] at m1
  rw [hhi] at m2
  cases hx : F64.round x with
  | nan => exact absurd hx (round_ne_nan x)
  | fin y =>
    rw [hx] at m1 m2
    simp only [F64.le, decide_eq_true_eq] at m1 m2
    exact ⟨y, rfl, m1, m2⟩
  | inf s =>
    rw [hx] at m1 m2
    cases s
    · simp [F64.le] at m2
    · simp [F64.le] at m1

/-- The conversion of an integer below `2 ^ 53` is exact. -/
theorem round_natCast (n : Nat) (h : n < 2 ^ 53) : F64.round (n : ℚ) = F64.fin (n : ℚ) := by
  rcases Nat.eq_zero_or_pos n with h0 | h0
  · rw [h0, Nat.cast_zero, round_zero]
  · have hq : (0 : ℚ) < (n : ℚ) := by exact_mod_cast h0
    rw [round_of_pos _ hq, roundMag_natCast n h0 h]
    unfold F64.ofMag
    have hlt : ¬ ((2 : ℚ) ^ 1024 ≤ (n : ℚ)) := by
      rw [not_le]
      have h1 : (n : ℚ) < ((2 ^ 53 : Nat) : ℚ) := by exact_mod_cast h
      have h2 : ((2 ^ 53 : Nat) : ℚ) ≤ (2 : ℚ) ^ 1024 := by norm_num
      linarith
    rw [if_neg hlt]
    simp

theorem ofNat_eq (n : Nat) (h : n < 2 ^ 53) : F64.ofNat n = F64.fin (n : ℚ) :=
  round_natCast n h

/-- The rounding of a rational that is not negative is a finite value that is not negative,
or the positive infinity. -/
theorem round_nonneg (q : ℚ) (hq : 0 ≤ q) :
    (∃ y, F64.round q = F64.fin y ∧ 0 ≤ y ∧ y < (2 : ℚ) ^ 1024) ∨
      F64.round q = F64.inf false := by
  rcases eq_or_lt_of_le hq with h0 | hpos
  · left
    rw [← h0, round_zero]
    exact ⟨0, rfl, le_refl _, by positivity⟩
  · rw [round_of_pos q hpos]
    unfold F64.ofMag
    by_cases hc : (2 : ℚ) ^ 1024 ≤ F64.roundMag q
    · right; rw [if_pos hc]
    · left; rw [if_neg hc]
      exact ⟨F64.roundMag q, by simp, roundMag_nonneg q, not_le.mp hc⟩

/-! ### The square root and the values of `distance64` -/

theorem isqrtLoop_sq_le (n : Nat) (b r : Nat) (h : r * r ≤ n) :
    isqrtLoop n b r * isqrtLoop n b r ≤ n := by
  induction b generalizing r with
  | zero => exact h
  | succ b ih =>
    unfold isqrtLoop
    split
    · rename_i hc; exact ih _ hc
    · exact ih _ h

theorem isqrt_sq_le (n : Nat) : isqrt n * isqrt n ≤ n :=
  isqrtLoop_sq_le n _ 0 (Nat.zero_le _)

theorem scaled4_eq (q : ℚ) (hq : 0 < q) (qe : Int) :
    ((q.num.natAbs * 4 ^ (-qe).toNat : Nat) : ℚ) / ((q.den * 4 ^ qe.toNat : Nat) : ℚ)
      = q / (2 : ℚ) ^ (2 * qe) := by
  have h := scaled_eq q hq (2 * qe)
  have e1 : (4 : Nat) ^ (-qe).toNat = 2 ^ (-(2 * qe)).toNat := by
    have : (-(2 * qe)).toNat = 2 * (-qe).toNat := by omega
    rw [this, pow_mul]; norm_num
  have e2 : (4 : Nat) ^ qe.toNat = 2 ^ (2 * qe).toNat := by
    have : (2 * qe).toNat = 2 * qe.toNat := by omega
    rw [this, pow_mul]; norm_num
  rw [e1, e2]
  exact h

theorem sqrtMag_nonneg (q : ℚ) : 0 ≤ F64.sqrtMag q := by
  unfold F64.sqrtMag
  simp only []
  rw [mkRat_scaled]
  exact mul_nonneg (Nat.cast_nonneg _) (le_of_lt (two_zpow_pos _))

/-- The rounded square root of a positive rational below `2 ^ 1024` is at most `2 ^ 512`. -/
theorem sqrtMag_le (q : ℚ) (hq : 0 < q) (hlt : q < (2 : ℚ) ^ (1024 : Int)) :
    F64.sqrtMag q ≤ (2 : ℚ) ^ (512 : Int) := by
  obtain ⟨s1, s2⟩ := floorLog2_spec q hq
  have hlog : floorLog2 q < 1024 := by
    have := lt_of_le_of_lt s1 hlt
    rwa [zpow_lt_zpow_iff_right₀ (by norm_num : (1 : ℚ) < 2)] at this
  unfold F64.sqrtMag
  simp only []
  generalize hh : floorLog2 q / 2 = h at *
  have hh1 : floorLog2 q ≤ 2 * h + 1 := by omega
  have hh2 : h ≤ 511 := by omega
  generalize hqe : ulpExp h = qe at *
  have hqe1 : h - 52 ≤ qe := by rw [← hqe]; unfold ulpExp; omega
  have hqe2 : qe ≤ h - 52 ∨ qe = -1074 := by rw [← hqe]; unfold ulpExp; omega
  generalize hn : q.num.natAbs * 4 ^ (-qe).toNat = n at *
  generalize hd : q.den * 4 ^ qe.toNat = d at *
  have hdpos : 0 < d := by
    rw [← hd]; exact Nat.mul_pos q.den_pos (by positivity)
  have hdq : (0 : ℚ) < (d : ℚ) := by exact_mod_cast hdpos
  have hscaled : (n : ℚ) / (d : ℚ) = q / (2 : ℚ) ^ (2 * qe) := by
    rw [← hn, ← hd]; exact scaled4_eq q hq qe
  -- the scaled value is below `4 ^ 53`
  have h2 : (2 : ℚ) ≠ 0 := by norm_num
  have hy : (n : ℚ) / (d : ℚ) < (2 : ℚ) ^ (106 : Int) := by
    rw [hscaled, div_lt_iff₀ (two_zpow_pos _), ← zpow_add₀ h2]
    calc q < (2 : ℚ) ^ (floorLog2 q + 1) := s2
      _ ≤ (2 : ℚ) ^ (106 + 2 * qe) := zpow_le_zpow_right₀ (by norm_num) (by omega)
  have hfloor : n / d < 2 ^ 106 := by
    have h1 : ((n / d : Nat) : ℚ) ≤ (n : ℚ) / (d : ℚ) := Nat.cast_div_le
    have h3 : ((n / d : Nat) : ℚ) < ((2 ^ 106 : Nat) : ℚ) := by
      have e : ((2 ^ 106 : Nat) : ℚ) = (2 : ℚ) ^ (106 : Int) := by norm_num
      rw [e]; linarith
    exact_mod_cast h3
  have hf : isqrt (n / d) < 2 ^ 53 := by
    by_contra hge
    have hge2 : 2 ^ 53 ≤ isqrt (n / d) := by omega
    have := Nat.mul_le_mul hge2 hge2
    have hsq := isqrt_sq_le (n / d)
    have e : (2 : Nat) ^ 53 * 2 ^ 53 = 2 ^ 106 := by norm_num
    omega
  generalize isqrt (n / d) = f at hf
  have hr : (if 4 * n < (2 * f + 1) * (2 * f + 1) * d then f
      else if (2 * f + 1) * (2 * f + 1) * d < 4 * n then f + 1
      else if f % 2 = 0 then f else f + 1) ≤ 2 ^ 53 := by
    split
    · omega
    · split
      · omega
      · split <;> omega
  generalize (if 4 * n < (2 * f + 1) * (2 * f + 1) * d then f
      else if (2 * f + 1) * (2 * f + 1) * d < 4 * n then f + 1
      else if f % 2 = 0 then f else f + 1) = r at hr
  rw [mkRat_scaled]
  have hrq : (r : ℚ) ≤ (2 : ℚ) ^ (53 : Int) := by
    have : (r : ℚ) ≤ ((2 ^ 53 : Nat) : ℚ) := by exact_mod_cast hr
    have e : ((2 ^ 53 : Nat) : ℚ) = (2 : ℚ) ^ (53 : Int) := by norm_num
    rw [← e]; exact this
  calc (r : ℚ) * (2 : ℚ) ^ qe ≤ (2 : ℚ) ^ (53 : Int) * (2 : ℚ) ^ qe :=
        mul_le_mul_of_nonneg_right hrq (le_of_lt (two_zpow_pos _))
    _ = (2 : ℚ) ^ (53 + qe) := by rw [zpow_add₀ h2]
    _ ≤ (2 : ℚ) ^ (512 : Int) := zpow_le_zpow_right₀ (by norm_num) (by omega)

theorem two_zpow_1024 : (2 : ℚ) ^ (1024 : Int) = (2 : ℚ) ^ 1024 := by norm_num

theorem F64.IsDist.isDist_ne_nan {x : F64} (h : x.IsDist) : x ≠ F64.nan := by
  rcases h with ⟨y, e, _, _⟩ | e <;> rw [e] <;> exact fun h => F64.noConfusion h

theorem nonNeg_zero : (F64.fin 0).NonNeg :=
  Or.inl ⟨0, rfl, le_refl _, by positivity⟩

theorem nonNeg_round (q : ℚ) (hq : 0 ≤ q) : (F64.round q).NonNeg := by
  rcases round_nonneg q hq with ⟨y, e, h0, h1⟩ | e
  · exact Or.inl ⟨y, e, h0, by rw [two_zpow_1024]; exact h1⟩
  · exact Or.inr e

/-- The square of a value that is not NaN is not negative. -/
theorem nonNeg_mul_self (x : F64) (hx : x ≠ F64.nan) : (x.mul x).NonNeg := by
  cases x with
  | nan => exact absurd rfl hx
  | fin a => exact nonNeg_round _ (mul_self_nonneg a)
  | inf s => right; cases s <;> rfl

theorem nonNeg_add (x y : F64) (hx : x.NonNeg) (hy : y.NonNeg) : (x.add y).NonNeg := by
  rcases hx with ⟨a, e1, ha, _⟩ | e1 <;> rcases hy with ⟨b, e2, hb, _⟩ | e2 <;> rw [e1, e2]
  · exact nonNeg_round _ (add_nonneg ha hb)
  · right; rfl
  · right; rfl
  · right; rfl

/-- The difference of a finite value and of a value that is not NaN is not NaN. -/
theorem sub_ne_nan (a : ℚ) (y : F64) (hy : y ≠ F64.nan) : (F64.fin a).sub y ≠ F64.nan := by
  cases y with
  | nan => exact absurd rfl hy
  | fin b => exact round_ne_nan _
  | inf s => exact fun h => F64.noConfusion h

/-- The square root of a value that is not negative is a distance. -/
theorem isDist_sqrt (x : F64) (hx : x.NonNeg) : x.sqrt.IsDist := by
  rcases hx with ⟨a, e, h0, h1⟩ | e
  · rw [e]
    show (if a < 0 then F64.nan else if a = 0 then F64.fin 0 else F64.roundSqrt a).IsDist
    rw [if_neg (not_lt.mpr h0)]
    by_cases hz : a = 0
    · rw [if_pos hz]
      exact Or.inl ⟨0, rfl, le_refl _, le_of_lt (two_zpow_pos _)⟩
    · rw [if_neg hz]
      have hpos : 0 < a := lt_of_le_of_ne h0 (Ne.symm hz)
      have hle := sqrtMag_le a hpos h1
      unfold F64.roundSqrt F64.ofMag
      have hlt : ¬ ((2 : ℚ) ^ 1024 ≤ F64.sqrtMag a) := by
        rw [not_le]
        have : (2 : ℚ) ^ (512 : Int) < (2 : ℚ) ^ 1024 := by norm_num
        linarith
      rw [if_neg hlt]
      exact Or.inl ⟨F64.sqrtMag a, by simp, sqrtMag_nonneg a, hle⟩
  · rw [e]
    right; rfl

theorem distance64_eq (a b : Pixel64) :
    distance64 a b
      = ((((F64.fin 0).add ((a.c0.sub b.c0).mul (a.c0.sub b.c0))).add
          ((a.c1.sub b.c1).mul (a.c1.sub b.c1))).add
          ((a.c2.sub b.c2).mul (a.c2.sub b.c2))).sqrt := rfl

theorem F64.Finite.eq_fin {x : F64} (h : x.Finite) : x = F64.fin x.toRat := by
  cases x with
  | fin q => rfl
  | inf s =>
    unfold F64.Finite F64.toRat at h
    rw [round_zero] at h
    cases h
  | nan =>
    unfold F64.Finite F64.toRat at h
    rw [round_zero] at h
    cases h

theorem F64.Finite.finite_ne_nan {x : F64} (h : x.Finite) : x ≠ F64.nan := by
  rw [h.eq_fin]; exact fun h => F64.noConfusion h

theorem Pixel64.Finite.notNaN {p : Pixel64} (h : p.Finite) : p.NotNaN :=
  ⟨h.1.finite_ne_nan, h.2.1.finite_ne_nan, h.2.2.finite_ne_nan⟩

/-- The distance from a finite sample to a centroid without NaN is a finite value from 0 to
`2 ^ 512` or the positive infinity. -/
theorem isDist_distance64 (p c : Pixel64) (hp : p.Finite) (hc : c.NotNaN) :
    (distance64 p c).IsDist := by
  rw [distance64_eq]
  obtain ⟨p0, p1, p2⟩ := hp
  obtain ⟨c0, c1, c2⟩ := hc
  apply isDist_sqrt
  apply nonNeg_add
  · apply nonNeg_add
    · apply nonNeg_add _ _ nonNeg_zero
      apply nonNeg_mul_self
      rw [p0.eq_fin]; exact sub_ne_nan _ _ c0
    · apply nonNeg_mul_self
      rw [p1.eq_fin]; exact sub_ne_nan _ _ c1
  · apply nonNeg_mul_self
    rw [p2.eq_fin]; exact sub_ne_nan _ _ c2

theorem maxFloat64_gt : (2 : ℚ) ^ (512 : Int) < MaxFloat64 := by
  unfold MaxFloat64
  norm_num

/-- A distance is less than `math.MaxFloat64` when it is finite. -/
theorem F64.IsDist.lt_max_or {x : F64} (h : x.IsDist) :
    (x.lt (F64.fin MaxFloat64) = true ∧ ∃ y, x = F64.fin y) ∨
      (x.lt (F64.fin MaxFloat64) = false ∧ x = F64.inf false) := by
  rcases h with ⟨y, e, _, h1⟩ | e
  · left
    rw [e]
    refine ⟨?_, y, rfl⟩
    simp only [F64.lt, decide_eq_true_eq]
    linarith [maxFloat64_gt]
  · right
    rw [e]
    exact ⟨rfl, rfl⟩

/-! ### The scan of the centroids on `float64` -/

/-- The scan of the centroids from the state `st`, when no distance is NaN: the key of the
final `minDist` is at most the key of the initial one and of every distance; either nothing
changed and no distance was below the initial `minDist`, or the final state is the first
centroid at the least distance. -/
theorem scan64_spec (p : Pixel64) (cs : List Pixel64)
    (hd : ∀ c ∈ cs, distance64 p c ≠ F64.nan) :
    ∀ (n : Nat) (st : F64 × Nat), st.1 ≠ F64.nan →
      ((cs.enumFrom n).foldl (scanStep64 p) st).1 ≠ F64.nan ∧
      (∀ c ∈ cs, ((cs.enumFrom n).foldl (scanStep64 p) st).1.key ≤ (distance64 p c).key) ∧
      ((cs.enumFrom n).foldl (scanStep64 p) st).1.key ≤ st.1.key ∧
      (((cs.enumFrom n).foldl (scanStep64 p) st = st ∧
          ∀ c ∈ cs, st.1.key ≤ (distance64 p c).key) ∨
        ∃ t, t < cs.length ∧ ((cs.enumFrom n).foldl (scanStep64 p) st).2 = n + t ∧
          ((cs.enumFrom n).foldl (scanStep64 p) st).1 = distance64 p (cs.getD t p) ∧
          ((cs.enumFrom n).foldl (scanStep64 p) st).1.key < st.1.key ∧
          ∀ c ∈ cs.take t,
            ((cs.enumFrom n).foldl (scanStep64 p) st).1.key < (distance64 p c).key) := by
  induction cs with
  | nil =>
    intro n st hst
    exact ⟨hst, fun c hc => (by cases hc), le_refl _,
      Or.inl ⟨rfl, fun c hc => (by cases hc)⟩⟩
  | cons c cs ih =>
    intro n st hst
    have hdc : distance64 p c ≠ F64.nan := hd c (List.mem_cons_self _ _)
    have hd' : ∀ c' ∈ cs, distance64 p c' ≠ F64.nan :=
      fun c' hc' => hd c' (List.mem_cons_of_mem _ hc')
    simp only [List.enumFrom_cons, List.foldl_cons, List.length_cons]
    by_cases h : (distance64 p c).lt st.1 = true
    · have hs : scanStep64 p st (n, c) = (distance64 p c, n) := by simp [scanStep64, h]
      rw [hs]
      obtain ⟨i0, i1, i2, i3⟩ := ih hd' (n + 1) (distance64 p c, n) hdc
      generalize (cs.enumFrom (n + 1)).foldl (scanStep64 p) (distance64 p c, n) = r
        at i0 i1 i2 i3
      have hk := (F64.lt_iff_key _ _ hdc hst).mp h
      simp only [] at i2 i3
      refine ⟨i0, ?_, by linarith, Or.inr ?_⟩
      · intro c' hc'
        rcases List.mem_cons.mp hc' with e | e
        · rw [e]; exact i2
        · exact i1 c' e
      · rcases i3 with ⟨e, _⟩ | ⟨t, ht, e1, e2, e3, e4⟩
        · refine ⟨0, by omega, by rw [e]; rfl, by rw [e]; rfl, by rw [e]; exact hk, ?_⟩
          intro c' hc'
          simp at hc'
        · refine ⟨t + 1, by omega, by rw [e1]; omega, by rw [e2]; rfl, by linarith, ?_⟩
          intro c' hc'
          rw [List.take_succ_cons] at hc'
          rcases List.mem_cons.mp hc' with e | e
          · rw [e]; exact e3
          · exact e4 c' e
    · have hs : scanStep64 p st (n, c) = st := by simp [scanStep64, h]
      rw [hs]
      obtain ⟨i0, i1, i2, i3⟩ := ih hd' (n + 1) st hst
      generalize (cs.enumFrom (n + 1)).foldl (scanStep64 p) st = r at i0 i1 i2 i3
      have hk : st.1.key ≤ (distance64 p c).key :=
        (F64.lt_false_iff_key _ _ hdc hst).mp (by simpa using h)
      refine ⟨i0, ?_, i2, ?_⟩
      · intro c' hc'
        rcases List.mem_cons.mp hc' with e | e
        · rw [e]; linarith
        · exact i1 c' e
      · rcases i3 with ⟨e, e0⟩ | ⟨t, ht, e1, e2, e3, e4⟩
        · left
          refine ⟨e, ?_⟩
          intro c' hc'
          rcases List.mem_cons.mp hc' with e' | e'
          · rw [e']; exact hk
          · exact e0 c' e'
        · right
          refine ⟨t + 1, by omega, by rw [e1]; omega, by rw [e2]; rfl, e3, ?_⟩
          intro c' hc'
          rw [List.take_succ_cons] at hc'
          rcases List.mem_cons.mp hc' with e | e
          · rw [e]; linarith
          · exact e4 c' e

/-! ### The index that the scan gives to a sample, on `float64` -/

/-- When every distance from the sample is a distance without NaN, `minIdx` is the lowest
index among the centroids at minimal distance. -/
theorem minIdx64_lowestNearest (cs : List Pixel64) (p : Pixel64) (hne : cs ≠ [])
    (hd : ∀ c ∈ cs, (distance64 p c).IsDist) :
    LowestNearest64 cs p (minIdx64 cs p) := by
  have hnan : ∀ c ∈ cs, distance64 p c ≠ F64.nan := fun c hc => (hd c hc).isDist_ne_nan
  have hmax : (F64.fin MaxFloat64) ≠ F64.nan := fun h => F64.noConfusion h
  obtain ⟨_, i1, _, i3⟩ := scan64_spec p cs hnan 0 (F64.fin MaxFloat64, 0) hmax
  unfold minIdx64 scanCentroids64 List.enum
  generalize (cs.enumFrom 0).foldl (scanStep64 p) (F64.fin MaxFloat64, 0) = r at i1 i3
  have hpos : 0 < cs.length := List.length_pos.mpr hne
  rcases i3 with ⟨e, e0⟩ | ⟨t, ht, e1, e2, _, e4⟩
  · -- no distance is below `math.MaxFloat64`: they are all infinite
    have hinf : ∀ c ∈ cs, distance64 p c = F64.inf false := by
      intro c hc
      rcases (hd c hc).lt_max_or with ⟨hl, _⟩ | ⟨_, hi⟩
      · have := (F64.lt_iff_key _ _ (hnan c hc) hmax).mp hl
        have := e0 c hc
        simp only [] at this
        linarith
      · exact hi
    rw [e]
    refine ⟨hpos, ?_, ?_⟩
    · intro c hc
      rw [hinf c hc, hinf _ (getD_mem64 cs p 0 hpos)]
      rfl
    · intro c hc
      simp at hc
  · rw [Nat.zero_add] at e1
    rw [e1]
    have hgt := getD_mem64 cs p t ht
    refine ⟨ht, ?_, ?_⟩
    · intro c hc
      rw [F64.lt_false_iff_key _ _ (hnan c hc) (hnan _ hgt), ← e2]
      exact i1 c hc
    · intro c hc
      have hc2 : c ∈ cs := List.mem_of_mem_take hc
      rw [F64.lt_iff_key _ _ (hnan _ hgt) (hnan c hc2), ← e2]
      exact e4 c hc

/-- The lowest index among the centroids at minimal distance is unique. -/
theorem LowestNearest64.unique64 {cs : List Pixel64} {p : Pixel64} {i j : Nat}
    (hi : LowestNearest64 cs p i) (hj : LowestNearest64 cs p j) : i = j := by
  rcases Nat.lt_trichotomy i j with h | h | h
  · have h1 := hj.2.2 _ (mem_take_of_lt64 cs p i j h (le_of_lt hj.1))
    have h2 := hi.2.1 _ (getD_mem64 cs p j hj.1)
    rw [h1] at h2; cases h2
  · exact h
  · have h1 := hi.2.2 _ (mem_take_of_lt64 cs p j i h (le_of_lt hi.1))
    have h2 := hj.2.1 _ (getD_mem64 cs p i hi.1)
    rw [h1] at h2; cases h2

theorem minIdx64_eq_iff (cs : List Pixel64) (p : Pixel64) (hne : cs ≠ [])
    (hd : ∀ c ∈ cs, (distance64 p c).IsDist) (i : Nat) :
    minIdx64 cs p = i ↔ LowestNearest64 cs p i :=
  ⟨fun e => e ▸ minIdx64_lowestNearest cs p hne hd,
    fun hi => (minIdx64_lowestNearest cs p hne hd).unique64 hi⟩

/-- The cluster of index `i` is made of the samples that have `i` as the lowest index at
minimal distance. -/
theorem assignedTo64_eq_filter (cs pixels : List Pixel64) (hne : cs ≠ [])
    (hd : ∀ p ∈ pixels, ∀ c ∈ cs, (distance64 p c).IsDist) (i : Nat) :
    assignedTo64 cs pixels i = pixels.filter (fun p => decide (LowestNearest64 cs p i)) := by
  unfold assignedTo64
  apply List.filter_congr
  intro p hp
  rw [decide_eq_decide]
  exact minIdx64_eq_iff cs p hne (hd p hp) i

/-! ### `averagePixels64` in closed form -/

theorem averagePixels64_sum_fold (l : List Pixel64) (acc : Pixel64) :
    l.foldl (fun avg p => idx3.foldl (fun avg i => avg.set i ((avg.get i).add (p.get i))) avg)
        acc
      = ⟨(l.map Pixel64.c0).foldl F64.add acc.c0, (l.map Pixel64.c1).foldl F64.add acc.c1,
          (l.map Pixel64.c2).foldl F64.add acc.c2⟩ := by
  induction l generalizing acc with
  | nil => rfl
  | cons p l ih =>
    rw [List.foldl_cons, ih]
    rfl

/-- The result of `averagePixels` on `float64`: each component is the sum of that component
over the slice, added from left to right from 0, divided by the length of the slice. -/
theorem averagePixels64_eq (l : List Pixel64) :
    averagePixels64 l
      = ⟨((l.map Pixel64.c0).foldl F64.add (F64.fin 0)).div (F64.ofNat l.length),
          ((l.map Pixel64.c1).foldl F64.add (F64.fin 0)).div (F64.ofNat l.length),
          ((l.map Pixel64.c2).foldl F64.add (F64.fin 0)).div (F64.ofNat l.length)⟩ := by
  unfold averagePixels64
  simp only [averagePixels64_sum_fold]
  rfl

theorem averagePixels64_get (l : List Pixel64) (i : Fin 3) :
    (averagePixels64 l).get i
      = ((l.map (fun p => p.get i)).foldl F64.add (F64.fin 0)).div (F64.ofNat l.length) := by
  rw [averagePixels64_eq]
  fin_cases i <;> rfl

/-! ### Centroids of finite samples -/

theorem add_fin_ne_nan (x : F64) (b : ℚ) (hx : x ≠ F64.nan) : x.add (F64.fin b) ≠ F64.nan := by
  cases x with
  | nan => exact absurd rfl hx
  | fin a => exact round_ne_nan _
  | inf s => exact fun h => F64.noConfusion h

theorem foldl_add_ne_nan (l : List F64) (acc : F64) (hacc : acc ≠ F64.nan)
    (hl : ∀ x ∈ l, x.Finite) : l.foldl F64.add acc ≠ F64.nan := by
  induction l generalizing acc with
  | nil => exact hacc
  | cons x l ih =>
    rw [List.foldl_cons]
    apply ih _ _ (fun y hy => hl y (List.mem_cons_of_mem _ hy))
    rw [(hl x (List.mem_cons_self _ _)).eq_fin]
    exact add_fin_ne_nan _ _ hacc

theorem div_fin_ne_nan (x : F64) (b : ℚ) (hx : x ≠ F64.nan) (hb : b ≠ 0) :
    x.div (F64.fin b) ≠ F64.nan := by
  cases x with
  | nan => exact absurd rfl hx
  | fin a =>
    show (if b = 0 then (if a = 0 then F64.nan else F64.inf (decide (a < 0)))
      else F64.round (a / b)) ≠ F64.nan
    rw [if_neg hb]
    exact round_ne_nan _
  | inf s => exact fun h => F64.noConfusion h

theorem length_lt_of_fits (pixels : PixelSlice64) : pixels.elems.length < 2 ^ 44 := by
  have h := pixels.fits
  unfold pixelSize maxAlloc at h
  omega

/-- The average of a non-empty cluster of finite samples has no NaN component. -/
theorem averagePixels64_notNaN (l : List Pixel64) (hne : l ≠ []) (hlen : l.length < 2 ^ 53)
    (hl : ∀ p ∈ l, p.Finite) : (averagePixels64 l).NotNaN := by
  have hpos : 0 < l.length := List.length_pos.mpr hne
  have hn : (l.length : ℚ) ≠ 0 := by
    have : (0 : ℚ) < (l.length : ℚ) := by exact_mod_cast hpos
    exact ne_of_gt this
  have h0 : (F64.fin 0) ≠ F64.nan := fun h => F64.noConfusion h
  rw [averagePixels64_eq, ofNat_eq _ hlen]
  refine ⟨?_, ?_, ?_⟩
  · apply div_fin_ne_nan _ _ _ hn
    apply foldl_add_ne_nan _ _ h0
    intro x hx
    obtain ⟨p, hp, e⟩ := List.mem_map.mp hx
    rw [← e]; exact (hl p hp).1
  · apply div_fin_ne_nan _ _ _ hn
    apply foldl_add_ne_nan _ _ h0
    intro x hx
    obtain ⟨p, hp, e⟩ := List.mem_map.mp hx
    rw [← e]; exact (hl p hp).2.1
  · apply div_fin_ne_nan _ _ _ hn
    apply foldl_add_ne_nan _ _ h0
    intro x hx
    obtain ⟨p, hp, e⟩ := List.mem_map.mp hx
    rw [← e]; exact (hl p hp).2.2

theorem length_assignedTo64_le (cs pixels : List Pixel64) (i : Nat) :
    (assignedTo64 cs pixels i).length ≤ pixels.length :=
  List.length_filter_le _ _

/-- A pass on finite samples keeps the centroids without NaN. -/
theorem nextCentroids64_notNaN (cs pixels : List Pixel64) (hlen : pixels.length < 2 ^ 53)
    (hp : ∀ p ∈ pixels, p.Finite) (hc : ∀ c ∈ cs, c.NotNaN) :
    ∀ c ∈ nextCentroids64 cs pixels, c.NotNaN := by
  intro c hmem
  obtain ⟨j, hj, e⟩ := mem_nextCentroids64 cs pixels c hmem
  rw [e]
  unfold newCentroid64
  split
  · rename_i hpos
    apply averagePixels64_notNaN _ (List.ne_nil_of_length_pos hpos)
      (lt_of_le_of_lt (length_assignedTo64_le cs pixels j) hlen)
    intro q hq
    exact hp q ((mem_assignedTo64 cs pixels j q).mp hq).1
  · exact hc _ (List.getElem_mem hj)

/-- The centroids that `kmeans64` returns on finite samples have no NaN component. -/
theorem kmeans64_notNaN (pixels : PixelSlice64) (k : Nat) (h1 : 1 ≤ k) (hk : k ≤ pixels.len)
    (hp : ∀ p ∈ pixels.elems, p.Finite) (iterations : Int) (cs : List Pixel64)
    (h : kmeans64 pixels (k : Int) iterations = Except.ok cs) : ∀ c ∈ cs, c.NotNaN := by
  have hlen : pixels.elems.length < 2 ^ 53 :=
    lt_trans (length_lt_of_fits pixels) (by norm_num)
  obtain ⟨out, ho, _, hP⟩ := kmeans_invariant64 pixels k h1 hk
    (fun cs => ∀ c ∈ cs, c.NotNaN)
    (fun c hc => (hp c (List.mem_of_mem_take hc)).notNaN)
    (fun cs _ hcs => nextCentroids64_notNaN cs pixels.elems hlen hp hcs) iterations
  rw [ho] at h
  cases h
  exact hP

/-- The distances from the finite samples to the centroids that `kmeans64` returns. -/
theorem kmeans64_isDist (pixels : PixelSlice64) (k : Nat) (h1 : 1 ≤ k) (hk : k ≤ pixels.len)
    (hp : ∀ p ∈ pixels.elems, p.Finite) (iterations : Int) (cs : List Pixel64)
    (h : kmeans64 pixels (k : Int) iterations = Except.ok cs) :
    ∀ p ∈ pixels.elems, ∀ c ∈ cs, (distance64 p c).IsDist :=
  fun p hpm c hc => isDist_distance64 p c (hp p hpm)
    (kmeans64_notNaN pixels k h1 hk hp iterations cs h c hc)

/-! ### Samples with components in a range -/

/-- The `float64` sum of values between 0 and `M` is between 0 and `M` times their number. -/
theorem foldl_add_within (M : Nat) (l : List F64) (hl : ∀ x ∈ l, x.Within 0 (M : ℚ)) :
    ∀ (j : Nat) (acc : F64), acc.Within 0 ((M * j : Nat) : ℚ) → M * (j + l.length) < 2 ^ 53 →
      (l.foldl F64.add acc).Within 0 ((M * (j + l.length) : Nat) : ℚ) := by
  induction l with
  | nil => intro j acc hacc _; exact hacc
  | cons x l ih =>
    intro j acc hacc hb
    rw [List.foldl_cons]
    obtain ⟨s, es, s0, s1⟩ := hacc
    obtain ⟨q, eq, q0, q1⟩ := hl x (List.mem_cons_self _ _)
    have hb1 : M * (j + 1) < 2 ^ 53 := by
      have : M * (j + 1) ≤ M * (j + (x :: l).length) :=
        Nat.mul_le_mul_left _ (by simp)
      omega
    have hstep : (acc.add x).Within 0 ((M * (j + 1) : Nat) : ℚ) := by
      rw [es, eq]
      show (F64.round (s + q)).Within 0 _
      obtain ⟨y, ey, y0, y1⟩ := round_between 0 ((M * (j + 1) : Nat) : ℚ) (s + q) round_zero
        (round_natCast _ hb1) (by linarith) (by push_cast at s1 ⊢; linarith)
      exact ⟨y, ey, y0, y1⟩
    have := ih (fun y hy => hl y (List.mem_cons_of_mem _ hy)) (j + 1) _ hstep
      (by simp only [List.length_cons] at hb; rw [show j + 1 + l.length = j + (l.length + 1) by omega]; exact hb)
    rw [show j + (x :: l).length = j + 1 + l.length by simp; omega]
    exact this

/-- Each component of the average of a non-empty cluster of samples with components between
0 and `M` is between 0 and `M`. -/
theorem averagePixels64_within (M : Nat) (l : List Pixel64) (hne : l ≠ [])
    (hb : M * l.length < 2 ^ 53) (hM : 1 ≤ M) (hl : ∀ p ∈ l, p.Within 0 (M : ℚ)) :
    (averagePixels64 l).Within 0 (M : ℚ) := by
  have hpos : 0 < l.length := List.length_pos.mpr hne
  have hlen : l.length < 2 ^ 53 := by
    have : l.length ≤ M * l.length := Nat.le_mul_of_pos_left _ hM
    omega
  have hnq : (0 : ℚ) < (l.length : ℚ) := by exact_mod_cast hpos
  intro i
  rw [averagePixels64_get, ofNat_eq _ hlen]
  have hsum := foldl_add_within M (l.map (fun p => p.get i))
    (fun x hx => by
      obtain ⟨p, hp, e⟩ := List.mem_map.mp hx
      rw [← e]; exact hl p hp i)
    0 (F64.fin 0) ⟨0, rfl, le_refl _, by simp⟩ (by simpa using hb)
  rw [List.length_map, Nat.zero_add] at hsum
  obtain ⟨s, es, s0, s1⟩ := hsum
  rw [es]
  show (if (l.length : ℚ) = 0 then (if s = 0 then F64.nan else F64.inf (decide (s < 0)))
      else F64.round (s / (l.length : ℚ))).Within 0 (M : ℚ)
  rw [if_neg (ne_of_gt hnq)]
  have hMb : M < 2 ^ 53 := by
    have : M ≤ M * l.length := Nat.le_mul_of_pos_right _ hpos
    omega
  obtain ⟨y, ey, y0, y1⟩ := round_between 0 (M : ℚ) (s / (l.length : ℚ)) round_zero
    (round_natCast M hMb) (by positivity) (by
      rw [div_le_iff₀ hnq]
      push_cast at s1
      exact s1)
  exact ⟨y, ey, y0, y1⟩

/-- A pass keeps the components of the centroids between 0 and `M`. -/
theorem nextCentroids64_within (M : Nat) (cs pixels : List Pixel64)
    (hb : M * pixels.length < 2 ^ 53) (hM : 1 ≤ M)
    (hp : ∀ p ∈ pixels, p.Within 0 (M : ℚ)) (hc : ∀ c ∈ cs, c.Within 0 (M : ℚ)) :
    ∀ c ∈ nextCentroids64 cs pixels, c.Within 0 (M : ℚ) := by
  intro c hmem
  obtain ⟨j, hj, e⟩ := mem_nextCentroids64 cs pixels c hmem
  rw [e]
  unfold newCentroid64
  split
  · rename_i hpos
    apply averagePixels64_within M _ (List.ne_nil_of_length_pos hpos) _ hM
    · intro q hq
      exact hp q ((mem_assignedTo64 cs pixels j q).mp hq).1
    · have := Nat.mul_le_mul_left M (length_assignedTo64_le cs pixels j)
      omega
  · exact hc _ (List.getElem_mem hj)

/-- With samples between 0 and `M`, every centroid that `kmeans64` returns is between 0 and
`M`. -/
theorem kmeans64_within (M : Nat) (pixels : PixelSlice64) (k : Nat) (h1 : 1 ≤ k)
    (hk : k ≤ pixels.len) (hb : M * pixels.elems.length < 2 ^ 53) (hM : 1 ≤ M)
    (hp : ∀ p ∈ pixels.elems, p.Within 0 (M : ℚ)) (iterations : Int) :
    ∃ out, kmeans64 pixels (k : Int) iterations = Except.ok out ∧ out.length = k ∧
      ∀ c ∈ out, c.Within 0 (M : ℚ) :=
  kmeans_invariant64 pixels k h1 hk (fun cs => ∀ c ∈ cs, c.Within 0 (M : ℚ))
    (fun c hc => hp c (List.mem_of_mem_take hc))
    (fun cs _ hcs => nextCentroids64_within M cs pixels.elems hb hM hp hcs) iterations

/-! ### Every sample its own centroid -/

theorem sub_self_fin (a : ℚ) : (F64.fin a).sub (F64.fin a) = F64.fin 0 := by
  show F64.round (a + -a) = F64.fin 0
  rw [add_neg_cancel]
  exact round_zero

theorem mul_zero_fin : (F64.fin 0).mul (F64.fin 0) = F64.fin 0 := by
  show F64.round (0 * 0) = F64.fin 0
  rw [mul_zero]
  exact round_zero

theorem add_zero_fin : (F64.fin 0).add (F64.fin 0) = F64.fin 0 := by
  show F64.round (0 + 0) = F64.fin 0
  rw [add_zero]
  exact round_zero

theorem sqrt_zero_fin : (F64.fin 0).sqrt = F64.fin 0 := by
  show (if (0 : ℚ) < 0 then F64.nan else if (0 : ℚ) = 0 then F64.fin 0 else F64.roundSqrt 0)
    = F64.fin 0
  rw [if_neg (lt_irrefl _), if_pos rfl]

/-- The computed distance from a finite pixel to itself is 0. -/
theorem distance64_self (p : Pixel64) (hp : p.Finite) : distance64 p p = F64.fin 0 := by
  rw [distance64_eq, hp.1.eq_fin, hp.2.1.eq_fin, hp.2.2.eq_fin]
  simp only [sub_self_fin, mul_zero_fin, add_zero_fin, sqrt_zero_fin]

theorem zero_add_finite (x : F64) (hx : x.Finite) : (F64.fin 0).add x = x := by
  have e := hx.eq_fin
  have hr : F64.round x.toRat = x := hx
  rw [e]
  show F64.round (0 + x.toRat) = F64.fin x.toRat
  rw [zero_add, hr, ← e]

theorem div_one_finite (x : F64) (hx : x.Finite) : x.div (F64.ofNat 1) = x := by
  have e := hx.eq_fin
  have hr : F64.round x.toRat = x := hx
  rw [ofNat_eq 1 (by norm_num), e]
  show (if ((1 : Nat) : ℚ) = 0 then
      (if x.toRat = 0 then F64.nan else F64.inf (decide (x.toRat < 0)))
    else F64.round (x.toRat / ((1 : Nat) : ℚ))) = F64.fin x.toRat
  rw [if_neg (by norm_num), Nat.cast_one, div_one, hr, ← e]

/-- The average of a cluster of one finite sample is that sample. -/
theorem averagePixels64_single (p : Pixel64) (hp : p.Finite) : averagePixels64 [p] = p := by
  rw [averagePixels64_eq]
  simp only [List.map_cons, List.map_nil, List.foldl_cons, List.foldl_nil, List.length_singleton]
  rw [zero_add_finite _ hp.1, zero_add_finite _ hp.2.1, zero_add_finite _ hp.2.2,
    div_one_finite _ hp.1, div_one_finite _ hp.2.1, div_one_finite _ hp.2.2]

theorem lt_zero_of_isDist (x : F64) (hx : x.IsDist) : x.lt (F64.fin 0) = false := by
  rcases hx with ⟨y, e, h0, _⟩ | e
  · rw [e]
    show decide (y < 0) = false
    exact decide_eq_false (not_lt.mpr h0)
  · rw [e]; rfl

theorem Separated64.nodup {l : List Pixel64} (h : Separated64 l) (hf : ∀ p ∈ l, p.Finite) :
    l.Nodup := by
  unfold Separated64 at h
  rw [List.pairwise_iff_getElem] at h
  unfold List.Nodup
  rw [List.pairwise_iff_getElem]
  intro i j hi hj hij e
  have := h i j hi hj hij
  rw [← e, distance64_self _ (hf _ (List.getElem_mem hi))] at this
  cases this

/-- Among finite samples at positive computed distances, the scan of the samples as centroids
gives to the sample of index `i` the index `i`. -/
theorem minIdx64_getElem_of_separated (l : List Pixel64) (hf : ∀ p ∈ l, p.Finite)
    (hd : Separated64 l) (i : Nat) (hi : i < l.length) : minIdx64 l l[i] = i := by
  have hne : l ≠ [] := List.ne_nil_of_length_pos (by omega)
  have hdist : ∀ c ∈ l, (distance64 l[i] c).IsDist := fun c hc =>
    isDist_distance64 _ _ (hf _ (List.getElem_mem hi)) (hf c hc).notNaN
  rw [minIdx64_eq_iff l l[i] hne hdist]
  have eg : l.getD i l[i] = l[i] := by
    rw [List.getD_eq_getElem?_getD, List.getElem?_eq_getElem hi]; rfl
  refine ⟨hi, ?_, ?_⟩
  · intro c hc
    rw [eg, distance64_self _ (hf _ (List.getElem_mem hi))]
    exact lt_zero_of_isDist _ (hdist c hc)
  · intro c hc
    rw [eg, distance64_self _ (hf _ (List.getElem_mem hi))]
    obtain ⟨j, hj, e⟩ := List.getElem_of_mem hc
    rw [List.getElem_take] at e
    rw [List.length_take] at hj
    unfold Separated64 at hd
    rw [List.pairwise_iff_getElem] at hd
    rw [← e]
    exact hd j i (by omega) hi (by omega)

/-- Among finite samples at positive computed distances taken as centroids, the cluster of
index `i` is the sample of index `i` alone. -/
theorem assignedTo64_self (l : List Pixel64) (hf : ∀ p ∈ l, p.Finite) (hd : Separated64 l)
    (i : Nat) (hi : i < l.length) : assignedTo64 l l i = [l[i]] := by
  have hnd := hd.nodup hf
  have e1 : assignedTo64 l l i = l.filter (fun q => decide (q = l[i])) := by
    unfold assignedTo64
    apply List.filter_congr
    intro q hq
    rw [decide_eq_decide]
    obtain ⟨j, hj, e⟩ := List.getElem_of_mem hq
    rw [← e, minIdx64_getElem_of_separated l hf hd j hj]
    constructor
    · intro h; subst h; rfl
    · intro h
      exact (List.Nodup.getElem_inj_iff hnd).mp h
  rw [e1, List.filter_eq, List.count_eq_one_of_mem hnd (List.getElem_mem hi)]
  rfl

/-- A pass from finite samples at positive computed distances, taken as centroids, changes
nothing. -/
theorem nextCentroids64_self (l : List Pixel64) (hf : ∀ p ∈ l, p.Finite)
    (hd : Separated64 l) : nextCentroids64 l l = l := by
  apply nextCentroids_ext64 l l l rfl
  intro i hi
  rw [assignedTo64_self l hf hd i hi, List.getElem?_eq_getElem hi]
  unfold newCentroid64
  rw [if_pos (by simp), averagePixels64_single _ (hf _ (List.getElem_mem hi))]

/-- With `k = len(pixels)`, finite samples at positive computed distances are returned
unchanged. -/
theorem kmeans64_all (pixels : PixelSlice64) (hf : ∀ p ∈ pixels.elems, p.Finite)
    (hd : Separated64 pixels.elems) (iterations : Int) :
    kmeans64 pixels (pixels.len : Int) iterations = Except.ok pixels.elems := by
  by_cases h0 : pixels.len = 0
  · have hnil : pixels.elems = [] := List.length_eq_zero.mp h0
    rw [kmeans_int64 pixels pixels.len iterations (le_refl _), h0, hnil]
    exact loop_nil_nil64 _
  · obtain ⟨out, ho, _, hP⟩ := kmeans_invariant64 pixels pixels.len (by omega) (le_refl _)
      (fun cs => cs = pixels.elems) (List.take_length pixels.elems)
      (fun cs _ hcs => by rw [hcs]; exact nextCentroids64_self pixels.elems hf hd) iterations
    rw [ho, hP]

/-! ### The clustering cost of a pass on `float64` -/

theorem sum_by_cluster64 (cs : List Pixel64) (k : Nat) (g : Pixel64 → Nat → ℚ)
    (pixels : List Pixel64) (h : ∀ p ∈ pixels, minIdx64 cs p < k) :
    (pixels.map (fun p => g p (minIdx64 cs p))).sum
      = ∑ i in Finset.range k, ((assignedTo64 cs pixels i).map (fun p => g p i)).sum := by
  induction pixels with
  | nil => simp [assignedTo64]
  | cons p ps ih =>
    have ih := ih (fun q hq => h q (List.mem_cons_of_mem _ hq))
    have hp := h p (List.mem_cons_self _ _)
    rw [List.map_cons, List.sum_cons, ih]
    have e : ∀ i ∈ Finset.range k, ((assignedTo64 cs (p :: ps) i).map (fun p => g p i)).sum
        = (if minIdx64 cs p = i then g p i else 0)
          + ((assignedTo64 cs ps i).map (fun p => g p i)).sum := by
      intro i _
      rw [assignedTo_cons64]
      by_cases hi : minIdx64 cs p = i
      · rw [if_pos hi, if_pos hi, List.map_cons, List.sum_cons]
      · rw [if_neg hi, if_neg hi, zero_add]
    rw [Finset.sum_congr rfl e, Finset.sum_add_distrib, Finset.sum_ite_eq,
      if_pos (Finset.mem_range.mpr hp)]

theorem cost_map_toExact (cs pixels : List Pixel64) :
    cost (cs.map Pixel64.toExact) (pixels.map Pixel64.toExact)
      = (pixels.map (fun p => nearestSq (cs.map Pixel64.toExact) p.toExact)).sum := by
  unfold cost
  rw [List.map_map]
  rfl

/-- A pass on which rounding has no effect does not increase the clustering cost. -/
theorem cost_nextCentroids64_le (cs pixels : List Pixel64) (hne : cs ≠ [])
    (h : ExactPass64 cs pixels) :
    cost ((nextCentroids64 cs pixels).map Pixel64.toExact) (pixels.map Pixel64.toExact)
      ≤ cost (cs.map Pixel64.toExact) (pixels.map Pixel64.toExact) := by
  obtain ⟨_, _, _, hassign, hmean⟩ := h
  have hidx : ∀ p ∈ pixels, minIdx64 cs p < cs.length := fun p _ => minIdx_lt64 cs p hne
  have hold : cost (cs.map Pixel64.toExact) (pixels.map Pixel64.toExact)
      = (pixels.map (fun p =>
          (distance p.toExact (cs.getD (minIdx64 cs p) p).toExact).sq)).sum := by
    rw [cost_map_toExact]
    congr 1
    apply List.map_congr_left
    intro p hp
    apply le_antisymm
    · exact nearestSq_le _ _ _
        (List.mem_map.mpr ⟨_, getD_mem64 cs p _ (hidx p hp), rfl⟩)
    · obtain ⟨c2, hc2, e⟩ := nearestSq_mem (cs.map Pixel64.toExact) p.toExact
        (by simpa using hne)
      obtain ⟨c, hc, ec⟩ := List.mem_map.mp hc2
      rw [e, ← ec]
      exact hassign p hp c hc
  have hnew : cost ((nextCentroids64 cs pixels).map Pixel64.toExact)
        (pixels.map Pixel64.toExact)
      ≤ (pixels.map (fun p =>
          (distance p.toExact
            ((nextCentroids64 cs pixels).getD (minIdx64 cs p) p).toExact).sq)).sum := by
    rw [cost_map_toExact]
    apply list_sum_le_sum
    intro p hp
    exact nearestSq_le _ _ _ (List.mem_map.mpr
      ⟨_, getD_mem64 _ p _ (by rw [nextCentroids_length64]; exact hidx p hp), rfl⟩)
  have gold : (pixels.map (fun p =>
        (distance p.toExact (cs.getD (minIdx64 cs p) p).toExact).sq)).sum
      = ∑ i in Finset.range cs.length, ((assignedTo64 cs pixels i).map
          (fun p => (distance p.toExact (cs.getD i p).toExact).sq)).sum :=
    sum_by_cluster64 cs cs.length
      (fun p i => (distance p.toExact (cs.getD i p).toExact).sq) pixels hidx
  have gnew : (pixels.map (fun p =>
        (distance p.toExact
          ((nextCentroids64 cs pixels).getD (minIdx64 cs p) p).toExact).sq)).sum
      = ∑ i in Finset.range cs.length, ((assignedTo64 cs pixels i).map
          (fun p => (distance p.toExact
            ((nextCentroids64 cs pixels).getD i p).toExact).sq)).sum :=
    sum_by_cluster64 cs cs.length
      (fun p i => (distance p.toExact ((nextCentroids64 cs pixels).getD i p).toExact).sq)
      pixels hidx
  rw [hold, gold]
  rw [gnew] at hnew
  apply le_trans hnew
  apply Finset.sum_le_sum
  intro i hi
  have hi2 : i < cs.length := Finset.mem_range.mp hi
  have e1 : ∀ p : Pixel64, (nextCentroids64 cs pixels).getD i p
      = newCentroid64 cs[i] (assignedTo64 cs pixels i) := by
    intro p
    rw [List.getD_eq_getElem?_getD, nextCentroids_getElem?64 cs pixels i hi2]; rfl
  have e2 : ∀ p : Pixel64, cs.getD i p = cs[i] := by
    intro p
    rw [List.getD_eq_getElem?_getD, List.getElem?_eq_getElem hi2]; rfl
  simp only [e1, e2]
  by_cases hcl : assignedTo64 cs pixels i = []
  · rw [hcl]; simp
  · have hm := hmean i (List.mem_range.mpr hi2) hcl
    unfold newCentroid64
    rw [if_pos (List.length_pos.mpr hcl), hm]
    have key := sum_sq_average_le ((assignedTo64 cs pixels i).map Pixel64.toExact)
      (by simpa using hcl) cs[i].toExact
    rw [List.map_map, List.map_map] at key
    exact key

/-! ### The insertion sort keeps the order of the elements it does not compare as less -/

theorem Less_true_getElem {α : Type} (less : α → α → Bool) (data : List α) (i j : Nat)
    (hi : i < data.length) (hj : j < data.length) (h : Less less data i j = true) :
    less data[i] data[j] = true := by
  unfold Less at h
  rw [List.getElem?_eq_getElem hi, List.getElem?_eq_getElem hj] at h
  exact h

theorem insertionInner_filter_of {α : Type} (less : α → α → Bool) (p : α → Bool)
    (hp : ∀ x y, less x y = true → ¬ (p x = true ∧ p y = true)) (a : Nat) (fuel : Nat) :
    ∀ (j : Nat) (data : List α), j < data.length →
      (insertionInner less a fuel j data).filter p = data.filter p := by
  induction fuel with
  | zero => intro j data _; rfl
  | succ fuel ih =>
    intro j data hj
    unfold insertionInner
    by_cases hc : j > a ∧ Less less data j (j - 1) = true
    · rw [if_pos hc, ih (j - 1) (Swap data j (j - 1)) (by rw [length_Swap]; omega)]
      apply filter_Swap_adjacent _ data j (by omega) hj
      intro h
      exact hp _ _ (Less_true_getElem less data j (j - 1) hj (by omega) hc.2) ⟨h.2, h.1⟩
    · rw [if_neg hc]

theorem insertionOuter_filter_of {α : Type} (less : α → α → Bool) (p : α → Bool)
    (hp : ∀ x y, less x y = true → ¬ (p x = true ∧ p y = true)) (a : Nat) (n : Nat) :
    ∀ (i : Nat) (data : List α), i + n ≤ data.length →
      (insertionOuter less a n i data).filter p = data.filter p := by
  induction n with
  | zero => intro i data _; rfl
  | succ n ih =>
    intro i data hlen
    unfold insertionOuter
    rw [ih (i + 1) _ (by rw [length_insertionInner]; omega),
      insertionInner_filter_of less p hp a (i - a) i data (by omega)]

/-- The function `insertionSort_func` keeps the order of the elements that satisfy `p`, when
`less` is never true of two of them. -/
theorem insertionSort_func_filter_of {α : Type} (less : α → α → Bool) (p : α → Bool)
    (hp : ∀ x y, less x y = true → ¬ (p x = true ∧ p y = true)) (data : List α) (a b : Nat)
    (hb : b ≤ data.length) :
    (insertionSort_func less data a b).filter p = data.filter p := by
  unfold insertionSort_func
  by_cases hab : a + 1 ≤ b
  · exact insertionOuter_filter_of less p hp a (b - (a + 1)) (a + 1) data (by omega)
  · have e : b - (a + 1) = 0 := by omega
    rw [e]; rfl

theorem F64.lt_irrefl64 (x : F64) : x.lt x = false := by
  cases x with
  | fin a => exact decide_eq_false (lt_irrefl a)
  | inf s => cases s <;> rfl
  | nan => rfl

/-- On at most 12 centroids the ordering step keeps the order of the centroids of each
`float64` sum. -/
theorem order64_stable_short (centroids : List Pixel64) (hlen : centroids.length ≤ 12) :
    StableBySum64 centroids (order64 centroids) := by
  intro s
  unfold order64
  rw [sortSlice_short xorshiftNext lessSum64 centroids hlen]
  apply insertionSort_func_filter_of lessSum64 _ _ centroids 0 centroids.length (le_refl _)
  intro x y hxy h
  have h1 : x.sum = s := of_decide_eq_true h.1
  have h2 : y.sum = s := of_decide_eq_true h.2
  have e : lessSum64 x y = x.sum.lt y.sum := rfl
  rw [e, h1, h2, F64.lt_irrefl64] at hxy
  cases hxy

/-- The `float64` sum of the components of a finite centroid is not NaN. -/
theorem sum_ne_nan_of_finite (c : Pixel64) (h : c.Finite) : c.sum ≠ F64.nan := by
  have e : c.sum = (c.c0.add c.c1).add c.c2 := rfl
  rw [e, h.2.2.eq_fin]
  apply add_fin_ne_nan
  rw [h.2.1.eq_fin]
  exact add_fin_ne_nan _ _ h.1.finite_ne_nan

/-! ## Claims on the arithmetic of `float64` -/

/-- Claim C2, as stated, fails on three samples (0.1, 0.1, 0.1) with `k = 1` and one
iteration: the components of the centroid that `kmeans` returns are 7205759403792795 / 2 ^ 56
(0.10000000000000002), while the component-wise mean of the samples is the sample itself,
of components 3602879701896397 / 2 ^ 55. -/
theorem kmeans64_k1_not_exact_mean :
    threeTenths.elems ≠ [] ∧
    kmeans64 threeTenths 1 1
      = Except.ok [Pixel64.fin (7205759403792795 / 2 ^ 56) (7205759403792795 / 2 ^ 56)
          (7205759403792795 / 2 ^ 56)] ∧
    averagePixels (threeTenths.elems.map Pixel64.toExact)
      = ⟨3602879701896397 / 2 ^ 55, 3602879701896397 / 2 ^ 55, 3602879701896397 / 2 ^ 55⟩ ∧
    (Pixel64.fin (7205759403792795 / 2 ^ 56) (7205759403792795 / 2 ^ 56)
        (7205759403792795 / 2 ^ 56)).toExact
      ≠ averagePixels (threeTenths.elems.map Pixel64.toExact) := by
  decide!

/-- Claim C2, amended: for every non-empty sample slice and every iteration count `>= 1`,
`kmeans(samples, 1, iterations)` returns a single centroid, the result of `averagePixels` on
all the samples: each component is the `float64` sum of that component over the samples, added
in input order from 0, divided in `float64` by the number of samples. -/
theorem kmeans64_k1_mean (pixels : PixelSlice64) (iterations : Int)
    (hne : pixels.elems ≠ []) (hit : 1 ≤ iterations) :
    kmeans64 pixels 1 iterations = Except.ok [averagePixels64 pixels.elems] ∧
    ∀ i : Fin 3, (averagePixels64 pixels.elems).get i
      = ((pixels.elems.map (fun p => p.get i)).foldl F64.add (F64.fin 0)).div
          (F64.ofNat pixels.elems.length) := by
  refine ⟨?_, fun i => averagePixels64_get pixels.elems i⟩
  have hpos : 0 < pixels.elems.length := List.length_pos.mpr hne
  have hcap : 1 ≤ pixels.cap := by unfold PixelSlice64.cap; omega
  have h := kmeans_eq_loop64 pixels 1 iterations hcap
  rw [Nat.cast_one] at h
  rw [h, seed_eq_take64 pixels 1 hpos]
  obtain ⟨n, hn⟩ : ∃ n : Nat, iterations.toNat = n + 1 := ⟨iterations.toNat - 1, by omega⟩
  obtain ⟨c, cs, hc⟩ : ∃ c cs, pixels.elems = c :: cs := by
    cases hp : pixels.elems with
    | nil => exact absurd hp hne
    | cons c cs => exact ⟨c, cs, rfl⟩
  have ht : pixels.elems.take 1 = [c] := by rw [hc]; rfl
  rw [hn, ht, loop_single64 pixels.elems hne n c]

/-- Claim C2, amended, on the scenario of the specification: the sample (10,20,30) repeated 5
times, `k = 1`, 3 iterations, gives the centroid (10,20,30). -/
theorem kmeans64_k1_mean_witness :
    kmeans64 ⟨List.replicate 5 (Pixel64.fin 10 20 30), [], by decide⟩ 1 3
      = Except.ok [averagePixels64 (List.replicate 5 (Pixel64.fin 10 20 30))] ∧
    averagePixels64 (List.replicate 5 (Pixel64.fin 10 20 30)) = Pixel64.fin 10 20 30 :=
  ⟨(kmeans64_k1_mean ⟨List.replicate 5 (Pixel64.fin 10 20 30), [], by decide⟩ 3
      (by decide) (by decide)).1, by decide!⟩

/-- Claim C6, as stated, fails on the centroids (1e16 + 2, -0.5, 0), (1e16, 1, 1): the closure
compares the `float64` sums 1e16 + 2 and 1e16, and the ordering step returns (1e16, 1, 1)
first, of sum 1e16 + 2, before (1e16 + 2, -0.5, 0), of sum 1e16 + 1.5. -/
theorem order64_not_ascending :
    order64 [Pixel64.fin (10 ^ 16 + 2) (-1 / 2) 0, Pixel64.fin (10 ^ 16) 1 1]
      = [Pixel64.fin (10 ^ 16) 1 1, Pixel64.fin (10 ^ 16 + 2) (-1 / 2) 0] ∧
    (Pixel64.fin (10 ^ 16 + 2) (-1 / 2) 0).Finite ∧ (Pixel64.fin (10 ^ 16) 1 1).Finite ∧
    (Pixel64.fin (10 ^ 16) 1 1).toExact.sum = 10 ^ 16 + 2 ∧
    (Pixel64.fin (10 ^ 16 + 2) (-1 / 2) 0).toExact.sum = 10 ^ 16 + 3 / 2 ∧
    ¬ ((Pixel64.fin (10 ^ 16) 1 1).toExact.sum
        ≤ (Pixel64.fin (10 ^ 16 + 2) (-1 / 2) 0).toExact.sum) := by
  decide!

/-- Claim C6, amended: for every list of centroids whose `float64` sums `c[0] + c[1] + c[2]`,
added from left to right as the closure does, are not NaN (as are the sums of the centroids
of finite components, `sum_ne_nan_of_finite`), the ordering step produces a permutation `c`
of the list in which the `float64` sum of `c[i]` is at most the `float64` sum of `c[i+1]` for
every valid `i`. -/
theorem order64_sorted (centroids : List Pixel64)
    (h : ∀ c ∈ centroids, c.sum ≠ F64.nan) :
    List.Chain' (fun a b => a.sum.le b.sum = true) (order64 centroids) ∧
    (order64 centroids).Perm centroids :=
  ⟨(order64_pairwise centroids h).chain', order64_perm centroids⟩

/-- Claim C6, amended, at a concrete input: the centroids of claim C6 as stated, and two
more. -/
theorem order64_sorted_witness :
    List.Chain' (fun a b => a.sum.le b.sum = true)
      (order64 [Pixel64.fin (10 ^ 16 + 2) (-1 / 2) 0, Pixel64.fin (10 ^ 16) 1 1,
        Pixel64.fin 255 255 255, Pixel64.fin 0 0 0]) ∧
    (order64 [Pixel64.fin (10 ^ 16 + 2) (-1 / 2) 0, Pixel64.fin (10 ^ 16) 1 1,
        Pixel64.fin 255 255 255, Pixel64.fin 0 0 0]).Perm
      [Pixel64.fin (10 ^ 16 + 2) (-1 / 2) 0, Pixel64.fin (10 ^ 16) 1 1,
        Pixel64.fin 255 255 255, Pixel64.fin 0 0 0] :=
  order64_sorted [Pixel64.fin (10 ^ 16 + 2) (-1 / 2) 0, Pixel64.fin (10 ^ 16) 1 1,
    Pixel64.fin 255 255 255, Pixel64.fin 0 0 0] (by decide!)

/-- Claim C7, as stated, fails: on 13 centroids, twelve of sum 12 followed by one of sum 0,
the ordering step returns the centroid (6,6,0) before (0,12,0), (2,10,0), ..., which came
before it in the input, and (1,11,0) after all the others of sum 12. -/
theorem order64_not_stable :
    order64 [Pixel64.fin 0 12 0, Pixel64.fin 1 11 0, Pixel64.fin 2 10 0, Pixel64.fin 3 9 0,
        Pixel64.fin 4 8 0, Pixel64.fin 5 7 0, Pixel64.fin 6 6 0, Pixel64.fin 7 5 0,
        Pixel64.fin 8 4 0, Pixel64.fin 9 3 0, Pixel64.fin 10 2 0, Pixel64.fin 11 1 0,
        Pixel64.fin 0 0 0]
      = [Pixel64.fin 0 0 0, Pixel64.fin 6 6 0, Pixel64.fin 2 10 0, Pixel64.fin 3 9 0,
        Pixel64.fin 4 8 0, Pixel64.fin 5 7 0, Pixel64.fin 0 12 0, Pixel64.fin 7 5 0,
        Pixel64.fin 8 4 0, Pixel64.fin 9 3 0, Pixel64.fin 10 2 0, Pixel64.fin 11 1 0,
        Pixel64.fin 1 11 0] ∧
    ¬ StableBySum64
      [Pixel64.fin 0 12 0, Pixel64.fin 1 11 0, Pixel64.fin 2 10 0, Pixel64.fin 3 9 0,
        Pixel64.fin 4 8 0, Pixel64.fin 5 7 0, Pixel64.fin 6 6 0, Pixel64.fin 7 5 0,
        Pixel64.fin 8 4 0, Pixel64.fin 9 3 0, Pixel64.fin 10 2 0, Pixel64.fin 11 1 0,
        Pixel64.fin 0 0 0]
      (order64 [Pixel64.fin 0 12 0, Pixel64.fin 1 11 0, Pixel64.fin 2 10 0, Pixel64.fin 3 9 0,
        Pixel64.fin 4 8 0, Pixel64.fin 5 7 0, Pixel64.fin 6 6 0, Pixel64.fin 7 5 0,
        Pixel64.fin 8 4 0, Pixel64.fin 9 3 0, Pixel64.fin 10 2 0, Pixel64.fin 11 1 0,
        Pixel64.fin 0 0 0]) := by
  have h : order64 [Pixel64.fin 0 12 0, Pixel64.fin 1 11 0, Pixel64.fin 2 10 0,
        Pixel64.fin 3 9 0, Pixel64.fin 4 8 0, Pixel64.fin 5 7 0, Pixel64.fin 6 6 0,
        Pixel64.fin 7 5 0, Pixel64.fin 8 4 0, Pixel64.fin 9 3 0, Pixel64.fin 10 2 0,
        Pixel64.fin 11 1 0, Pixel64.fin 0 0 0]
      = [Pixel64.fin 0 0 0, Pixel64.fin 6 6 0, Pixel64.fin 2 10 0, Pixel64.fin 3 9 0,
        Pixel64.fin 4 8 0, Pixel64.fin 5 7 0, Pixel64.fin 0 12 0, Pixel64.fin 7 5 0,
        Pixel64.fin 8 4 0, Pixel64.fin 9 3 0, Pixel64.fin 10 2 0, Pixel64.fin 11 1 0,
        Pixel64.fin 1 11 0] := by
    decide!
  refine ⟨h, fun hst => ?_⟩
  have h12 := hst (F64.fin 12)
  rw [h] at h12
  revert h12
  decide!

/-- Claim C7, amended: the ordering step is stable on every list of at most 12 centroids (on
which `sort.Slice` runs an insertion sort): for every value of the `float64` sum
`c[0] + c[1] + c[2]`, added from left to right as the closure does, the centroids of that sum
come in the output in the order they have in the input. -/
theorem order64_stable_of_short (centroids : List Pixel64) (hlen : centroids.length ≤ 12) :
    StableBySum64 centroids (order64 centroids) :=
  order64_stable_short centroids hlen

/-- Claim C7, amended, at a concrete input: five centroids, three of them of sum 3. -/
theorem order64_stable_of_short_witness :
    StableBySum64
      [Pixel64.fin 3 0 0, Pixel64.fin 9 9 9, Pixel64.fin 1 1 1, Pixel64.fin 0 0 0,
        Pixel64.fin 0 3 0]
      (order64 [Pixel64.fin 3 0 0, Pixel64.fin 9 9 9, Pixel64.fin 1 1 1, Pixel64.fin 0 0 0,
        Pixel64.fin 0 3 0]) :=
  order64_stable_of_short
    [Pixel64.fin 3 0 0, Pixel64.fin 9 9 9, Pixel64.fin 1 1 1, Pixel64.fin 0 0 0,
      Pixel64.fin 0 3 0] (by decide)

/-- Claim C10, as stated, fails for `a` = (0,0,0), `b` = (1,1,0), `c` = (4,4,0): the computed
`distance(a, c)` is 6369051672525773 / 2 ^ 50 (5.656854249492381), above the `float64` sum
6369051672525772 / 2 ^ 50 (5.65685424949238) of `distance(a, b)` and `distance(b, c)`. -/
theorem distance64_triangle_fails :
    distance64 (Pixel64.fin 0 0 0) (Pixel64.fin 4 4 0) = F64.fin (6369051672525773 / 2 ^ 50) ∧
    distance64 (Pixel64.fin 0 0 0) (Pixel64.fin 1 1 0) = F64.fin (6369051672525773 / 2 ^ 52) ∧
    distance64 (Pixel64.fin 1 1 0) (Pixel64.fin 4 4 0) = F64.fin (4776788754394329 / 2 ^ 50) ∧
    (distance64 (Pixel64.fin 0 0 0) (Pixel64.fin 1 1 0)).add
        (distance64 (Pixel64.fin 1 1 0) (Pixel64.fin 4 4 0))
      = F64.fin (6369051672525772 / 2 ^ 50) ∧
    (distance64 (Pixel64.fin 0 0 0) (Pixel64.fin 4 4 0)).le
        ((distance64 (Pixel64.fin 0 0 0) (Pixel64.fin 1 1 0)).add
          (distance64 (Pixel64.fin 1 1 0) (Pixel64.fin 4 4 0))) = false := by
  decide!

/-- Claim C11, as stated, fails on three pixels (0.1, 0.1, 0.1): the components of the result
of `averagePixels` are 7205759403792795 / 2 ^ 56, while the sum of the components divided by
the length is 3602879701896397 / 2 ^ 55. -/
theorem averagePixels64_not_exact_mean :
    averagePixels64 [tenth, tenth, tenth]
      = Pixel64.fin (7205759403792795 / 2 ^ 56) (7205759403792795 / 2 ^ 56)
          (7205759403792795 / 2 ^ 56) ∧
    (∀ i : Fin 3, (([tenth, tenth, tenth].map Pixel64.toExact).map (fun p => p.get i)).sum
        / (([tenth, tenth, tenth] : List Pixel64).length : ℚ) = 3602879701896397 / 2 ^ 55) ∧
    ∀ i : Fin 3, ((averagePixels64 [tenth, tenth, tenth]).get i).toRat
      ≠ (([tenth, tenth, tenth].map Pixel64.toExact).map (fun p => p.get i)).sum
        / (([tenth, tenth, tenth] : List Pixel64).length : ℚ) := by
  decide!

/-- Claim C11, amended: for every slice of pixels, `averagePixels` returns the pixel whose
component `i` (for `i` = 0, 1, 2) is the `float64` sum of the components `i` of the pixels,
added in the order of the slice from 0, divided in `float64` by the length of the slice: the
sum and the quotient are rounded. -/
theorem averagePixels64_mean (pixels : List Pixel64) (i : Fin 3) :
    (averagePixels64 pixels).get i
      = ((pixels.map (fun p => p.get i)).foldl F64.add (F64.fin 0)).div
          (F64.ofNat pixels.length) :=
  averagePixels64_get pixels i

/-- Claim C12, as stated, fails on the samples (0.1,0.1,0.1), (7,7,7), (0.1,0.1,0.1),
(0.1,0.1,0.1) with `k = 2`, `n = 0` and `i = 0`: the samples that have the index 0 as the
lowest index at minimal distance from the seeds are the three samples (0.1,0.1,0.1), whose
component-wise average is (0.1,0.1,0.1), while the components of the centroid 0 after one pass
are 7205759403792795 / 2 ^ 56. -/
theorem kmeans64_centroid_not_exact_mean :
    (1 ≤ 2 ∧ 2 ≤ tenthsAndSeven.len ∧ 0 < 2) ∧
    kmeans64 tenthsAndSeven 2 0 = Except.ok [tenth, Pixel64.fin 7 7 7] ∧
    tenthsAndSeven.elems.filter
        (fun p => decide (LowestNearest64 [tenth, Pixel64.fin 7 7 7] p 0))
      = [tenth, tenth, tenth] ∧
    kmeans64 tenthsAndSeven 2 (0 + 1)
      = Except.ok [Pixel64.fin (7205759403792795 / 2 ^ 56) (7205759403792795 / 2 ^ 56)
          (7205759403792795 / 2 ^ 56), Pixel64.fin 7 7 7] ∧
    averagePixels ([tenth, tenth, tenth].map Pixel64.toExact) = tenth.toExact ∧
    (Pixel64.fin (7205759403792795 / 2 ^ 56) (7205759403792795 / 2 ^ 56)
        (7205759403792795 / 2 ^ 56)).toExact
      ≠ averagePixels ([tenth, tenth, tenth].map Pixel64.toExact) := by
  decide!

/-- Claim C12, amended: for finite samples, `1 <= k <= |samples|`, `n >= 0` and `i < k`, the
pass `n + 1` gives to each sample the lowest index among the centroids of `kmeans(samples, k,
n)` at minimal computed distance, and if at least one sample has `i` as that index, the
centroid `i` of `kmeans(samples, k, n + 1)` is the result of `averagePixels` on exactly those
samples, in input order (a `float64` sum and quotient for each component). -/
theorem kmeans64_next_centroid (pixels : PixelSlice64) (k n i : Nat) (h1 : 1 ≤ k)
    (hk : k ≤ pixels.len) (hi : i < k) (hf : ∀ p ∈ pixels.elems, p.Finite)
    (cs : List Pixel64) (h : kmeans64 pixels (k : Int) (n : Int) = Except.ok cs)
    (hne : pixels.elems.filter (fun p => decide (LowestNearest64 cs p i)) ≠ []) :
    (∀ p ∈ pixels.elems, LowestNearest64 cs p (minIdx64 cs p)) ∧
    ∃ out, kmeans64 pixels (k : Int) ((n : Int) + 1) = Except.ok out ∧
      out[i]? = some (averagePixels64
        (pixels.elems.filter (fun p => decide (LowestNearest64 cs p i)))) := by
  have hl := kmeans_length64 pixels k n h1 hk cs h
  have hcs : cs ≠ [] := by
    intro e; rw [e] at hl; simp at hl; omega
  have hd := kmeans64_isDist pixels k h1 hk hf (n : Int) cs h
  refine ⟨fun p hp => minIdx64_lowestNearest cs p hcs (hd p hp),
    nextCentroids64 cs pixels.elems, kmeans_next64 pixels k n h1 hk cs h, ?_⟩
  rw [nextCentroids_getElem?64 cs pixels.elems i (by omega),
    assignedTo64_eq_filter cs pixels.elems hcs hd i]
  unfold newCentroid64
  rw [if_pos (List.length_pos.mpr hne)]

/-- Claim C12, amended, at a concrete input: four samples on a line, two centroids, the
second pass. -/
theorem kmeans64_next_centroid_witness :
    ∃ out, kmeans64
        ⟨[Pixel64.fin 0 0 0, Pixel64.fin 10 0 0, Pixel64.fin 2 0 0, Pixel64.fin 13 0 0], [],
          by decide⟩ ((2 : Nat) : Int) (((1 : Nat) : Int) + 1) = Except.ok out ∧
      out[1]? = some (averagePixels64
        ([Pixel64.fin 0 0 0, Pixel64.fin 10 0 0, Pixel64.fin 2 0 0, Pixel64.fin 13 0 0].filter
          (fun p => decide
            (LowestNearest64 [Pixel64.fin 1 0 0, Pixel64.fin (23 / 2) 0 0] p 1)))) :=
  (kmeans64_next_centroid
    ⟨[Pixel64.fin 0 0 0, Pixel64.fin 10 0 0, Pixel64.fin 2 0 0, Pixel64.fin 13 0 0], [],
      by decide⟩ 2 1 1 (by decide) (by decide) (by decide) (by decide!)
    [Pixel64.fin 1 0 0, Pixel64.fin (23 / 2) 0 0] (by decide!) (by decide!)).2

/-- Claim C15, as stated, fails on the two distinct samples (0,0,0) and (1e-200,0,0) with
`k = 2` and one iteration: the square of 1e-200 rounds to 0, so the computed distance between
the two samples is 0, the second sample is given the centroid 0, and `kmeans` returns
(5e-201,0,0), (1e-200,0,0). -/
theorem kmeans64_distinct_not_fixed :
    tinySamples.elems.Nodup ∧ (∀ p ∈ tinySamples.elems, p.Finite) ∧
    distance64 (Pixel64.ofRat (1 / 10 ^ 200) 0 0) (Pixel64.fin 0 0 0) = F64.fin 0 ∧
    kmeans64 tinySamples (tinySamples.len : Int) 1
      = Except.ok [Pixel64.ofRat (1 / (2 * 10 ^ 200)) 0 0, Pixel64.ofRat (1 / 10 ^ 200) 0 0] ∧
    kmeans64 tinySamples (tinySamples.len : Int) 1 ≠ Except.ok tinySamples.elems := by
  decide!

/-- Claim C15, amended: when `k = |samples|` and the samples are finite and at positive
computed distances from one another (`distance` of a sample to each sample before it is above
0), `kmeans(samples, k, iterations)` returns exactly the samples, in input order, for every
iteration count; each sample is its own centroid: the scan of the samples as centroids gives
to the sample of index `i` the index `i`. -/
theorem kmeans64_all_separated (pixels : PixelSlice64)
    (hf : ∀ p ∈ pixels.elems, p.Finite) (hd : Separated64 pixels.elems) :
    (∀ iterations : Int,
      kmeans64 pixels (pixels.len : Int) iterations = Except.ok pixels.elems) ∧
    (∀ (i : Nat) (hi : i < pixels.elems.length),
      minIdx64 pixels.elems (pixels.elems.get ⟨i, hi⟩) = i) :=
  ⟨fun iterations => kmeans64_all pixels hf hd iterations,
    fun i hi => minIdx64_getElem_of_separated pixels.elems hf hd i hi⟩

/-- Claim C15, amended, at a concrete input: four samples, 10 iterations. -/
theorem kmeans64_all_separated_witness :
    kmeans64
        ⟨[Pixel64.fin 0 0 0, Pixel64.fin 10 0 0, Pixel64.fin 2 0 0, Pixel64.fin 12 0 0], [],
          by decide⟩
        ((PixelSlice64.len
          ⟨[Pixel64.fin 0 0 0, Pixel64.fin 10 0 0, Pixel64.fin 2 0 0, Pixel64.fin 12 0 0], [],
            by decide⟩ : Nat) : Int) 10
      = Except.ok
        [Pixel64.fin 0 0 0, Pixel64.fin 10 0 0, Pixel64.fin 2 0 0, Pixel64.fin 12 0 0] :=
  (kmeans64_all_separated
    ⟨[Pixel64.fin 0 0 0, Pixel64.fin 10 0 0, Pixel64.fin 2 0 0, Pixel64.fin 12 0 0], [],
      by decide⟩ (by decide!) (by decide!)).1 10

/-- Claim C17, as stated, fails on three samples (0.1, 0.1, 0.1) with `k = 1` and one
iteration: every component of every sample is 3602879701896397 / 2 ^ 55, and the components
of the centroid that `kmeans` returns are 7205759403792795 / 2 ^ 56, above the maximum of the
component over the samples. -/
theorem kmeans64_above_sample_max :
    (1 ≤ 1 ∧ 1 ≤ threeTenths.len) ∧
    (∀ p ∈ threeTenths.elems, ∀ i : Fin 3, p.get i = F64.fin (3602879701896397 / 2 ^ 55)) ∧
    kmeans64 threeTenths 1 1
      = Except.ok [Pixel64.fin (7205759403792795 / 2 ^ 56) (7205759403792795 / 2 ^ 56)
          (7205759403792795 / 2 ^ 56)] ∧
    (F64.fin (3602879701896397 / 2 ^ 55)).lt (F64.fin (7205759403792795 / 2 ^ 56)) = true := by
  decide!

/-- A pixel of three finite components between `lo` and `hi`. -/
theorem within_fin (lo hi x y z : ℚ) (hx : lo ≤ x ∧ x ≤ hi) (hy : lo ≤ y ∧ y ≤ hi)
    (hz : lo ≤ z ∧ z ≤ hi) : (Pixel64.fin x y z).Within lo hi := by
  intro i
  fin_cases i
  · exact ⟨x, rfl, hx.1, hx.2⟩
  · exact ⟨y, rfl, hy.1, hy.2⟩
  · exact ⟨z, rfl, hz.1, hz.2⟩

/-- Claim C17, amended: for `1 <= k <= |samples|` and every iteration count, samples with
components in [0, 255] give `k` centroids with components in [0, 255]. -/
theorem kmeans64_within_byte_range (pixels : PixelSlice64) (k : Nat) (h1 : 1 ≤ k)
    (hk : k ≤ pixels.len) (hp : ∀ p ∈ pixels.elems, p.Within 0 255) (iterations : Int) :
    ∃ cs, kmeans64 pixels (k : Int) iterations = Except.ok cs ∧ cs.length = k ∧
      ∀ c ∈ cs, c.Within 0 255 := by
  have hb : 255 * pixels.elems.length < 2 ^ 53 := by
    have := length_lt_of_fits pixels
    omega
  obtain ⟨out, ho, hl, hP⟩ := kmeans64_within 255 pixels k h1 hk hb (by norm_num)
    (by simpa using hp) iterations
  exact ⟨out, ho, hl, by simpa using hP⟩

/-- Claim C17, amended, at a concrete input: three samples, `k = 2`, 3 iterations. -/
theorem kmeans64_within_byte_range_witness :
    ∃ cs, kmeans64
        ⟨[Pixel64.fin 0 0 0, Pixel64.fin 255 255 255, Pixel64.fin 10 20 30], [], by decide⟩
        ((2 : Nat) : Int) 3 = Except.ok cs ∧ cs.length = 2 ∧
      ∀ c ∈ cs, c.Within 0 255 :=
  kmeans64_within_byte_range
    ⟨[Pixel64.fin 0 0 0, Pixel64.fin 255 255 255, Pixel64.fin 10 20 30], [], by decide⟩ 2
    (by decide) (by decide)
    (by
      intro p hp
      simp only [List.mem_cons, List.mem_singleton, List.not_mem_nil, or_false] at hp
      rcases hp with e | e | e <;> rw [e] <;> apply within_fin <;> norm_num) 3

end ImageClusterColor
